import Mathlib

/-!
# Scheduler of the factor graph (`src/nn/factor_graph.cpp`)

A shallow embedding of `gnn::FactorGraph`: the registry (name tables, adjacency
maps, dense lists), the scratch state of a query (`isReady`, `isRequired`,
`n_pending`, the queue `q`) and the passes `DependencyParse`,
`SequentialForward`, `FeedForward`, `SequentialBackward`, `BackPropagate` and
`AddVar`.

Conventions of the embedding.

* A `std::map<std::string, X>` is an association list `Dict X`; `operator[]`
  on a missing key inserts a default entry, which is kept (`Dict.touch`).
* A `VarPtr` / `std::shared_ptr<Factor>` is the record of what the scheduler
  reads through it: the name, and `IsConst()` / `properr`.
* A failed `ASSERT` or a `throw` ends the call: a pass returns
  `Except (Err × FactorGraph) _`, the state being the one at the failure.
* Calls into the collaborators (`Forward`, `Backward`, `ZeroGrad`, `OnesGrad`,
  `SetRef`, the `std::cerr` line of the backward pass) are recorded, in order,
  in the field `log`; the scheduler never reads the values they compute.
* `n_pending` holds mathematical integers: its element type is declared in the
  header, which is not part of the sources; a decrement below zero gives `-1`.
* Indexing a vector out of its bounds is undefined in C++; the embedding ends
  the call there with `Err.outOfRange`.
* Each `while (!q.empty())` loop is run with a fuel computed from the state;
  `Err.outOfFuel` marks an exhausted fuel. No query ends with it, on any state
  (`DependencyParse_fuel`, `FeedForward_fuel`, `BackPropagate_fuel`).
* The entries of a map are kept in the order of their insertion. The maps
  `varEdges` and `factorEdges` are never iterated; `ready_dict` and the feeds
  are iterated by `FeedForward` only to set ready flags and bind references,
  one entry at a time.
* The queue loops of `SequentialForward` and `SequentialBackward` bind a
  reference to `q.front()` and pop the queue before they read the name
  through it (lines 103-108 and 199-205); `DependencyParse` copies the name
  (line 57). What is read through the reference is not defined by the
  language: with the common implementations of `std::string` a short name,
  kept inside the string object, is read back, and a name of sixteen
  characters or more, kept in a buffer that the pop frees, need not be. `forwardOne` and
  `backwardOne` are the loop bodies when the dequeued name is read back. The
  bodies `forwardOneRead` and `backwardOneRead`, and the passes built on them,
  take the string that is read as a parameter `read`; they are the former
  when every registered name is read back and no registered operation is null
  (`FeedForwardRead_back`, `BackPropagateRead_back`).
-/

namespace gnn

/-- Propagation policy of an operation, `PropErr` in the header. -/
inductive PropErr where
  | N
  | T
  deriving DecidableEq, Repr

/-- What the scheduler reads of a value node: `name` and `IsConst()`. -/
structure Variable where
  name : String
  isConst : Bool
  deriving DecidableEq, Repr

/-- What the scheduler reads of an operation node: `name` and `properr`. -/
structure Factor where
  name : String
  properr : PropErr
  deriving DecidableEq, Repr

instance : Inhabited Variable := ⟨⟨"", false⟩⟩

instance : Inhabited Factor := ⟨⟨"", PropErr.N⟩⟩

abbrev VarPtr := Variable

abbrev VarList := List Variable

abbrev FactorList := List Factor

/-- The data behind the `void*` of a feed. -/
abbrev RawData := Int

/-- The ways a call ends without returning. -/
inductive Err where
  /-- The `ASSERT` of `VarIdx`: "variable ... is not registered". -/
  | varNotRegistered (name : String)
  /-- The `ASSERT` of `FacIdx`: "factor ... is not registered". -/
  | factorNotRegistered (name : String)
  /-- The `ASSERT` of `FeedForward`: "required variable ... is not ready". -/
  | notReady (name : String)
  /-- The `throw std::runtime_error("not implemented")` of both passes. -/
  | notImplemented
  /-- An `ASSERT` of `BackPropagate`: "unexpected change of computation graph in backward stage". -/
  | graphChanged
  /-- An `ASSERT` of `BackPropagate`: "only allow backprop from top variables". -/
  | notTopVariable (name : String)
  /-- An `ASSERT` of `BackPropagate`: "cannot calc grad for const variable". -/
  | constGrad (name : String)
  /-- The `ASSERT` of `AddVar`: "variable ... is already inserted". -/
  | alreadyInserted (name : String)
  /-- A vector indexed out of its bounds. -/
  | outOfRange
  /-- The entry `factor_dict[cur_name]` of a name that is not a key: a null operation. -/
  | nullFactor (name : String)
  /-- The fuel of a queue loop is used up. -/
  | outOfFuel
  deriving DecidableEq, Repr

/-- Calls made to the collaborators, in the order the scheduler makes them. -/
inductive Event where
  | setRef (name : String) (data : RawData)
  | forward (factor : Factor) (operands outputs : VarList)
  | zeroGrad (var : Variable)
  | onesGrad (var : Variable)
  | print (name : String)
  | backward (factor : Factor) (operands outputs : VarList)
  deriving DecidableEq, Repr

/-- A `std::map` keyed by names, as the list of its entries. -/
abbrev Dict (α : Type) := List (String × α)

namespace Dict

variable {α : Type}

/-- The value of `d.count(k)`. -/
def count (d : Dict α) (k : String) : Nat :=
  if (d.lookup k).isSome then 1 else 0

/-- The value of `d.size()`. -/
def size (d : Dict α) : Nat := d.length

/-- The value read by `d[k]`: the entry, or the default one. -/
def get [Inhabited α] (d : Dict α) (k : String) : α :=
  (d.lookup k).getD default

/-- The map after `d[k]` was evaluated: a missing key got a default entry. -/
def touch [Inhabited α] (d : Dict α) (k : String) : Dict α :=
  if (d.lookup k).isSome then d else d ++ [(k, default)]

/-- The map after `d[k] = v`. -/
def assign (d : Dict α) (k : String) (v : α) : Dict α :=
  if (d.lookup k).isSome then d.map (fun e => if e.1 == k then (k, v) else e)
  else d ++ [(k, v)]

end Dict

/-- The fields of `FactorGraph`, and the log of collaborator calls. -/
structure FactorGraph where
  var_dict : Dict (Nat × Variable)
  factor_dict : Dict (Nat × Factor)
  isReady : List Bool
  isRequired : List Bool
  factorEdges : Dict (VarList × VarList)
  varEdges : Dict (FactorList × FactorList)
  ready_dict : Dict Variable
  var_list : List Variable
  factor_list : List Factor
  n_pending : List Int
  q : List String
  log : List Event
  deriving DecidableEq, Repr

/-- What a pass returns: the new state, or the error and the state it left. -/
abbrev Run (α : Type) := Except (Err × FactorGraph) α

namespace FactorGraph

/-- Lines 7-21: the constructor. -/
def empty : FactorGraph :=
  { var_dict := [], factor_dict := [], isReady := [], isRequired := [],
    factorEdges := [], varEdges := [], ready_dict := [], var_list := [],
    factor_list := [], n_pending := [], q := [], log := [] }

/-- The list `varEdges[name].first`: the producers of a value node. -/
def producers (g : FactorGraph) (name : String) : FactorList := (g.varEdges.get name).1

/-- The list `varEdges[name].second`: the consumers of a value node. -/
def consumers (g : FactorGraph) (name : String) : FactorList := (g.varEdges.get name).2

/-- The list `factorEdges[name].first`: the operands of an operation. -/
def operands (g : FactorGraph) (name : String) : VarList := (g.factorEdges.get name).1

/-- The list `factorEdges[name].second`: the outputs of an operation. -/
def outputs (g : FactorGraph) (name : String) : VarList := (g.factorEdges.get name).2

/-- The state after `varEdges[name]` was evaluated. -/
def touchVar (g : FactorGraph) (name : String) : FactorGraph :=
  { g with varEdges := g.varEdges.touch name }

/-- The state after `factorEdges[name]` was evaluated. -/
def touchFac (g : FactorGraph) (name : String) : FactorGraph :=
  { g with factorEdges := g.factorEdges.touch name }

end FactorGraph

/-- Lines 23-27: `VarIdx(std::string)`; `VarIdx(VarPtr)` is `VarIdx g var.name`. -/
def VarIdx (g : FactorGraph) (var_name : String) : Except Err Nat :=
  match g.var_dict.lookup var_name with
  | some e => .ok e.1
  | none => .error (Err.varNotRegistered var_name)

/-- Lines 34-38: `FacIdx`. -/
def FacIdx (g : FactorGraph) (fac_name : String) : Except Err Nat :=
  match g.factor_dict.lookup fac_name with
  | some e => .ok e.1
  | none => .error (Err.factorNotRegistered fac_name)

/-! ## DependencyParse -/

/-- Lines 51-52: a target is marked required and enqueued. -/
def markTarget (g : FactorGraph) (p : VarPtr) : Run FactorGraph :=
  match VarIdx g p.name with
  | .error e => .error (e, g)
  | .ok i =>
    if i < g.isRequired.length then
      .ok { g with isRequired := g.isRequired.set i true, q := g.q ++ [p.name] }
    else .error (Err.outOfRange, g)

/-- Lines 64-68: an operand is marked required and enqueued unless it is marked already. -/
def markOperand (g : FactorGraph) (p : VarPtr) : Run FactorGraph :=
  match VarIdx g p.name with
  | .error e => .error (e, g)
  | .ok i =>
    match g.isRequired[i]? with
    | none => .error (Err.outOfRange, g)
    | some true => .ok g
    | some false => .ok { g with isRequired := g.isRequired.set i true, q := g.q ++ [p.name] }

/-- Lines 62-68: the operands of one producer. -/
def parseFactor (g : FactorGraph) (factor : Factor) : Run FactorGraph :=
  let g1 := g.touchFac factor.name
  (g1.operands factor.name).foldlM markOperand g1

/-- Lines 59-69: the producers of the dequeued value node. -/
def parseVar (g : FactorGraph) (cur_var : String) : Run FactorGraph :=
  let g1 := g.touchVar cur_var
  (g1.producers cur_var).foldlM parseFactor g1

/-- Lines 55-70: the queue loop. -/
def parseLoop : Nat → FactorGraph → Run FactorGraph
  | 0, g =>
    match g.q with
    | [] => .ok g
    | _ :: _ => .error (Err.outOfFuel, g)
  | fuel + 1, g =>
    match g.q with
    | [] => .ok g
    | cur_var :: rest =>
      match parseVar { g with q := rest } cur_var with
      | .error e => .error e
      | .ok g1 => parseLoop fuel g1

/-- Lines 40-71: `DependencyParse`. Every dequeued name was enqueued when its
flag was set, or is a target: `targets.length + var_dict.size()` iterations
empty the queue. -/
def DependencyParse (g : FactorGraph) (targets : List VarPtr) : Run FactorGraph :=
  let g0 := { g with isRequired := List.replicate g.var_dict.size false, q := [] }
  match targets.foldlM markTarget g0 with
  | .error e => .error e
  | .ok g1 => parseLoop (targets.length + g.var_dict.size) g1

/-! ## SequentialForward -/

/-- Lines 93-97 and 128-132: `--n_pending[FacIdx(f)]`, and the push at zero. -/
def decrPending (g : FactorGraph) (f : Factor) : Run FactorGraph :=
  match FacIdx g f.name with
  | .error e => .error (e, g)
  | .ok j =>
    match g.n_pending[j]? with
    | none => .error (Err.outOfRange, g)
    | some n =>
      if n - 1 = 0 then
        .ok { g with n_pending := g.n_pending.set j (n - 1), q := g.q ++ [f.name] }
      else
        .ok { g with n_pending := g.n_pending.set j (n - 1) }

/-- Lines 81-85, after the resize of line 76: every counter is the number of operands. -/
def initPendingForward (g : FactorGraph) : FactorGraph :=
  { g with
    n_pending := g.factor_list.map (fun f => ((g.operands f.name).length : Int))
    factorEdges := g.factor_list.foldl (fun d f => d.touch f.name) g.factorEdges }

/-- Lines 88-98: the consumers of the value node of index `i`, when it is ready. -/
def seedReady (g : FactorGraph) (i : Nat) : Run FactorGraph :=
  if g.isReady[i]? = some true then
    match g.var_list[i]? with
    | none => .error (Err.outOfRange, g)
    | some v =>
      let g1 := g.touchVar v.name
      (g1.consumers v.name).foldlM decrPending g1
  else .ok g

/-- Lines 111-116: is some output required? The scan stops at the first one. -/
def anyRequired (g : FactorGraph) : VarList → Except Err Bool
  | [] => .ok false
  | p :: ps =>
    match VarIdx g p.name with
    | .error e => .error e
    | .ok i =>
      match g.isRequired[i]? with
      | none => .error Err.outOfRange
      | some true => .ok true
      | some false => anyRequired g ps

/-- Lines 123-133: an output becomes ready and its consumers are decremented. -/
def readyOutput (g : FactorGraph) (p : VarPtr) : Run FactorGraph :=
  match VarIdx g p.name with
  | .error e => .error (e, g)
  | .ok i =>
    if i < g.isReady.length then
      let g1 := { g with isReady := g.isReady.set i true }
      let g2 := g1.touchVar p.name
      (g2.consumers p.name).foldlM decrPending g2
    else .error (Err.outOfRange, g)

/-- Lines 106-134: the body of the queue loop, when the dequeued name is read
back. The reference `cur_name` of line 103 is read after `q.pop()` destroyed
the string it refers to; this definition assumes that the read gives the
dequeued name, which the language does not promise. `forwardOneRead` is the
body without the assumption, and `forwardOneRead_same` relates the two. -/
def forwardOne (g : FactorGraph) (cur_name : String) : Run FactorGraph :=
  match g.factor_dict.lookup cur_name with
  | none => .error (Err.nullFactor cur_name, g)
  | some e =>
    let g1 := g.touchFac cur_name
    match anyRequired g1 (g1.outputs cur_name) with
    | .error err => .error (err, g1)
    | .ok false => .ok g1
    | .ok true =>
      let g2 := { g1 with log := g1.log ++
        [Event.forward e.2 (g1.operands cur_name) (g1.outputs cur_name)] }
      (g2.outputs cur_name).foldlM readyOutput g2

/-- Lines 101-135: at most `k` iterations of the queue loop. -/
def forwardIter : Nat → FactorGraph → Run FactorGraph
  | 0, g => .ok g
  | k + 1, g =>
    match g.q with
    | [] => .ok g
    | cur_name :: rest =>
      match forwardOne { g with q := rest } cur_name with
      | .error e => .error e
      | .ok g1 => forwardIter k g1

/-- Lines 101-135: the queue loop, which ends when the queue is empty. -/
def forwardLoop (fuel : Nat) (g : FactorGraph) : Run FactorGraph :=
  match forwardIter fuel g with
  | .error e => .error e
  | .ok g1 =>
    match g1.q with
    | [] => .ok g1
    | _ :: _ => .error (Err.outOfFuel, g1)

/-- Lines 76-99: the counters are set and the ready value nodes are accounted for. -/
def forwardSeed (g : FactorGraph) : Run FactorGraph :=
  let g1 := initPendingForward { g with q := [] }
  (List.range g1.isReady.length).foldlM seedReady g1

/-- Lines 73-136: `SequentialForward`. An operation is enqueued when its counter
reaches zero, which happens once: `factor_list.size()` iterations empty the queue. -/
def SequentialForward (g : FactorGraph) : Run FactorGraph :=
  match forwardSeed g with
  | .error e => .error e
  | .ok g1 => forwardLoop g1.factor_list.length g1

/-! ## FeedForward -/

/-- Line 148: a pre-ready value node is ready. -/
def setPreReady (g : FactorGraph) (st : String × Variable) : Run FactorGraph :=
  match VarIdx g st.1 with
  | .error e => .error (e, g)
  | .ok i =>
    if i < g.isReady.length then .ok { g with isReady := g.isReady.set i true }
    else .error (Err.outOfRange, g)

/-- Lines 152-153: a fed value node is ready and its reference is bound. -/
def setFed (g : FactorGraph) (p : String × RawData) : Run FactorGraph :=
  match VarIdx g p.1 with
  | .error e => .error (e, g)
  | .ok i =>
    if i < g.isReady.length then
      .ok { g with isReady := g.isReady.set i true, log := g.log ++ [Event.setRef p.1 p.2] }
    else .error (Err.outOfRange, g)

/-- Lines 162-165: the first target that is not ready, if there is one. -/
def checkReady (g : FactorGraph) : List VarPtr → Except Err Unit
  | [] => .ok ()
  | p :: ps =>
    match VarIdx g p.name with
    | .error e => .error e
    | .ok i =>
      match g.isReady[i]? with
      | none => .error Err.outOfRange
      | some false => .error (Err.notReady p.name)
      | some true => checkReady g ps

/-- Lines 142-154: the required set, then the ready flags of the pre-ready and fed nodes. -/
def prepareForward (g : FactorGraph) (targets : List VarPtr)
    (feed_dict : Dict RawData) : Run FactorGraph :=
  match DependencyParse g targets with
  | .error e => .error e
  | .ok g1 =>
    let g2 := { g1 with isReady := List.replicate g1.var_dict.size false }
    match g2.ready_dict.foldlM setPreReady g2 with
    | .error e => .error e
    | .ok g3 => feed_dict.foldlM setFed g3

/-- Lines 138-172: `FeedForward`. -/
def FeedForward (g : FactorGraph) (targets : List VarPtr) (feed_dict : Dict RawData)
    (n_thread : Nat) : Run (VarList × FactorGraph) :=
  match prepareForward g targets feed_dict with
  | .error e => .error e
  | .ok g1 =>
    if n_thread = 1 then
      match SequentialForward g1 with
      | .error e => .error e
      | .ok g2 =>
        match checkReady g2 targets with
        | .error e => .error (e, g2)
        | .ok _ => .ok (targets, g2)
    else .error (Err.notImplemented, g1)

/-! ## SequentialBackward and BackPropagate -/

/-- Lines 181-182: a required output is counted. -/
def countOutput (i : Nat) (g : FactorGraph) (p : VarPtr) : Run FactorGraph :=
  match VarIdx g p.name with
  | .error e => .error (e, g)
  | .ok k =>
    match g.isRequired[k]? with
    | none => .error (Err.outOfRange, g)
    | some false => .ok g
    | some true =>
      match g.n_pending[i]? with
      | none => .error (Err.outOfRange, g)
      | some n => .ok { g with n_pending := g.n_pending.set i (n + 1) }

/-- Lines 178-182: the counter of the operation of index `i` is the number of
its required outputs. -/
def initPendingBackward (g : FactorGraph) (i : Nat) : Run FactorGraph :=
  match g.factor_list[i]? with
  | none => .error (Err.outOfRange, g)
  | some f =>
    let g1 := g.touchFac f.name
    if i < g1.n_pending.length then
      let g2 := { g1 with n_pending := g1.n_pending.set i 0 }
      (g2.outputs f.name).foldlM (countOutput i) g2
    else .error (Err.outOfRange, g1)

/-- Lines 188-195: the producers of a seed are decremented. -/
def seedTarget (g : FactorGraph) (p : VarPtr) : Run FactorGraph :=
  let g1 := g.touchVar p.name
  (g1.producers p.name).foldlM decrPending g1

/-- Lines 224-230: the producers of an operand are decremented. -/
def backOperand (g : FactorGraph) (p : VarPtr) : Run FactorGraph :=
  let g1 := g.touchVar p.name
  (g1.producers p.name).foldlM decrPending g1

/-- Lines 207-217: the necessity of the backward contract. -/
def backNecessary (factor : Factor) (operands : VarList) : Bool :=
  factor.properr == PropErr.T && operands.any (fun p => !p.isConst)

/-- Lines 199-231: the body of the queue loop, when the dequeued name is read
back. The name is printed at line 200; lines 203-205 read the reference of
line 199 after `q.pop()` destroyed the string it refers to, and this
definition assumes that the read gives the dequeued name. `backwardOneRead`
is the body without the assumption, and `backwardOneRead_same` relates the
two. -/
def backwardOne (g : FactorGraph) (cur_name : String) : Run FactorGraph :=
  let g0 := { g with log := g.log ++ [Event.print cur_name] }
  match g0.factor_dict.lookup cur_name with
  | none => .error (Err.nullFactor cur_name, g0)
  | some e =>
    let g1 := g0.touchFac cur_name
    let g2 :=
      if backNecessary e.2 (g1.operands cur_name) then
        { g1 with log := g1.log ++
          [Event.backward e.2 (g1.operands cur_name) (g1.outputs cur_name)] }
      else g1
    (g2.operands cur_name).foldlM backOperand g2

/-- Lines 197-232: at most `k` iterations of the queue loop. -/
def backwardIter : Nat → FactorGraph → Run FactorGraph
  | 0, g => .ok g
  | k + 1, g =>
    match g.q with
    | [] => .ok g
    | cur_name :: rest =>
      match backwardOne { g with q := rest } cur_name with
      | .error e => .error e
      | .ok g1 => backwardIter k g1

/-- Lines 197-232: the queue loop, which ends when the queue is empty. -/
def backwardLoop (fuel : Nat) (g : FactorGraph) : Run FactorGraph :=
  match backwardIter fuel g with
  | .error e => .error e
  | .ok g1 =>
    match g1.q with
    | [] => .ok g1
    | _ :: _ => .error (Err.outOfFuel, g1)

/-- Lines 176-196: the counters are set and the producers of the seeds decremented. -/
def backwardSeed (g : FactorGraph) (targets : List VarPtr) : Run FactorGraph :=
  match (List.range g.factor_list.length).foldlM initPendingBackward g with
  | .error e => .error e
  | .ok g1 => targets.foldlM seedTarget { g1 with q := [] }

/-- Lines 174-234: `SequentialBackward`; the fuel is as in the forward pass. -/
def SequentialBackward (g : FactorGraph) (targets : List VarPtr) : Run FactorGraph :=
  match backwardSeed g targets with
  | .error e => .error e
  | .ok g1 => backwardLoop g1.factor_list.length g1

/-- Line 239: the sizes of the scratch arrays match the registry. -/
def scratchConsistent (g : FactorGraph) : Bool :=
  decide (g.isReady.length = g.var_dict.size) &&
  decide (g.n_pending.length = g.factor_list.length) &&
  decide (g.isReady.length = g.isRequired.length)

/-- Lines 241-246: `ZeroGrad` on every value node that is not constant. -/
def zeroGrads (g : FactorGraph) : FactorGraph :=
  { g with log := g.log ++ (g.var_list.filter (fun v => !v.isConst)).map Event.zeroGrad }

/-- Lines 250-253: a seed is checked, then its gradient is set to ones. -/
def seedGrad (g : FactorGraph) (p : VarPtr) : Run FactorGraph :=
  let g1 := g.touchVar p.name
  if (g1.consumers p.name).length = 0 then
    if !p.isConst then .ok { g1 with log := g1.log ++ [Event.onesGrad p] }
    else .error (Err.constGrad p.name, g1)
  else .error (Err.notTopVariable p.name, g1)

/-- Lines 236-261: `BackPropagate`. -/
def BackPropagate (g : FactorGraph) (targets : List VarPtr) (n_thread : Nat) :
    Run FactorGraph :=
  if scratchConsistent g then
    match targets.foldlM seedGrad (zeroGrads g) with
    | .error e => .error e
    | .ok g1 =>
      if n_thread = 1 then SequentialBackward g1 targets
      else .error (Err.notImplemented, g1)
  else .error (Err.graphChanged, g)

/-! ## AddVar -/

/-- Lines 263-273: `AddVar`. -/
def AddVar (g : FactorGraph) (var : VarPtr) (need_feed : Bool) : Run FactorGraph :=
  if g.var_dict.count var.name = 0 ∧ g.varEdges.count var.name = 0 then
    let g1 := { g with
      varEdges := g.varEdges.assign var.name ([], [])
      var_dict := g.var_dict.assign var.name (g.var_list.length, var)
      var_list := g.var_list ++ [var] }
    if !need_feed then .ok { g1 with ready_dict := g1.ready_dict.assign var.name var }
    else .ok g1
  else .error (Err.alreadyInserted var.name, g)

/-! ## Predicates of the specification -/

/-- The state a call ended in, returned or failed. -/
def finalState : Run FactorGraph → FactorGraph
  | .ok g => g
  | .error e => e.2

/-- The state a `FeedForward` call ended in, returned or failed. -/
def finalState2 : Run (VarList × FactorGraph) → FactorGraph
  | .ok r => r.2
  | .error e => e.2

/-- The error a call ended with, if it failed. -/
def failure {α : Type} : Run α → Option Err
  | .ok _ => none
  | .error e => some e.1

/-- Two states hold the same registry: the same name tables and dense lists,
and adjacency maps that read the same under every name. -/
structure SameRegistry (g g' : FactorGraph) : Prop where
  var_dict : g'.var_dict = g.var_dict
  factor_dict : g'.factor_dict = g.factor_dict
  var_list : g'.var_list = g.var_list
  factor_list : g'.factor_list = g.factor_list
  ready_dict : g'.ready_dict = g.ready_dict
  varEdges : ∀ n, g'.varEdges.get n = g.varEdges.get n
  factorEdges : ∀ n, g'.factorEdges.get n = g.factorEdges.get n

/-- The name is a key of `var_dict`. -/
def VarRegistered (g : FactorGraph) (name : String) : Prop :=
  (g.var_dict.lookup name).isSome = true

instance (g : FactorGraph) (name : String) : Decidable (VarRegistered g name) := by
  unfold VarRegistered; infer_instance

/-- The name is a key of `factor_dict`. -/
def FacRegistered (g : FactorGraph) (name : String) : Prop :=
  (g.factor_dict.lookup name).isSome = true

instance (g : FactorGraph) (name : String) : Decidable (FacRegistered g name) := by
  unfold FacRegistered; infer_instance

/-- The required flag of the value node of this name is set. -/
def Marked (g : FactorGraph) (name : String) : Prop :=
  ∃ i, VarIdx g name = .ok i ∧ g.isRequired[i]? = some true

/-- The ready flag of the value node of this name is set. -/
def Ready (g : FactorGraph) (name : String) : Prop :=
  ∃ i, VarIdx g name = .ok i ∧ g.isReady[i]? = some true

instance (g : FactorGraph) (name : String) : Decidable (Marked g name) :=
  match h : VarIdx g name with
  | .ok i =>
    if hf : g.isRequired[i]? = some true then isTrue ⟨i, h, hf⟩
    else isFalse (fun ⟨j, hj, hf'⟩ => hf (by rw [h] at hj; cases hj; exact hf'))
  | .error _ => isFalse (fun ⟨j, hj, _⟩ => by rw [h] at hj; cases hj)

instance (g : FactorGraph) (name : String) : Decidable (Ready g name) :=
  match h : VarIdx g name with
  | .ok i =>
    if hf : g.isReady[i]? = some true then isTrue ⟨i, h, hf⟩
    else isFalse (fun ⟨j, hj, hf'⟩ => hf (by rw [h] at hj; cases hj; exact hf'))
  | .error _ => isFalse (fun ⟨j, hj, _⟩ => by rw [h] at hj; cases hj)

/-- The backward-reachable producer closure of the targets: a target, or an
operand of a producer of a node of the closure. -/
inductive Reach (g : FactorGraph) (targets : List VarPtr) : String → Prop where
  | target (p : VarPtr) : p ∈ targets → Reach g targets p.name
  | step (u : String) (f : Factor) (p : VarPtr) : Reach g targets u →
      f ∈ g.producers u → p ∈ g.operands f.name → Reach g targets p.name

/-- The indices of `var_dict` are distinct and within the number of value nodes. -/
def VarsIndexed (g : FactorGraph) : Prop :=
  (g.var_dict.map (fun e => e.2.1)).Nodup ∧ ∀ e ∈ g.var_dict, e.2.1 < g.var_dict.size

instance (g : FactorGraph) : Decidable (VarsIndexed g) := by
  unfold VarsIndexed; infer_instance

/-- Every value node of an operand or output list is registered. -/
def EdgeVarsRegistered (g : FactorGraph) : Prop :=
  ∀ e ∈ g.factorEdges, ∀ p ∈ e.2.1 ++ e.2.2, (g.var_dict.lookup p.name).isSome = true

instance (g : FactorGraph) : Decidable (EdgeVarsRegistered g) := by
  unfold EdgeVarsRegistered; infer_instance

/-- Every operation of a producer or consumer list is registered. -/
def EdgeFactorsRegistered (g : FactorGraph) : Prop :=
  ∀ e ∈ g.varEdges, ∀ f ∈ e.2.1 ++ e.2.2, (g.factor_dict.lookup f.name).isSome = true

instance (g : FactorGraph) : Decidable (EdgeFactorsRegistered g) := by
  unfold EdgeFactorsRegistered; infer_instance

/-- The invariant of the queue loop of `DependencyParse` over the registry `g₀`,
while the producers of `cur` are being visited: the flags are sound for the
closure, the targets and the queued names are marked, every marked name that
is neither queued nor `cur` has its producers' operands marked, and `m` is
the number of names queued plus the number of flags not set. -/
structure ParseInv (g₀ : FactorGraph) (targets : List VarPtr) (cur : Option String)
    (m : Nat) (g : FactorGraph) : Prop where
  same : SameRegistry g₀ g
  len : g.isRequired.length = g₀.var_dict.size
  sound : ∀ n, Marked g n → Reach g₀ targets n
  tgt : ∀ p ∈ targets, Marked g p.name
  queued : ∀ n ∈ g.q, Marked g n
  closed : ∀ u, Marked g u → u ∉ g.q → some u ≠ cur →
    ∀ f ∈ g₀.producers u, ∀ p ∈ g₀.operands f.name, Marked g p.name
  measure : g.q.length + g.isRequired.count false = m

/-- What `DependencyParse` leaves as it is: the registry, the ready flags, the
counters and the log. -/
structure ParseFrame (g x : FactorGraph) : Prop where
  same : SameRegistry g x
  isReady : x.isReady = g.isReady
  n_pending : x.n_pending = g.n_pending
  log : x.log = g.log

/-- Every key of `ready_dict` is registered. -/
def PreReadyRegistered (g : FactorGraph) : Prop :=
  ∀ st ∈ g.ready_dict, (g.var_dict.lookup st.1).isSome = true

instance (g : FactorGraph) : Decidable (PreReadyRegistered g) := by
  unfold PreReadyRegistered; infer_instance

/-- The value node of index `i` is pre-ready or fed. -/
def InitiallyReady (g : FactorGraph) (feed_dict : Dict RawData) (i : Nat) : Prop :=
  (∃ st ∈ g.ready_dict, VarIdx g st.1 = .ok i) ∨ (∃ p ∈ feed_dict, VarIdx g p.1 = .ok i)

/-- The events logged since the state `g`. -/
def newLog (g x : FactorGraph) : List Event := x.log.drop g.log.length

/-- The call `Forward(operands, outputs)` made for the operation registered as `cur`. -/
def forwardCall (g : FactorGraph) (cur : String) (e : Nat × Factor) : Event :=
  Event.forward e.2 (g.operands cur) (g.outputs cur)

/-- What the forward pass keeps true from the state `gD` it starts in: the
registry and the required flags are the same, the log is extended, every new
event is the `Forward` call of a registered operation with a required output,
and a ready flag that was not set at the start belongs to an output of such a
call. -/
structure FwdInv (gD x : FactorGraph) : Prop where
  same : SameRegistry gD x
  req : x.isRequired = gD.isRequired
  len : x.isReady.length = gD.isReady.length
  pre : gD.log <+: x.log
  events : ∀ ev ∈ newLog gD x, ∃ cur e, gD.factor_dict.lookup cur = some e ∧
    ev = forwardCall gD cur e ∧ ∃ p ∈ gD.outputs cur, Marked gD p.name
  ready : ∀ i, x.isReady[i]? = some true → gD.isReady[i]? = some true ∨
    ∃ cur e, gD.factor_dict.lookup cur = some e ∧ forwardCall gD cur e ∈ newLog gD x ∧
      ∃ p ∈ gD.outputs cur, VarIdx gD p.name = .ok i

/-- What the part of `FeedForward` after `DependencyParse` and before the
sequential pass keeps true from the state `gD`: the registry and the required
flags are the same, and only `SetRef` calls are logged. -/
structure PrepInv (gD x : FactorGraph) : Prop where
  same : SameRegistry gD x
  req : x.isRequired = gD.isRequired
  len : x.isReady.length = gD.var_dict.size
  pre : gD.log <+: x.log
  events : ∀ ev ∈ newLog gD x, ∃ n d, ev = Event.setRef n d

/-- The indices of `factor_dict` are distinct and within the number of operations. -/
def FactorsIndexed (g : FactorGraph) : Prop :=
  (g.factor_dict.map (fun e => e.2.1)).Nodup ∧
  ∀ e ∈ g.factor_dict, e.2.1 < g.factor_list.length

instance (g : FactorGraph) : Decidable (FactorsIndexed g) := by
  unfold FactorsIndexed; infer_instance

/-- The dense list `var_list` has one entry per registered value node, and the
entry of index `i` is registered under its name with the index `i`. -/
def VarListIndexed (g : FactorGraph) : Prop :=
  g.var_list.length = g.var_dict.size ∧
  ∀ p ∈ g.var_list.enum, (g.var_dict.lookup p.2.name).map (fun e => e.1) = some p.1

instance (g : FactorGraph) : Decidable (VarListIndexed g) := by
  unfold VarListIndexed; infer_instance

/-- A registry as registration builds it: dense distinct indices for value
nodes and operations, adjacency lists that hold registered nodes, pre-ready
value nodes that are registered. -/
structure WellFormed (g : FactorGraph) : Prop where
  vars : VarsIndexed g
  factors : FactorsIndexed g
  edgeVars : EdgeVarsRegistered g
  edgeFactors : EdgeFactorsRegistered g
  preReady : PreReadyRegistered g
  varList : VarListIndexed g

instance (g : FactorGraph) : Decidable (WellFormed g) :=
  if h : VarsIndexed g ∧ FactorsIndexed g ∧ EdgeVarsRegistered g ∧ EdgeFactorsRegistered g ∧
      PreReadyRegistered g ∧ VarListIndexed g then
    isTrue ⟨h.1, h.2.1, h.2.2.1, h.2.2.2.1, h.2.2.2.2.1, h.2.2.2.2.2⟩
  else
    isFalse (fun w => h ⟨w.vars, w.factors, w.edgeVars, w.edgeFactors, w.preReady, w.varList⟩)

/-- What the sequential passes keep true of the scratch state, over the
registry `g`: the arrays have the sizes of the registry, the queued names are
registered operations, and `m` is the number of queued names plus the number
of counters that are positive. -/
structure SchedInv (g : FactorGraph) (m : Nat) (x : FactorGraph) : Prop where
  same : SameRegistry g x
  lenReady : x.isReady.length = g.var_dict.size
  lenRequired : x.isRequired.length = g.var_dict.size
  lenPending : x.n_pending.length = g.factor_list.length
  queued : ∀ n ∈ x.q, FacRegistered g n
  measure : x.q.length + x.n_pending.countP (fun n => decide (0 < n)) = m

/-- The dense list `factor_list` holds, at the index of every registered
operation, an operation of that name. -/
def FactorListIndexed (g : FactorGraph) : Prop :=
  ∀ e ∈ g.factor_dict, (g.factor_list[e.2.1]?).map (fun f => f.name) = some e.1

instance (g : FactorGraph) : Decidable (FactorListIndexed g) := by
  unfold FactorListIndexed; infer_instance

/-- Consistent adjacency, as registration builds it: an operation is in the
consumer list of a value node as many times as the node is in its operand
list, and in the producer list as many times as the node is in its output
list. -/
def ConsistentAdjacency (g : FactorGraph) : Prop :=
  (∀ ve ∈ g.var_dict, ∀ fe ∈ g.factor_dict,
    (g.consumers ve.1).countP (fun f => f.name == fe.1) =
      (g.operands fe.1).countP (fun p => p.name == ve.1)) ∧
  (∀ ve ∈ g.var_dict, ∀ fe ∈ g.factor_dict,
    (g.producers ve.1).countP (fun f => f.name == fe.1) =
      (g.outputs fe.1).countP (fun p => p.name == ve.1))

instance (g : FactorGraph) : Decidable (ConsistentAdjacency g) := by
  unfold ConsistentAdjacency; infer_instance

/-- Every value node is an output of at most one operation, and at most once. -/
def SingleProducer (g : FactorGraph) : Prop :=
  (∀ fe ∈ g.factor_dict, ((g.outputs fe.1).map (fun p => p.name)).Nodup) ∧
  (∀ fe ∈ g.factor_dict, ∀ fe' ∈ g.factor_dict, fe.1 ≠ fe'.1 →
    ∀ p ∈ g.outputs fe.1, ∀ p' ∈ g.outputs fe'.1, p.name ≠ p'.name)

instance (g : FactorGraph) : Decidable (SingleProducer g) := by
  unfold SingleProducer; infer_instance

/-- No registered operation has an output of this name. -/
def NotProduced (g : FactorGraph) (name : String) : Prop :=
  ∀ fe ∈ g.factor_dict, ∀ p ∈ g.outputs fe.1, p.name ≠ name

instance (g : FactorGraph) (name : String) : Decidable (NotProduced g name) := by
  unfold NotProduced; infer_instance

/-- The value node of this name is ready and its index is below `i`: its
consumers have been decremented for it. In the queue loop `i` is the number
of value nodes. -/
def Accounted (x : FactorGraph) (i : Nat) (n : String) : Prop :=
  ∃ j, VarIdx x n = .ok j ∧ j < i ∧ x.isReady[j]? = some true

instance (x : FactorGraph) (i : Nat) (n : String) : Decidable (Accounted x i n) :=
  match h : VarIdx x n with
  | .ok j =>
    if hf : j < i ∧ x.isReady[j]? = some true then isTrue ⟨j, h, hf.1, hf.2⟩
    else isFalse (fun ⟨k, hk, h1, h2⟩ => hf (by rw [h] at hk; cases hk; exact ⟨h1, h2⟩))
  | .error _ => isFalse (fun ⟨k, hk, _⟩ => by rw [h] at hk; cases hk)

/-- The number of operands of an operation that are not accounted for. -/
def pendingOperands (g x : FactorGraph) (i : Nat) (fn : String) : Nat :=
  (g.operands fn).countP (fun p => decide (¬ Accounted x i p.name))

/-- The invariant of the counters of the forward pass over the registry `g`,
while the consumers `l` of a value node remain to be decremented: a counter is
at least the number of operands not accounted for plus the decrements still
to come; the outputs of an operation that is queued or whose counter is
positive are not ready; the counter of a queued operation is not positive;
no name is queued twice; the operands of a queued operation are ready. -/
structure CountInv (g : FactorGraph) (i : Nat) (l : FactorList) (x : FactorGraph) : Prop where
  same : SameRegistry g x
  cnt : ∀ fn j, FacIdx g fn = .ok j → ∃ n, x.n_pending[j]? = some n ∧
    (pendingOperands g x i fn : Int) + (l.countP (fun f => f.name == fn) : Int) ≤ n
  fresh : ∀ fn j n, FacIdx g fn = .ok j → x.n_pending[j]? = some n →
    (fn ∈ x.q ∨ 0 < n) → ∀ p ∈ g.outputs fn, ¬ Ready x p.name
  spent : ∀ fn ∈ x.q, ∃ j n, FacIdx g fn = .ok j ∧ x.n_pending[j]? = some n ∧ n ≤ 0
  nodup : x.q.Nodup
  ops : ∀ fn ∈ x.q, ∀ p ∈ g.operands fn, Ready x p.name

/-- The value node `u` is an output of an operation that has `v` as an operand. -/
def DependsOn (g : FactorGraph) (u v : String) : Prop :=
  ∃ fe ∈ g.factor_dict, (∃ p ∈ g.outputs fe.1, p.name = u) ∧ (∃ p ∈ g.operands fe.1, p.name = v)

/-- The registry is acyclic: no value node depends on itself through operations. -/
def Acyclic (g : FactorGraph) : Prop :=
  ∀ v, ¬ Relation.TransGen (DependsOn g) v v

/-- The index a value node is registered with, or zero. -/
def rank (g : FactorGraph) (n : String) : Nat :=
  match g.var_dict.lookup n with
  | some e => e.1
  | none => 0

/-- Every operand of an operation is registered before every output of it. -/
def Ranked (g : FactorGraph) : Prop :=
  ∀ fe ∈ g.factor_dict, ∀ p ∈ g.outputs fe.1, ∀ p' ∈ g.operands fe.1,
    rank g p'.name < rank g p.name

instance (g : FactorGraph) : Decidable (Ranked g) := by
  unfold Ranked; infer_instance

/-- The operation was dequeued: it is not queued and its counter is not positive. -/
def Spent (g x : FactorGraph) (cur : String) : Prop :=
  cur ∉ x.q ∧ ∃ j n, FacIdx g cur = .ok j ∧ x.n_pending[j]? = some n ∧ n ≤ 0

/-- The errors of the scheduler's own lookups, indexings and loops. -/
def Err.internal : Err → Prop
  | .varNotRegistered _ => True
  | .factorNotRegistered _ => True
  | .outOfRange => True
  | .nullFactor _ => True
  | .outOfFuel => True
  | _ => False

/-- The two errors that belong to the embedding alone: an exhausted fuel, and
a dequeued name that is not a key of `factor_dict`. -/
def Err.modelOnly : Err → Prop
  | .outOfFuel => True
  | .nullFactor _ => True
  | _ => False

/-- What bounds the iterations of the queue loops of the two passes: the
queued names are keys of `factor_dict`, and the number of queued names plus
the number of positive counters is at most `m`. -/
structure FuelInv (m : Nat) (x : FactorGraph) : Prop where
  queued : ∀ n ∈ x.q, (x.factor_dict.lookup n).isSome = true
  measure : x.q.length + x.n_pending.countP (fun n => decide (0 < n)) ≤ m

/-- What bounds the iterations of the queue loop of `DependencyParse`: the
number of queued names plus the number of flags not set is at most `m`. -/
def ParseFuel (m : Nat) (x : FactorGraph) : Prop :=
  x.q.length + x.isRequired.count false ≤ m

/-- The errors of the seed checks of `BackPropagate`. -/
def Err.topology : Err → Prop
  | .notTopVariable _ => True
  | .constGrad _ => True
  | _ => False

instance (e : Err) : Decidable e.internal := by
  cases e <;> unfold Err.internal <;> infer_instance

instance (e : Err) : Decidable e.topology := by
  cases e <;> unfold Err.topology <;> infer_instance

/-- The state a call ends in satisfies `P`, and its error, if it fails, `S`. -/
def Outcome (P : FactorGraph → Prop) (S : Err → Prop) : Run FactorGraph → Prop
  | .ok g => P g
  | .error e => P e.2 ∧ S e.1

/-- The names the backward pass prints, one per dequeued operation, in order. -/
def dequeued : List Event → List String
  | [] => []
  | Event.print n :: evs => n :: dequeued evs
  | _ :: evs => dequeued evs

/-- The call `Backward(operands, outputs)` made for the operation registered as `cur`. -/
def backwardCall (g : FactorGraph) (cur : String) (e : Nat × Factor) : Event :=
  Event.backward e.2 (g.operands cur) (g.outputs cur)

/-- What the sequential backward pass keeps true from the state `g` it starts
in: the registry and the flags are the same, the log is extended, and every
new event is the line printed for a dequeued name or the `Backward` call of a
registered operation for which the call is necessary. -/
structure BwdInv (g x : FactorGraph) : Prop where
  same : SameRegistry g x
  isReady : x.isReady = g.isReady
  isRequired : x.isRequired = g.isRequired
  pre : g.log <+: x.log
  events : ∀ ev ∈ newLog g x, (∃ n, ev = Event.print n) ∨
    ∃ cur e, g.factor_dict.lookup cur = some e ∧ ev = backwardCall g cur e ∧
      backNecessary e.2 (g.operands cur) = true

/-- What the seeding of `BackPropagate` keeps true from the state `g` after
`ZeroGrad`: the registry, the flags and the counters are the same, the log is
extended, and every new event is the `OnesGrad` call of a seed that has no
consumer and is not constant. -/
structure SeedInv (g : FactorGraph) (targets : List VarPtr) (x : FactorGraph) : Prop where
  same : SameRegistry g x
  isReady : x.isReady = g.isReady
  isRequired : x.isRequired = g.isRequired
  n_pending : x.n_pending = g.n_pending
  pre : g.log <+: x.log
  events : ∀ ev ∈ newLog g x, ∃ p ∈ targets, ev = Event.onesGrad p ∧
    (g.consumers p.name).length = 0 ∧ p.isConst = false

/-! ## Sequences of registrations -/

/-- A sequence of `AddVar` calls made from the state `g`, each with its node
and its `need_feed`; a call that fails leaves the state it was made in. -/
def addVars (g : FactorGraph) (calls : List (VarPtr × Bool)) : FactorGraph :=
  calls.foldl (fun x c => finalState (AddVar x c.1 c.2)) g

/-- What a sequence of `AddVar` calls keeps true of the tables of value nodes:
`var_list` has one entry per key of `var_dict`, the indices are distinct,
below the number of keys and cover it, the entry of a name holds its node at
its index, `varEdges` has the keys of `var_dict`, and the pre-ready names are
registered. -/
structure VarTables (g : FactorGraph) : Prop where
  size : g.var_list.length = g.var_dict.size
  distinct : (g.var_dict.map (fun e => e.2.1)).Nodup
  bound : ∀ e ∈ g.var_dict, e.2.1 < g.var_dict.size
  dense : ∀ i, i < g.var_dict.size → ∃ n, VarIdx g n = .ok i
  node : ∀ n e, g.var_dict.lookup n = some e → g.var_list[e.1]? = some e.2 ∧ e.2.name = n
  keys : ∀ n, (g.varEdges.lookup n).isSome = (g.var_dict.lookup n).isSome
  pre : ∀ st ∈ g.ready_dict, (g.var_dict.lookup st.1).isSome = true

/-! ## Gradient calls -/

/-- The value nodes to which the calls of a log apply `ZeroGrad`, in order. -/
def zeroGradCalls : List Event → List Variable
  | [] => []
  | Event.zeroGrad v :: evs => v :: zeroGradCalls evs
  | _ :: evs => zeroGradCalls evs

/-- Modelled from the spec: the contracts `ZeroGrad`, `OnesGrad` and `Backward`
are declared outside the sources. The value nodes whose gradient state a call
may change: the node of a `ZeroGrad` or `OnesGrad` call, and for a `Backward`
call the operands that are not constant (a backward contract "accumulates
into operand gradient buffers", and only those of operands that can be
updated). -/
def Event.gradTargets : Event → List Variable
  | Event.zeroGrad v => [v]
  | Event.onesGrad v => [v]
  | Event.backward _ operands _ => operands.filter (fun p => !p.isConst)
  | _ => []

/-! ## Two runs of a query -/

/-- Two states of one registry, as two runs of a query find them, the runs
having started with the logs `l` and `l'`: the registry, the required flags
and the queue are the same, the ready flags are the same once `rd` holds and
the counters once `np` holds, and both runs logged the same calls. -/
structure Sim (rd np : Prop) (l l' : List Event) (g g' : FactorGraph) : Prop where
  same : SameRegistry g g'
  isRequired : g'.isRequired = g.isRequired
  q : g'.q = g.q
  isReady : rd → g'.isReady = g.isReady
  n_pending : np → g'.n_pending = g.n_pending
  log : ∃ evs, g.log = l ++ evs ∧ g'.log = l' ++ evs

/-- Two runs end alike: both return, or both fail with the same error, in
states related by `R`. -/
def SimRun (R : FactorGraph → FactorGraph → Prop) :
    Run FactorGraph → Run FactorGraph → Prop
  | .ok x, .ok x' => R x x'
  | .error e, .error e' => e.1 = e'.1 ∧ R e.2 e'.2
  | _, _ => False

/-- The list a `FeedForward` call returned, if it returned. -/
def returned : Run (VarList × FactorGraph) → Option VarList
  | .ok r => some r.1
  | .error _ => none

/-! ## Values and gradients of the multiplication scenario -/

/-- The data and the gradient accumulator of every value node, by name. -/
structure Store where
  value : String → Int
  grad : String → Int

/-- The store with a new value under one name. -/
def Store.setValue (s : Store) (n : String) (d : Int) : Store :=
  { s with value := fun k => if k = n then d else s.value k }

/-- The store with a new gradient under one name. -/
def Store.setGrad (s : Store) (n : String) (d : Int) : Store :=
  { s with grad := fun k => if k = n then d else s.grad k }

/-- Modelled from the spec: the contracts of the value nodes and of the
operation `mul` are declared outside the sources. `SetRef` binds the fed data,
`ZeroGrad` and `OnesGrad` set the accumulator to zero and to one, the forward
contract of an operation of two operands and one output is exact integer
multiplication, and its backward contract adds `grad(c) * b` to `grad(a)` and
`grad(c) * a` to `grad(b)`. Every other call leaves the store. -/
def Store.call (s : Store) : Event → Store
  | Event.setRef n d => s.setValue n d
  | Event.forward _ [a, b] [c] => s.setValue c.name (s.value a.name * s.value b.name)
  | Event.zeroGrad v => s.setGrad v.name 0
  | Event.onesGrad v => s.setGrad v.name 1
  | Event.backward _ [a, b] [c] =>
    (s.setGrad a.name (s.grad a.name + s.grad c.name * s.value b.name)).setGrad b.name
      ((s.setGrad a.name (s.grad a.name + s.grad c.name * s.value b.name)).grad b.name +
        s.grad c.name * s.value a.name)
  | _ => s

/-- The store after the calls of a log, made in order. -/
def Store.replay (s : Store) (log : List Event) : Store :=
  log.foldl Store.call s

/-! ## The log the backward pass is to write -/

/-- What the backward pass is to log for a dequeued name, in the words of the
specification: the line printed for it, then the `Backward` call of the
operation registered under the name, with its registered operand and output
lists, exactly when its policy is `PropErr::T` and one of its operands is not
constant. -/
def expectedBackward (g : FactorGraph) (cur : String) : List Event :=
  Event.print cur ::
    match g.factor_dict.lookup cur with
    | some e =>
      if e.2.properr = PropErr.T ∧ ∃ p ∈ g.operands cur, p.isConst = false then
        [Event.backward e.2 (g.operands cur) (g.outputs cur)]
      else []
    | none => []

/-- The registry of `g`, and the log `lg`: what a step that makes no call keeps. -/
def Quiet (g : FactorGraph) (lg : List Event) (x : FactorGraph) : Prop :=
  SameRegistry g x ∧ x.log = lg

/-- The log of the backward pass since the state `g` is the one the
specification asks for, for the names dequeued so far. -/
def BackLog (g x : FactorGraph) : Prop :=
  SameRegistry g x ∧ g.log <+: x.log ∧
    newLog g x = (dequeued (newLog g x)).flatMap (expectedBackward g)

/-! ## Two registries of one shape -/

/-- Two states have the same adjacency, indices and scratch state: every name
has the same index in both, the dense list of operations and the producer,
operand and output lists hold the same names in the same order, and the
required flags, the counters and the queue are equal. The policies of the
operations and the constancy of the value nodes are left free. -/
structure SameShape (g g' : FactorGraph) : Prop where
  varIdx : ∀ n, VarIdx g' n = VarIdx g n
  facIdx : ∀ n, FacIdx g' n = FacIdx g n
  factor_list : g'.factor_list.map (fun f => f.name) = g.factor_list.map (fun f => f.name)
  producers : ∀ n, (g'.producers n).map (fun f => f.name) = (g.producers n).map (fun f => f.name)
  operands : ∀ n, (g'.operands n).map (fun p => p.name) = (g.operands n).map (fun p => p.name)
  outputs : ∀ n, (g'.outputs n).map (fun p => p.name) = (g.outputs n).map (fun p => p.name)
  isRequired : g'.isRequired = g.isRequired
  n_pending : g'.n_pending = g.n_pending
  q : g'.q = g.q

/-- Two states of the same shape, as two runs of the backward pass find them,
the runs having started with the logs `l` and `l'`: both runs dequeued the
same names in the same order. -/
def Shape (l l' : List Event) (x x' : FactorGraph) : Prop :=
  SameShape x x' ∧
    ∃ evs evs', x.log = l ++ evs ∧ x'.log = l' ++ evs' ∧ dequeued evs = dequeued evs'

/-- The state with every operation record replaced by its image under `φ` and
every value-node record by its image under `ψ`, in the name tables, the dense
lists and the adjacency maps. -/
def relabel (φ : Factor → Factor) (ψ : Variable → Variable) (g : FactorGraph) : FactorGraph :=
  { g with
    var_dict := g.var_dict.map (fun e => (e.1, (e.2.1, ψ e.2.2)))
    factor_dict := g.factor_dict.map (fun e => (e.1, (e.2.1, φ e.2.2)))
    var_list := g.var_list.map ψ
    factor_list := g.factor_list.map φ
    ready_dict := g.ready_dict.map (fun e => (e.1, ψ e.2))
    factorEdges := g.factorEdges.map (fun e => (e.1, (e.2.1.map ψ, e.2.2.map ψ)))
    varEdges := g.varEdges.map (fun e => (e.1, (e.2.1.map φ, e.2.2.map φ))) }

/-! ## Completeness of the forward pass -/

/-- The operation `fn`, if it has a required output, was invoked since the
state `b`: its `Forward` call is logged and all its outputs are ready. -/
def Invoked (g gD b x : FactorGraph) (fn : String) : Prop :=
  (∃ p ∈ g.outputs fn, Marked gD p.name) →
    (∀ p ∈ g.outputs fn, Ready x p.name) ∧
    ∀ e, g.factor_dict.lookup fn = some e → forwardCall g fn e ∈ newLog b x

/-- The invariant of the forward pass that gives its completeness, over the
registry `g`, the required flags of `gD` and the log of `b`, while the
consumers `l` of a value node remain to be decremented and the operation `cur`
is being processed: a ready flag set in `b` is set, a counter is at most the number of operands not accounted
for plus the decrements still to come; an operation whose counter is not
positive is queued, is `cur`, or was invoked if it has a required output; the
`Forward` call of an operation with a required output is logged at most once,
and only for an operation that was dequeued. -/
structure LiveInv (g gD b : FactorGraph) (i : Nat) (l : FactorList) (cur : Option String)
    (x : FactorGraph) : Prop where
  same : SameRegistry g x
  req : x.isRequired = gD.isRequired
  pre : b.log <+: x.log
  mono : ∀ m, Ready b m → Ready x m
  upper : ∀ fn j, FacIdx g fn = .ok j → ∃ n, x.n_pending[j]? = some n ∧
    n ≤ (pendingOperands g x i fn : Int) + (l.countP (fun f => f.name == fn) : Int)
  done : ∀ fn j n, FacIdx g fn = .ok j → x.n_pending[j]? = some n → n ≤ 0 →
    fn ∈ x.q ∨ some fn = cur ∨ Invoked g gD b x fn
  once : ∀ fn e, g.factor_dict.lookup fn = some e → (∃ p ∈ g.outputs fn, Marked gD p.name) →
    (newLog b x).count (forwardCall g fn e) ≤ 1 ∧
    (forwardCall g fn e ∈ newLog b x → Spent g x fn)

/-- Every registered operation has an operand. -/
def OperandsNonempty (g : FactorGraph) : Prop :=
  ∀ fe ∈ g.factor_dict, g.operands fe.1 ≠ []

instance (g : FactorGraph) : Decidable (OperandsNonempty g) := by
  unfold OperandsNonempty; infer_instance

/-! ## Scheduling at most once -/

/-- Lines 101-104: the names the queue loop of the forward pass takes from the
queue, in order, in at most `k` iterations. -/
def forwardTaken : Nat → FactorGraph → List String
  | 0, _ => []
  | k + 1, g =>
    match g.q with
    | [] => []
    | cur_name :: rest =>
      cur_name ::
        match forwardOne { g with q := rest } cur_name with
        | .error _ => []
        | .ok g1 => forwardTaken k g1

/-- Lines 73-136: the names `SequentialForward` takes from the queue, in order. -/
def forwardOrder (g : FactorGraph) : List String :=
  match forwardSeed g with
  | .error _ => []
  | .ok g1 => forwardTaken g1.factor_list.length g1

/-- Lines 106-120: what the forward pass logs for a dequeued name, the `Forward`
call of the operation registered under it when the scan of its outputs finds
a required one. -/
def expectedForward (g : FactorGraph) (cur : String) : List Event :=
  match g.factor_dict.lookup cur with
  | some e =>
    match anyRequired g (g.outputs cur) with
    | .ok true => [forwardCall g cur e]
    | _ => []
  | none => []

/-- What the decrements keep true of the names `hist` taken from the queue so
far and of the queue, over the name table of `g`: no name is among them
twice, and the counter of each of them is not positive. -/
structure OnceInv (g : FactorGraph) (hist : List String) (x : FactorGraph) : Prop where
  dict : x.factor_dict = g.factor_dict
  nodup : (hist ++ x.q).Nodup
  spent : ∀ n ∈ hist ++ x.q, ∃ j c, FacIdx g n = .ok j ∧ x.n_pending[j]? = some c ∧ c ≤ 0

/-- The forward pass from the state `g`, after the names `hist` were taken
from the queue: the registry and the required flags are those of `g`, and the
log since `g` holds what is logged for these names, in order. -/
structure ForwardLog (g : FactorGraph) (hist : List String) (x : FactorGraph) : Prop where
  same : SameRegistry g x
  req : x.isRequired = g.isRequired
  pre : g.log <+: x.log
  log : newLog g x = hist.flatMap (expectedForward g)

/-- A property of the names taken from the queue and of a state that the
scheduling steps keep: it reads the name table, the counters and the queue
only, it is kept when the name at the front of the queue is taken, and it is
kept by a decrement. -/
structure Scheduled (I : List String → FactorGraph → Prop) : Prop where
  of_sched : ∀ (hist : List String) (x y : FactorGraph), I hist x →
    y.factor_dict = x.factor_dict → y.n_pending = x.n_pending → y.q = x.q → I hist y
  take : ∀ (hist : List String) (x : FactorGraph) (cur : String) (rest : List String),
    I hist x → x.q = cur :: rest → I (hist ++ [cur]) { x with q := rest }
  decr : ∀ (hist : List String) (x : FactorGraph) (f : Factor), I hist x →
    I hist (finalState (decrPending x f))

/-! ## Operations without operands -/

/-- What the forward pass keeps true of the operations without operands, over
the registry `g`: every name taken from the queue or queued is a registered
operation with an operand, and the counter of an operation without operands
is not positive. -/
structure NonemptyInv (g : FactorGraph) (hist : List String) (x : FactorGraph) : Prop where
  dict : x.factor_dict = g.factor_dict
  queued : ∀ fn ∈ hist ++ x.q, FacRegistered g fn ∧ g.operands fn ≠ []
  idle : ∀ fn j, FacIdx g fn = .ok j → g.operands fn = [] →
    ∃ n, x.n_pending[j]? = some n ∧ n ≤ 0

/-! ## The counters of the backward pass -/

/-- Lines 179-182: the number of outputs of an operation that are required,
by the flags of the state `gD`. -/
def requiredOutputs (g gD : FactorGraph) (fn : String) : Nat :=
  (g.outputs fn).countP (fun p => decide (Marked gD p.name))

/-- Lines 188-195 and 222-230: the number of decrements of the counter of an
operation made for the value nodes `St`, one for each time the operation is
in the producer list of one of them. -/
def settled (g : FactorGraph) (St : List String) (fn : String) : Nat :=
  (St.map (fun v => (g.producers v).countP (fun f => f.name == fn))).sum

/-- No fan-out among the required value nodes, by the flags of the state: an
operation with a required output has no value node twice in its operand list,
and two operations with a required output have no operand in common. -/
def NoFanOut (x : FactorGraph) : Prop :=
  (∀ fe ∈ x.factor_dict, (∃ p ∈ x.outputs fe.1, Marked x p.name) →
    ((x.operands fe.1).map (fun p => p.name)).Nodup) ∧
  (∀ fe ∈ x.factor_dict, ∀ fe' ∈ x.factor_dict, fe.1 ≠ fe'.1 →
    (∃ p ∈ x.outputs fe.1, Marked x p.name) → (∃ p ∈ x.outputs fe'.1, Marked x p.name) →
    ∀ p ∈ x.operands fe.1, ∀ p' ∈ x.operands fe'.1, p.name ≠ p'.name)

instance (x : FactorGraph) : Decidable (NoFanOut x) := by
  unfold NoFanOut; infer_instance

/-- The invariant of the counters of the backward pass over the registry `g`
with the required flags of `gD`, after the names `hist` were taken from the
queue and the producers of the value nodes `St` were decremented, but for the
decrements `l` still to come: a counter is the number of required outputs
less the decrements made; a decrement to come belongs to a value node of
`St`; an operation taken or queued has a required output, all its required
outputs are in `St`, and its counter is not positive; an operation with a
required output whose counter is not positive is taken or queued; no name is
taken or queued twice. -/
structure BackCore (g gD : FactorGraph) (hist St : List String) (l : FactorList)
    (x : FactorGraph) : Prop where
  same : SameRegistry g x
  eq : ∀ fn j, FacIdx g fn = .ok j → ∃ n, x.n_pending[j]? = some n ∧
    n + (settled g St fn : Int) =
      (requiredOutputs g gD fn : Int) + (l.countP (fun f => f.name == fn) : Int)
  pend : ∀ f ∈ l, ∃ v ∈ St, f ∈ g.producers v
  nec : ∀ fn ∈ hist ++ x.q, 1 ≤ requiredOutputs g gD fn ∧
    ∀ p ∈ g.outputs fn, Marked gD p.name → p.name ∈ St
  enq : ∀ fn j n, FacIdx g fn = .ok j → x.n_pending[j]? = some n →
    1 ≤ requiredOutputs g gD fn → n ≤ 0 → fn ∈ hist ++ x.q
  spent : ∀ fn ∈ hist ++ x.q, ∃ j n, FacIdx g fn = .ok j ∧ x.n_pending[j]? = some n ∧ n ≤ 0
  nodup : (hist ++ x.q).Nodup

/-- The invariant of the queue loop of the backward pass started in the state
`b` with the seeds `targets`, between two iterations: the counters are exact
(`BackCore`); the value nodes `St` whose producers were decremented are
pairwise distinct and required, each is a seed or an operand of an operation
taken from the queue, and every seed and every such operand is among them;
an operation with a required output that consumes an output of an operation
taken from the queue was taken before it; the lines printed since `b` are the
names taken, in order. -/
structure BackLoop (g gD b : FactorGraph) (targets : List VarPtr) (hist St : List String)
    (x : FactorGraph) : Prop where
  core : BackCore g gD hist St [] x
  stNodup : St.Nodup
  stReq : ∀ v ∈ St, Marked gD v
  src : ∀ v ∈ St, (∃ t ∈ targets, t.name = v) ∨ ∃ G ∈ hist, ∃ p ∈ g.operands G, p.name = v
  cover : (∀ t ∈ targets, t.name ∈ St) ∧ ∀ G ∈ hist, ∀ p ∈ g.operands G, p.name ∈ St
  ord : ∀ pre F post, hist = pre ++ F :: post → ∀ G, FacRegistered g G →
    (∃ p ∈ g.outputs G, Marked gD p.name) →
    (∃ p ∈ g.outputs F, ∃ p' ∈ g.operands G, p'.name = p.name) → G ∈ pre
  pre : b.log <+: x.log
  taken : dequeued (newLog b x) = hist

/-- What the backward pass on a registry without fan-out relies on, over the
registry `g` with the required flags of `gD` and the seeds `targets`: the
registry is well formed with consistent adjacency, a required value node is
registered, the operands of an operation with a required output are
required, the seeds have no consumer, and there is no fan-out among the
operations with a required output. -/
structure BackSetting (g gD : FactorGraph) (targets : List VarPtr) : Prop where
  wf : WellFormed g
  cons : ConsistentAdjacency g
  mreg : ∀ v, Marked gD v → VarRegistered g v
  closed : ∀ fn, FacRegistered g fn → (∃ p ∈ g.outputs fn, Marked gD p.name) →
    ∀ p ∈ g.operands fn, Marked gD p.name
  top : ∀ t ∈ targets, (g.consumers t.name).length = 0
  once : ∀ fn, FacRegistered g fn → (∃ p ∈ g.outputs fn, Marked gD p.name) →
    ((g.operands fn).map (fun p => p.name)).Nodup
  apart : ∀ fn fn', FacRegistered g fn → FacRegistered g fn' → fn ≠ fn' →
    (∃ p ∈ g.outputs fn, Marked gD p.name) → (∃ p ∈ g.outputs fn', Marked gD p.name) →
    ∀ p ∈ g.operands fn, ∀ p' ∈ g.operands fn', p.name ≠ p'.name

/-! ## The name read after `q.pop()` -/

/-- The state after `factor_dict[name]` was evaluated: a missing key got the
default entry, whose operation is the null pointer. -/
def FactorGraph.touchOp (g : FactorGraph) (name : String) : FactorGraph :=
  { g with factor_dict := g.factor_dict.touch name }

/-- Lines 106-134 without the assumption of `forwardOne`. The reference
`cur_name` is bound to `q.front()` at line 103 and the string it refers to is
destroyed by `q.pop()` at line 104; what lines 106-108 read through it is not
defined by the language. `read` gives, for the dequeued name, the string
these lines see. `factor_dict[...]` and `factorEdges[...]` insert a default
entry for a key they do not hold. The null pointer of a default entry is the
default record: `factor->Forward` on it ends the call with `Err.nullFactor`. -/
def forwardOneRead (read : String → String) (g : FactorGraph) (cur_name : String) :
    Run FactorGraph :=
  let name := read cur_name
  let g1 := (g.touchOp name).touchFac name
  match anyRequired g1 (g1.outputs name) with
  | .error err => .error (err, g1)
  | .ok false => .ok g1
  | .ok true =>
    let factor := (g1.factor_dict.get name).2
    if factor = default then .error (Err.nullFactor name, g1)
    else
      let g2 := { g1 with log := g1.log ++
        [Event.forward factor (g1.operands name) (g1.outputs name)] }
      (g2.outputs name).foldlM readyOutput g2

/-- Lines 101-135 with `forwardOneRead`: at most `k` iterations of the queue loop. -/
def forwardIterRead (read : String → String) : Nat → FactorGraph → Run FactorGraph
  | 0, g => .ok g
  | k + 1, g =>
    match g.q with
    | [] => .ok g
    | cur_name :: rest =>
      match forwardOneRead read { g with q := rest } cur_name with
      | .error e => .error e
      | .ok g1 => forwardIterRead read k g1

/-- Lines 101-135 with `forwardOneRead`: the queue loop. -/
def forwardLoopRead (read : String → String) (fuel : Nat) (g : FactorGraph) :
    Run FactorGraph :=
  match forwardIterRead read fuel g with
  | .error e => .error e
  | .ok g1 =>
    match g1.q with
    | [] => .ok g1
    | _ :: _ => .error (Err.outOfFuel, g1)

/-- Lines 73-136 with `forwardOneRead`: `SequentialForward`. -/
def SequentialForwardRead (read : String → String) (g : FactorGraph) : Run FactorGraph :=
  match forwardSeed g with
  | .error e => .error e
  | .ok g1 => forwardLoopRead read g1.factor_list.length g1

/-- Lines 138-172 with `forwardOneRead`: `FeedForward`. -/
def FeedForwardRead (read : String → String) (g : FactorGraph) (targets : List VarPtr)
    (feed_dict : Dict RawData) (n_thread : Nat) : Run (VarList × FactorGraph) :=
  match prepareForward g targets feed_dict with
  | .error e => .error e
  | .ok g1 =>
    if n_thread = 1 then
      match SequentialForwardRead read g1 with
      | .error e => .error e
      | .ok g2 =>
        match checkReady g2 targets with
        | .error e => .error (e, g2)
        | .ok _ => .ok (targets, g2)
    else .error (Err.notImplemented, g1)

/-- Lines 199-231 without the assumption of `backwardOne`. The name is
printed at line 200, before `q.pop()` at line 201; lines 203-205 read it
through the reference after the string was destroyed, and see `read` of it.
Line 207 reads `factor->properr`: on the null pointer of a default entry the
call ends with `Err.nullFactor`. -/
def backwardOneRead (read : String → String) (g : FactorGraph) (cur_name : String) :
    Run FactorGraph :=
  let g0 := { g with log := g.log ++ [Event.print cur_name] }
  let name := read cur_name
  let g1 := (g0.touchOp name).touchFac name
  let factor := (g1.factor_dict.get name).2
  if factor = default then .error (Err.nullFactor name, g1)
  else
    let g2 :=
      if backNecessary factor (g1.operands name) then
        { g1 with log := g1.log ++
          [Event.backward factor (g1.operands name) (g1.outputs name)] }
      else g1
    (g2.operands name).foldlM backOperand g2

/-- Lines 197-232 with `backwardOneRead`: at most `k` iterations of the queue loop. -/
def backwardIterRead (read : String → String) : Nat → FactorGraph → Run FactorGraph
  | 0, g => .ok g
  | k + 1, g =>
    match g.q with
    | [] => .ok g
    | cur_name :: rest =>
      match backwardOneRead read { g with q := rest } cur_name with
      | .error e => .error e
      | .ok g1 => backwardIterRead read k g1

/-- Lines 197-232 with `backwardOneRead`: the queue loop. -/
def backwardLoopRead (read : String → String) (fuel : Nat) (g : FactorGraph) :
    Run FactorGraph :=
  match backwardIterRead read fuel g with
  | .error e => .error e
  | .ok g1 =>
    match g1.q with
    | [] => .ok g1
    | _ :: _ => .error (Err.outOfFuel, g1)

/-- Lines 174-234 with `backwardOneRead`: `SequentialBackward`. -/
def SequentialBackwardRead (read : String → String) (g : FactorGraph)
    (targets : List VarPtr) : Run FactorGraph :=
  match backwardSeed g targets with
  | .error e => .error e
  | .ok g1 => backwardLoopRead read g1.factor_list.length g1

/-- Lines 236-261 with `backwardOneRead`: `BackPropagate`. -/
def BackPropagateRead (read : String → String) (g : FactorGraph) (targets : List VarPtr)
    (n_thread : Nat) : Run FactorGraph :=
  if scratchConsistent g then
    match targets.foldlM seedGrad (zeroGrads g) with
    | .error e => .error e
    | .ok g1 =>
      if n_thread = 1 then SequentialBackwardRead read g1 targets
      else .error (Err.notImplemented, g1)
  else .error (Err.graphChanged, g)

/-- No registered operation is the null pointer. -/
def NoNullFactor (g : FactorGraph) : Prop :=
  ∀ fe ∈ g.factor_dict, fe.2.2 ≠ default

instance (g : FactorGraph) : Decidable (NoNullFactor g) := by
  unfold NoNullFactor; infer_instance

/-- Every registered operation name is read back unchanged through the
reference. -/
def ReadsBack (read : String → String) (g : FactorGraph) : Prop :=
  ∀ fe ∈ g.factor_dict, read fe.1 = fe.1

/-- The state after `factor_dict[name]` and `factorEdges[name]` were evaluated
for a name that is a key of neither map: each got a default entry. -/
def FactorGraph.withNull (g : FactorGraph) (name : String) : FactorGraph :=
  { g with factor_dict := g.factor_dict ++ [(name, default)], factorEdges := g.factorEdges ++ [(name, default)] }

/-! ## Registries of the scenarios -/

namespace Example

def a : Variable := ⟨"a", false⟩

def b : Variable := ⟨"b", false⟩

def c : Variable := ⟨"c", false⟩

def d : Variable := ⟨"d", false⟩

def e : Variable := ⟨"e", false⟩

def square : Factor := ⟨"square", PropErr.T⟩

def double : Factor := ⟨"double", PropErr.T⟩

/-- The pruning scenario: `a` is fed, `d = square(a)`, `e = double(a)`. -/
def pruning : FactorGraph :=
  { FactorGraph.empty with
    var_dict := [("a", (0, a)), ("d", (1, d)), ("e", (2, e))]
    var_list := [a, d, e]
    factor_dict := [("square", (0, square)), ("double", (1, double))]
    factor_list := [square, double]
    factorEdges := [("square", ([a], [d])), ("double", ([a], [e]))]
    varEdges := [("a", ([], [square, double])), ("d", ([square], [])), ("e", ([double], []))] }

/-- The state the query `Forward({d}, {a: 5})` leaves of the pruning scenario. -/
def afterForward : FactorGraph :=
  finalState2 (FeedForward pruning [d] [("a", 5)] 1)

/-- A value node that is not registered. -/
def stranger : Variable := ⟨"z", false⟩

def opP : Factor := ⟨"P", PropErr.T⟩

def opG : Factor := ⟨"G", PropErr.T⟩

/-- A fed value node with a producer: `b = P(a)` and `d = G(b, c)`, where `a`
and `b` are fed and `c` is neither fed nor produced. -/
def fedProduced : FactorGraph :=
  { FactorGraph.empty with
    var_dict := [("a", (0, a)), ("b", (1, b)), ("c", (2, c)), ("d", (3, d))]
    var_list := [a, b, c, d]
    factor_dict := [("P", (0, opP)), ("G", (1, opG))]
    factor_list := [opP, opG]
    factorEdges := [("P", ([a], [b])), ("G", ([b, c], [d]))]
    varEdges := [("a", ([], [opP])), ("b", ([opP], [opG])), ("c", ([], [opG])),
      ("d", ([opG], []))] }

/-- The state of the forward pass of `Forward({d}, {a: 1, b: 2})` on
`fedProduced` after `k` iterations of the queue loop. -/
def fedProducedAt (k : Nat) : FactorGraph :=
  finalState (forwardIter k (finalState (forwardSeed
    (finalState (prepareForward fedProduced [d] [("a", 1), ("b", 2)])))))

/-- The state of the forward pass of the pruning scenario after `k` iterations
of the queue loop. -/
def pruningAt (k : Nat) : FactorGraph :=
  finalState (forwardIter k (finalState (forwardSeed
    (finalState (prepareForward pruning [d] [("a", 5)])))))

def split : Factor := ⟨"split", PropErr.T⟩

/-- One operation with two outputs: `a` is fed and `(d, e) = split(a)`. -/
def twoOutputs : FactorGraph :=
  { FactorGraph.empty with
    var_dict := [("a", (0, a)), ("d", (1, d)), ("e", (2, e))]
    var_list := [a, d, e]
    factor_dict := [("split", (0, split))]
    factor_list := [split]
    factorEdges := [("split", ([a], [d, e]))]
    varEdges := [("a", ([], [split])), ("d", ([split], [])), ("e", ([split], []))] }

def x : Variable := ⟨"x", false⟩

def w : Variable := ⟨"w", false⟩

def y1 : Variable := ⟨"y1", false⟩

def y2 : Variable := ⟨"y2", false⟩

def opF : Factor := ⟨"F", PropErr.T⟩

def opG1 : Factor := ⟨"G1", PropErr.T⟩

def opG2 : Factor := ⟨"G2", PropErr.T⟩

def opG3 : Factor := ⟨"G3", PropErr.T⟩

/-- A fan-out: `x = F(a)` has the consumers `G1` and `G2`, with `y1 = G1(x)`,
`w = G2(x)` and `y2 = G3(w)`. -/
def fanOut : FactorGraph :=
  { FactorGraph.empty with
    var_dict := [("a", (0, a)), ("x", (1, x)), ("y1", (2, y1)), ("w", (3, w)), ("y2", (4, y2))]
    var_list := [a, x, y1, w, y2]
    factor_dict := [("F", (0, opF)), ("G1", (1, opG1)), ("G2", (2, opG2)), ("G3", (3, opG3))]
    factor_list := [opF, opG1, opG2, opG3]
    factorEdges := [("F", ([a], [x])), ("G1", ([x], [y1])), ("G2", ([x], [w])),
      ("G3", ([w], [y2]))]
    varEdges := [("a", ([], [opF])), ("x", ([opF], [opG1, opG2])), ("y1", ([opG1], [])),
      ("w", ([opG2], [opG3])), ("y2", ([opG3], []))] }

/-- The state the query `Forward({y1, y2}, {a: 1})` leaves of the fan-out. -/
def fanOutForward : FactorGraph :=
  finalState2 (FeedForward fanOut [y1, y2] [("a", 1)] 1)

/-- The state the query `Forward({d, e}, {a: 5})` leaves of the pruning scenario. -/
def afterForwardBoth : FactorGraph :=
  finalState2 (FeedForward pruning [d, e] [("a", 5)] 1)

def mul : Factor := ⟨"mul", PropErr.T⟩

/-- The multiplication scenario: `a` and `b` are fed and `c = mul(a, b)`. -/
def product : FactorGraph :=
  { FactorGraph.empty with
    var_dict := [("a", (0, a)), ("b", (1, b)), ("c", (2, c))]
    var_list := [a, b, c]
    factor_dict := [("mul", (0, mul))]
    factor_list := [mul]
    factorEdges := [("mul", ([a, b], [c]))]
    varEdges := [("a", ([], [mul])), ("b", ([], [mul])), ("c", ([mul], []))] }

/-- The state the query `Forward({c}, {a: 2, b: 3})` leaves of the
multiplication scenario. -/
def productForward : FactorGraph :=
  finalState2 (FeedForward product [c] [("a", 2), ("b", 3)] 1)

/-- The operation with the policy `PropErr::N`. -/
def silent (f : Factor) : Factor := { f with properr := PropErr.N }

/-- The value node made constant when it is `a`. -/
def frozen (v : Variable) : Variable := if v.name = "a" then { v with isConst := true } else v

/-- The fan-out after its forward query, with every policy set to `PropErr::N`
and the value node `a` made constant. -/
def fanOutSilent : FactorGraph := relabel silent frozen fanOutForward

/-- An operation that is registered without operands. -/
def opInit : Factor := ⟨"init", PropErr.T⟩

/-- A registry whose only operation has no operand: `c = init()`. -/
def source : FactorGraph :=
  { FactorGraph.empty with
    var_dict := [("c", (0, c))]
    var_list := [c]
    factor_dict := [("init", (0, opInit))]
    factor_list := [opInit]
    factorEdges := [("init", ([], [c]))]
    varEdges := [("c", ([opInit], []))] }

/-- A chain without fan-out: `a` is fed, `b = P(a)`, `c = G(b)`. -/
def chain : FactorGraph :=
  { FactorGraph.empty with
    var_dict := [("a", (0, a)), ("b", (1, b)), ("c", (2, c))]
    var_list := [a, b, c]
    factor_dict := [("P", (0, opP)), ("G", (1, opG))]
    factor_list := [opP, opG]
    factorEdges := [("P", ([a], [b])), ("G", ([b], [c]))]
    varEdges := [("a", ([], [opP])), ("b", ([opP], [opG])), ("c", ([opG], []))] }

/-- The state the query `Forward({c}, {a: 5})` leaves of the chain. -/
def chainForward : FactorGraph :=
  finalState2 (FeedForward chain [c] [("a", 5)] 1)

/-- An operation whose name has eighteen characters. -/
def opLong : Factor := ⟨"matrix_multiply_op", PropErr.T⟩

/-- A chain whose middle operation has a long name: `b = P(a)`,
`c = matrix_multiply_op(b)` and `d = G(c)`. -/
def longChain : FactorGraph :=
  { FactorGraph.empty with
    var_dict := [("a", (0, a)), ("b", (1, b)), ("c", (2, c)), ("d", (3, d))]
    var_list := [a, b, c, d]
    factor_dict := [("P", (0, opP)), ("matrix_multiply_op", (1, opLong)), ("G", (2, opG))]
    factor_list := [opP, opLong, opG]
    factorEdges := [("P", ([a], [b])), ("matrix_multiply_op", ([b], [c])), ("G", ([c], [d]))]
    varEdges := [("a", ([], [opP])), ("b", ([opP], [opLong])), ("c", ([opLong], [opG])),
      ("d", ([opG], []))] }

/-- The state of `Forward({d}, {a: 5})` on the long-named chain when the queue
loop starts: `P` is queued. -/
def longSeeded : FactorGraph :=
  { longChain with
    isReady := [true, false, false, false]
    isRequired := [true, true, true, true]
    n_pending := [0, 1, 1]
    q := ["P"]
    log := [Event.setRef "a" 5] }

/-- The state of that query after `P` was dequeued and invoked:
`matrix_multiply_op` is queued. -/
def longAfterP : FactorGraph :=
  { longSeeded with
    isReady := [true, true, false, false]
    n_pending := [0, 0, 1]
    q := ["matrix_multiply_op"]
    log := [Event.setRef "a" 5, Event.forward opP [a] [b]] }

/-- The state that query ends in when `matrix_multiply_op` was read back as
`garbage`, a key of no map: the maps hold the key `garbage`, the queue is
empty, and `c` and `d` are not ready. -/
def longStuck (garbage : String) : FactorGraph :=
  { longAfterP with
    factor_dict := longChain.factor_dict ++ [(garbage, default)]
    factorEdges := longChain.factorEdges ++ [(garbage, default)]
    q := [] }

/-- The state of `Forward({d}, {a: 5, c: 7})` on the long-named chain when the
queue loop starts: `P` and `G` are queued. -/
def longSeededBoth : FactorGraph :=
  { longChain with
    isReady := [true, false, true, false]
    isRequired := [true, true, true, true]
    n_pending := [0, 1, 0]
    q := ["P", "G"]
    log := [Event.setRef "a" 5, Event.setRef "c" 7] }

/-- The state of that query after `P` was dequeued and invoked. -/
def longBothP : FactorGraph :=
  { longSeededBoth with
    isReady := [true, true, true, false]
    n_pending := [0, 0, 0]
    q := ["G", "matrix_multiply_op"]
    log := [Event.setRef "a" 5, Event.setRef "c" 7, Event.forward opP [a] [b]] }

/-- The state of that query after `G` was dequeued and invoked. -/
def longBothG : FactorGraph :=
  { longBothP with
    isReady := [true, true, true, true]
    q := ["matrix_multiply_op"]
    log := [Event.setRef "a" 5, Event.setRef "c" 7, Event.forward opP [a] [b],
      Event.forward opG [c] [d]] }

/-- The state that query returns when `matrix_multiply_op` was read back as
`garbage`, a key of no map: the maps hold the key `garbage`, and
`matrix_multiply_op` was not invoked. -/
def longForward (garbage : String) : FactorGraph :=
  { longBothG with
    factor_dict := longChain.factor_dict ++ [(garbage, default)]
    factorEdges := longChain.factorEdges ++ [(garbage, default)]
    q := [] }

/-- The state of `Backward({d})` after `longForward` when the gradients are
set. -/
def longGraded (garbage : String) : FactorGraph :=
  { longForward garbage with
    log := [Event.setRef "a" 5, Event.setRef "c" 7, Event.forward opP [a] [b],
      Event.forward opG [c] [d], Event.zeroGrad a, Event.zeroGrad b, Event.zeroGrad c,
      Event.zeroGrad d, Event.onesGrad d] }

/-- The state of that query when the queue loop starts: `G` is queued. -/
def longBackSeeded (garbage : String) : FactorGraph :=
  { longGraded garbage with n_pending := [1, 1, 0], q := ["G"] }

/-- The state of that query after `G` was dequeued: `matrix_multiply_op` is
queued. -/
def longBackG (garbage : String) : FactorGraph :=
  { longGraded garbage with
    n_pending := [1, 0, 0]
    q := ["matrix_multiply_op"]
    log := [Event.setRef "a" 5, Event.setRef "c" 7, Event.forward opP [a] [b],
      Event.forward opG [c] [d], Event.zeroGrad a, Event.zeroGrad b, Event.zeroGrad c,
      Event.zeroGrad d, Event.onesGrad d, Event.print "G", Event.backward opG [c] [d]] }

/-- The state that query ends in: the name is printed, the maps are read at
`garbage`, and line 207 dereferences the null pointer found there. `P` is
never queued. -/
def longBackEnd (garbage : String) : FactorGraph :=
  { longBackG garbage with
    q := []
    log := [Event.setRef "a" 5, Event.setRef "c" 7, Event.forward opP [a] [b],
      Event.forward opG [c] [d], Event.zeroGrad a, Event.zeroGrad b, Event.zeroGrad c,
      Event.zeroGrad d, Event.onesGrad d, Event.print "G", Event.backward opG [c] [d],
      Event.print "matrix_multiply_op"] }

/-- A read through the dangling reference that gives back a name shorter than
sixteen characters and the empty string for a longer one. -/
def shortRead (n : String) : String := if n.length < 16 then n else ""

end Example

end gnn

/-! # Theorems -/

namespace gnn

/-! ## Maps -/

theorem Dict.mem_of_lookup {α : Type} (d : Dict α) (k : String) (v : α)
    (h : d.lookup k = some v) : (k, v) ∈ d := by
  induction d with
  | nil => simp at h
  | cons e d ih =>
    obtain ⟨k', v'⟩ := e
    rw [List.lookup_cons] at h
    by_cases hk : k = k'
    · subst hk
      simp at h
      subst h
      exact List.mem_cons_self _ _
    · have : (k == k') = false := by simpa using hk
      rw [this] at h
      exact List.mem_cons_of_mem _ (ih h)

theorem Dict.get_mem_or_default {α : Type} [Inhabited α] (d : Dict α) (k : String) :
    (k, d.get k) ∈ d ∨ d.get k = default := by
  unfold Dict.get
  cases h : d.lookup k with
  | none => right; rfl
  | some v => left; exact Dict.mem_of_lookup d k v h

theorem Dict.get_mem {α : Type} [Inhabited α] (d : Dict α) (k : String) (x : α)
    (hx : x ≠ default) (h : d.get k = x) : (k, x) ∈ d := by
  rcases Dict.get_mem_or_default d k with hm | hd
  · rw [h] at hm; exact hm
  · rw [h] at hd; exact absurd hd hx

theorem Dict.get_touch {α : Type} [Inhabited α] (d : Dict α) (k n : String) :
    (d.touch k).get n = d.get n := by
  unfold Dict.touch Dict.get
  by_cases h : (d.lookup k).isSome = true
  · simp [h]
  · simp only [h]
    rw [if_neg (by simp), List.lookup_append]
    cases hn : d.lookup n with
    | some v => simp
    | none =>
      simp only [Option.none_or, List.lookup_cons, List.lookup_nil]
      by_cases hk : n = k
      · subst hk; simp
      · have : (n == k) = false := by simpa using hk
        simp [this]

/-! ## The registry is left as it is -/

theorem SameRegistry.refl (g : FactorGraph) : SameRegistry g g :=
  ⟨rfl, rfl, rfl, rfl, rfl, fun _ => rfl, fun _ => rfl⟩

theorem SameRegistry.trans {a b c : FactorGraph} (h1 : SameRegistry a b)
    (h2 : SameRegistry b c) : SameRegistry a c :=
  ⟨h2.var_dict.trans h1.var_dict, h2.factor_dict.trans h1.factor_dict,
   h2.var_list.trans h1.var_list, h2.factor_list.trans h1.factor_list,
   h2.ready_dict.trans h1.ready_dict,
   fun n => (h2.varEdges n).trans (h1.varEdges n),
   fun n => (h2.factorEdges n).trans (h1.factorEdges n)⟩

theorem SameRegistry.of_touchVar (g : FactorGraph) (n : String) :
    SameRegistry g (g.touchVar n) :=
  ⟨rfl, rfl, rfl, rfl, rfl, fun k => Dict.get_touch g.varEdges n k, fun _ => rfl⟩

theorem SameRegistry.of_touchFac (g : FactorGraph) (n : String) :
    SameRegistry g (g.touchFac n) :=
  ⟨rfl, rfl, rfl, rfl, rfl, fun _ => rfl, fun k => Dict.get_touch g.factorEdges n k⟩

theorem SameRegistry.producers_eq {g g' : FactorGraph} (h : SameRegistry g g') (n : String) :
    g'.producers n = g.producers n := by
  unfold FactorGraph.producers; rw [h.varEdges]

theorem SameRegistry.consumers_eq {g g' : FactorGraph} (h : SameRegistry g g') (n : String) :
    g'.consumers n = g.consumers n := by
  unfold FactorGraph.consumers; rw [h.varEdges]

theorem SameRegistry.operands_eq {g g' : FactorGraph} (h : SameRegistry g g') (n : String) :
    g'.operands n = g.operands n := by
  unfold FactorGraph.operands; rw [h.factorEdges]

theorem SameRegistry.outputs_eq {g g' : FactorGraph} (h : SameRegistry g g') (n : String) :
    g'.outputs n = g.outputs n := by
  unfold FactorGraph.outputs; rw [h.factorEdges]

theorem SameRegistry.varIdx_eq {g g' : FactorGraph} (h : SameRegistry g g') (n : String) :
    VarIdx g' n = VarIdx g n := by
  unfold VarIdx; rw [h.var_dict]

theorem SameRegistry.facIdx_eq {g g' : FactorGraph} (h : SameRegistry g g') (n : String) :
    FacIdx g' n = FacIdx g n := by
  unfold FacIdx; rw [h.factor_dict]

/-! ## Loops over lists -/

theorem foldlM_ok_post {α : Type} (f : FactorGraph → α → Run FactorGraph)
    (P : FactorGraph → Prop) (Q : α → Prop) (Post : α → FactorGraph → Prop)
    (hf : ∀ g a, P g → Q a →
      ∃ g', f g a = .ok g' ∧ P g' ∧ Post a g' ∧ ∀ b, Post b g → Post b g') :
    ∀ (l : List α) (g : FactorGraph), P g → (∀ a ∈ l, Q a) →
      ∃ g', l.foldlM f g = .ok g' ∧ P g' ∧ (∀ a ∈ l, Post a g') ∧
        ∀ b, Post b g → Post b g' := by
  intro l
  induction l with
  | nil =>
    intro g hP _
    exact ⟨g, rfl, hP, by simp, fun _ h => h⟩
  | cons a l ih =>
    intro g hP hQ
    obtain ⟨g1, h1, hP1, hpost1, hmono1⟩ := hf g a hP (hQ a (List.mem_cons_self _ _))
    obtain ⟨g2, h2, hP2, hpost2, hmono2⟩ :=
      ih g1 hP1 (fun b hb => hQ b (List.mem_cons_of_mem _ hb))
    refine ⟨g2, ?_, hP2, ?_, fun b hb => hmono2 b (hmono1 b hb)⟩
    · rw [List.foldlM_cons, h1]; exact h2
    · intro b hb
      rcases List.mem_cons.mp hb with rfl | hb
      · exact hmono2 _ hpost1
      · exact hpost2 b hb

theorem foldlM_ok {α : Type} (f : FactorGraph → α → Run FactorGraph)
    (P : FactorGraph → Prop) (Q : α → Prop)
    (hf : ∀ g a, P g → Q a → ∃ g', f g a = .ok g' ∧ P g') :
    ∀ (l : List α) (g : FactorGraph), P g → (∀ a ∈ l, Q a) →
      ∃ g', l.foldlM f g = .ok g' ∧ P g' := by
  intro l g hP hQ
  obtain ⟨g', h, hP', _⟩ := foldlM_ok_post f P Q (fun _ _ => True)
    (fun g a hp hq => by
      obtain ⟨g', h, hP'⟩ := hf g a hp hq
      exact ⟨g', h, hP', trivial, fun _ _ => trivial⟩) l g hP hQ
  exact ⟨g', h, hP'⟩

theorem foldlM_final {α : Type} (f : FactorGraph → α → Run FactorGraph)
    (P : FactorGraph → Prop) (Q : α → Prop)
    (hf : ∀ g a, P g → Q a → P (finalState (f g a))) :
    ∀ (l : List α) (g : FactorGraph), P g → (∀ a ∈ l, Q a) →
      P (finalState (l.foldlM f g)) := by
  intro l
  induction l with
  | nil => intro g hP _; exact hP
  | cons a l ih =>
    intro g hP hQ
    have h1 := hf g a hP (hQ a (List.mem_cons_self _ _))
    rw [List.foldlM_cons]
    cases hfa : f g a with
    | error e => rw [hfa] at h1; exact h1
    | ok g1 =>
      rw [hfa] at h1
      exact ih g1 h1 (fun b hb => hQ b (List.mem_cons_of_mem _ hb))

/-! ## Lookups -/

theorem varIdx_ok_iff (g : FactorGraph) (n : String) (i : Nat) :
    VarIdx g n = .ok i ↔ ∃ v, g.var_dict.lookup n = some (i, v) := by
  unfold VarIdx
  cases h : g.var_dict.lookup n with
  | none => simp
  | some e =>
    obtain ⟨j, v⟩ := e
    simp only [Except.ok.injEq, Option.some.injEq, Prod.mk.injEq]
    constructor
    · intro hj; exact ⟨v, hj, rfl⟩
    · rintro ⟨_, hj, _⟩; exact hj

theorem varIdx_of_registered {g : FactorGraph} {n : String} (h : VarRegistered g n) :
    ∃ i, VarIdx g n = .ok i := by
  unfold VarRegistered at h
  unfold VarIdx
  cases hl : g.var_dict.lookup n with
  | none => rw [hl] at h; simp at h
  | some e => exact ⟨e.1, rfl⟩

theorem registered_of_varIdx {g : FactorGraph} {n : String} {i : Nat}
    (h : VarIdx g n = .ok i) : VarRegistered g n := by
  obtain ⟨v, hv⟩ := (varIdx_ok_iff g n i).mp h
  unfold VarRegistered; rw [hv]; rfl

theorem varIdx_error {g : FactorGraph} {n : String} (h : ¬ VarRegistered g n) :
    VarIdx g n = .error (Err.varNotRegistered n) := by
  unfold VarRegistered at h
  unfold VarIdx
  cases hl : g.var_dict.lookup n with
  | none => rfl
  | some e => rw [hl] at h; simp at h

theorem varIdx_inj {g : FactorGraph} (h : VarsIndexed g) {a b : String} {i : Nat}
    (ha : VarIdx g a = .ok i) (hb : VarIdx g b = .ok i) : a = b := by
  obtain ⟨va, ha⟩ := (varIdx_ok_iff g a i).mp ha
  obtain ⟨vb, hb⟩ := (varIdx_ok_iff g b i).mp hb
  have ma := Dict.mem_of_lookup _ _ _ ha
  have mb := Dict.mem_of_lookup _ _ _ hb
  have := List.inj_on_of_nodup_map h.1 ma mb rfl
  exact congrArg Prod.fst this

theorem varIdx_lt {g : FactorGraph} (h : VarsIndexed g) {a : String} {i : Nat}
    (ha : VarIdx g a = .ok i) : i < g.var_dict.size := by
  obtain ⟨va, ha⟩ := (varIdx_ok_iff g a i).mp ha
  exact h.2 _ (Dict.mem_of_lookup _ _ _ ha)

theorem operands_registered {g : FactorGraph} (h : EdgeVarsRegistered g) {fn : String}
    {p : Variable} (hp : p ∈ g.operands fn) : VarRegistered g p.name := by
  unfold FactorGraph.operands at hp
  rcases Dict.get_mem_or_default g.factorEdges fn with hm | hd
  · exact h _ hm p (List.mem_append_left _ hp)
  · rw [hd] at hp; simp [default] at hp

theorem outputs_registered {g : FactorGraph} (h : EdgeVarsRegistered g) {fn : String}
    {p : Variable} (hp : p ∈ g.outputs fn) : VarRegistered g p.name := by
  unfold FactorGraph.outputs at hp
  rcases Dict.get_mem_or_default g.factorEdges fn with hm | hd
  · exact h _ hm p (List.mem_append_right _ hp)
  · rw [hd] at hp; simp [default] at hp

theorem producers_registered {g : FactorGraph} (h : EdgeFactorsRegistered g) {n : String}
    {f : Factor} (hf : f ∈ g.producers n) : FacRegistered g f.name := by
  unfold FactorGraph.producers at hf
  rcases Dict.get_mem_or_default g.varEdges n with hm | hd
  · exact h _ hm f (List.mem_append_left _ hf)
  · rw [hd] at hf; simp [default] at hf

theorem consumers_registered {g : FactorGraph} (h : EdgeFactorsRegistered g) {n : String}
    {f : Factor} (hf : f ∈ g.consumers n) : FacRegistered g f.name := by
  unfold FactorGraph.consumers at hf
  rcases Dict.get_mem_or_default g.varEdges n with hm | hd
  · exact h _ hm f (List.mem_append_right _ hf)
  · rw [hd] at hf; simp [default] at hf

/-! ## Flags -/

theorem count_false_set (l : List Bool) (i : Nat) (h : l[i]? = some false) :
    (l.set i true).count false + 1 = l.count false := by
  induction l generalizing i with
  | nil => simp at h
  | cons x l ih =>
    cases i with
    | zero =>
      simp at h
      subst h
      simp
    | succ i =>
      simp at h
      have := ih i h
      cases x <;> simp [List.count_cons] <;> omega

theorem getElem?_set_true (l : List Bool) (i j : Nat) (hi : i < l.length) :
    (l.set i true)[j]? = some true ↔ (l[j]? = some true ∨ j = i) := by
  by_cases hji : i = j
  · subst hji
    simp [hi]
  · rw [List.getElem?_set_ne hji]
    constructor
    · intro h; exact Or.inl h
    · rintro (h | h)
      · exact h
      · exact absurd h.symm hji

theorem marked_set (g g' : FactorGraph) (hidx : VarsIndexed g) {pn : String} {i : Nat}
    (hd : g'.var_dict = g.var_dict) (hi : VarIdx g pn = .ok i) (hlt : i < g.isRequired.length)
    (hr : g'.isRequired = g.isRequired.set i true) (n : String) :
    Marked g' n ↔ (Marked g n ∨ n = pn) := by
  have hv : ∀ k, VarIdx g' k = VarIdx g k := fun k => by unfold VarIdx; rw [hd]
  unfold Marked
  constructor
  · rintro ⟨j, hj, hf⟩
    rw [hv] at hj
    rw [hr, getElem?_set_true _ _ _ hlt] at hf
    rcases hf with hf | hf
    · exact Or.inl ⟨j, hj, hf⟩
    · subst hf; exact Or.inr (varIdx_inj hidx hj hi)
  · rintro (⟨j, hj, hf⟩ | rfl)
    · exact ⟨j, (hv n).trans hj, by rw [hr, getElem?_set_true _ _ _ hlt]; exact Or.inl hf⟩
    · exact ⟨i, (hv _).trans hi, by rw [hr, getElem?_set_true _ _ _ hlt]; exact Or.inr rfl⟩

/-! ## DependencyParse computes the closure -/

theorem markOperand_inv {g₀ : FactorGraph} {targets : List VarPtr} {cur : Option String}
    {m : Nat} (hidx : VarsIndexed g₀) (g : FactorGraph) (p : VarPtr)
    (hI : ParseInv g₀ targets cur m g) (hreg : VarRegistered g₀ p.name)
    (hreach : Reach g₀ targets p.name) :
    ∃ g', markOperand g p = .ok g' ∧ ParseInv g₀ targets cur m g' ∧ Marked g' p.name ∧
      ∀ b, Marked g b → Marked g' b := by
  obtain ⟨i, hi⟩ := varIdx_of_registered hreg
  have hig : VarIdx g p.name = .ok i := by rw [hI.same.varIdx_eq]; exact hi
  have hlt : i < g.isRequired.length := by rw [hI.len]; exact varIdx_lt hidx hi
  have hgidx : VarsIndexed g := by
    unfold VarsIndexed; rw [hI.same.var_dict]; exact hidx
  obtain ⟨b, hb⟩ : ∃ b, g.isRequired[i]? = some b := ⟨_, List.getElem?_eq_getElem hlt⟩
  unfold markOperand
  rw [hig]
  dsimp only
  rw [hb]
  cases b with
  | true => exact ⟨g, rfl, hI, ⟨i, hig, hb⟩, fun _ h => h⟩
  | false =>
    have hm : ∀ n, Marked
        { g with isRequired := g.isRequired.set i true, q := g.q ++ [p.name] } n ↔
          (Marked g n ∨ n = p.name) :=
      fun n => marked_set g
        { g with isRequired := g.isRequired.set i true, q := g.q ++ [p.name] }
        hgidx rfl hig hlt rfl n
    refine ⟨_, rfl, ?_, (hm _).mpr (Or.inr rfl), fun n hn => (hm _).mpr (Or.inl hn)⟩
    refine ⟨⟨hI.same.var_dict, hI.same.factor_dict, hI.same.var_list, hI.same.factor_list,
      hI.same.ready_dict, hI.same.varEdges, hI.same.factorEdges⟩, ?_, ?_, ?_, ?_, ?_, ?_⟩
    · simp [hI.len]
    · intro n hn
      rcases (hm n).mp hn with h | h
      · exact hI.sound n h
      · subst h; exact hreach
    · intro t ht; exact (hm _).mpr (Or.inl (hI.tgt t ht))
    · intro n hn
      simp only [List.mem_append, List.mem_singleton] at hn
      rcases hn with h | h
      · exact (hm _).mpr (Or.inl (hI.queued n h))
      · exact (hm _).mpr (Or.inr h)
    · intro u hu hq hc f hf x hx
      simp only [List.mem_append, List.mem_singleton, not_or] at hq
      rcases (hm u).mp hu with h | h
      · exact (hm _).mpr (Or.inl (hI.closed u h hq.1 hc f hf x hx))
      · exact absurd h hq.2
    · have := count_false_set g.isRequired i hb
      have := hI.measure
      simp only [List.length_append, List.length_singleton]
      omega

theorem ParseInv.parse_after_touchFac {g₀ : FactorGraph} {targets : List VarPtr} {cur : Option String}
    {m : Nat} {g : FactorGraph} (hI : ParseInv g₀ targets cur m g) (n : String) :
    ParseInv g₀ targets cur m (g.touchFac n) :=
  ⟨hI.same.trans (SameRegistry.of_touchFac g n), hI.len, hI.sound, hI.tgt, hI.queued,
   hI.closed, hI.measure⟩

theorem ParseInv.parse_after_touchVar {g₀ : FactorGraph} {targets : List VarPtr} {cur : Option String}
    {m : Nat} {g : FactorGraph} (hI : ParseInv g₀ targets cur m g) (n : String) :
    ParseInv g₀ targets cur m (g.touchVar n) :=
  ⟨hI.same.trans (SameRegistry.of_touchVar g n), hI.len, hI.sound, hI.tgt, hI.queued,
   hI.closed, hI.measure⟩

theorem parseFactor_inv {g₀ : FactorGraph} {targets : List VarPtr} {cur : Option String}
    {m : Nat} (hidx : VarsIndexed g₀) (hreg : EdgeVarsRegistered g₀) (g : FactorGraph) (f : Factor)
    (hI : ParseInv g₀ targets cur m g)
    (hreach : ∀ p ∈ g₀.operands f.name, Reach g₀ targets p.name) :
    ∃ g', parseFactor g f = .ok g' ∧ ParseInv g₀ targets cur m g' ∧
      (∀ p ∈ g₀.operands f.name, Marked g' p.name) ∧ ∀ b, Marked g b → Marked g' b := by
  unfold parseFactor
  have hI1 := hI.parse_after_touchFac f.name
  have hops : (g.touchFac f.name).operands f.name = g₀.operands f.name :=
    hI1.same.operands_eq _
  simp only [hops]
  obtain ⟨g', h, hP, hpost, _⟩ := foldlM_ok_post markOperand
    (fun x => ParseInv g₀ targets cur m x ∧ ∀ b, Marked g b → Marked x b)
    (fun p => VarRegistered g₀ p.name ∧ Reach g₀ targets p.name)
    (fun p x => Marked x p.name)
    (fun x a hP hQ => by
      obtain ⟨g', h1, h2, h3, h4⟩ := markOperand_inv hidx x a hP.1 hQ.1 hQ.2
      exact ⟨g', h1, ⟨h2, fun b hb => h4 _ (hP.2 b hb)⟩, h3, fun b hb => h4 _ hb⟩)
    (g₀.operands f.name) (g.touchFac f.name) ⟨hI1, fun _ hb => hb⟩
    (fun p hp => ⟨operands_registered hreg hp, hreach p hp⟩)
  exact ⟨g', h, hP.1, hpost, hP.2⟩

theorem parseVar_inv {g₀ : FactorGraph} {targets : List VarPtr} {m : Nat}
    (hidx : VarsIndexed g₀) (hreg : EdgeVarsRegistered g₀) (g : FactorGraph) (cur : String)
    (hI : ParseInv g₀ targets (some cur) m g) (hcur : Reach g₀ targets cur) :
    ∃ g', parseVar g cur = .ok g' ∧ ParseInv g₀ targets (some cur) m g' ∧
      (∀ f ∈ g₀.producers cur, ∀ p ∈ g₀.operands f.name, Marked g' p.name) := by
  unfold parseVar
  have hI1 := hI.parse_after_touchVar cur
  have hps : (g.touchVar cur).producers cur = g₀.producers cur := hI1.same.producers_eq _
  simp only [hps]
  obtain ⟨g', h, hP, hpost, _⟩ := foldlM_ok_post parseFactor
    (fun x => ParseInv g₀ targets (some cur) m x)
    (fun f => f ∈ g₀.producers cur)
    (fun f x => ∀ p ∈ g₀.operands f.name, Marked x p.name)
    (fun x a hP hQ => by
      obtain ⟨g', h1, h2, h3, h4⟩ := parseFactor_inv hidx hreg x a hP
        (fun p hp => Reach.step cur a p hcur hQ hp)
      exact ⟨g', h1, h2, h3, fun b hb p hp => h4 _ (hb p hp)⟩)
    (g₀.producers cur) (g.touchVar cur) hI1 (fun f hf => hf)
  exact ⟨g', h, hP, hpost⟩

theorem parseLoop_inv {g₀ : FactorGraph} {targets : List VarPtr}
    (hidx : VarsIndexed g₀) (hreg : EdgeVarsRegistered g₀) :
    ∀ (fuel m : Nat) (g : FactorGraph), ParseInv g₀ targets none m g → m ≤ fuel →
      ∃ g' m', parseLoop fuel g = .ok g' ∧ ParseInv g₀ targets none m' g' ∧ g'.q = [] := by
  intro fuel
  induction fuel with
  | zero =>
    intro m g hI hm
    have hq : g.q = [] := by
      have := hI.measure
      exact List.length_eq_zero.mp (by omega)
    refine ⟨g, m, ?_, hI, hq⟩
    unfold parseLoop; rw [hq]
  | succ fuel ih =>
    intro m g hI hm
    cases hq : g.q with
    | nil =>
      refine ⟨g, m, ?_, hI, hq⟩
      unfold parseLoop; rw [hq]
    | cons cur rest =>
      have hmeas := hI.measure
      rw [hq] at hmeas
      simp only [List.length_cons] at hmeas
      have hcurM : Marked g cur := hI.queued cur (by rw [hq]; exact List.mem_cons_self _ _)
      have hpop : ParseInv g₀ targets (some cur) (m - 1) { g with q := rest } := by
        refine ⟨⟨hI.same.var_dict, hI.same.factor_dict, hI.same.var_list,
          hI.same.factor_list, hI.same.ready_dict, hI.same.varEdges, hI.same.factorEdges⟩,
          hI.len, hI.sound, hI.tgt, ?_, ?_, ?_⟩
        · intro n hn
          exact hI.queued n (by rw [hq]; exact List.mem_cons_of_mem _ hn)
        · intro u hu hnq hne f hf p hp
          refine hI.closed u hu ?_ (by simp) f hf p hp
          rw [hq]
          intro hmem
          rcases List.mem_cons.mp hmem with h | h
          · exact hne (by rw [h])
          · exact hnq h
        · show rest.length + g.isRequired.count false = m - 1
          omega
      obtain ⟨g1, h1, hI1, hpost⟩ := parseVar_inv hidx hreg _ cur hpop (hI.sound cur hcurM)
      have hI1' : ParseInv g₀ targets none (m - 1) g1 := by
        refine ⟨hI1.same, hI1.len, hI1.sound, hI1.tgt, hI1.queued, ?_, hI1.measure⟩
        intro u hu hnq _ f hf p hp
        by_cases hc : u = cur
        · subst hc; exact hpost f hf p hp
        · exact hI1.closed u hu hnq (by simpa using hc) f hf p hp
      obtain ⟨g', m', h2, hI2, hq2⟩ := ih (m - 1) g1 hI1' (by omega)
      refine ⟨g', m', ?_, hI2, hq2⟩
      unfold parseLoop
      rw [hq]
      simp only [h1]
      exact h2

theorem ParseInv.exact {g₀ : FactorGraph} {targets : List VarPtr} {m : Nat} {g : FactorGraph}
    (hI : ParseInv g₀ targets none m g) (hq : g.q = []) (n : String) :
    Marked g n ↔ Reach g₀ targets n := by
  constructor
  · exact hI.sound n
  · intro h
    induction h with
    | target p hp => exact hI.tgt p hp
    | step u f p _ hf hp ih =>
      exact hI.closed u ih (by rw [hq]; simp) (by simp) f hf p hp

theorem getElem?_replicate_false (n i : Nat) :
    (List.replicate n false)[i]? ≠ some true := by
  rw [List.getElem?_replicate]
  split <;> simp

theorem markTargets_inv {g₀ : FactorGraph} (hidx : VarsIndexed g₀) :
    ∀ (ts : List VarPtr) (g : FactorGraph), SameRegistry g₀ g →
      g.isRequired.length = g₀.var_dict.size → (∀ n, Marked g n ↔ n ∈ g.q) →
      (∀ p ∈ ts, VarRegistered g₀ p.name) →
      ∃ g', ts.foldlM markTarget g = .ok g' ∧ SameRegistry g₀ g' ∧
        g'.isRequired.length = g₀.var_dict.size ∧ (∀ n, Marked g' n ↔ n ∈ g'.q) ∧
        g'.q = g.q ++ ts.map (fun p => p.name) := by
  intro ts
  induction ts with
  | nil =>
    intro g hs hl hm _
    exact ⟨g, rfl, hs, hl, hm, by simp⟩
  | cons p ts ih =>
    intro g hs hl hm hreg
    obtain ⟨i, hi⟩ := varIdx_of_registered (hreg p (List.mem_cons_self _ _))
    have hig : VarIdx g p.name = .ok i := by rw [hs.varIdx_eq]; exact hi
    have hlt : i < g.isRequired.length := by rw [hl]; exact varIdx_lt hidx hi
    have hgidx : VarsIndexed g := by
      unfold VarsIndexed; rw [hs.var_dict]; exact hidx
    have hstep : markTarget g p =
        .ok { g with isRequired := g.isRequired.set i true, q := g.q ++ [p.name] } := by
      unfold markTarget
      rw [hig]
      simp only [hlt, if_true]
    have hm1 : ∀ n, Marked
        { g with isRequired := g.isRequired.set i true, q := g.q ++ [p.name] } n ↔
          (Marked g n ∨ n = p.name) :=
      fun n => marked_set g
        { g with isRequired := g.isRequired.set i true, q := g.q ++ [p.name] }
        hgidx rfl hig hlt rfl n
    obtain ⟨g', h, hs', hl', hm', hq'⟩ := ih
      { g with isRequired := g.isRequired.set i true, q := g.q ++ [p.name] }
      ⟨hs.var_dict, hs.factor_dict, hs.var_list, hs.factor_list, hs.ready_dict,
        hs.varEdges, hs.factorEdges⟩
      (by simp [hl])
      (fun n => by
        rw [hm1 n, hm n]
        simp only [List.mem_append, List.mem_singleton])
      (fun q hq => hreg q (List.mem_cons_of_mem _ hq))
    refine ⟨g', ?_, hs', hl', hm', ?_⟩
    · rw [List.foldlM_cons, hstep]; exact h
    · rw [hq']; simp

theorem DependencyParse_spec (g : FactorGraph) (targets : List VarPtr)
    (hidx : VarsIndexed g) (hreg : EdgeVarsRegistered g)
    (ht : ∀ p ∈ targets, VarRegistered g p.name) :
    ∃ g', DependencyParse g targets = .ok g' ∧ SameRegistry g g' ∧
      g'.isRequired.length = g.var_dict.size ∧ g'.q = [] ∧
      ∀ n, Marked g' n ↔ Reach g targets n := by
  have hs0 : SameRegistry g
      { g with isRequired := List.replicate g.var_dict.size false, q := [] } :=
    ⟨rfl, rfl, rfl, rfl, rfl, fun _ => rfl, fun _ => rfl⟩
  obtain ⟨g1, h1, hs1, hl1, hm1, hq1⟩ := markTargets_inv hidx targets
    { g with isRequired := List.replicate g.var_dict.size false, q := [] } hs0
    (by simp)
    (fun n => by
      constructor
      · rintro ⟨i, _, hi⟩
        exact absurd hi (getElem?_replicate_false _ _)
      · intro h; simp at h)
    ht
  simp only [List.nil_append] at hq1
  have hI : ParseInv g targets none (g1.q.length + g1.isRequired.count false) g1 := by
    refine ⟨hs1, hl1, ?_, ?_, fun n hn => (hm1 n).mpr hn, ?_, rfl⟩
    · intro n hn
      have := (hm1 n).mp hn
      rw [hq1] at this
      obtain ⟨p, hp, rfl⟩ := List.mem_map.mp this
      exact Reach.target p hp
    · intro p hp
      refine (hm1 _).mpr ?_
      rw [hq1]
      exact List.mem_map.mpr ⟨p, hp, rfl⟩
    · intro u hu hnq
      exact absurd ((hm1 u).mp hu) hnq
  have hfuel : g1.q.length + g1.isRequired.count false ≤ targets.length + g.var_dict.size := by
    have h2 : g1.isRequired.count false ≤ g1.isRequired.length := List.count_le_length _ _
    rw [hq1, List.length_map]
    omega
  obtain ⟨g', m', h2, hI2, hq2⟩ := parseLoop_inv hidx hreg _ _ g1 hI hfuel
  refine ⟨g', ?_, hI2.same, hI2.len, hq2, hI2.exact hq2⟩
  unfold DependencyParse
  simp only [h1]
  exact h2

/-- C1. On a registry whose value-node indices are distinct and in range and
whose operand lists hold registered value nodes, `DependencyParse` returns for
every list of registered targets; the required array then has one entry per
registered value node, and the flag of a registered name is set exactly when the
name is in the backward-reachable producer closure of the targets. -/
theorem DependencyParse_closure (g : FactorGraph) (targets : List VarPtr)
    (hidx : VarsIndexed g) (hreg : EdgeVarsRegistered g)
    (ht : ∀ p ∈ targets, VarRegistered g p.name) :
    ∃ g', DependencyParse g targets = .ok g' ∧
      g'.isRequired.length = g.var_dict.size ∧
      ∀ n i, VarIdx g n = .ok i → (g'.isRequired[i]? = some true ↔ Reach g targets n) := by
  obtain ⟨g', h, hs, hl, _, hm⟩ := DependencyParse_spec g targets hidx hreg ht
  refine ⟨g', h, hl, ?_⟩
  intro n i hi
  rw [← hm n]
  constructor
  · intro hf
    exact ⟨i, (hs.varIdx_eq n).trans hi, hf⟩
  · rintro ⟨j, hj, hf⟩
    rw [hs.varIdx_eq n, hi] at hj
    cases hj
    exact hf

theorem DependencyParse_closure_witness :
    ∃ g', DependencyParse Example.pruning [Example.d] = .ok g' ∧
      g'.isRequired.length = Example.pruning.var_dict.size ∧
      ∀ n i, VarIdx Example.pruning n = .ok i →
        (g'.isRequired[i]? = some true ↔ Reach Example.pruning [Example.d] n) :=
  DependencyParse_closure Example.pruning [Example.d] (by decide) (by decide) (by decide)

/-! ## What the forward pass keeps -/

theorem newLog_append (gD x : FactorGraph) (h : gD.log <+: x.log) (evs : List Event) :
    x.log.drop gD.log.length ++ evs = (x.log ++ evs).drop gD.log.length := by
  rw [List.drop_append_of_le_length h.length_le]

theorem FwdInv.fwd_refl (g : FactorGraph) : FwdInv g g := by
  refine ⟨SameRegistry.refl g, rfl, rfl, List.prefix_refl _, ?_, fun i h => Or.inl h⟩
  intro ev hev
  simp [newLog] at hev

theorem decrPending_fwdInv (gD : FactorGraph) (P : FactorGraph → Prop)
    (hP : ∀ x y : FactorGraph, x.log = y.log → P x → P y)
    (x : FactorGraph) (f : Factor)
    (h : FwdInv gD x ∧ P x) : (fun y => FwdInv gD y ∧ P y) (finalState (decrPending x f)) := by
  obtain ⟨h, hp⟩ := h
  unfold decrPending
  cases FacIdx x f.name with
  | error e => exact ⟨h, hp⟩
  | ok j =>
    dsimp only
    cases x.n_pending[j]? with
    | none => exact ⟨h, hp⟩
    | some n =>
      dsimp only
      split
      · exact ⟨⟨⟨h.same.var_dict, h.same.factor_dict, h.same.var_list, h.same.factor_list,
          h.same.ready_dict, h.same.varEdges, h.same.factorEdges⟩, h.req, h.len, h.pre,
          h.events, h.ready⟩, hP x _ rfl hp⟩
      · exact ⟨⟨⟨h.same.var_dict, h.same.factor_dict, h.same.var_list, h.same.factor_list,
          h.same.ready_dict, h.same.varEdges, h.same.factorEdges⟩, h.req, h.len, h.pre,
          h.events, h.ready⟩, hP x _ rfl hp⟩

theorem FwdInv.fwd_after_touchVar {gD x : FactorGraph} (h : FwdInv gD x) (n : String) :
    FwdInv gD (x.touchVar n) :=
  ⟨h.same.trans (SameRegistry.of_touchVar x n), h.req, h.len, h.pre, h.events, h.ready⟩

theorem FwdInv.fwd_after_touchFac {gD x : FactorGraph} (h : FwdInv gD x) (n : String) :
    FwdInv gD (x.touchFac n) :=
  ⟨h.same.trans (SameRegistry.of_touchFac x n), h.req, h.len, h.pre, h.events, h.ready⟩

theorem seedReady_fwdInv (gD x : FactorGraph) (i : Nat) (h : FwdInv gD x) :
    FwdInv gD (finalState (seedReady x i)) := by
  unfold seedReady
  split
  · cases x.var_list[i]? with
    | none => exact h
    | some v =>
      dsimp only
      exact (foldlM_final decrPending (fun y => FwdInv gD y ∧ True) (fun _ => True)
        (fun y f hy _ => decrPending_fwdInv gD (fun _ => True) (fun _ _ _ _ => trivial) y f hy)
        _ _ ⟨h.fwd_after_touchVar v.name, trivial⟩ (fun _ _ => trivial)).1
  · exact h

theorem readyOutput_fwdInv (gD x : FactorGraph) (cur : String) (e : Nat × Factor)
    (he : gD.factor_dict.lookup cur = some e) (p : VarPtr) (hp : p ∈ gD.outputs cur)
    (h : FwdInv gD x ∧ forwardCall gD cur e ∈ newLog gD x) :
    (fun y => FwdInv gD y ∧ forwardCall gD cur e ∈ newLog gD y)
      (finalState (readyOutput x p)) := by
  obtain ⟨h, hev⟩ := h
  unfold readyOutput
  cases hi : VarIdx x p.name with
  | error e => exact ⟨h, hev⟩
  | ok i =>
    dsimp only
    split
    · rename_i hlt
      have h1 : FwdInv gD ({ x with isReady := x.isReady.set i true }.touchVar p.name) := by
        refine ⟨⟨h.same.var_dict, h.same.factor_dict, h.same.var_list, h.same.factor_list,
          h.same.ready_dict, ?_, h.same.factorEdges⟩, h.req, ?_, h.pre, h.events, ?_⟩
        · intro n
          exact (Dict.get_touch x.varEdges p.name n).trans (h.same.varEdges n)
        · show (x.isReady.set i true).length = gD.isReady.length
          rw [List.length_set]; exact h.len
        · intro j hj
          have hj' : (x.isReady.set i true)[j]? = some true := hj
          rw [getElem?_set_true _ _ _ hlt] at hj'
          rcases hj' with hj' | hj'
          · exact h.ready j hj'
          · subst hj'
            right
            exact ⟨cur, e, he, hev, p, hp, by rw [← h.same.varIdx_eq]; exact hi⟩
      exact foldlM_final decrPending
        (fun y => FwdInv gD y ∧ forwardCall gD cur e ∈ newLog gD y) (fun _ => True)
        (fun y f hy _ => decrPending_fwdInv gD
          (fun y => forwardCall gD cur e ∈ newLog gD y)
          (fun a b hab ha => by
            show forwardCall gD cur e ∈ List.drop gD.log.length b.log
            rw [← hab]; exact ha) y f hy)
        _ _ ⟨h1, hev⟩ (fun _ _ => trivial)
    · exact ⟨h, hev⟩

theorem anyRequired_true (g : FactorGraph) (outs : VarList)
    (h : anyRequired g outs = .ok true) : ∃ p ∈ outs, Marked g p.name := by
  induction outs with
  | nil => simp [anyRequired] at h
  | cons p ps ih =>
    unfold anyRequired at h
    cases hi : VarIdx g p.name with
    | error e => rw [hi] at h; simp at h
    | ok i =>
      rw [hi] at h
      dsimp only at h
      cases hr : g.isRequired[i]? with
      | none => rw [hr] at h; simp at h
      | some b =>
        rw [hr] at h
        cases b with
        | true => exact ⟨p, List.mem_cons_self _ _, i, hi, hr⟩
        | false =>
          obtain ⟨q, hq, hm⟩ := ih h
          exact ⟨q, List.mem_cons_of_mem _ hq, hm⟩

theorem marked_congr {g g' : FactorGraph} (hd : g'.var_dict = g.var_dict)
    (hr : g'.isRequired = g.isRequired) (n : String) : Marked g' n ↔ Marked g n := by
  unfold Marked VarIdx
  rw [hd, hr]

theorem forwardOne_fwdInv (gD x : FactorGraph) (cur : String) (h : FwdInv gD x) :
    FwdInv gD (finalState (forwardOne x cur)) := by
  unfold forwardOne
  cases he : x.factor_dict.lookup cur with
  | none => exact h
  | some e =>
    dsimp only
    have h1 := h.fwd_after_touchFac cur
    have he' : gD.factor_dict.lookup cur = some e := by rw [← h.same.factor_dict]; exact he
    have hops : (x.touchFac cur).operands cur = gD.operands cur := h1.same.operands_eq cur
    have houts : (x.touchFac cur).outputs cur = gD.outputs cur := h1.same.outputs_eq cur
    cases hr : anyRequired (x.touchFac cur) ((x.touchFac cur).outputs cur) with
    | error err => exact h1
    | ok b =>
      cases b with
      | false => exact h1
      | true =>
        dsimp only
        obtain ⟨p, hp, hm⟩ := anyRequired_true _ _ hr
        have hm' : Marked gD p.name :=
          (marked_congr h1.same.var_dict h1.req _).mp hm
        rw [houts] at hp
        have hcall : Event.forward e.2 ((x.touchFac cur).operands cur)
            ((x.touchFac cur).outputs cur) = forwardCall gD cur e := by
          unfold forwardCall; rw [hops, houts]
        rw [hcall]
        have hnew : newLog gD { x.touchFac cur with log := (x.touchFac cur).log ++
            [forwardCall gD cur e] } = newLog gD x ++ [forwardCall gD cur e] :=
          (newLog_append gD x h.pre _).symm
        have h2 : FwdInv gD { x.touchFac cur with log := (x.touchFac cur).log ++
            [forwardCall gD cur e] } := by
          refine ⟨⟨h1.same.var_dict, h1.same.factor_dict, h1.same.var_list,
            h1.same.factor_list, h1.same.ready_dict, h1.same.varEdges, h1.same.factorEdges⟩,
            h1.req, h1.len, ?_, ?_, ?_⟩
          · exact h.pre.trans (List.prefix_append _ _)
          · intro ev hev
            rw [hnew] at hev
            rcases List.mem_append.mp hev with hev | hev
            · exact h.events ev hev
            · rw [List.mem_singleton] at hev
              exact ⟨cur, e, he', hev, p, hp, hm'⟩
          · intro i hi
            rcases h.ready i hi with hi | ⟨c, e2, hl, hmem, hq⟩
            · exact Or.inl hi
            · right
              refine ⟨c, e2, hl, ?_, hq⟩
              rw [hnew]
              exact List.mem_append_left _ hmem
        exact (foldlM_final readyOutput
          (fun y => FwdInv gD y ∧ forwardCall gD cur e ∈ newLog gD y)
          (fun p => p ∈ gD.outputs cur)
          (fun y q hy hq => readyOutput_fwdInv gD y cur e he' q hq hy)
          _ _ ⟨h2, by rw [hnew]; exact List.mem_append_right _ (List.mem_singleton_self _)⟩
          (fun q hq => by
            have hq' : q ∈ (x.touchFac cur).outputs cur := hq
            rw [houts] at hq'; exact hq')).1

theorem forwardIter_final (P : FactorGraph → Prop)
    (hpop : ∀ (g : FactorGraph) (rest : List String), P g → P { g with q := rest })
    (hone : ∀ g cur, P g → P (finalState (forwardOne g cur))) :
    ∀ (k : Nat) (g : FactorGraph), P g → P (finalState (forwardIter k g)) := by
  intro k
  induction k with
  | zero => intro g h; exact h
  | succ k ih =>
    intro g h
    unfold forwardIter
    cases hq : g.q with
    | nil => exact h
    | cons cur rest =>
      dsimp only
      have h1 := hone _ cur (hpop g rest h)
      cases hf : forwardOne { g with q := rest } cur with
      | error e => rw [hf] at h1; exact h1
      | ok g1 => rw [hf] at h1; exact ih g1 h1

theorem forwardLoop_final (P : FactorGraph → Prop)
    (hpop : ∀ (g : FactorGraph) (rest : List String), P g → P { g with q := rest })
    (hone : ∀ g cur, P g → P (finalState (forwardOne g cur)))
    (fuel : Nat) (g : FactorGraph) (h : P g) : P (finalState (forwardLoop fuel g)) := by
  have h1 := forwardIter_final P hpop hone fuel g h
  unfold forwardLoop
  cases hf : forwardIter fuel g with
  | error e => rw [hf] at h1; exact h1
  | ok g1 =>
    rw [hf] at h1
    dsimp only
    cases g1.q with
    | nil => exact h1
    | cons _ _ => exact h1

theorem FwdInv.pop {gD x : FactorGraph} (h : FwdInv gD x) (rest : List String) :
    FwdInv gD { x with q := rest } :=
  ⟨⟨h.same.var_dict, h.same.factor_dict, h.same.var_list, h.same.factor_list,
    h.same.ready_dict, h.same.varEdges, h.same.factorEdges⟩, h.req, h.len, h.pre,
    h.events, h.ready⟩

theorem initPendingForward_fwdInv (g : FactorGraph) :
    FwdInv g (initPendingForward { g with q := [] }) := by
  refine ⟨⟨rfl, rfl, rfl, rfl, rfl, fun _ => rfl, ?_⟩, rfl, rfl, List.prefix_refl _, ?_,
    fun i h => Or.inl h⟩
  · intro n
    show (g.factor_list.foldl (fun d f => d.touch f.name) g.factorEdges).get n =
      g.factorEdges.get n
    generalize g.factorEdges = d
    induction g.factor_list generalizing d with
    | nil => rfl
    | cons f l ih => rw [List.foldl_cons, ih, Dict.get_touch]
  · intro ev hev
    simp [newLog, initPendingForward] at hev

theorem SequentialForward_fwdInv (g : FactorGraph) :
    FwdInv g (finalState (SequentialForward g)) := by
  have h1 : FwdInv g (finalState (forwardSeed g)) := by
    unfold forwardSeed
    exact foldlM_final seedReady (FwdInv g) (fun _ => True)
      (fun y i hy _ => seedReady_fwdInv g y i hy) _ _ (initPendingForward_fwdInv g)
      (fun _ _ => trivial)
  unfold SequentialForward
  cases hs : forwardSeed g with
  | error e => rw [hs] at h1; exact h1
  | ok g1 =>
    rw [hs] at h1
    exact forwardLoop_final (FwdInv g) (fun x rest hx => hx.pop rest)
      (fun x cur hx => forwardOne_fwdInv g x cur hx) _ g1 h1

/-! ## What DependencyParse leaves as it is -/

theorem ParseFrame.frame_refl (g : FactorGraph) : ParseFrame g g :=
  ⟨SameRegistry.refl g, rfl, rfl, rfl⟩

theorem markTarget_frame (g x : FactorGraph) (p : VarPtr) (h : ParseFrame g x) :
    ParseFrame g (finalState (markTarget x p)) := by
  unfold markTarget
  cases VarIdx x p.name with
  | error e => exact h
  | ok i =>
    dsimp only
    split
    · exact ⟨⟨h.same.var_dict, h.same.factor_dict, h.same.var_list, h.same.factor_list,
        h.same.ready_dict, h.same.varEdges, h.same.factorEdges⟩, h.isReady, h.n_pending, h.log⟩
    · exact h

theorem markOperand_frame (g x : FactorGraph) (p : VarPtr) (h : ParseFrame g x) :
    ParseFrame g (finalState (markOperand x p)) := by
  unfold markOperand
  cases VarIdx x p.name with
  | error e => exact h
  | ok i =>
    dsimp only
    cases x.isRequired[i]? with
    | none => exact h
    | some b =>
      cases b with
      | true => exact h
      | false =>
        exact ⟨⟨h.same.var_dict, h.same.factor_dict, h.same.var_list, h.same.factor_list,
          h.same.ready_dict, h.same.varEdges, h.same.factorEdges⟩, h.isReady, h.n_pending,
          h.log⟩

theorem parseFactor_frame (g x : FactorGraph) (f : Factor) (h : ParseFrame g x) :
    ParseFrame g (finalState (parseFactor x f)) := by
  unfold parseFactor
  exact foldlM_final markOperand (ParseFrame g) (fun _ => True)
    (fun y p hy _ => markOperand_frame g y p hy) _ _
    ⟨h.same.trans (SameRegistry.of_touchFac x f.name), h.isReady, h.n_pending, h.log⟩
    (fun _ _ => trivial)

theorem parseVar_frame (g x : FactorGraph) (cur : String) (h : ParseFrame g x) :
    ParseFrame g (finalState (parseVar x cur)) := by
  unfold parseVar
  exact foldlM_final parseFactor (ParseFrame g) (fun _ => True)
    (fun y f hy _ => parseFactor_frame g y f hy) _ _
    ⟨h.same.trans (SameRegistry.of_touchVar x cur), h.isReady, h.n_pending, h.log⟩
    (fun _ _ => trivial)

theorem parseLoop_frame (g : FactorGraph) :
    ∀ (fuel : Nat) (x : FactorGraph), ParseFrame g x →
      ParseFrame g (finalState (parseLoop fuel x)) := by
  intro fuel
  induction fuel with
  | zero =>
    intro x h
    unfold parseLoop
    cases x.q with
    | nil => exact h
    | cons _ _ => exact h
  | succ fuel ih =>
    intro x h
    unfold parseLoop
    cases hq : x.q with
    | nil => exact h
    | cons cur rest =>
      dsimp only
      have h1 := parseVar_frame g { x with q := rest } cur
        ⟨⟨h.same.var_dict, h.same.factor_dict, h.same.var_list, h.same.factor_list,
          h.same.ready_dict, h.same.varEdges, h.same.factorEdges⟩, h.isReady, h.n_pending,
          h.log⟩
      cases hp : parseVar { x with q := rest } cur with
      | error e => rw [hp] at h1; exact h1
      | ok g1 => rw [hp] at h1; exact ih g1 h1

theorem DependencyParse_frame (g : FactorGraph) (targets : List VarPtr) :
    ParseFrame g (finalState (DependencyParse g targets)) := by
  unfold DependencyParse
  have h0 : ParseFrame g
      { g with isRequired := List.replicate g.var_dict.size false, q := [] } :=
    ⟨⟨rfl, rfl, rfl, rfl, rfl, fun _ => rfl, fun _ => rfl⟩, rfl, rfl, rfl⟩
  have h1 := foldlM_final markTarget (ParseFrame g) (fun _ => True)
    (fun y p hy _ => markTarget_frame g y p hy) targets _ h0 (fun _ _ => trivial)
  dsimp only
  cases ht : List.foldlM markTarget
      { g with isRequired := List.replicate g.var_dict.size false, q := [] } targets with
  | error e => rw [ht] at h1; exact h1
  | ok g1 =>
    rw [ht] at h1
    exact parseLoop_frame g _ g1 h1

/-! ## The ready flags at the start of the pass -/

theorem setPreReady_ok {g : FactorGraph} (hidx : VarsIndexed g) (x : FactorGraph)
    (st : String × Variable) (hs : SameRegistry g x) (hl : x.isReady.length = g.var_dict.size)
    (hreg : VarRegistered g st.1) :
    ∃ i, VarIdx g st.1 = .ok i ∧ i < x.isReady.length ∧
      setPreReady x st = .ok { x with isReady := x.isReady.set i true } := by
  obtain ⟨i, hi⟩ := varIdx_of_registered hreg
  have hlt : i < x.isReady.length := by rw [hl]; exact varIdx_lt hidx hi
  refine ⟨i, hi, hlt, ?_⟩
  unfold setPreReady
  rw [hs.varIdx_eq, hi]
  simp only [hlt, if_true]

theorem setFed_ok {g : FactorGraph} (hidx : VarsIndexed g) (x : FactorGraph)
    (p : String × RawData) (hs : SameRegistry g x) (hl : x.isReady.length = g.var_dict.size)
    (hreg : VarRegistered g p.1) :
    ∃ i, VarIdx g p.1 = .ok i ∧ i < x.isReady.length ∧
      setFed x p = .ok { x with isReady := x.isReady.set i true,
                                log := x.log ++ [Event.setRef p.1 p.2] } := by
  obtain ⟨i, hi⟩ := varIdx_of_registered hreg
  have hlt : i < x.isReady.length := by rw [hl]; exact varIdx_lt hidx hi
  refine ⟨i, hi, hlt, ?_⟩
  unfold setFed
  rw [hs.varIdx_eq, hi]
  simp only [hlt, if_true]

theorem setPreReady_fold {g : FactorGraph} (hidx : VarsIndexed g) :
    ∀ (l : List (String × Variable)) (x : FactorGraph), SameRegistry g x →
      x.isReady.length = g.var_dict.size → (∀ st ∈ l, VarRegistered g st.1) →
      ∃ x', l.foldlM setPreReady x = .ok x' ∧ SameRegistry g x' ∧
        x'.isReady.length = g.var_dict.size ∧ x'.isRequired = x.isRequired ∧
        x'.n_pending = x.n_pending ∧ x'.q = x.q ∧ x'.log = x.log ∧
        ∀ i, x'.isReady[i]? = some true ↔
          (x.isReady[i]? = some true ∨ ∃ st ∈ l, VarIdx g st.1 = .ok i) := by
  intro l
  induction l with
  | nil =>
    intro x hs hl _
    exact ⟨x, rfl, hs, hl, rfl, rfl, rfl, rfl, by simp⟩
  | cons st l ih =>
    intro x hs hl hreg
    obtain ⟨i, hi, hlt, hstep⟩ := setPreReady_ok hidx x st hs hl (hreg st (List.mem_cons_self _ _))
    obtain ⟨x', h, hs', hl', hr', hn', hq', hlog', hflag⟩ := ih
      { x with isReady := x.isReady.set i true }
      ⟨hs.var_dict, hs.factor_dict, hs.var_list, hs.factor_list, hs.ready_dict,
        hs.varEdges, hs.factorEdges⟩
      (by simp [hl]) (fun s hs => hreg s (List.mem_cons_of_mem _ hs))
    refine ⟨x', ?_, hs', hl', hr', hn', hq', hlog', ?_⟩
    · rw [List.foldlM_cons, hstep]; exact h
    · intro j
      rw [hflag j]
      have : ({ x with isReady := x.isReady.set i true } : FactorGraph).isReady[j]? = some true ↔
          (x.isReady[j]? = some true ∨ j = i) := getElem?_set_true _ _ _ hlt
      rw [this]
      constructor
      · rintro ((h1 | h1) | ⟨s, hs, h1⟩)
        · exact Or.inl h1
        · subst h1; exact Or.inr ⟨st, List.mem_cons_self _ _, hi⟩
        · exact Or.inr ⟨s, List.mem_cons_of_mem _ hs, h1⟩
      · rintro (h1 | ⟨s, hs, h1⟩)
        · exact Or.inl (Or.inl h1)
        · rcases List.mem_cons.mp hs with rfl | hs
          · rw [hi] at h1; cases h1; exact Or.inl (Or.inr rfl)
          · exact Or.inr ⟨s, hs, h1⟩

theorem setFed_fold {g : FactorGraph} (hidx : VarsIndexed g) :
    ∀ (l : Dict RawData) (x : FactorGraph), SameRegistry g x →
      x.isReady.length = g.var_dict.size → (∀ p ∈ l, VarRegistered g p.1) →
      ∃ x', l.foldlM setFed x = .ok x' ∧ SameRegistry g x' ∧
        x'.isReady.length = g.var_dict.size ∧ x'.isRequired = x.isRequired ∧
        x'.n_pending = x.n_pending ∧ x'.q = x.q ∧
        x'.log = x.log ++ l.map (fun p => Event.setRef p.1 p.2) ∧
        ∀ i, x'.isReady[i]? = some true ↔
          (x.isReady[i]? = some true ∨ ∃ p ∈ l, VarIdx g p.1 = .ok i) := by
  intro l
  induction l with
  | nil =>
    intro x hs hl _
    exact ⟨x, rfl, hs, hl, rfl, rfl, rfl, by simp, by simp⟩
  | cons st l ih =>
    intro x hs hl hreg
    obtain ⟨i, hi, hlt, hstep⟩ := setFed_ok hidx x st hs hl (hreg st (List.mem_cons_self _ _))
    obtain ⟨x', h, hs', hl', hr', hn', hq', hlog', hflag⟩ := ih
      { x with isReady := x.isReady.set i true, log := x.log ++ [Event.setRef st.1 st.2] }
      ⟨hs.var_dict, hs.factor_dict, hs.var_list, hs.factor_list, hs.ready_dict,
        hs.varEdges, hs.factorEdges⟩
      (by simp [hl]) (fun s hs => hreg s (List.mem_cons_of_mem _ hs))
    refine ⟨x', ?_, hs', hl', hr', hn', hq', ?_, ?_⟩
    · rw [List.foldlM_cons, hstep]; exact h
    · rw [hlog']; simp
    · intro j
      rw [hflag j]
      have : ({ x with isReady := x.isReady.set i true,
                       log := x.log ++ [Event.setRef st.1 st.2] } : FactorGraph).isReady[j]?
            = some true ↔ (x.isReady[j]? = some true ∨ j = i) := getElem?_set_true _ _ _ hlt
      rw [this]
      constructor
      · rintro ((h1 | h1) | ⟨s, hs, h1⟩)
        · exact Or.inl h1
        · subst h1; exact Or.inr ⟨st, List.mem_cons_self _ _, hi⟩
        · exact Or.inr ⟨s, List.mem_cons_of_mem _ hs, h1⟩
      · rintro (h1 | ⟨s, hs, h1⟩)
        · exact Or.inl (Or.inl h1)
        · rcases List.mem_cons.mp hs with rfl | hs
          · rw [hi] at h1; cases h1; exact Or.inl (Or.inr rfl)
          · exact Or.inr ⟨s, hs, h1⟩

theorem prepareForward_spec (g : FactorGraph) (targets : List VarPtr) (feed_dict : Dict RawData)
    (hidx : VarsIndexed g) (hreg : EdgeVarsRegistered g) (hpre : PreReadyRegistered g)
    (ht : ∀ p ∈ targets, VarRegistered g p.name)
    (hf : ∀ p ∈ feed_dict, VarRegistered g p.1) :
    ∃ gD g1, DependencyParse g targets = .ok gD ∧
      prepareForward g targets feed_dict = .ok g1 ∧ SameRegistry g g1 ∧
      g1.isRequired = gD.isRequired ∧ g1.isRequired.length = g.var_dict.size ∧
      g1.isReady.length = g.var_dict.size ∧ g1.n_pending = g.n_pending ∧ g1.q = [] ∧
      g1.log = g.log ++ feed_dict.map (fun p => Event.setRef p.1 p.2) ∧
      (∀ n, Marked g1 n ↔ Reach g targets n) ∧
      ∀ i, g1.isReady[i]? = some true ↔ InitiallyReady g feed_dict i := by
  obtain ⟨gD, hD, hsD, hlD, hqD, hmD⟩ := DependencyParse_spec g targets hidx hreg ht
  have hfr := DependencyParse_frame g targets
  rw [hD] at hfr
  have hfr : ParseFrame g gD := hfr
  have hrd : gD.ready_dict = g.ready_dict := hsD.ready_dict
  obtain ⟨g2, h2, hs2, hl2, hr2, hn2, hq2, hlog2, hflag2⟩ := setPreReady_fold hidx
    gD.ready_dict { gD with isReady := List.replicate gD.var_dict.size false }
    ⟨hsD.var_dict, hsD.factor_dict, hsD.var_list, hsD.factor_list, hsD.ready_dict,
      hsD.varEdges, hsD.factorEdges⟩
    (by simp [hsD.var_dict]) (fun st hst => hpre st (hrd ▸ hst))
  obtain ⟨g3, h3, hs3, hl3, hr3, hn3, hq3, hlog3, hflag3⟩ := setFed_fold hidx
    feed_dict g2 hs2 hl2 hf
  refine ⟨gD, g3, hD, ?_, hs3, hr3.trans hr2, ?_, hl3, ?_, ?_, ?_, ?_, ?_⟩
  · unfold prepareForward
    rw [hD]
    dsimp only
    rw [h2]
    exact h3
  · rw [hr3, hr2]; exact hlD
  · rw [hn3, hn2]; exact hfr.n_pending
  · rw [hq3, hq2]; exact hqD
  · rw [hlog3, hlog2]
    show gD.log ++ _ = _
    rw [hfr.log]
  · intro n
    rw [← hmD n]
    exact marked_congr (hs3.var_dict.trans hsD.var_dict.symm) (hr3.trans hr2) n
  · intro i
    rw [hflag3 i, hflag2 i, hrd]
    unfold InitiallyReady
    constructor
    · rintro ((h | h) | h)
      · exact absurd h (getElem?_replicate_false _ _)
      · exact Or.inl h
      · exact Or.inr h
    · rintro (h | h)
      · exact Or.inl (Or.inr h)
      · exact Or.inr h

/-! ## The events of a forward query -/

theorem run_cases {α : Type} (r : Run α) : (∃ e, r = .error e) ∨ (∃ a, r = .ok a) := by
  cases r with
  | error e => exact Or.inl ⟨e, rfl⟩
  | ok a => exact Or.inr ⟨a, rfl⟩

theorem newLog_trans {a b c : FactorGraph} (h1 : a.log <+: b.log) (h2 : b.log <+: c.log) :
    newLog a c = newLog a b ++ newLog b c := by
  obtain ⟨t1, ht1⟩ := h1
  obtain ⟨t2, ht2⟩ := h2
  unfold newLog
  rw [← ht2, ← ht1]
  simp [List.append_assoc]

theorem newLog_self (a : FactorGraph) : newLog a a = [] := by
  unfold newLog; simp

theorem newLog_congr {a b : FactorGraph} (h : b.log = a.log) (c : FactorGraph) :
    newLog b c = newLog a c := by
  unfold newLog; rw [h]

theorem setPreReady_prep (gD x : FactorGraph) (st : String × Variable) (h : PrepInv gD x) :
    PrepInv gD (finalState (setPreReady x st)) := by
  unfold setPreReady
  cases VarIdx x st.1 with
  | error e => exact h
  | ok i =>
    dsimp only
    split
    · exact ⟨⟨h.same.var_dict, h.same.factor_dict, h.same.var_list, h.same.factor_list,
        h.same.ready_dict, h.same.varEdges, h.same.factorEdges⟩, h.req,
        by show (x.isReady.set i true).length = _; rw [List.length_set]; exact h.len,
        h.pre, h.events⟩
    · exact h

theorem setFed_prep (gD x : FactorGraph) (p : String × RawData) (h : PrepInv gD x) :
    PrepInv gD (finalState (setFed x p)) := by
  unfold setFed
  cases VarIdx x p.1 with
  | error e => exact h
  | ok i =>
    dsimp only
    split
    · refine ⟨⟨h.same.var_dict, h.same.factor_dict, h.same.var_list, h.same.factor_list,
        h.same.ready_dict, h.same.varEdges, h.same.factorEdges⟩, h.req,
        by show (x.isReady.set i true).length = _; rw [List.length_set]; exact h.len,
        h.pre.trans (List.prefix_append _ _), ?_⟩
      intro ev hev
      have hnew : newLog gD
          { x with isReady := x.isReady.set i true, log := x.log ++ [Event.setRef p.1 p.2] } =
          newLog gD x ++ [Event.setRef p.1 p.2] :=
        (newLog_append gD x h.pre _).symm
      have hev' : ev ∈ newLog gD x ++ [Event.setRef p.1 p.2] := by rw [← hnew]; exact hev
      rcases List.mem_append.mp hev' with hev | hev
      · exact h.events ev hev
      · rw [List.mem_singleton] at hev
        exact ⟨_, _, hev⟩
    · exact h

theorem prepareForward_final (g : FactorGraph) (targets : List VarPtr)
    (feed_dict : Dict RawData) :
    (∀ e, DependencyParse g targets = .error e →
      prepareForward g targets feed_dict = .error e) ∧
    (∀ gD, DependencyParse g targets = .ok gD →
      PrepInv gD (finalState (prepareForward g targets feed_dict))) := by
  constructor
  · intro e he
    unfold prepareForward; rw [he]
  · intro gD hD
    unfold prepareForward
    rw [hD]
    dsimp only
    have h0 : PrepInv gD { gD with isReady := List.replicate gD.var_dict.size false } :=
      ⟨⟨rfl, rfl, rfl, rfl, rfl, fun _ => rfl, fun _ => rfl⟩, rfl, by simp,
        List.prefix_refl _, by intro ev hev; simp [newLog] at hev⟩
    have h1 := foldlM_final setPreReady (PrepInv gD) (fun _ => True)
      (fun y st hy _ => setPreReady_prep gD y st hy) gD.ready_dict _ h0 (fun _ _ => trivial)
    cases hp : List.foldlM setPreReady
        { gD with isReady := List.replicate gD.var_dict.size false } gD.ready_dict with
    | error e => rw [hp] at h1; exact h1
    | ok g3 =>
      rw [hp] at h1
      exact foldlM_final setFed (PrepInv gD) (fun _ => True)
        (fun y st hy _ => setFed_prep gD y st hy) feed_dict _ h1 (fun _ _ => trivial)

/-- Every call logged by a forward query is a `SetRef` call, or the `Forward`
call of a registered operation one of whose outputs is required; the registry
is the same at the end, returned or failed. -/
theorem FeedForward_events (g : FactorGraph) (targets : List VarPtr)
    (feed_dict : Dict RawData) (n_thread : Nat) :
    SameRegistry g (finalState2 (FeedForward g targets feed_dict n_thread)) ∧
    g.log <+: (finalState2 (FeedForward g targets feed_dict n_thread)).log ∧
    ∀ ev ∈ newLog g (finalState2 (FeedForward g targets feed_dict n_thread)),
      (∃ n d, ev = Event.setRef n d) ∨
      (n_thread = 1 ∧ ∃ gD cur e, DependencyParse g targets = .ok gD ∧
        g.factor_dict.lookup cur = some e ∧
        ev = forwardCall g cur e ∧ ∃ p ∈ g.outputs cur, Marked gD p.name) := by
  have hfr := DependencyParse_frame g targets
  obtain ⟨hperr, hpok⟩ := prepareForward_final g targets feed_dict
  rcases run_cases (DependencyParse g targets) with ⟨e, hD⟩ | ⟨gD, hD⟩
  · rw [hD] at hfr
    have hfr : ParseFrame g e.2 := hfr
    have hff : FeedForward g targets feed_dict n_thread = .error e := by
      unfold FeedForward; rw [hperr e hD]
    rw [hff]
    refine ⟨hfr.same, by show g.log <+: e.2.log; rw [hfr.log], ?_⟩
    intro ev hev
    have : newLog g e.2 = [] := by unfold newLog; rw [hfr.log]; simp
    have hev' : ev ∈ newLog g e.2 := hev
    rw [this] at hev'
    cases hev'
  · rw [hD] at hfr
    have hfr : ParseFrame g gD := hfr
    have hprep := hpok gD hD
    have key : ∀ x : FactorGraph, PrepInv gD x →
        SameRegistry g x ∧ g.log <+: x.log ∧
        ∀ ev ∈ newLog g x, (∃ n d, ev = Event.setRef n d) ∨
          (n_thread = 1 ∧ ∃ gD cur e, DependencyParse g targets = .ok gD ∧
            g.factor_dict.lookup cur = some e ∧
            ev = forwardCall g cur e ∧ ∃ p ∈ g.outputs cur, Marked gD p.name) := by
      intro x hx
      refine ⟨hfr.same.trans hx.same, by rw [← hfr.log]; exact hx.pre, ?_⟩
      intro ev hev
      rw [← newLog_congr hfr.log] at hev
      exact Or.inl (hx.events ev hev)
    unfold FeedForward
    rcases run_cases (prepareForward g targets feed_dict) with ⟨e, hp⟩ | ⟨g1, hp⟩
    · rw [hp] at hprep ⊢
      exact key e.2 hprep
    · rw [hp] at hprep ⊢
      have hprep : PrepInv gD g1 := hprep
      dsimp only
      by_cases hn : n_thread = 1
      · rw [if_pos hn]
        have hfw := SequentialForward_fwdInv g1
        have hall : ∀ x : FactorGraph, FwdInv g1 x →
            SameRegistry g x ∧ g.log <+: x.log ∧
            ∀ ev ∈ newLog g x, (∃ n d, ev = Event.setRef n d) ∨
              (n_thread = 1 ∧ ∃ gD cur e, DependencyParse g targets = .ok gD ∧
                g.factor_dict.lookup cur = some e ∧
                ev = forwardCall g cur e ∧ ∃ p ∈ g.outputs cur, Marked gD p.name) := by
          intro x hx
          have hs1 : SameRegistry g g1 := hfr.same.trans hprep.same
          have hpre1 : g.log <+: g1.log := by rw [← hfr.log]; exact hprep.pre
          refine ⟨hs1.trans hx.same, hpre1.trans hx.pre, ?_⟩
          intro ev hev
          rw [newLog_trans hpre1 hx.pre] at hev
          rcases List.mem_append.mp hev with hev | hev
          · exact (key g1 hprep).2.2 ev hev
          · obtain ⟨cur, e, hl, hcall, p, hp, hm⟩ := hx.events ev hev
            right
            refine ⟨hn, gD, cur, e, hD, by rw [← hs1.factor_dict]; exact hl, ?_, p, ?_, ?_⟩
            · rw [hcall]; unfold forwardCall
              rw [hs1.operands_eq, hs1.outputs_eq]
            · rw [← hs1.outputs_eq]; exact hp
            · exact (marked_congr hprep.same.var_dict hprep.req _).mp hm
        rcases run_cases (SequentialForward g1) with ⟨e, hsf⟩ | ⟨g2, hsf⟩
        · rw [hsf] at hfw ⊢
          exact hall e.2 hfw
        · rw [hsf] at hfw ⊢
          dsimp only
          cases checkReady g2 targets with
          | error e => exact hall g2 hfw
          | ok _ => exact hall g2 hfw
      · rw [if_neg hn]
        exact key g1 hprep

/-- What sets a ready flag during a forward query: the flag was set before the
sequential pass, or it belongs to an output of a logged `Forward` call. -/
theorem FeedForward_ready (g : FactorGraph) (targets : List VarPtr)
    (feed_dict : Dict RawData) (n_thread : Nat) (g1 : FactorGraph)
    (hp : prepareForward g targets feed_dict = .ok g1) (i : Nat)
    (hi : (finalState2 (FeedForward g targets feed_dict n_thread)).isReady[i]? = some true) :
    g1.isReady[i]? = some true ∨
    ∃ cur e, g.factor_dict.lookup cur = some e ∧
      forwardCall g cur e ∈ newLog g (finalState2 (FeedForward g targets feed_dict n_thread)) ∧
      ∃ p ∈ g.outputs cur, VarIdx g p.name = .ok i := by
  obtain ⟨hperr, hpok⟩ := prepareForward_final g targets feed_dict
  have hfr := DependencyParse_frame g targets
  rcases run_cases (DependencyParse g targets) with ⟨e, hD⟩ | ⟨gD, hD⟩
  · rw [hperr e hD] at hp; cases hp
  · rw [hD] at hfr
    have hfr : ParseFrame g gD := hfr
    have hprep := hpok gD hD
    rw [hp] at hprep
    have hprep : PrepInv gD g1 := hprep
    have hs1 : SameRegistry g g1 := hfr.same.trans hprep.same
    have hpre1 : g.log <+: g1.log := by rw [← hfr.log]; exact hprep.pre
    have hall : ∀ x : FactorGraph, FwdInv g1 x → x.isReady[i]? = some true →
        g1.isReady[i]? = some true ∨
        ∃ cur e, g.factor_dict.lookup cur = some e ∧ forwardCall g cur e ∈ newLog g x ∧
          ∃ p ∈ g.outputs cur, VarIdx g p.name = .ok i := by
      intro x hx hxi
      rcases hx.ready i hxi with h | ⟨cur, e, hl, hmem, p, hp, hpi⟩
      · exact Or.inl h
      · right
        refine ⟨cur, e, by rw [← hs1.factor_dict]; exact hl, ?_, p, ?_, ?_⟩
        · rw [newLog_trans hpre1 hx.pre]
          refine List.mem_append_right _ ?_
          have : forwardCall g cur e = forwardCall g1 cur e := by
            unfold forwardCall; rw [hs1.operands_eq, hs1.outputs_eq]
          rw [this]; exact hmem
        · rw [← hs1.outputs_eq]; exact hp
        · rw [← hs1.varIdx_eq]; exact hpi
    unfold FeedForward at hi ⊢
    rw [hp] at hi ⊢
    dsimp only at hi ⊢
    by_cases hn : n_thread = 1
    · rw [if_pos hn] at hi ⊢
      have hfw := SequentialForward_fwdInv g1
      rcases run_cases (SequentialForward g1) with ⟨e, hsf⟩ | ⟨g2, hsf⟩
      · rw [hsf] at hfw hi ⊢
        exact hall e.2 hfw hi
      · rw [hsf] at hfw hi ⊢
        dsimp only at hi ⊢
        cases hc : checkReady g2 targets with
        | error e => rw [hc] at hi; exact hall g2 hfw hi
        | ok _ => rw [hc] at hi; exact hall g2 hfw hi
    · rw [if_neg hn] at hi ⊢
      exact Or.inl hi

/-- C2, as amended. In every forward query, an operation whose forward contract
is invoked has at least one output in the required set that `DependencyParse`
computes for the targets of the query; the output of a single-output operation
that is invoked is in the required set. -/
theorem forward_invoked_has_required_output (g : FactorGraph) (targets : List VarPtr)
    (feed_dict : Dict RawData) (n_thread : Nat) (f : Factor) (ops outs : VarList)
    (h : Event.forward f ops outs ∈
      newLog g (finalState2 (FeedForward g targets feed_dict n_thread))) :
    ∃ gD, DependencyParse g targets = .ok gD ∧ (∃ p ∈ outs, Marked gD p.name) ∧
      ∀ p, outs = [p] → Marked gD p.name := by
  rcases (FeedForward_events g targets feed_dict n_thread).2.2 _ h with
    ⟨n, d, hev⟩ | ⟨_, gD, cur, e, hD, _, hev, p, hp, hm⟩
  · cases hev
  · unfold forwardCall at hev
    injection hev with _ _ houts
    refine ⟨gD, hD, ⟨p, by rw [houts]; exact hp, hm⟩, ?_⟩
    intro q hq
    rw [← houts, hq, List.mem_singleton] at hp
    rw [← hp]; exact hm

theorem forward_invoked_has_required_output_witness :
    ∃ gD, DependencyParse Example.pruning [Example.d] = .ok gD ∧
      (∃ p ∈ [Example.d], Marked gD p.name) ∧
      ∀ p, [Example.d] = [p] → Marked gD p.name :=
  forward_invoked_has_required_output Example.pruning [Example.d] [("a", 5)] 1
    Example.square [Example.a] [Example.d] (by decide)

/-- C2 fails as stated. In the registry `twoOutputs`, with target `d` and `a`
fed, the query returns, the forward contract of `split` is invoked and its
output `e` is marked ready, and `e` is not in the required set. -/
theorem forward_readies_output_outside_required :
    failure (FeedForward Example.twoOutputs [Example.d] [("a", 5)] 1) = none ∧
    Event.forward Example.split [Example.a] [Example.d, Example.e] ∈
      newLog Example.twoOutputs
        (finalState2 (FeedForward Example.twoOutputs [Example.d] [("a", 5)] 1)) ∧
    Ready (finalState2 (FeedForward Example.twoOutputs [Example.d] [("a", 5)] 1)) "e" ∧
    ¬ Marked (finalState2 (FeedForward Example.twoOutputs [Example.d] [("a", 5)] 1)) "e" ∧
    ¬ (∃ gD, DependencyParse Example.twoOutputs [Example.d] = .ok gD ∧ Marked gD "e") := by
  refine ⟨by decide, by decide, by decide, by decide, ?_⟩
  rintro ⟨gD, hD, hm⟩
  have h2 : DependencyParse Example.twoOutputs [Example.d] =
      .ok (finalState (DependencyParse Example.twoOutputs [Example.d])) := rfl
  rw [h2] at hD
  injection hD with hD
  subst hD
  revert hm
  decide

/-- C3. In every forward query, an operation none of whose outputs is in the
required set computed for the targets never has its forward contract invoked;
and a ready flag set during the sequential pass belongs to an output of an
operation whose forward contract was invoked, so that no flag is set by an
operation that is pruned. -/
theorem forward_prunes (g : FactorGraph) (targets : List VarPtr)
    (feed_dict : Dict RawData) (n_thread : Nat) :
    (∀ gD cur e, DependencyParse g targets = .ok gD →
      (∀ p ∈ g.outputs cur, ¬ Marked gD p.name) →
      forwardCall g cur e ∉
        newLog g (finalState2 (FeedForward g targets feed_dict n_thread))) ∧
    (∀ g1 i, prepareForward g targets feed_dict = .ok g1 →
      (finalState2 (FeedForward g targets feed_dict n_thread)).isReady[i]? = some true →
      g1.isReady[i]? = some true ∨
      ∃ gD cur e, DependencyParse g targets = .ok gD ∧ g.factor_dict.lookup cur = some e ∧
        forwardCall g cur e ∈
          newLog g (finalState2 (FeedForward g targets feed_dict n_thread)) ∧
        (∃ p ∈ g.outputs cur, Marked gD p.name) ∧
        ∃ p ∈ g.outputs cur, VarIdx g p.name = .ok i) := by
  constructor
  · intro gD cur e hD hnone hmem
    rcases (FeedForward_events g targets feed_dict n_thread).2.2 _ hmem with
      ⟨n, d, hev⟩ | ⟨_, gD', cur', e', hD', _, hev, p, hp, hm⟩
    · cases hev
    · rw [hD] at hD'
      injection hD' with hD'
      subst hD'
      unfold forwardCall at hev
      injection hev with _ _ houts
      rw [← houts] at hp
      exact hnone p hp hm
  · intro g1 i hp hi
    rcases FeedForward_ready g targets feed_dict n_thread g1 hp i hi with
      h | ⟨cur, e, hl, hmem, hq⟩
    · exact Or.inl h
    · right
      rcases (FeedForward_events g targets feed_dict n_thread).2.2 _ hmem with
        ⟨n, d, hev⟩ | ⟨_, gD, cur', e', hD, _, hev, p, hp, hm⟩
      · cases hev
      · unfold forwardCall at hev
        injection hev with _ _ houts
        rw [← houts] at hp
        exact ⟨gD, cur, e, hD, hl, hmem, ⟨p, hp, hm⟩, hq⟩

/-- The scenario of C3: `a` fed, `d = square(a)`, `e = double(a)`, target `d`.
The forward contract of `square` is invoked once, the one of `double` never,
and `e` is not ready at the end. -/
theorem forward_prunes_witness :
    forwardCall Example.pruning "double" (1, Example.double) ∉
      newLog Example.pruning
        (finalState2 (FeedForward Example.pruning [Example.d] [("a", 5)] 1)) ∧
    failure (FeedForward Example.pruning [Example.d] [("a", 5)] 1) = none ∧
    newLog Example.pruning
        (finalState2 (FeedForward Example.pruning [Example.d] [("a", 5)] 1)) =
      [Event.setRef "a" 5, Event.forward Example.square [Example.a] [Example.d]] ∧
    Ready (finalState2 (FeedForward Example.pruning [Example.d] [("a", 5)] 1)) "d" ∧
    ¬ Ready (finalState2 (FeedForward Example.pruning [Example.d] [("a", 5)] 1)) "e" :=
  ⟨(forward_prunes Example.pruning [Example.d] [("a", 5)] 1).1
      (finalState (DependencyParse Example.pruning [Example.d])) "double" (1, Example.double)
      rfl (by decide),
    by decide, by decide, by decide, by decide⟩

/-! ## Outcomes of loops -/

theorem foldlM_outcome {α : Type} (f : FactorGraph → α → Run FactorGraph)
    (P : FactorGraph → Prop) (S : Err → Prop) (Q : α → Prop)
    (hf : ∀ g a, P g → Q a → Outcome P S (f g a)) :
    ∀ (l : List α) (g : FactorGraph), P g → (∀ a ∈ l, Q a) →
      Outcome P S (l.foldlM f g) := by
  intro l
  induction l with
  | nil => intro g hP _; exact hP
  | cons a l ih =>
    intro g hP hQ
    have h1 := hf g a hP (hQ a (List.mem_cons_self _ _))
    rw [List.foldlM_cons]
    rcases run_cases (f g a) with ⟨e, hfa⟩ | ⟨g1, hfa⟩
    · rw [hfa] at h1 ⊢; exact h1
    · rw [hfa] at h1 ⊢
      exact ih g1 h1 (fun b hb => hQ b (List.mem_cons_of_mem _ hb))

theorem Outcome.state {P : FactorGraph → Prop} {S : Err → Prop} {r : Run FactorGraph}
    (h : Outcome P S r) : P (finalState r) := by
  cases r with
  | ok g => exact h
  | error e => exact h.1

theorem Outcome.err {P : FactorGraph → Prop} {S : Err → Prop} {r : Run FactorGraph}
    (h : Outcome P S r) (e : Err) (he : failure r = some e) : S e := by
  cases r with
  | ok g => cases he
  | error e' =>
    have : e'.1 = e := by injection he
    rw [← this]; exact h.2

theorem Outcome.mono {P P' : FactorGraph → Prop} {S S' : Err → Prop} {r : Run FactorGraph}
    (h : Outcome P S r) (hP : ∀ g, P g → P' g) (hS : ∀ e, S e → S' e) : Outcome P' S' r := by
  cases r with
  | ok g => exact hP g h
  | error e => exact ⟨hP _ h.1, hS _ h.2⟩

/-! ## What the backward pass keeps -/

theorem BwdInv.bwd_refl (g : FactorGraph) : BwdInv g g :=
  ⟨SameRegistry.refl g, rfl, rfl, List.prefix_refl _, by
    intro ev hev; rw [newLog_self] at hev; cases hev⟩

theorem BwdInv.sched {g x y : FactorGraph} (h : BwdInv g x)
    (h1 : y.var_dict = x.var_dict) (h2 : y.factor_dict = x.factor_dict)
    (h3 : y.var_list = x.var_list) (h4 : y.factor_list = x.factor_list)
    (h5 : y.ready_dict = x.ready_dict) (h6 : ∀ n, y.varEdges.get n = x.varEdges.get n)
    (h7 : ∀ n, y.factorEdges.get n = x.factorEdges.get n)
    (h8 : y.isReady = x.isReady) (h9 : y.isRequired = x.isRequired) (h10 : y.log = x.log) :
    BwdInv g y := by
  refine ⟨⟨h1.trans h.same.var_dict, h2.trans h.same.factor_dict, h3.trans h.same.var_list,
    h4.trans h.same.factor_list, h5.trans h.same.ready_dict,
    fun n => (h6 n).trans (h.same.varEdges n), fun n => (h7 n).trans (h.same.factorEdges n)⟩,
    h8.trans h.isReady, h9.trans h.isRequired, by rw [h10]; exact h.pre, ?_⟩
  intro ev hev
  have : newLog g y = newLog g x := by unfold newLog; rw [h10]
  rw [this] at hev
  exact h.events ev hev

theorem varIdx_err_internal {g : FactorGraph} {n : String} {e : Err}
    (h : VarIdx g n = .error e) : e.internal := by
  unfold VarIdx at h
  cases hl : g.var_dict.lookup n with
  | none => rw [hl] at h; injection h with h; rw [← h]; trivial
  | some x => rw [hl] at h; cases h

theorem facIdx_err_internal {g : FactorGraph} {n : String} {e : Err}
    (h : FacIdx g n = .error e) : e.internal := by
  unfold FacIdx at h
  cases hl : g.factor_dict.lookup n with
  | none => rw [hl] at h; injection h with h; rw [← h]; trivial
  | some x => rw [hl] at h; cases h

theorem decrPending_bwd (g x : FactorGraph) (f : Factor) (h : BwdInv g x) :
    Outcome (BwdInv g) Err.internal (decrPending x f) := by
  unfold decrPending
  cases hj : FacIdx x f.name with
  | error e => exact ⟨h, facIdx_err_internal hj⟩
  | ok j =>
    dsimp only
    cases x.n_pending[j]? with
    | none => exact ⟨h, trivial⟩
    | some n =>
      dsimp only
      split
      · exact h.sched rfl rfl rfl rfl rfl (fun _ => rfl) (fun _ => rfl) rfl rfl rfl
      · exact h.sched rfl rfl rfl rfl rfl (fun _ => rfl) (fun _ => rfl) rfl rfl rfl

theorem countOutput_bwd (g x : FactorGraph) (i : Nat) (p : VarPtr) (h : BwdInv g x) :
    Outcome (BwdInv g) Err.internal (countOutput i x p) := by
  unfold countOutput
  cases hk : VarIdx x p.name with
  | error e => exact ⟨h, varIdx_err_internal hk⟩
  | ok k =>
    dsimp only
    cases x.isRequired[k]? with
    | none => exact ⟨h, trivial⟩
    | some b =>
      cases b with
      | false => exact h
      | true =>
        dsimp only
        cases x.n_pending[i]? with
        | none => exact ⟨h, trivial⟩
        | some n => exact h.sched rfl rfl rfl rfl rfl (fun _ => rfl) (fun _ => rfl) rfl rfl rfl

theorem BwdInv.bwd_after_touchVar {g x : FactorGraph} (h : BwdInv g x) (n : String) :
    BwdInv g (x.touchVar n) :=
  h.sched rfl rfl rfl rfl rfl (fun k => Dict.get_touch x.varEdges n k) (fun _ => rfl)
    rfl rfl rfl

theorem BwdInv.bwd_after_touchFac {g x : FactorGraph} (h : BwdInv g x) (n : String) :
    BwdInv g (x.touchFac n) :=
  h.sched rfl rfl rfl rfl rfl (fun _ => rfl) (fun k => Dict.get_touch x.factorEdges n k)
    rfl rfl rfl

theorem initPendingBackward_bwd (g x : FactorGraph) (i : Nat) (h : BwdInv g x) :
    Outcome (BwdInv g) Err.internal (initPendingBackward x i) := by
  unfold initPendingBackward
  cases x.factor_list[i]? with
  | none => exact ⟨h, trivial⟩
  | some f =>
    dsimp only
    split
    · exact foldlM_outcome (countOutput i) (BwdInv g) Err.internal (fun _ => True)
        (fun y p hy _ => countOutput_bwd g y i p hy) _ _
        ((h.bwd_after_touchFac f.name).sched rfl rfl rfl rfl rfl (fun _ => rfl) (fun _ => rfl)
          rfl rfl rfl)
        (fun _ _ => trivial)
    · exact ⟨h.bwd_after_touchFac f.name, trivial⟩

theorem seedTarget_bwd (g x : FactorGraph) (p : VarPtr) (h : BwdInv g x) :
    Outcome (BwdInv g) Err.internal (seedTarget x p) := by
  unfold seedTarget
  exact foldlM_outcome decrPending (BwdInv g) Err.internal (fun _ => True)
    (fun y f hy _ => decrPending_bwd g y f hy) _ _ (h.bwd_after_touchVar p.name)
    (fun _ _ => trivial)

theorem backOperand_bwd (g x : FactorGraph) (p : VarPtr) (h : BwdInv g x) :
    Outcome (BwdInv g) Err.internal (backOperand x p) := by
  unfold backOperand
  exact foldlM_outcome decrPending (BwdInv g) Err.internal (fun _ => True)
    (fun y f hy _ => decrPending_bwd g y f hy) _ _ (h.bwd_after_touchVar p.name)
    (fun _ _ => trivial)

theorem BwdInv.logged {g x : FactorGraph} (h : BwdInv g x) (ev : Event)
    (hev : (∃ n, ev = Event.print n) ∨
      ∃ cur e, g.factor_dict.lookup cur = some e ∧ ev = backwardCall g cur e ∧
        backNecessary e.2 (g.operands cur) = true) :
    BwdInv g { x with log := x.log ++ [ev] } := by
  refine ⟨⟨h.same.var_dict, h.same.factor_dict, h.same.var_list, h.same.factor_list,
    h.same.ready_dict, h.same.varEdges, h.same.factorEdges⟩, h.isReady, h.isRequired,
    h.pre.trans (List.prefix_append _ _), ?_⟩
  intro ev' hev'
  have hnew : newLog g { x with log := x.log ++ [ev] } = newLog g x ++ [ev] :=
    (newLog_append g x h.pre _).symm
  have hev'' : ev' ∈ newLog g x ++ [ev] := by rw [← hnew]; exact hev'
  rcases List.mem_append.mp hev'' with h1 | h1
  · exact h.events ev' h1
  · rw [List.mem_singleton] at h1
    rw [h1]; exact hev

theorem backwardOne_bwd (g x : FactorGraph) (cur : String) (h : BwdInv g x) :
    Outcome (BwdInv g) Err.internal (backwardOne x cur) := by
  unfold backwardOne
  have h0 : BwdInv g { x with log := x.log ++ [Event.print cur] } :=
    h.logged _ (Or.inl ⟨cur, rfl⟩)
  dsimp only
  cases he : x.factor_dict.lookup cur with
  | none => exact ⟨h0, trivial⟩
  | some e =>
    dsimp only
    have h1 := h0.bwd_after_touchFac cur
    have he' : g.factor_dict.lookup cur = some e := by rw [← h.same.factor_dict]; exact he
    have hops : ({ x with log := x.log ++ [Event.print cur] }.touchFac cur).operands cur =
        g.operands cur := h1.same.operands_eq cur
    have houts : ({ x with log := x.log ++ [Event.print cur] }.touchFac cur).outputs cur =
        g.outputs cur := h1.same.outputs_eq cur
    rw [hops, houts]
    by_cases hn : backNecessary e.2 (g.operands cur) = true
    · rw [if_pos hn]
      exact foldlM_outcome backOperand (BwdInv g) Err.internal (fun _ => True)
        (fun y p hy _ => backOperand_bwd g y p hy) _ _
        (h1.logged _ (Or.inr ⟨cur, e, he', rfl, hn⟩)) (fun _ _ => trivial)
    · rw [if_neg hn]
      exact foldlM_outcome backOperand (BwdInv g) Err.internal (fun _ => True)
        (fun y p hy _ => backOperand_bwd g y p hy) _ _ h1 (fun _ _ => trivial)

theorem backwardIter_outcome (P : FactorGraph → Prop) (S : Err → Prop)
    (hpop : ∀ (g : FactorGraph) (rest : List String), P g → P { g with q := rest })
    (hone : ∀ g cur, P g → Outcome P S (backwardOne g cur)) :
    ∀ (k : Nat) (g : FactorGraph), P g → Outcome P S (backwardIter k g) := by
  intro k
  induction k with
  | zero => intro g h; exact h
  | succ k ih =>
    intro g h
    unfold backwardIter
    cases hq : g.q with
    | nil => exact h
    | cons cur rest =>
      dsimp only
      have h1 := hone _ cur (hpop g rest h)
      rcases run_cases (backwardOne { g with q := rest } cur) with ⟨e, hf⟩ | ⟨g1, hf⟩
      · rw [hf] at h1 ⊢; exact h1
      · rw [hf] at h1 ⊢; exact ih g1 h1

theorem backwardLoop_outcome (P : FactorGraph → Prop) (S : Err → Prop)
    (hfuel : S Err.outOfFuel)
    (hpop : ∀ (g : FactorGraph) (rest : List String), P g → P { g with q := rest })
    (hone : ∀ g cur, P g → Outcome P S (backwardOne g cur))
    (fuel : Nat) (g : FactorGraph) (h : P g) : Outcome P S (backwardLoop fuel g) := by
  have h1 := backwardIter_outcome P S hpop hone fuel g h
  unfold backwardLoop
  rcases run_cases (backwardIter fuel g) with ⟨e, hf⟩ | ⟨g1, hf⟩
  · rw [hf] at h1 ⊢; exact h1
  · rw [hf] at h1 ⊢
    dsimp only
    cases g1.q with
    | nil => exact h1
    | cons _ _ => exact ⟨h1, hfuel⟩

theorem SequentialBackward_bwd (g : FactorGraph) (targets : List VarPtr) :
    Outcome (BwdInv g) Err.internal (SequentialBackward g targets) := by
  have hpop : ∀ (x : FactorGraph) (rest : List String), BwdInv g x →
      BwdInv g { x with q := rest } :=
    fun x rest hx => hx.sched rfl rfl rfl rfl rfl (fun _ => rfl) (fun _ => rfl) rfl rfl rfl
  have h1 : Outcome (BwdInv g) Err.internal (backwardSeed g targets) := by
    unfold backwardSeed
    have h0 := foldlM_outcome initPendingBackward (BwdInv g) Err.internal (fun _ => True)
      (fun y i hy _ => initPendingBackward_bwd g y i hy) (List.range g.factor_list.length) g
      (BwdInv.bwd_refl g) (fun _ _ => trivial)
    rcases run_cases (List.foldlM initPendingBackward g (List.range g.factor_list.length))
      with ⟨e, hf⟩ | ⟨g1, hf⟩
    · rw [hf] at h0 ⊢; exact h0
    · rw [hf] at h0 ⊢
      exact foldlM_outcome seedTarget (BwdInv g) Err.internal (fun _ => True)
        (fun y p hy _ => seedTarget_bwd g y p hy) _ _ (hpop g1 [] h0) (fun _ _ => trivial)
  unfold SequentialBackward
  rcases run_cases (backwardSeed g targets) with ⟨e, hf⟩ | ⟨g1, hf⟩
  · rw [hf] at h1 ⊢; exact h1
  · rw [hf] at h1 ⊢
    exact backwardLoop_outcome (BwdInv g) Err.internal trivial hpop
      (fun x cur hx => backwardOne_bwd g x cur hx) _ g1 h1

/-! ## The checks of BackPropagate -/

theorem SeedInv.seed_refl (g : FactorGraph) (targets : List VarPtr) : SeedInv g targets g :=
  ⟨SameRegistry.refl g, rfl, rfl, rfl, List.prefix_refl _, by
    intro ev hev; rw [newLog_self] at hev; cases hev⟩

theorem seedGrad_consumers {g : FactorGraph} {targets : List VarPtr} {x : FactorGraph}
    (h : SeedInv g targets x) (p : VarPtr) :
    (x.touchVar p.name).consumers p.name = g.consumers p.name :=
  (h.same.trans (SameRegistry.of_touchVar x p.name)).consumers_eq p.name

theorem seedGrad_good {g : FactorGraph} {targets : List VarPtr} (x : FactorGraph) (p : VarPtr)
    (hp : p ∈ targets) (h : SeedInv g targets x)
    (hgood : (g.consumers p.name).length = 0 ∧ p.isConst = false) :
    ∃ x', seedGrad x p = .ok x' ∧ SeedInv g targets x' := by
  refine ⟨{ x.touchVar p.name with log := (x.touchVar p.name).log ++ [Event.onesGrad p] },
    ?_, ?_⟩
  · unfold seedGrad
    dsimp only
    rw [seedGrad_consumers h p, if_pos hgood.1, hgood.2]
    rfl
  · refine ⟨⟨h.same.var_dict, h.same.factor_dict, h.same.var_list, h.same.factor_list,
      h.same.ready_dict, ?_, h.same.factorEdges⟩, h.isReady, h.isRequired, h.n_pending,
      h.pre.trans (List.prefix_append _ _), ?_⟩
    · intro n
      exact (Dict.get_touch x.varEdges p.name n).trans (h.same.varEdges n)
    · intro ev hev
      have hnew : newLog g { x.touchVar p.name with
          log := (x.touchVar p.name).log ++ [Event.onesGrad p] } =
          newLog g x ++ [Event.onesGrad p] := (newLog_append g x h.pre _).symm
      have hev' : ev ∈ newLog g x ++ [Event.onesGrad p] := by rw [← hnew]; exact hev
      rcases List.mem_append.mp hev' with h1 | h1
      · exact h.events ev h1
      · rw [List.mem_singleton] at h1
        exact ⟨p, hp, h1, hgood.1, hgood.2⟩

theorem seedGrad_bad {g : FactorGraph} {targets : List VarPtr} (x : FactorGraph) (p : VarPtr)
    (h : SeedInv g targets x)
    (hbad : ¬ ((g.consumers p.name).length = 0 ∧ p.isConst = false)) :
    ∃ e, seedGrad x p = .error e ∧ e.1.topology ∧ SeedInv g targets e.2 := by
  have h1 : SeedInv g targets (x.touchVar p.name) :=
    ⟨h.same.trans (SameRegistry.of_touchVar x p.name), h.isReady, h.isRequired, h.n_pending,
      h.pre, h.events⟩
  unfold seedGrad
  dsimp only
  rw [seedGrad_consumers h p]
  by_cases hc : (g.consumers p.name).length = 0
  · have hk : p.isConst = true := by
      cases hpc : p.isConst with
      | true => rfl
      | false => exact absurd ⟨hc, hpc⟩ hbad
    rw [if_pos hc, hk]
    exact ⟨_, rfl, trivial, h1⟩
  · rw [if_neg hc]
    exact ⟨_, rfl, trivial, h1⟩

theorem seedGrads_ok {g : FactorGraph} {targets : List VarPtr} :
    ∀ (l : List VarPtr) (x : FactorGraph), SeedInv g targets x → (∀ p ∈ l, p ∈ targets) →
      (∀ p ∈ l, (g.consumers p.name).length = 0 ∧ p.isConst = false) →
      ∃ x', l.foldlM seedGrad x = .ok x' ∧ SeedInv g targets x' := by
  intro l
  induction l with
  | nil => intro x h _ _; exact ⟨x, rfl, h⟩
  | cons p l ih =>
    intro x h hmem hgood
    obtain ⟨x1, h1, hI1⟩ := seedGrad_good x p (hmem p (List.mem_cons_self _ _)) h
      (hgood p (List.mem_cons_self _ _))
    obtain ⟨x2, h2, hI2⟩ := ih x1 hI1 (fun q hq => hmem q (List.mem_cons_of_mem _ hq))
      (fun q hq => hgood q (List.mem_cons_of_mem _ hq))
    exact ⟨x2, by rw [List.foldlM_cons, h1]; exact h2, hI2⟩

theorem seedGrads_err {g : FactorGraph} {targets : List VarPtr} :
    ∀ (l : List VarPtr) (x : FactorGraph), SeedInv g targets x → (∀ p ∈ l, p ∈ targets) →
      (∃ p ∈ l, ¬ ((g.consumers p.name).length = 0 ∧ p.isConst = false)) →
      ∃ e, l.foldlM seedGrad x = .error e ∧ e.1.topology ∧ SeedInv g targets e.2 := by
  intro l
  induction l with
  | nil => intro x _ _ hbad; obtain ⟨p, hp, _⟩ := hbad; cases hp
  | cons p l ih =>
    intro x h hmem hbad
    by_cases hg : (g.consumers p.name).length = 0 ∧ p.isConst = false
    · obtain ⟨x1, h1, hI1⟩ := seedGrad_good x p (hmem p (List.mem_cons_self _ _)) h hg
      obtain ⟨q, hq, hqb⟩ := hbad
      have hq' : q ∈ l := by
        rcases List.mem_cons.mp hq with rfl | hq
        · exact absurd hg hqb
        · exact hq
      obtain ⟨e, he, ht, hI⟩ := ih x1 hI1 (fun r hr => hmem r (List.mem_cons_of_mem _ hr))
        ⟨q, hq', hqb⟩
      exact ⟨e, by rw [List.foldlM_cons, h1]; exact he, ht, hI⟩
    · obtain ⟨e, he, ht, hI⟩ := seedGrad_bad x p h hg
      exact ⟨e, by rw [List.foldlM_cons, he]; rfl, ht, hI⟩

theorem zeroGrads_same (g : FactorGraph) : SameRegistry g (zeroGrads g) :=
  ⟨rfl, rfl, rfl, rfl, rfl, fun _ => rfl, fun _ => rfl⟩

theorem newLog_zeroGrads (g : FactorGraph) :
    newLog g (zeroGrads g) = (g.var_list.filter (fun v => !v.isConst)).map Event.zeroGrad := by
  unfold newLog zeroGrads
  simp

theorem internal_not_topology {e : Err} (h : e.internal) : ¬ e.topology := by
  cases e <;> first | exact fun h' => h' | exact absurd h (fun h' => h')

theorem BackPropagate_same (g : FactorGraph) (targets : List VarPtr) (n_thread : Nat) :
    SameRegistry g (finalState (BackPropagate g targets n_thread)) := by
  unfold BackPropagate
  by_cases hs : scratchConsistent g = true
  · rw [if_pos hs]
    by_cases hgood : ∀ p ∈ targets, (g.consumers p.name).length = 0 ∧ p.isConst = false
    · obtain ⟨x1, h1, hI1⟩ := seedGrads_ok targets (zeroGrads g)
        (SeedInv.seed_refl (zeroGrads g) targets) (fun p hp => hp) hgood
      rw [h1]
      dsimp only
      have hs1 : SameRegistry g x1 := (zeroGrads_same g).trans hI1.same
      by_cases hn : n_thread = 1
      · rw [if_pos hn]
        exact hs1.trans (SequentialBackward_bwd x1 targets).state.same
      · rw [if_neg hn]; exact hs1
    · have hbad : ∃ p ∈ targets, ¬ ((g.consumers p.name).length = 0 ∧ p.isConst = false) := by
        by_contra hc
        exact hgood (fun p hp => by
          by_contra hq
          exact hc ⟨p, hp, hq⟩)
      obtain ⟨e, he, _, hI⟩ := seedGrads_err targets (zeroGrads g)
        (SeedInv.seed_refl (zeroGrads g) targets) (fun p hp => hp) hbad
      rw [he]
      exact (zeroGrads_same g).trans hI.same
  · rw [if_neg hs]; exact SameRegistry.refl g

/-- C7. A `BackPropagate` call that passes the check of the scratch sizes fails
with a topology-misuse error (a seed with a consumer, or a constant seed) if
and only if some seed has a non-empty consumer list or is constant; the call
then logs no `Backward` call. -/
theorem BackPropagate_seed_validation (g : FactorGraph) (targets : List VarPtr)
    (n_thread : Nat) (hs : scratchConsistent g = true) :
    ((∃ e, failure (BackPropagate g targets n_thread) = some e ∧ e.topology) ↔
      ∃ p ∈ targets, (g.consumers p.name).length ≠ 0 ∨ p.isConst = true) ∧
    ((∃ e, failure (BackPropagate g targets n_thread) = some e ∧ e.topology) →
      ∀ f ops outs, Event.backward f ops outs ∉
        newLog g (finalState (BackPropagate g targets n_thread))) := by
  have hgz : SeedInv (zeroGrads g) targets (zeroGrads g) := SeedInv.seed_refl _ _
  have hcons : ∀ n, (zeroGrads g).consumers n = g.consumers n := fun _ => rfl
  by_cases hgood : ∀ p ∈ targets, (g.consumers p.name).length = 0 ∧ p.isConst = false
  · -- every seed passes: the failure, if any, is not a topology error
    obtain ⟨x1, h1, hI1⟩ := seedGrads_ok targets (zeroGrads g) hgz (fun p hp => hp) hgood
    have hno : ¬ ∃ e, failure (BackPropagate g targets n_thread) = some e ∧ e.topology := by
      rintro ⟨e, he, ht⟩
      unfold BackPropagate at he
      rw [if_pos hs, h1] at he
      dsimp only at he
      by_cases hn : n_thread = 1
      · rw [if_pos hn] at he
        exact internal_not_topology ((SequentialBackward_bwd x1 targets).err e he) ht
      · rw [if_neg hn] at he
        injection he with he
        rw [← he] at ht
        exact ht
    refine ⟨⟨fun h => absurd h hno, ?_⟩, fun h => absurd h hno⟩
    rintro ⟨p, hp, hbad⟩
    obtain ⟨h1, h2⟩ := hgood p hp
    rcases hbad with hbad | hbad
    · exact absurd h1 hbad
    · rw [h2] at hbad; cases hbad
  · have hbad : ∃ p ∈ targets, ¬ ((g.consumers p.name).length = 0 ∧ p.isConst = false) := by
      by_contra hc
      exact hgood (fun p hp => by
        by_contra hq
        exact hc ⟨p, hp, hq⟩)
    obtain ⟨e, he, ht, hI⟩ := seedGrads_err targets (zeroGrads g) hgz (fun p hp => hp) hbad
    have hbp : BackPropagate g targets n_thread = .error e := by
      unfold BackPropagate
      rw [if_pos hs, he]
    refine ⟨⟨fun _ => ?_, fun _ => ⟨e.1, by rw [hbp]; rfl, ht⟩⟩, fun _ => ?_⟩
    · obtain ⟨p, hp, hpb⟩ := hbad
      refine ⟨p, hp, ?_⟩
      by_cases hc : (g.consumers p.name).length = 0
      · right
        cases hpc : p.isConst with
        | true => rfl
        | false => exact absurd ⟨hc, hpc⟩ hpb
      · exact Or.inl hc
    · intro f ops outs hmem
      rw [hbp] at hmem
      have hmem' : Event.backward f ops outs ∈ newLog g e.2 := hmem
      have hpre0 : g.log <+: (zeroGrads g).log := List.prefix_append _ _
      rw [newLog_trans hpre0 hI.pre, newLog_zeroGrads] at hmem'
      rcases List.mem_append.mp hmem' with h1 | h1
      · obtain ⟨v, _, hv⟩ := List.mem_map.mp h1
        cases hv
      · obtain ⟨p, _, hp, _⟩ := hI.events _ h1
        cases hp

/-- The scenario of C7: after the forward query of the pruning scenario, seeding
`a`, which has the consumers `square` and `double`, fails. -/
theorem BackPropagate_seed_validation_witness :
    (((∃ e, failure (BackPropagate Example.afterForward [Example.a] 1) = some e ∧ e.topology) ↔
      ∃ p ∈ [Example.a], (Example.afterForward.consumers p.name).length ≠ 0 ∨
        p.isConst = true) ∧
    ((∃ e, failure (BackPropagate Example.afterForward [Example.a] 1) = some e ∧ e.topology) →
      ∀ f ops outs, Event.backward f ops outs ∉
        newLog Example.afterForward
          (finalState (BackPropagate Example.afterForward [Example.a] 1)))) ∧
    failure (BackPropagate Example.afterForward [Example.a] 1) =
      some (Err.notTopVariable "a") :=
  ⟨BackPropagate_seed_validation Example.afterForward [Example.a] 1 (by decide), by decide⟩

/-! ## The check of the scratch sizes -/

theorem scratchConsistent_iff (g : FactorGraph) :
    scratchConsistent g = true ↔
      (g.isReady.length = g.var_dict.size ∧ g.n_pending.length = g.factor_list.length ∧
        g.isReady.length = g.isRequired.length) := by
  unfold scratchConsistent
  simp [and_assoc]

theorem BackPropagate_failure_consistent (g : FactorGraph) (targets : List VarPtr)
    (n_thread : Nat) (hs : scratchConsistent g = true) :
    failure (BackPropagate g targets n_thread) ≠ some Err.graphChanged := by
  intro he
  by_cases hgood : ∀ p ∈ targets, (g.consumers p.name).length = 0 ∧ p.isConst = false
  · obtain ⟨x1, h1, hI1⟩ := seedGrads_ok targets (zeroGrads g)
      (SeedInv.seed_refl (zeroGrads g) targets) (fun p hp => hp) hgood
    unfold BackPropagate at he
    rw [if_pos hs, h1] at he
    dsimp only at he
    by_cases hn : n_thread = 1
    · rw [if_pos hn] at he
      exact (SequentialBackward_bwd x1 targets).err _ he
    · rw [if_neg hn] at he
      cases he
  · have hbad : ∃ p ∈ targets, ¬ ((g.consumers p.name).length = 0 ∧ p.isConst = false) := by
      by_contra hc
      exact hgood (fun p hp => by
        by_contra hq
        exact hc ⟨p, hp, hq⟩)
    obtain ⟨e, he', ht, _⟩ := seedGrads_err targets (zeroGrads g)
      (SeedInv.seed_refl (zeroGrads g) targets) (fun p hp => hp) hbad
    unfold BackPropagate at he
    rw [if_pos hs, he'] at he
    have : e.1 = Err.graphChanged := by injection he
    rw [this] at ht
    exact ht

theorem Dict.count_eq_zero {α : Type} (d : Dict α) (k : String) :
    d.count k = 0 ↔ (d.lookup k).isSome = false := by
  unfold Dict.count
  cases (d.lookup k).isSome <;> simp

theorem AddVar_ok {g g' : FactorGraph} {v : VarPtr} {nf : Bool}
    (h : AddVar g v nf = .ok g') :
    g'.isReady = g.isReady ∧ g'.isRequired = g.isRequired ∧ g'.n_pending = g.n_pending ∧
    g'.factor_list = g.factor_list ∧ g'.var_dict = g.var_dict ++ [(v.name, (g.var_list.length, v))] ∧
    g'.var_list = g.var_list ++ [v] := by
  unfold AddVar at h
  split at h
  · rename_i hc
    have hv : (g.var_dict.lookup v.name).isSome = false := (Dict.count_eq_zero _ _).mp hc.1
    have ha : g.var_dict.assign v.name (g.var_list.length, v) =
        g.var_dict ++ [(v.name, (g.var_list.length, v))] := by
      unfold Dict.assign; rw [hv]; simp
    dsimp only at h
    split at h
    · injection h with h
      subst h
      exact ⟨rfl, rfl, rfl, rfl, ha, rfl⟩
    · injection h with h
      subst h
      exact ⟨rfl, rfl, rfl, rfl, ha, rfl⟩
  · cases h

theorem FeedForward_ready_len (g : FactorGraph) (targets : List VarPtr)
    (feed_dict : Dict RawData) (n_thread : Nat) (h : g.isReady.length ≤ g.var_dict.size) :
    (finalState2 (FeedForward g targets feed_dict n_thread)).isReady.length ≤
      (finalState2 (FeedForward g targets feed_dict n_thread)).var_dict.size := by
  obtain ⟨hperr, hpok⟩ := prepareForward_final g targets feed_dict
  have hfr := DependencyParse_frame g targets
  rcases run_cases (DependencyParse g targets) with ⟨e, hD⟩ | ⟨gD, hD⟩
  · rw [hD] at hfr
    have hfr : ParseFrame g e.2 := hfr
    have hff : FeedForward g targets feed_dict n_thread = .error e := by
      unfold FeedForward; rw [hperr e hD]
    rw [hff]
    show e.2.isReady.length ≤ e.2.var_dict.size
    rw [hfr.isReady, hfr.same.var_dict]; exact h
  · have hprep := hpok gD hD
    have key : ∀ x : FactorGraph, PrepInv gD x → x.isReady.length ≤ x.var_dict.size := by
      intro x hx
      rw [hx.len, hx.same.var_dict]
    unfold FeedForward
    rcases run_cases (prepareForward g targets feed_dict) with ⟨e, hp⟩ | ⟨g1, hp⟩
    · rw [hp] at hprep ⊢
      exact key e.2 hprep
    · rw [hp] at hprep ⊢
      have hprep : PrepInv gD g1 := hprep
      dsimp only
      have hall : ∀ x : FactorGraph, FwdInv g1 x → x.isReady.length ≤ x.var_dict.size := by
        intro x hx
        rw [hx.len, hx.same.var_dict]
        exact key g1 hprep
      by_cases hn : n_thread = 1
      · rw [if_pos hn]
        have hfw := SequentialForward_fwdInv g1
        rcases run_cases (SequentialForward g1) with ⟨e, hsf⟩ | ⟨g2, hsf⟩
        · rw [hsf] at hfw ⊢
          exact hall e.2 hfw
        · rw [hsf] at hfw ⊢
          dsimp only
          cases checkReady g2 targets with
          | error e => exact hall g2 hfw
          | ok _ => exact hall g2 hfw
      · rw [if_neg hn]
        exact key g1 hprep

/-- C9. `BackPropagate` fails with the consistency error if and only if the
size of the ready array differs from the number of registered value nodes, or
the size of the counter array from the number of registered operations, or the
sizes of the ready and required arrays differ; the state is then the one of
the call, so that no gradient was zeroed or seeded. Hence the call fails on a
registry with a value node whose ready array is still the empty one of the
constructor (`AddVar` leaves the array as it is), and on a registry a value
node was added to after a forward query. -/
theorem BackPropagate_consistency (g : FactorGraph) (targets : List VarPtr)
    (n_thread : Nat) :
    (failure (BackPropagate g targets n_thread) = some Err.graphChanged ↔
      (g.isReady.length ≠ g.var_dict.size ∨ g.n_pending.length ≠ g.factor_list.length ∨
        g.isReady.length ≠ g.isRequired.length)) ∧
    (failure (BackPropagate g targets n_thread) = some Err.graphChanged →
      BackPropagate g targets n_thread = .error (Err.graphChanged, g)) ∧
    (g.isReady = [] → g.var_dict ≠ [] →
      failure (BackPropagate g targets n_thread) = some Err.graphChanged) ∧
    (∀ v nf g', AddVar g v nf = .ok g' → g'.isReady = g.isReady) ∧
    (∀ g0 ts fd nt v nf, g0.isReady.length ≤ g0.var_dict.size →
      AddVar (finalState2 (FeedForward g0 ts fd nt)) v nf = .ok g →
      failure (BackPropagate g targets n_thread) = some Err.graphChanged) := by
  have hiff : failure (BackPropagate g targets n_thread) = some Err.graphChanged ↔
      ¬ scratchConsistent g = true := by
    constructor
    · intro he hs
      exact BackPropagate_failure_consistent g targets n_thread hs he
    · intro hs
      unfold BackPropagate
      rw [if_neg hs]; rfl
  have hfail : ¬ scratchConsistent g = true →
      BackPropagate g targets n_thread = .error (Err.graphChanged, g) := by
    intro hs
    unfold BackPropagate
    rw [if_neg hs]
  have hsizes : ¬ scratchConsistent g = true ↔
      (g.isReady.length ≠ g.var_dict.size ∨ g.n_pending.length ≠ g.factor_list.length ∨
        g.isReady.length ≠ g.isRequired.length) := by
    rw [scratchConsistent_iff]
    constructor
    · intro h
      by_contra hc
      simp only [not_or, not_not] at hc
      exact h ⟨hc.1, hc.2.1, hc.2.2⟩
    · rintro (h | h | h) ⟨h1, h2, h3⟩
      · exact h h1
      · exact h h2
      · exact h h3
  refine ⟨hiff.trans hsizes, fun he => hfail (hiff.mp he), ?_, ?_, ?_⟩
  · intro hr hv
    refine hiff.mpr (hsizes.mpr (Or.inl ?_))
    rw [hr]
    intro h0
    exact hv (List.length_eq_zero.mp h0.symm)
  · intro v nf g' h
    exact (AddVar_ok h).1
  · intro g0 ts fd nt v nf hle hadd
    obtain ⟨h1, _, _, _, h5, _⟩ := AddVar_ok hadd
    have hlen := FeedForward_ready_len g0 ts fd nt hle
    refine hiff.mpr (hsizes.mpr (Or.inl ?_))
    rw [h1, h5]
    unfold Dict.size at hlen ⊢
    rw [List.length_append, List.length_singleton]
    omega

/-- The scenarios of C9: a backward call before any forward query fails, and
so does one issued after `b` was registered following the forward query. -/
theorem BackPropagate_consistency_witness :
    failure (BackPropagate Example.pruning [Example.d] 1) = some Err.graphChanged ∧
    failure (BackPropagate (finalState (AddVar Example.afterForward Example.b true))
      [Example.d] 1) = some Err.graphChanged ∧
    failure (BackPropagate Example.afterForward [Example.d] 1) = none :=
  ⟨(BackPropagate_consistency Example.pruning [Example.d] 1).2.2.1 (by decide) (by decide),
   (BackPropagate_consistency (finalState (AddVar Example.afterForward Example.b true))
      [Example.d] 1).2.2.2.2 Example.pruning [Example.d] [("a", 5)] 1 Example.b true
      (by decide) rfl,
   by decide⟩

/-! ## Lookup errors and the unsupported mode -/

theorem markTargets_err {g : FactorGraph} (hidx : VarsIndexed g) :
    ∀ (ts : List VarPtr) (x : FactorGraph), x.var_dict = g.var_dict →
      x.isRequired.length = g.var_dict.size →
      (∃ p ∈ ts, ¬ VarRegistered g p.name) →
      ∃ n x', ts.foldlM markTarget x = .error (Err.varNotRegistered n, x') ∧
        ¬ VarRegistered g n ∧ ∃ p ∈ ts, p.name = n := by
  intro ts
  induction ts with
  | nil => intro x _ _ h; obtain ⟨p, hp, _⟩ := h; cases hp
  | cons p ts ih =>
    intro x hd hl hbad
    have hv : VarIdx x p.name = VarIdx g p.name := by unfold VarIdx; rw [hd]
    by_cases hreg : VarRegistered g p.name
    · obtain ⟨i, hi⟩ := varIdx_of_registered hreg
      have hlt : i < x.isRequired.length := by rw [hl]; exact varIdx_lt hidx hi
      have hstep : markTarget x p =
          .ok { x with isRequired := x.isRequired.set i true, q := x.q ++ [p.name] } := by
        unfold markTarget
        rw [hv, hi]
        simp only [hlt, if_true]
      obtain ⟨q, hq, hqb⟩ := hbad
      have hq' : q ∈ ts := by
        rcases List.mem_cons.mp hq with rfl | hq
        · exact absurd hreg hqb
        · exact hq
      obtain ⟨n, x', h, hn, r, hr, hrn⟩ := ih
        { x with isRequired := x.isRequired.set i true, q := x.q ++ [p.name] } hd
        (by simp [hl]) ⟨q, hq', hqb⟩
      exact ⟨n, x', by rw [List.foldlM_cons, hstep]; exact h, hn, r,
        List.mem_cons_of_mem _ hr, hrn⟩
    · refine ⟨p.name, x, ?_, hreg, p, List.mem_cons_self _ _, rfl⟩
      rw [List.foldlM_cons]
      have : markTarget x p = .error (Err.varNotRegistered p.name, x) := by
        unfold markTarget
        rw [hv, varIdx_error hreg]
      rw [this]; rfl

theorem setFed_err {g : FactorGraph} (hidx : VarsIndexed g) :
    ∀ (l : Dict RawData) (x : FactorGraph), SameRegistry g x →
      x.isReady.length = g.var_dict.size →
      (∃ p ∈ l, ¬ VarRegistered g p.1) →
      ∃ n x', l.foldlM setFed x = .error (Err.varNotRegistered n, x') ∧
        ¬ VarRegistered g n ∧ ∃ p ∈ l, p.1 = n := by
  intro l
  induction l with
  | nil => intro x _ _ h; obtain ⟨p, hp, _⟩ := h; cases hp
  | cons p l ih =>
    intro x hs hl hbad
    by_cases hreg : VarRegistered g p.1
    · obtain ⟨i, hi, hlt, hstep⟩ := setFed_ok hidx x p hs hl hreg
      obtain ⟨q, hq, hqb⟩ := hbad
      have hq' : q ∈ l := by
        rcases List.mem_cons.mp hq with rfl | hq
        · exact absurd hreg hqb
        · exact hq
      obtain ⟨n, x', h, hn, r, hr, hrn⟩ := ih
        { x with isReady := x.isReady.set i true, log := x.log ++ [Event.setRef p.1 p.2] }
        ⟨hs.var_dict, hs.factor_dict, hs.var_list, hs.factor_list, hs.ready_dict,
          hs.varEdges, hs.factorEdges⟩
        (by simp [hl]) ⟨q, hq', hqb⟩
      exact ⟨n, x', by rw [List.foldlM_cons, hstep]; exact h, hn, r,
        List.mem_cons_of_mem _ hr, hrn⟩
    · refine ⟨p.1, x, ?_, hreg, p, List.mem_cons_self _ _, rfl⟩
      rw [List.foldlM_cons]
      have : setFed x p = .error (Err.varNotRegistered p.1, x) := by
        unfold setFed
        rw [hs.varIdx_eq, varIdx_error hreg]
      rw [this]; rfl

theorem FeedForward_target_unregistered (g : FactorGraph) (targets : List VarPtr)
    (feed_dict : Dict RawData) (n_thread : Nat) (hidx : VarsIndexed g)
    (hbad : ∃ p ∈ targets, ¬ VarRegistered g p.name) :
    ∃ n, failure (FeedForward g targets feed_dict n_thread) = some (Err.varNotRegistered n) ∧
      ¬ VarRegistered g n ∧ ∃ p ∈ targets, p.name = n := by
  obtain ⟨n, x', h, hn, hp⟩ := markTargets_err hidx targets
    { g with isRequired := List.replicate g.var_dict.size false, q := [] } rfl (by simp) hbad
  have hD : DependencyParse g targets = .error (Err.varNotRegistered n, x') := by
    unfold DependencyParse
    dsimp only
    rw [h]
  have hP := (prepareForward_final g targets feed_dict).1 _ hD
  refine ⟨n, ?_, hn, hp⟩
  unfold FeedForward
  rw [hP]
  rfl

theorem FeedForward_feed_unregistered (g : FactorGraph) (targets : List VarPtr)
    (feed_dict : Dict RawData) (n_thread : Nat) (hidx : VarsIndexed g)
    (hreg : EdgeVarsRegistered g) (hpre : PreReadyRegistered g)
    (ht : ∀ p ∈ targets, VarRegistered g p.name)
    (hbad : ∃ p ∈ feed_dict, ¬ VarRegistered g p.1) :
    ∃ n, failure (FeedForward g targets feed_dict n_thread) = some (Err.varNotRegistered n) ∧
      ¬ VarRegistered g n ∧ ∃ p ∈ feed_dict, p.1 = n := by
  obtain ⟨gD, hD, hsD, hlD, hqD, hmD⟩ := DependencyParse_spec g targets hidx hreg ht
  have hrd : gD.ready_dict = g.ready_dict := hsD.ready_dict
  obtain ⟨g2, h2, hs2, hl2, _⟩ := setPreReady_fold hidx
    gD.ready_dict { gD with isReady := List.replicate gD.var_dict.size false }
    ⟨hsD.var_dict, hsD.factor_dict, hsD.var_list, hsD.factor_list, hsD.ready_dict,
      hsD.varEdges, hsD.factorEdges⟩
    (by simp [hsD.var_dict]) (fun st hst => hpre st (hrd ▸ hst))
  obtain ⟨n, x', h3, hn, hp⟩ := setFed_err hidx feed_dict g2 hs2 hl2 hbad
  refine ⟨n, ?_, hn, hp⟩
  have hP : prepareForward g targets feed_dict = .error (Err.varNotRegistered n, x') := by
    unfold prepareForward
    rw [hD]
    dsimp only
    rw [h2]
    exact h3
  unfold FeedForward
  rw [hP]
  rfl

/-- The lookups of a forward query. On a registry with distinct in-range value
indices, a forward query with a target whose name is not registered fails with
the lookup error of `VarIdx` for such a name; so does, when the lists of the
registry hold registered value nodes and the targets are registered, a forward
query with a feed name that is not registered. When the dequeued names are
read back (`forwardOne`, `backwardOne`), a forward query and a backward query
leave the name tables `var_dict` and `factor_dict` as they are, whether they
return or fail; `forward_incomplete_after_pop` shows a new key in
`factor_dict` when a name is not read back. -/
theorem query_lookup_error (g : FactorGraph) (targets : List VarPtr)
    (feed_dict : Dict RawData) (n_thread : Nat) (hidx : VarsIndexed g) :
    ((∃ p ∈ targets, ¬ VarRegistered g p.name) →
      ∃ n, failure (FeedForward g targets feed_dict n_thread) =
          some (Err.varNotRegistered n) ∧
        ¬ VarRegistered g n ∧ ∃ p ∈ targets, p.name = n) ∧
    (EdgeVarsRegistered g → PreReadyRegistered g → (∀ p ∈ targets, VarRegistered g p.name) →
      (∃ p ∈ feed_dict, ¬ VarRegistered g p.1) →
      ∃ n, failure (FeedForward g targets feed_dict n_thread) =
          some (Err.varNotRegistered n) ∧
        ¬ VarRegistered g n ∧ ∃ p ∈ feed_dict, p.1 = n) ∧
    ((finalState2 (FeedForward g targets feed_dict n_thread)).var_dict = g.var_dict ∧
      (finalState2 (FeedForward g targets feed_dict n_thread)).factor_dict = g.factor_dict) ∧
    ((finalState (BackPropagate g targets n_thread)).var_dict = g.var_dict ∧
      (finalState (BackPropagate g targets n_thread)).factor_dict = g.factor_dict) := by
  refine ⟨FeedForward_target_unregistered g targets feed_dict n_thread hidx,
    fun hreg hpre ht hbad =>
      FeedForward_feed_unregistered g targets feed_dict n_thread hidx hreg hpre ht hbad,
    ?_, ?_⟩
  · have h := (FeedForward_events g targets feed_dict n_thread).1
    exact ⟨h.var_dict, h.factor_dict⟩
  · have h := BackPropagate_same g targets n_thread
    exact ⟨h.var_dict, h.factor_dict⟩

/-- A forward query on the target `z`, and one feeding `z`, which is not
registered in the pruning scenario. -/
theorem query_lookup_error_witness :
    (∃ n, failure (FeedForward Example.pruning [Example.stranger] [("a", 5)] 1) =
        some (Err.varNotRegistered n) ∧
      ¬ VarRegistered Example.pruning n ∧ ∃ p ∈ [Example.stranger], p.name = n) ∧
    (∃ n, failure (FeedForward Example.pruning [Example.d] [("z", 5)] 1) =
        some (Err.varNotRegistered n) ∧
      ¬ VarRegistered Example.pruning n ∧ ∃ p ∈ [(("z", 5) : String × RawData)], p.1 = n) :=
  ⟨(query_lookup_error Example.pruning [Example.stranger] [("a", 5)] 1 (by decide)).1
      ⟨Example.stranger, by decide, by decide⟩,
   (query_lookup_error Example.pruning [Example.d] [("z", 5)] 1 (by decide)).2.1
      (by decide) (by decide) (by decide) ⟨("z", 5), by decide, by decide⟩⟩

/-- C10 for a backward seed. In the state the forward query of the pruning
scenario returned, `z` is not registered and the scratch sizes are consistent.
The forward query with the target `z` fails with the lookup error: line 51
looks the target up. The backward query seeded with `z` returns: lines 250
and 188 read `varEdges[p->name]`, no lookup is made for a seed, `OnesGrad` is
applied to the unregistered node, and the name table `varEdges` gets the key
`z`. Registering `z` was possible before the query and fails after it with
"already inserted", the `ASSERT` of `AddVar` reading `varEdges`. -/
theorem BackPropagate_unregistered_seed_returns :
    ¬ VarRegistered Example.afterForward "z" ∧
    scratchConsistent Example.afterForward = true ∧
    failure (FeedForward Example.afterForward [Example.stranger] [] 1) =
      some (Err.varNotRegistered "z") ∧
    failure (BackPropagate Example.afterForward [Example.stranger] 1) = none ∧
    Event.onesGrad Example.stranger ∈
      newLog Example.afterForward
        (finalState (BackPropagate Example.afterForward [Example.stranger] 1)) ∧
    Example.afterForward.varEdges.count "z" = 0 ∧
    (finalState (BackPropagate Example.afterForward [Example.stranger] 1)).varEdges.count "z"
      = 1 ∧
    failure (AddVar Example.afterForward Example.stranger false) = none ∧
    failure (AddVar (finalState (BackPropagate Example.afterForward [Example.stranger] 1))
      Example.stranger false) = some (Err.alreadyInserted "z") := by
  decide

/-- C8. On a registry with distinct in-range value indices whose lists hold
registered value nodes, a forward query with registered targets and feed names
and a thread count other than 1 fails with the error "not implemented"; it
logs no `Forward` call, and the ready flags set at the failure are those of
the pre-ready and fed value nodes. -/
theorem FeedForward_not_implemented (g : FactorGraph) (targets : List VarPtr)
    (feed_dict : Dict RawData) (n_thread : Nat) (hidx : VarsIndexed g)
    (hreg : EdgeVarsRegistered g) (hpre : PreReadyRegistered g)
    (ht : ∀ p ∈ targets, VarRegistered g p.name)
    (hf : ∀ p ∈ feed_dict, VarRegistered g p.1) (hn : n_thread ≠ 1) :
    ∃ g1, FeedForward g targets feed_dict n_thread = .error (Err.notImplemented, g1) ∧
      (∀ f ops outs, Event.forward f ops outs ∉ newLog g g1) ∧
      (∀ i, g1.isReady[i]? = some true ↔ InitiallyReady g feed_dict i) := by
  obtain ⟨gD, g1, _, hp, _, _, _, _, _, _, hlog, _, hready⟩ :=
    prepareForward_spec g targets feed_dict hidx hreg hpre ht hf
  refine ⟨g1, ?_, ?_, hready⟩
  · unfold FeedForward
    rw [hp]
    dsimp only
    rw [if_neg hn]
  · intro f ops outs hmem
    unfold newLog at hmem
    rw [hlog] at hmem
    simp at hmem

/-- The scenario of C8: the forward query of the pruning scenario with four threads. -/
theorem FeedForward_not_implemented_witness :
    (∃ g1, FeedForward Example.pruning [Example.d] [("a", 5)] 4 =
        .error (Err.notImplemented, g1) ∧
      (∀ f ops outs, Event.forward f ops outs ∉ newLog Example.pruning g1) ∧
      (∀ i, g1.isReady[i]? = some true ↔ InitiallyReady Example.pruning [("a", 5)] i)) ∧
    (finalState2 (FeedForward Example.pruning [Example.d] [("a", 5)] 4)).isReady =
      [true, false, false] :=
  ⟨FeedForward_not_implemented Example.pruning [Example.d] [("a", 5)] 4
      (by decide) (by decide) (by decide) (by decide) (by decide) (by decide),
   by decide⟩

/-! ## The forward pass returns -/

theorem facIdx_of_registered {g : FactorGraph} {n : String} (h : FacRegistered g n) :
    ∃ j e, g.factor_dict.lookup n = some e ∧ FacIdx g n = .ok j ∧ e.1 = j := by
  unfold FacRegistered at h
  unfold FacIdx
  cases hl : g.factor_dict.lookup n with
  | none => rw [hl] at h; simp at h
  | some e => exact ⟨e.1, e, rfl, rfl, rfl⟩

theorem facIdx_lt {g : FactorGraph} (h : FactorsIndexed g) {n : String} {j : Nat}
    (hj : FacIdx g n = .ok j) : j < g.factor_list.length := by
  unfold FacIdx at hj
  cases hl : g.factor_dict.lookup n with
  | none => rw [hl] at hj; cases hj
  | some e =>
    rw [hl] at hj
    injection hj with hj
    rw [← hj]
    exact h.2 _ (Dict.mem_of_lookup _ _ _ hl)

theorem registered_of_facIdx {g : FactorGraph} {n : String} {j : Nat}
    (hj : FacIdx g n = .ok j) : FacRegistered g n := by
  unfold FacIdx at hj
  unfold FacRegistered
  cases hl : g.factor_dict.lookup n with
  | none => rw [hl] at hj; cases hj
  | some e => rfl

theorem countP_pos_set (l : List Int) (j : Nat) (n : Int) (h : l[j]? = some n) :
    (l.set j (n - 1)).countP (fun k => decide (0 < k)) + (if n - 1 = 0 then 1 else 0) =
      l.countP (fun k => decide (0 < k)) := by
  induction l generalizing j with
  | nil => simp at h
  | cons x l ih =>
    cases j with
    | zero =>
      simp at h
      subst h
      simp only [List.set_cons_zero, List.countP_cons]
      by_cases h1 : x - 1 = 0
      · have hx : x = 1 := by omega
        subst hx
        simp
      · rw [if_neg h1]
        by_cases h2 : 0 < x
        · have h3 : 0 < x - 1 := by omega
          simp [h2, h3]
        · have h3 : ¬ 0 < x - 1 := by omega
          simp [h2, h3]
    | succ j =>
      simp at h
      have := ih j h
      simp only [List.set_cons_succ, List.countP_cons]
      omega

theorem decrPending_sched {g : FactorGraph} (hfac : FactorsIndexed g) {m : Nat}
    (x : FactorGraph) (f : Factor) (h : SchedInv g m x) (hreg : FacRegistered g f.name) :
    ∃ x', decrPending x f = .ok x' ∧ SchedInv g m x' ∧ x'.isReady = x.isReady ∧
      x'.isRequired = x.isRequired ∧ x'.log = x.log := by
  obtain ⟨j, e, _, hj, _⟩ := facIdx_of_registered hreg
  have hlt : j < x.n_pending.length := by rw [h.lenPending]; exact facIdx_lt hfac hj
  obtain ⟨n, hn⟩ : ∃ n, x.n_pending[j]? = some n := ⟨_, List.getElem?_eq_getElem hlt⟩
  have hc := countP_pos_set x.n_pending j n hn
  have hm := h.measure
  unfold decrPending
  rw [h.same.facIdx_eq, hj]
  dsimp only
  rw [hn]
  dsimp only
  by_cases h0 : n - 1 = 0
  · rw [if_pos h0]
    rw [if_pos h0] at hc
    refine ⟨_, rfl, ⟨⟨h.same.var_dict, h.same.factor_dict, h.same.var_list,
      h.same.factor_list, h.same.ready_dict, h.same.varEdges, h.same.factorEdges⟩,
      h.lenReady, h.lenRequired, ?_, ?_, ?_⟩, rfl, rfl, rfl⟩
    · show (x.n_pending.set j (n - 1)).length = _
      rw [List.length_set]; exact h.lenPending
    · intro k hk
      rcases List.mem_append.mp hk with hk | hk
      · exact h.queued k hk
      · rw [List.mem_singleton] at hk
        rw [hk]; exact hreg
    · show (x.q ++ [f.name]).length +
        (x.n_pending.set j (n - 1)).countP (fun k => decide (0 < k)) = m
      rw [List.length_append, List.length_singleton]
      omega
  · rw [if_neg h0]
    rw [if_neg h0] at hc
    refine ⟨_, rfl, ⟨⟨h.same.var_dict, h.same.factor_dict, h.same.var_list,
      h.same.factor_list, h.same.ready_dict, h.same.varEdges, h.same.factorEdges⟩,
      h.lenReady, h.lenRequired, ?_, h.queued, ?_⟩, rfl, rfl, rfl⟩
    · show (x.n_pending.set j (n - 1)).length = _
      rw [List.length_set]; exact h.lenPending
    · show x.q.length + (x.n_pending.set j (n - 1)).countP (fun k => decide (0 < k)) = m
      omega

theorem decrPendings_sched {g : FactorGraph} (hfac : FactorsIndexed g) {m : Nat}
    (l : FactorList) (x : FactorGraph) (h : SchedInv g m x)
    (hreg : ∀ f ∈ l, FacRegistered g f.name) :
    ∃ x', l.foldlM decrPending x = .ok x' ∧ SchedInv g m x' ∧ x'.isReady = x.isReady ∧
      x'.isRequired = x.isRequired ∧ x'.log = x.log := by
  obtain ⟨x', h1, ⟨h2, h3, h4, h5⟩⟩ := foldlM_ok decrPending
    (fun y => SchedInv g m y ∧ y.isReady = x.isReady ∧ y.isRequired = x.isRequired ∧
      y.log = x.log)
    (fun f => FacRegistered g f.name)
    (fun y f hy hf => by
      obtain ⟨y', e1, e2, e3, e4, e5⟩ := decrPending_sched hfac y f hy.1 hf
      exact ⟨y', e1, e2, e3.trans hy.2.1, e4.trans hy.2.2.1, e5.trans hy.2.2.2⟩)
    l x ⟨h, rfl, rfl, rfl⟩ hreg
  exact ⟨x', h1, h2, h3, h4, h5⟩

theorem SchedInv.sched_after_touchVar {g : FactorGraph} {m : Nat} {x : FactorGraph}
    (h : SchedInv g m x) (n : String) : SchedInv g m (x.touchVar n) :=
  ⟨h.same.trans (SameRegistry.of_touchVar x n), h.lenReady, h.lenRequired, h.lenPending,
    h.queued, h.measure⟩

theorem SchedInv.sched_after_touchFac {g : FactorGraph} {m : Nat} {x : FactorGraph}
    (h : SchedInv g m x) (n : String) : SchedInv g m (x.touchFac n) :=
  ⟨h.same.trans (SameRegistry.of_touchFac x n), h.lenReady, h.lenRequired, h.lenPending,
    h.queued, h.measure⟩

theorem seedReady_sched {g : FactorGraph} (hw : WellFormed g) {m : Nat}
    (x : FactorGraph) (i : Nat) (h : SchedInv g m x) (hi : i < g.var_dict.size) :
    ∃ x', seedReady x i = .ok x' ∧ SchedInv g m x' ∧ x'.isReady = x.isReady ∧
      x'.isRequired = x.isRequired ∧ x'.log = x.log := by
  unfold seedReady
  split
  · have hlt : i < x.var_list.length := by
      rw [h.same.var_list, hw.varList.1]; exact hi
    rw [List.getElem?_eq_getElem hlt]
    dsimp only
    have h1 := h.sched_after_touchVar x.var_list[i].name
    have hc : (x.touchVar x.var_list[i].name).consumers x.var_list[i].name =
        g.consumers x.var_list[i].name := h1.same.consumers_eq _
    rw [hc]
    exact decrPendings_sched hw.factors _ _ h1
      (fun f hf => consumers_registered hw.edgeFactors hf)
  · exact ⟨x, rfl, h, rfl, rfl, rfl⟩

theorem anyRequired_ok {g : FactorGraph} (hidx : VarsIndexed g) (x : FactorGraph)
    (hd : x.var_dict = g.var_dict) (hl : x.isRequired.length = g.var_dict.size)
    (outs : VarList) (hreg : ∀ p ∈ outs, VarRegistered g p.name) :
    ∃ b, anyRequired x outs = .ok b := by
  induction outs with
  | nil => exact ⟨false, rfl⟩
  | cons p ps ih =>
    obtain ⟨i, hi⟩ := varIdx_of_registered (hreg p (List.mem_cons_self _ _))
    have hlt : i < x.isRequired.length := by rw [hl]; exact varIdx_lt hidx hi
    have hv : VarIdx x p.name = .ok i := by unfold VarIdx; rw [hd]; exact hi
    unfold anyRequired
    rw [hv]
    dsimp only
    rw [List.getElem?_eq_getElem hlt]
    cases x.isRequired[i] with
    | true => exact ⟨true, rfl⟩
    | false => exact ih (fun q hq => hreg q (List.mem_cons_of_mem _ hq))

theorem readyOutput_sched {g : FactorGraph} (hw : WellFormed g) {m : Nat}
    (x : FactorGraph) (p : VarPtr) (h : SchedInv g m x) (hreg : VarRegistered g p.name) :
    ∃ x', readyOutput x p = .ok x' ∧ SchedInv g m x' := by
  obtain ⟨i, hi⟩ := varIdx_of_registered hreg
  have hlt : i < x.isReady.length := by rw [h.lenReady]; exact varIdx_lt hw.vars hi
  unfold readyOutput
  rw [h.same.varIdx_eq, hi]
  dsimp only
  rw [if_pos hlt]
  have h1 : SchedInv g m ({ x with isReady := x.isReady.set i true }.touchVar p.name) := by
    refine ⟨⟨h.same.var_dict, h.same.factor_dict, h.same.var_list, h.same.factor_list,
      h.same.ready_dict, ?_, h.same.factorEdges⟩, ?_, h.lenRequired, h.lenPending,
      h.queued, h.measure⟩
    · intro n
      exact (Dict.get_touch x.varEdges p.name n).trans (h.same.varEdges n)
    · show (x.isReady.set i true).length = _
      rw [List.length_set]; exact h.lenReady
  have hc : ({ x with isReady := x.isReady.set i true }.touchVar p.name).consumers p.name =
      g.consumers p.name := h1.same.consumers_eq _
  rw [hc]
  obtain ⟨x', e1, e2, _⟩ := decrPendings_sched hw.factors _ _ h1
    (fun f hf => consumers_registered hw.edgeFactors hf)
  exact ⟨x', e1, e2⟩

theorem forwardOne_sched {g : FactorGraph} (hw : WellFormed g) {m : Nat}
    (x : FactorGraph) (cur : String) (h : SchedInv g m x) (hreg : FacRegistered g cur) :
    ∃ x', forwardOne x cur = .ok x' ∧ SchedInv g m x' := by
  obtain ⟨j, e, he, _, _⟩ := facIdx_of_registered hreg
  unfold forwardOne
  rw [h.same.factor_dict, he]
  dsimp only
  have h1 := h.sched_after_touchFac cur
  have houts : (x.touchFac cur).outputs cur = g.outputs cur := h1.same.outputs_eq cur
  rw [houts]
  obtain ⟨b, hb⟩ := anyRequired_ok hw.vars (x.touchFac cur) h1.same.var_dict h1.lenRequired
    (g.outputs cur) (fun p hp => outputs_registered hw.edgeVars hp)
  rw [hb]
  cases b with
  | false => exact ⟨_, rfl, h1⟩
  | true =>
    dsimp only
    exact foldlM_ok readyOutput (SchedInv g m) (fun p => VarRegistered g p.name)
      (fun y p hy hp => readyOutput_sched hw y p hy hp) _ _
      ⟨⟨h1.same.var_dict, h1.same.factor_dict, h1.same.var_list, h1.same.factor_list,
        h1.same.ready_dict, h1.same.varEdges, h1.same.factorEdges⟩, h1.lenReady,
        h1.lenRequired, h1.lenPending, h1.queued, h1.measure⟩
      (fun p hp => by
        have hp' : p ∈ (x.touchFac cur).outputs cur := hp
        rw [houts] at hp'
        exact outputs_registered hw.edgeVars hp')

theorem forwardIter_sched {g : FactorGraph} (hw : WellFormed g) :
    ∀ (k m : Nat) (x : FactorGraph), SchedInv g m x →
      ∃ x' m', forwardIter k x = .ok x' ∧ SchedInv g m' x' ∧ (m ≤ k → x'.q = []) := by
  intro k
  induction k with
  | zero =>
    intro m x h
    refine ⟨x, m, rfl, h, ?_⟩
    intro hm
    have := h.measure
    exact List.length_eq_zero.mp (by omega)
  | succ k ih =>
    intro m x h
    unfold forwardIter
    cases hq : x.q with
    | nil => exact ⟨x, m, rfl, h, fun _ => hq⟩
    | cons cur rest =>
      dsimp only
      have hm := h.measure
      rw [hq, List.length_cons] at hm
      have hpop : SchedInv g (m - 1) { x with q := rest } :=
        ⟨⟨h.same.var_dict, h.same.factor_dict, h.same.var_list, h.same.factor_list,
          h.same.ready_dict, h.same.varEdges, h.same.factorEdges⟩, h.lenReady,
          h.lenRequired, h.lenPending,
          fun n hn => h.queued n (by rw [hq]; exact List.mem_cons_of_mem _ hn),
          by
            show rest.length + x.n_pending.countP (fun n => decide (0 < n)) = m - 1
            omega⟩
      obtain ⟨x1, e1, h1⟩ := forwardOne_sched hw _ cur hpop
        (h.queued cur (by rw [hq]; exact List.mem_cons_self _ _))
      rw [e1]
      obtain ⟨x2, m2, e2, h2, hq2⟩ := ih (m - 1) x1 h1
      exact ⟨x2, m2, e2, h2, fun hle => hq2 (by omega)⟩

theorem countP_le_length_int (l : List Int) :
    l.countP (fun k => decide (0 < k)) ≤ l.length := List.countP_le_length _

theorem forwardSeed_sched {g : FactorGraph} (hw : WellFormed g) (x : FactorGraph)
    (hs : SameRegistry g x) (h1 : x.isReady.length = g.var_dict.size)
    (h2 : x.isRequired.length = g.var_dict.size) :
    ∃ x' m, forwardSeed x = .ok x' ∧ SchedInv g m x' ∧ m ≤ g.factor_list.length ∧
      x'.isReady = x.isReady ∧ x'.isRequired = x.isRequired ∧ x'.log = x.log := by
  have hinit := initPendingForward_fwdInv x
  have h0 : SchedInv g
      ((initPendingForward { x with q := [] }).q.length +
        (initPendingForward { x with q := [] }).n_pending.countP (fun n => decide (0 < n)))
      (initPendingForward { x with q := [] }) := by
    refine ⟨hs.trans hinit.same, h1, h2, ?_, ?_, rfl⟩
    · show (x.factor_list.map _).length = _
      rw [List.length_map, hs.factor_list]
    · intro n hn
      have : (initPendingForward { x with q := [] }).q = [] := rfl
      rw [this] at hn; cases hn
  have hm0 : (initPendingForward { x with q := [] }).q.length +
      (initPendingForward { x with q := [] }).n_pending.countP (fun n => decide (0 < n)) ≤
      g.factor_list.length := by
    have hq : (initPendingForward { x with q := [] }).q = [] := rfl
    have hl : (initPendingForward { x with q := [] }).n_pending.length =
        g.factor_list.length := h0.lenPending
    have := countP_le_length_int (initPendingForward { x with q := [] }).n_pending
    rw [hq, List.length_nil]
    omega
  unfold forwardSeed
  dsimp only
  obtain ⟨x', e1, ⟨e2, e3, e4, e5⟩⟩ := foldlM_ok seedReady
    (fun y => SchedInv g _ y ∧ y.isReady = x.isReady ∧ y.isRequired = x.isRequired ∧
      y.log = x.log)
    (fun i => i < g.var_dict.size)
    (fun y i hy hi => by
      obtain ⟨y', a1, a2, a3, a4, a5⟩ := seedReady_sched hw y i hy.1 hi
      exact ⟨y', a1, a2, a3.trans hy.2.1, a4.trans hy.2.2.1, a5.trans hy.2.2.2⟩)
    (List.range (initPendingForward { x with q := [] }).isReady.length)
    (initPendingForward { x with q := [] }) ⟨h0, rfl, rfl, rfl⟩
    (fun i hi => by
      have : (initPendingForward { x with q := [] }).isReady.length = g.var_dict.size := h1
      rw [this] at hi
      exact List.mem_range.mp hi)
  exact ⟨x', _, e1, e2, hm0, e3, e4, e5⟩

theorem SequentialForward_returns {g : FactorGraph} (hw : WellFormed g) (x : FactorGraph)
    (hs : SameRegistry g x) (h1 : x.isReady.length = g.var_dict.size)
    (h2 : x.isRequired.length = g.var_dict.size) :
    ∃ x' m, SequentialForward x = .ok x' ∧ SchedInv g m x' ∧ x'.q = [] := by
  obtain ⟨x1, m, e1, hI1, hm, _⟩ := forwardSeed_sched hw x hs h1 h2
  obtain ⟨x2, m2, e2, hI2, hq2⟩ := forwardIter_sched hw x1.factor_list.length m x1 hI1
  have hq : x2.q = [] := hq2 (by rw [hI1.same.factor_list]; exact hm)
  refine ⟨x2, m2, ?_, hI2, hq⟩
  unfold SequentialForward
  rw [e1]
  dsimp only
  unfold forwardLoop
  rw [e2]
  dsimp only
  rw [hq]

theorem checkReady_spec {g : FactorGraph} (hidx : VarsIndexed g) (x : FactorGraph)
    (hd : x.var_dict = g.var_dict) (hl : x.isReady.length = g.var_dict.size)
    (ts : List VarPtr) (hreg : ∀ p ∈ ts, VarRegistered g p.name) :
    ((∀ p ∈ ts, Ready x p.name) ∧ checkReady x ts = .ok ()) ∨
    (∃ p ∈ ts, ¬ Ready x p.name ∧ checkReady x ts = .error (Err.notReady p.name)) := by
  induction ts with
  | nil => exact Or.inl ⟨by simp, rfl⟩
  | cons p ps ih =>
    obtain ⟨i, hi⟩ := varIdx_of_registered (hreg p (List.mem_cons_self _ _))
    have hlt : i < x.isReady.length := by rw [hl]; exact varIdx_lt hidx hi
    have hv : VarIdx x p.name = .ok i := by unfold VarIdx; rw [hd]; exact hi
    cases hb : x.isReady[i] with
    | false =>
      right
      refine ⟨p, List.mem_cons_self _ _, ?_, ?_⟩
      · rintro ⟨j, hj, hf⟩
        rw [hv] at hj
        injection hj with hj
        subst hj
        rw [List.getElem?_eq_getElem hlt, hb] at hf
        cases hf
      · unfold checkReady
        rw [hv]
        dsimp only
        rw [List.getElem?_eq_getElem hlt, hb]
    | true =>
      have hstep : checkReady x (p :: ps) = checkReady x ps := by
        conv => lhs; unfold checkReady
        rw [hv]
        dsimp only
        rw [List.getElem?_eq_getElem hlt, hb]
      rcases ih (fun q hq => hreg q (List.mem_cons_of_mem _ hq)) with ⟨h1, h2⟩ | ⟨q, hq, h1, h2⟩
      · left
        refine ⟨?_, by rw [hstep]; exact h2⟩
        intro q hq
        rcases List.mem_cons.mp hq with rfl | hq
        · exact ⟨i, hv, by rw [List.getElem?_eq_getElem hlt, hb]⟩
        · exact h1 q hq
      · right
        exact ⟨q, List.mem_cons_of_mem _ hq, h1, by rw [hstep]; exact h2⟩

/-- C6. On a well-formed registry, a forward query with one thread whose
targets and feed names are registered runs the sequential pass until its queue
is empty; the query then fails with the error "not ready" if and only if the
ready flag of some target is not set in the state the pass leaves, and
otherwise returns the list of the targets as given. -/
theorem FeedForward_result (g : FactorGraph) (targets : List VarPtr)
    (feed_dict : Dict RawData) (hw : WellFormed g)
    (ht : ∀ p ∈ targets, VarRegistered g p.name)
    (hf : ∀ p ∈ feed_dict, VarRegistered g p.1) :
    ∃ g1 g2, prepareForward g targets feed_dict = .ok g1 ∧ SequentialForward g1 = .ok g2 ∧
      g2.q = [] ∧
      ((∃ n, failure (FeedForward g targets feed_dict 1) = some (Err.notReady n)) ↔
        ∃ p ∈ targets, ¬ Ready g2 p.name) ∧
      ((∀ p ∈ targets, Ready g2 p.name) →
        FeedForward g targets feed_dict 1 = .ok (targets, g2)) := by
  obtain ⟨gD, g1, _, hp, hs1, _, hlr, hlrd, _⟩ :=
    prepareForward_spec g targets feed_dict hw.vars hw.edgeVars hw.preReady ht hf
  obtain ⟨g2, m, e2, hI2, hq2⟩ := SequentialForward_returns hw g1 hs1 hlrd hlr
  have hff : FeedForward g targets feed_dict 1 =
      match checkReady g2 targets with
      | .error e => .error (e, g2)
      | .ok _ => .ok (targets, g2) := by
    unfold FeedForward
    rw [hp]
    dsimp only
    rw [if_pos rfl, e2]
  refine ⟨g1, g2, hp, e2, hq2, ?_, ?_⟩
  · rcases checkReady_spec hw.vars g2 hI2.same.var_dict hI2.lenReady targets ht with
      ⟨h1, h2⟩ | ⟨p, hp, h1, h2⟩
    · rw [hff, h2]
      constructor
      · rintro ⟨n, hn⟩; cases hn
      · rintro ⟨p, hp, hnr⟩; exact absurd (h1 p hp) hnr
    · rw [hff, h2]
      exact ⟨fun _ => ⟨p, hp, h1⟩, fun _ => ⟨p.name, rfl⟩⟩
  · intro hall
    rcases checkReady_spec hw.vars g2 hI2.same.var_dict hI2.lenReady targets ht with
      ⟨_, h2⟩ | ⟨p, hp, h1, _⟩
    · rw [hff, h2]
    · exact absurd (hall p hp) h1

/-- The scenarios of C6: the forward query of the pruning scenario returns its
target, and the same query without the feed fails with "not ready". -/
theorem FeedForward_result_witness :
    (∃ g1 g2, prepareForward Example.pruning [Example.d] [("a", 5)] = .ok g1 ∧
      SequentialForward g1 = .ok g2 ∧ g2.q = [] ∧
      ((∃ n, failure (FeedForward Example.pruning [Example.d] [("a", 5)] 1) =
          some (Err.notReady n)) ↔ ∃ p ∈ [Example.d], ¬ Ready g2 p.name) ∧
      ((∀ p ∈ [Example.d], Ready g2 p.name) →
        FeedForward Example.pruning [Example.d] [("a", 5)] 1 = .ok ([Example.d], g2))) ∧
    failure (FeedForward Example.pruning [Example.d] [("a", 5)] 1) = none ∧
    failure (FeedForward Example.pruning [Example.d] [] 1) = some (Err.notReady "d") :=
  ⟨FeedForward_result Example.pruning [Example.d] [("a", 5)] (by decide) (by decide)
    (by decide), by decide, by decide⟩

/-! ## The counters of the forward pass -/

theorem facIdx_inj {g : FactorGraph} (h : FactorsIndexed g) {a b : String} {j : Nat}
    (ha : FacIdx g a = .ok j) (hb : FacIdx g b = .ok j) : a = b := by
  unfold FacIdx at ha hb
  cases hla : g.factor_dict.lookup a with
  | none => rw [hla] at ha; cases ha
  | some ea =>
    cases hlb : g.factor_dict.lookup b with
    | none => rw [hlb] at hb; cases hb
    | some eb =>
      rw [hla] at ha
      rw [hlb] at hb
      injection ha with ha
      injection hb with hb
      have ma := Dict.mem_of_lookup _ _ _ hla
      have mb := Dict.mem_of_lookup _ _ _ hlb
      have := List.inj_on_of_nodup_map h.1 ma mb (by show ea.1 = eb.1; rw [ha, hb])
      exact congrArg Prod.fst this

theorem facIdx_mem {g : FactorGraph} {fn : String} {j : Nat} (h : FacIdx g fn = .ok j) :
    ∃ e, (fn, e) ∈ g.factor_dict ∧ e.1 = j := by
  unfold FacIdx at h
  cases hl : g.factor_dict.lookup fn with
  | none => rw [hl] at h; cases h
  | some e =>
    rw [hl] at h
    injection h with h
    exact ⟨e, Dict.mem_of_lookup _ _ _ hl, h⟩

theorem varIdx_mem {g : FactorGraph} {n : String} {j : Nat} (h : VarIdx g n = .ok j) :
    ∃ e, (n, e) ∈ g.var_dict ∧ e.1 = j := by
  obtain ⟨v, hv⟩ := (varIdx_ok_iff g n j).mp h
  exact ⟨(j, v), Dict.mem_of_lookup _ _ _ hv, rfl⟩

theorem ready_congr {x y : FactorGraph} (hd : y.var_dict = x.var_dict)
    (hr : y.isReady = x.isReady) (n : String) : Ready y n ↔ Ready x n := by
  unfold Ready VarIdx
  rw [hd, hr]

theorem accounted_congr {x y : FactorGraph} (hd : y.var_dict = x.var_dict)
    (hr : y.isReady = x.isReady) (i : Nat) (n : String) :
    Accounted y i n ↔ Accounted x i n := by
  unfold Accounted VarIdx
  rw [hd, hr]

theorem pendingOperands_congr (g : FactorGraph) {x y : FactorGraph} {i i' : Nat}
    (h : ∀ n, Accounted y i' n ↔ Accounted x i n) (fn : String) :
    pendingOperands g y i' fn = pendingOperands g x i fn := by
  unfold pendingOperands
  congr 1
  funext p
  simp only [h p.name]

theorem decrPending_shape {x x' : FactorGraph} {f : Factor} (he : decrPending x f = .ok x') :
    ∃ j n, FacIdx x f.name = .ok j ∧ x.n_pending[j]? = some n ∧
      ((n - 1 = 0 ∧ x' = { x with n_pending := x.n_pending.set j (n - 1), q := x.q ++ [f.name] }) ∨
       (n - 1 ≠ 0 ∧ x' = { x with n_pending := x.n_pending.set j (n - 1) })) := by
  unfold decrPending at he
  cases hj : FacIdx x f.name with
  | error e => rw [hj] at he; cases he
  | ok j =>
    rw [hj] at he
    dsimp only at he
    cases hn : x.n_pending[j]? with
    | none => rw [hn] at he; cases he
    | some n =>
      rw [hn] at he
      dsimp only at he
      refine ⟨j, n, rfl, hn, ?_⟩
      by_cases h0 : n - 1 = 0
      · rw [if_pos h0] at he
        injection he with he
        exact Or.inl ⟨h0, he.symm⟩
      · rw [if_neg h0] at he
        injection he with he
        exact Or.inr ⟨h0, he.symm⟩

theorem getElem?_set_int (l : List Int) (j k : Nat) (n v : Int) (hj : l[j]? = some n) :
    (l.set j v)[k]? = if k = j then some v else l[k]? := by
  have hlt : j < l.length := by
    rcases List.getElem?_eq_some_iff.mp hj with ⟨h, _⟩
    exact h
  by_cases hk : k = j
  · subst hk
    rw [if_pos rfl, List.getElem?_set_self hlt]
  · rw [if_neg hk, List.getElem?_set_ne (fun h => hk h.symm)]

theorem pendingOperands_zero {g x : FactorGraph} {i : Nat} {fn : String}
    (h : pendingOperands g x i fn = 0) : ∀ p ∈ g.operands fn, Ready x p.name := by
  intro p hp
  unfold pendingOperands at h
  rw [List.countP_eq_zero] at h
  have := h p hp
  simp only [decide_not, Bool.not_eq_true', decide_eq_false_iff_not, not_not] at this
  obtain ⟨j, hj, _, hr⟩ := this
  exact ⟨j, hj, hr⟩

theorem decrPending_count {g : FactorGraph} (hfac : FactorsIndexed g) {i : Nat}
    (f : Factor) (l : FactorList) (x x' : FactorGraph) (h : CountInv g i (f :: l) x)
    (he : decrPending x f = .ok x') :
    CountInv g i l x' ∧ x'.isReady = x.isReady ∧ x'.log = x.log ∧
      x'.isRequired = x.isRequired := by
  obtain ⟨j, n, hj, hn, hx'⟩ := decrPending_shape he
  have hjg : FacIdx g f.name = .ok j := by rw [← h.same.facIdx_eq]; exact hj
  have hnp : ∀ k, x'.n_pending[k]? = if k = j then some (n - 1) else x.n_pending[k]? := by
    intro k
    rcases hx' with ⟨_, rfl⟩ | ⟨_, rfl⟩ <;> exact getElem?_set_int _ _ _ _ _ hn
  have hrd : x'.isReady = x.isReady := by
    rcases hx' with ⟨_, rfl⟩ | ⟨_, rfl⟩ <;> rfl
  have hvd : x'.var_dict = x.var_dict := by
    rcases hx' with ⟨_, rfl⟩ | ⟨_, rfl⟩ <;> rfl
  have hlog : x'.log = x.log := by
    rcases hx' with ⟨_, rfl⟩ | ⟨_, rfl⟩ <;> rfl
  have hreq : x'.isRequired = x.isRequired := by
    rcases hx' with ⟨_, rfl⟩ | ⟨_, rfl⟩ <;> rfl
  have hsame : SameRegistry g x' := by
    rcases hx' with ⟨_, rfl⟩ | ⟨_, rfl⟩ <;>
      exact ⟨h.same.var_dict, h.same.factor_dict, h.same.var_list, h.same.factor_list,
        h.same.ready_dict, h.same.varEdges, h.same.factorEdges⟩
  have hq : x'.q = x.q ++ [f.name] ∧ n - 1 = 0 ∨ x'.q = x.q ∧ n - 1 ≠ 0 := by
    rcases hx' with ⟨h0, rfl⟩ | ⟨h0, rfl⟩
    · exact Or.inl ⟨rfl, h0⟩
    · exact Or.inr ⟨rfl, h0⟩
  have hready : ∀ m, Ready x' m ↔ Ready x m := ready_congr hvd hrd
  have hpo : ∀ fn, pendingOperands g x' i fn = pendingOperands g x i fn :=
    fun fn => pendingOperands_congr g (accounted_congr hvd hrd i) fn
  -- the counter of `f` before the decrement
  obtain ⟨n0, hn0, hle0⟩ := h.cnt f.name j hjg
  rw [hn] at hn0
  injection hn0 with hn0
  subst hn0
  have hself : (List.countP (fun f' : Factor => f'.name == f.name) (f :: l) : Int) =
      (List.countP (fun f' : Factor => f'.name == f.name) l : Int) + 1 := by
    rw [List.countP_cons]; simp
  have hmemq : ∀ fn, fn ∈ x'.q → fn ∈ x.q ∨ (fn = f.name ∧ n - 1 = 0) := by
    intro fn hfn
    rcases hq with ⟨hq, h0⟩ | ⟨hq, _⟩
    · rw [hq] at hfn
      rcases List.mem_append.mp hfn with h1 | h1
      · exact Or.inl h1
      · exact Or.inr ⟨List.mem_singleton.mp h1, h0⟩
    · rw [hq] at hfn; exact Or.inl hfn
  refine ⟨⟨hsame, ?_, ?_, ?_, ?_, ?_⟩, hrd, hlog, hreq⟩
  · -- cnt
    intro fn k hk
    obtain ⟨nk, hnk, hlek⟩ := h.cnt fn k hk
    rw [hpo fn]
    by_cases hkj : k = j
    · subst hkj
      have hfn : fn = f.name := facIdx_inj hfac hk hjg
      subst hfn
      rw [hn] at hnk
      injection hnk with hnk
      subst hnk
      refine ⟨n - 1, by rw [hnp]; simp, ?_⟩
      rw [hself] at hlek
      omega
    · have hne : f.name ≠ fn := by
        intro hc
        rw [← hc] at hk
        rw [hjg] at hk
        injection hk with hk
        exact hkj hk.symm
      refine ⟨nk, by rw [hnp, if_neg hkj]; exact hnk, ?_⟩
      have : (List.countP (fun f' : Factor => f'.name == fn) (f :: l) : Int) =
          (List.countP (fun f' : Factor => f'.name == fn) l : Int) := by
        rw [List.countP_cons]; simp [hne]
      rw [this] at hlek
      exact hlek
  · -- fresh
    intro fn k nk hk hnk hcase p hp hr
    rw [hready] at hr
    rw [hnp] at hnk
    by_cases hkj : k = j
    · subst hkj
      rw [if_pos rfl] at hnk
      injection hnk with hnk
      subst hnk
      have hfn : fn = f.name := facIdx_inj hfac hk hjg
      refine h.fresh fn k n hk hn ?_ p hp hr
      rcases hcase with hc | hc
      · rcases hmemq fn hc with h1 | ⟨_, h0⟩
        · exact Or.inl h1
        · exact Or.inr (by omega)
      · exact Or.inr (by omega)
    · rw [if_neg hkj] at hnk
      refine h.fresh fn k nk hk hnk ?_ p hp hr
      rcases hcase with hc | hc
      · rcases hmemq fn hc with h1 | ⟨hfn, _⟩
        · exact Or.inl h1
        · rw [hfn, hjg] at hk
          injection hk with hk
          exact absurd hk.symm hkj
      · exact Or.inr hc
  · -- spent
    intro fn hfn
    rcases hmemq fn hfn with h1 | ⟨hfn', h0⟩
    · obtain ⟨k, nk, hk, hnk, hle⟩ := h.spent fn h1
      by_cases hkj : k = j
      · subst hkj
        rw [hn] at hnk
        injection hnk with hnk
        subst hnk
        exact ⟨k, n - 1, hk, by rw [hnp]; simp, by omega⟩
      · exact ⟨k, nk, hk, by rw [hnp, if_neg hkj]; exact hnk, hle⟩
    · subst hfn'
      exact ⟨j, n - 1, hjg, by rw [hnp]; simp, by omega⟩
  · -- nodup
    rcases hq with ⟨hq, h0⟩ | ⟨hq, _⟩
    · rw [hq]
      refine List.nodup_append.mpr ⟨h.nodup, List.nodup_singleton _, ?_⟩
      intro a ha hb
      rw [List.mem_singleton] at hb
      subst hb
      obtain ⟨k, nk, hk, hnk, hle⟩ := h.spent _ ha
      rw [hjg] at hk
      injection hk with hk
      subst hk
      rw [hn] at hnk
      injection hnk with hnk
      omega
    · rw [hq]; exact h.nodup
  · -- ops
    intro fn hfn p hp
    rw [hready]
    rcases hmemq fn hfn with h1 | ⟨hfn', h0⟩
    · exact h.ops fn h1 p hp
    · subst hfn'
      rw [hself] at hle0
      have hz : pendingOperands g x i f.name = 0 := by omega
      exact pendingOperands_zero hz p hp

theorem decrPendings_count {g : FactorGraph} (hfac : FactorsIndexed g) {i : Nat} :
    ∀ (l : FactorList) (x x' : FactorGraph), CountInv g i l x →
      l.foldlM decrPending x = .ok x' →
      CountInv g i [] x' ∧ x'.isReady = x.isReady ∧ x'.log = x.log ∧
        x'.isRequired = x.isRequired := by
  intro l
  induction l with
  | nil =>
    intro x x' h he
    injection he with he
    subst he
    exact ⟨h, rfl, rfl, rfl⟩
  | cons f l ih =>
    intro x x' h he
    rw [List.foldlM_cons] at he
    rcases run_cases (decrPending x f) with ⟨e, h1⟩ | ⟨x1, h1⟩
    · rw [h1] at he; cases he
    · rw [h1] at he
      obtain ⟨hI1, hr1, hl1, hq1⟩ := decrPending_count hfac f l x x1 h h1
      obtain ⟨hI2, hr2, hl2, hq2⟩ := ih x1 x' hI1 he
      exact ⟨hI2, hr2.trans hr1, hl2.trans hl1, hq2.trans hq1⟩

theorem countP_unaccounted (L : VarList) (A A' : String → Prop) [DecidablePred A]
    [DecidablePred A'] (vn : String) (hA : ∀ m, A' m ↔ A m ∨ m = vn) (hnot : ¬ A vn) :
    L.countP (fun p => decide (¬ A p.name)) =
      L.countP (fun p => decide (¬ A' p.name)) + L.countP (fun p => p.name == vn) := by
  induction L with
  | nil => rfl
  | cons p L ih =>
    rw [List.countP_cons, List.countP_cons, List.countP_cons, ih]
    by_cases hp : p.name = vn
    · have e1 : decide (¬ A p.name) = true := decide_eq_true (by rw [hp]; exact hnot)
      have e2 : decide (¬ A' p.name) = false :=
        decide_eq_false (fun h => h ((hA _).mpr (Or.inr hp)))
      have e3 : (p.name == vn) = true := by rw [hp]; exact beq_self_eq_true vn
      rw [e1, e2, e3]
      simp only [if_true, Bool.false_eq_true, if_false]
      omega
    · have h3 : A' p.name ↔ A p.name := by
        rw [hA]; exact ⟨fun h => h.elim id (fun h' => absurd h' hp), Or.inl⟩
      have e3 : (p.name == vn) = false := by
        cases hb : (p.name == vn) with
        | false => rfl
        | true => exact absurd (eq_of_beq hb) hp
      have e12 : decide (¬ A p.name) = decide (¬ A' p.name) := by
        have h4 : (¬ A p.name) ↔ (¬ A' p.name) := not_congr h3.symm
        exact decide_eq_decide.mpr h4
      rw [e12, e3]
      simp only [Bool.false_eq_true, if_false]
      omega

theorem CountInv.event {g : FactorGraph} (hcons : ConsistentAdjacency g) {i i' : Nat}
    {x x1 : FactorGraph} {vn : String} (h : CountInv g i [] x) (hs : SameRegistry g x1)
    (hp : x1.n_pending = x.n_pending) (hq : x1.q = x.q)
    (hA : ∀ m, Accounted x1 i' m ↔ Accounted x i m ∨ m = vn) (hnot : ¬ Accounted x i vn)
    (hvn : ∃ e, (vn, e) ∈ g.var_dict) (hR : ∀ m, Ready x m → Ready x1 m)
    (hfresh : ∀ fn j n, FacIdx g fn = .ok j → x1.n_pending[j]? = some n →
      (fn ∈ x1.q ∨ 0 < n) → ∀ p ∈ g.outputs fn, ¬ Ready x1 p.name) :
    CountInv g i' (g.consumers vn) x1 := by
  refine ⟨hs, ?_, hfresh, ?_, by rw [hq]; exact h.nodup, ?_⟩
  · intro fn j hj
    obtain ⟨n, hn, hle⟩ := h.cnt fn j hj
    refine ⟨n, by rw [hp]; exact hn, ?_⟩
    obtain ⟨e, hmem, _⟩ := facIdx_mem hj
    obtain ⟨ev, hvmem⟩ := hvn
    have hc := hcons.1 (vn, ev) hvmem (fn, e) hmem
    have hsplit : pendingOperands g x i fn =
        pendingOperands g x1 i' fn + (g.operands fn).countP (fun p => p.name == vn) := by
      unfold pendingOperands
      exact countP_unaccounted (g.operands fn) (fun m => Accounted x i m)
        (fun m => Accounted x1 i' m) vn hA hnot
    simp only [List.countP_nil, Nat.cast_zero, add_zero] at hle
    rw [hsplit] at hle
    have hc' : ((g.consumers vn).countP (fun f => f.name == fn) : Int) =
        ((g.operands fn).countP (fun p => p.name == vn) : Int) := by
      exact_mod_cast hc
    rw [hc']
    push_cast at hle
    exact hle
  · intro fn hfn
    rw [hq] at hfn
    obtain ⟨j, n, hj, hn, hle⟩ := h.spent fn hfn
    exact ⟨j, n, hj, by rw [hp]; exact hn, hle⟩
  · intro fn hfn p hpm
    rw [hq] at hfn
    exact hR _ (h.ops fn hfn p hpm)

theorem CountInv.touch {g : FactorGraph} {i : Nat} {l : FactorList} {x y : FactorGraph}
    (h : CountInv g i l x) (hs : SameRegistry g y) (h1 : y.var_dict = x.var_dict)
    (h2 : y.isReady = x.isReady) (h3 : y.n_pending = x.n_pending) (h4 : y.q = x.q) :
    CountInv g i l y := by
  have hr : ∀ m, Ready y m ↔ Ready x m := ready_congr h1 h2
  refine ⟨hs, ?_, ?_, ?_, by rw [h4]; exact h.nodup, ?_⟩
  · intro fn j hj
    obtain ⟨n, hn, hle⟩ := h.cnt fn j hj
    refine ⟨n, by rw [h3]; exact hn, ?_⟩
    rw [pendingOperands_congr g (accounted_congr h1 h2 i) fn]
    exact hle
  · intro fn j n hj hn hc p hp
    rw [hr]
    rw [h3] at hn
    rw [h4] at hc
    exact h.fresh fn j n hj hn hc p hp
  · intro fn hfn
    rw [h4] at hfn
    obtain ⟨j, n, hj, hn, hle⟩ := h.spent fn hfn
    exact ⟨j, n, hj, by rw [h3]; exact hn, hle⟩
  · intro fn hfn p hp
    rw [hr]
    rw [h4] at hfn
    exact h.ops fn hfn p hp

theorem decrPending_spent {g : FactorGraph} {x x' : FactorGraph} {f : Factor} {cur : String}
    (hs : x.factor_dict = g.factor_dict) (h : Spent g x cur)
    (he : decrPending x f = .ok x') : Spent g x' cur := by
  obtain ⟨hnq, jc, nc, hjc, hnc, hle⟩ := h
  obtain ⟨j, n, hj, hn, hx'⟩ := decrPending_shape he
  have hjg : FacIdx g f.name = .ok j := by
    unfold FacIdx at hj ⊢; rw [← hs]; exact hj
  have hnp : ∀ k, x'.n_pending[k]? = if k = j then some (n - 1) else x.n_pending[k]? := by
    intro k
    rcases hx' with ⟨_, rfl⟩ | ⟨_, rfl⟩ <;> exact getElem?_set_int _ _ _ _ _ hn
  constructor
  · rcases hx' with ⟨h0, rfl⟩ | ⟨_, rfl⟩
    · intro hmem
      rcases List.mem_append.mp hmem with h1 | h1
      · exact hnq h1
      · rw [List.mem_singleton] at h1
        rw [h1, hjg] at hjc
        injection hjc with hjc
        subst hjc
        rw [hn] at hnc
        injection hnc with hnc
        omega
    · exact hnq
  · by_cases hk : jc = j
    · subst hk
      rw [hn] at hnc
      injection hnc with hnc
      subst hnc
      exact ⟨jc, n - 1, hjc, by rw [hnp]; simp, by omega⟩
    · exact ⟨jc, nc, hjc, by rw [hnp, if_neg hk]; exact hnc, hle⟩

theorem decrPendings_spent {g : FactorGraph} {cur : String} :
    ∀ (l : FactorList) (x x' : FactorGraph), x.factor_dict = g.factor_dict → Spent g x cur →
      l.foldlM decrPending x = .ok x' → Spent g x' cur := by
  intro l
  induction l with
  | nil =>
    intro x x' _ h he
    injection he with he
    subst he
    exact h
  | cons f l ih =>
    intro x x' hs h he
    rw [List.foldlM_cons] at he
    rcases run_cases (decrPending x f) with ⟨e, h1⟩ | ⟨x1, h1⟩
    · rw [h1] at he; cases he
    · rw [h1] at he
      have hs1 : x1.factor_dict = g.factor_dict := by
        obtain ⟨j, n, _, _, hx'⟩ := decrPending_shape h1
        rcases hx' with ⟨_, rfl⟩ | ⟨_, rfl⟩ <;> exact hs
      exact ih x1 x' hs1 (decrPending_spent hs h h1) he

theorem ready_set {g : FactorGraph} (hidx : VarsIndexed g) {x y : FactorGraph} {pn : String}
    {i : Nat} (hd : x.var_dict = g.var_dict) (hd' : y.var_dict = g.var_dict)
    (hi : VarIdx g pn = .ok i) (hlt : i < x.isReady.length)
    (hr : y.isReady = x.isReady.set i true) (m : String) :
    Ready y m ↔ (Ready x m ∨ m = pn) := by
  have hv : ∀ k, VarIdx x k = VarIdx g k := fun k => by unfold VarIdx; rw [hd]
  have hv' : ∀ k, VarIdx y k = VarIdx g k := fun k => by unfold VarIdx; rw [hd']
  unfold Ready
  constructor
  · rintro ⟨j, hj, hf⟩
    rw [hv'] at hj
    rw [hr, getElem?_set_true _ _ _ hlt] at hf
    rcases hf with hf | hf
    · exact Or.inl ⟨j, (hv m).trans hj, hf⟩
    · subst hf; exact Or.inr (varIdx_inj hidx hj hi)
  · rintro (⟨j, hj, hf⟩ | rfl)
    · rw [hv] at hj
      exact ⟨j, (hv' m).trans hj, by rw [hr, getElem?_set_true _ _ _ hlt]; exact Or.inl hf⟩
    · exact ⟨i, (hv' _).trans hi, by rw [hr, getElem?_set_true _ _ _ hlt]; exact Or.inr rfl⟩

theorem accounted_full {g : FactorGraph} (hidx : VarsIndexed g) {x : FactorGraph}
    (hd : x.var_dict = g.var_dict) (m : String) :
    Accounted x g.var_dict.size m ↔ Ready x m := by
  unfold Accounted Ready
  constructor
  · rintro ⟨j, hj, _, hf⟩; exact ⟨j, hj, hf⟩
  · rintro ⟨j, hj, hf⟩
    refine ⟨j, hj, ?_, hf⟩
    have : VarIdx g m = .ok j := by unfold VarIdx at hj ⊢; rw [← hd]; exact hj
    exact varIdx_lt hidx this

theorem readyOutput_count {g : FactorGraph} (hidx : VarsIndexed g) (hfac : FactorsIndexed g)
    (hcons : ConsistentAdjacency g) (hsp : SingleProducer g) {cur : String}
    (y y' : FactorGraph) (p : VarPtr) (h : CountInv g g.var_dict.size [] y)
    (hspent : Spent g y cur) (hp : p ∈ g.outputs cur) (hnr : ¬ Ready y p.name)
    (he : readyOutput y p = .ok y') :
    CountInv g g.var_dict.size [] y' ∧ Spent g y' cur ∧
      (∀ m, Ready y' m ↔ (Ready y m ∨ m = p.name)) ∧ y'.isRequired = y.isRequired := by
  unfold readyOutput at he
  cases hi : VarIdx y p.name with
  | error e => rw [hi] at he; cases he
  | ok i =>
    rw [hi] at he
    dsimp only at he
    by_cases hlt : i < y.isReady.length
    · rw [if_pos hlt] at he
      have hig : VarIdx g p.name = .ok i := by rw [← h.same.varIdx_eq]; exact hi
      have hs1 : SameRegistry g ({ y with isReady := y.isReady.set i true }.touchVar p.name) :=
        ⟨h.same.var_dict, h.same.factor_dict, h.same.var_list, h.same.factor_list,
          h.same.ready_dict,
          fun n => (Dict.get_touch y.varEdges p.name n).trans (h.same.varEdges n),
          h.same.factorEdges⟩
      have hR : ∀ m, Ready ({ y with isReady := y.isReady.set i true }.touchVar p.name) m ↔
          (Ready y m ∨ m = p.name) :=
        fun m => ready_set hidx h.same.var_dict hs1.var_dict hig hlt rfl m
      have hA : ∀ m, Accounted ({ y with isReady := y.isReady.set i true }.touchVar p.name)
          g.var_dict.size m ↔ Accounted y g.var_dict.size m ∨ m = p.name := by
        intro m
        rw [accounted_full hidx hs1.var_dict, accounted_full hidx h.same.var_dict]
        exact hR m
      obtain ⟨ecur, hcurmem, _⟩ : ∃ e, (cur, e) ∈ g.factor_dict ∧ True := by
        obtain ⟨_, jc, nc, hjc, _, _⟩ := hspent
        obtain ⟨e, he, _⟩ := facIdx_mem hjc
        exact ⟨e, he, trivial⟩
      have hev : CountInv g g.var_dict.size (g.consumers p.name)
          ({ y with isReady := y.isReady.set i true }.touchVar p.name) := by
        refine CountInv.event hcons h hs1 rfl rfl hA ?_ ?_ (fun m hm => (hR m).mpr (Or.inl hm)) ?_
        · rw [accounted_full hidx h.same.var_dict]; exact hnr
        · obtain ⟨e, he, _⟩ := varIdx_mem hig
          exact ⟨e, he⟩
        · intro fn j n hj hn hc q hq hrq
          have hn' : y.n_pending[j]? = some n := hn
          have hc' : fn ∈ y.q ∨ 0 < n := hc
          rcases (hR q.name).mp hrq with h1 | h1
          · exact h.fresh fn j n hj hn' hc' q hq h1
          · by_cases hfc : fn = cur
            · subst hfc
              obtain ⟨hnq, jc, nc, hjc, hnc, hle⟩ := hspent
              rw [hj] at hjc
              injection hjc with hjc
              subst hjc
              rw [hn'] at hnc
              injection hnc with hnc
              subst hnc
              rcases hc' with h2 | h2
              · exact hnq h2
              · omega
            · obtain ⟨e, hfmem, _⟩ := facIdx_mem hj
              exact hsp.2 (fn, e) hfmem (cur, ecur) hcurmem hfc q hq p hp h1
      have hcq : ({ y with isReady := y.isReady.set i true }.touchVar p.name).consumers p.name =
          g.consumers p.name := hs1.consumers_eq _
      rw [hcq] at he
      obtain ⟨hI, hrd, _, hrq⟩ := decrPendings_count hfac _ _ _ hev he
      have hsp' := decrPendings_spent (g.consumers p.name) _ y' hs1.factor_dict
        (show Spent g ({ y with isReady := y.isReady.set i true }.touchVar p.name) cur from
          hspent) he
      refine ⟨hI, hsp', ?_, hrq⟩
      intro m
      rw [← hR m]
      exact ready_congr (hI.same.var_dict.trans hs1.var_dict.symm) hrd m
    · rw [if_neg hlt] at he; cases he

theorem readyOutputs_count {g : FactorGraph} (hidx : VarsIndexed g) (hfac : FactorsIndexed g)
    (hcons : ConsistentAdjacency g) (hsp : SingleProducer g) {cur : String} :
    ∀ (outs : VarList) (y y' : FactorGraph), CountInv g g.var_dict.size [] y →
      Spent g y cur → (∀ p ∈ outs, p ∈ g.outputs cur) →
      (outs.map (fun p => p.name)).Nodup → (∀ p ∈ outs, ¬ Ready y p.name) →
      outs.foldlM readyOutput y = .ok y' →
      CountInv g g.var_dict.size [] y' ∧ y'.isRequired = y.isRequired := by
  intro outs
  induction outs with
  | nil =>
    intro y y' h _ _ _ _ he
    injection he with he
    subst he
    exact ⟨h, rfl⟩
  | cons p outs ih =>
    intro y y' h hspent hmem hnd hnr he
    rw [List.foldlM_cons] at he
    rcases run_cases (readyOutput y p) with ⟨e, h1⟩ | ⟨y1, h1⟩
    · rw [h1] at he; cases he
    · rw [h1] at he
      obtain ⟨hI1, hsp1, hR1, hq1⟩ := readyOutput_count hidx hfac hcons hsp y y1 p h hspent
        (hmem p (List.mem_cons_self _ _)) (hnr p (List.mem_cons_self _ _)) h1
      rw [List.map_cons, List.nodup_cons] at hnd
      obtain ⟨hI2, hq2⟩ := ih y1 y' hI1 hsp1
        (fun q hq => hmem q (List.mem_cons_of_mem _ hq)) hnd.2
        (fun q hq hr => by
          rcases (hR1 q.name).mp hr with h2 | h2
          · exact hnr q (List.mem_cons_of_mem _ hq) h2
          · exact hnd.1 (List.mem_map.mpr ⟨q, hq, h2⟩)) he
      exact ⟨hI2, hq2.trans hq1⟩

theorem forwardOne_count {g : FactorGraph} (hidx : VarsIndexed g) (hfac : FactorsIndexed g)
    (hcons : ConsistentAdjacency g) (hsp : SingleProducer g) (x x' : FactorGraph)
    (cur : String) (h : CountInv g g.var_dict.size [] x) (hspent : Spent g x cur)
    (hnr : ∀ p ∈ g.outputs cur, ¬ Ready x p.name) (he : forwardOne x cur = .ok x') :
    CountInv g g.var_dict.size [] x' ∧ x'.isRequired = x.isRequired := by
  unfold forwardOne at he
  cases hl : x.factor_dict.lookup cur with
  | none => rw [hl] at he; cases he
  | some e =>
    rw [hl] at he
    dsimp only at he
    have hs1 : SameRegistry g (x.touchFac cur) :=
      h.same.trans (SameRegistry.of_touchFac x cur)
    have h1 : CountInv g g.var_dict.size [] (x.touchFac cur) :=
      h.touch hs1 rfl rfl rfl rfl
    have houts : (x.touchFac cur).outputs cur = g.outputs cur := hs1.outputs_eq cur
    obtain ⟨ecur, hcurmem⟩ : ∃ e, (cur, e) ∈ g.factor_dict := by
      obtain ⟨_, jc, nc, hjc, _, _⟩ := hspent
      obtain ⟨e, he, _⟩ := facIdx_mem hjc
      exact ⟨e, he⟩
    cases hr : anyRequired (x.touchFac cur) ((x.touchFac cur).outputs cur) with
    | error err => rw [hr] at he; cases he
    | ok b =>
      rw [hr] at he
      cases b with
      | false =>
        injection he with he
        subst he
        exact ⟨h1, rfl⟩
      | true =>
        dsimp only at he
        rw [houts] at he
        generalize hy : ({ x.touchFac cur with log := (x.touchFac cur).log ++
          [Event.forward e.2 ((x.touchFac cur).operands cur) (g.outputs cur)] } :
          FactorGraph) = y at he
        have h2 : CountInv g g.var_dict.size [] y := by
          rw [← hy]
          exact h1.touch ⟨hs1.var_dict, hs1.factor_dict, hs1.var_list, hs1.factor_list,
            hs1.ready_dict, hs1.varEdges, hs1.factorEdges⟩ rfl rfl rfl rfl
        have hspent' : Spent g y cur := by rw [← hy]; exact hspent
        have hnr' : ∀ p ∈ g.outputs cur, ¬ Ready y p.name := by
          rw [← hy]; exact hnr
        have hreq : y.isRequired = x.isRequired := by rw [← hy]; rfl
        have houts' : y.outputs cur = g.outputs cur := by rw [← hy]; exact houts
        rw [houts'] at he
        obtain ⟨hI, hq⟩ := readyOutputs_count hidx hfac hcons hsp (g.outputs cur) y x' h2
          hspent' (fun p hp => hp) (hsp.1 (cur, ecur) hcurmem) hnr' he
        exact ⟨hI, hq.trans hreq⟩

theorem forwardIter_count {g : FactorGraph} (hidx : VarsIndexed g) (hfac : FactorsIndexed g)
    (hcons : ConsistentAdjacency g) (hsp : SingleProducer g) :
    ∀ (k : Nat) (x x' : FactorGraph), CountInv g g.var_dict.size [] x →
      forwardIter k x = .ok x' →
      CountInv g g.var_dict.size [] x' ∧ x'.isRequired = x.isRequired := by
  intro k
  induction k with
  | zero =>
    intro x x' h he
    injection he with he
    subst he
    exact ⟨h, rfl⟩
  | succ k ih =>
    intro x x' h he
    unfold forwardIter at he
    cases hq : x.q with
    | nil =>
      rw [hq] at he
      injection he with he
      subst he
      exact ⟨h, rfl⟩
    | cons cur rest =>
      rw [hq] at he
      dsimp only at he
      have hnd := h.nodup
      rw [hq, List.nodup_cons] at hnd
      have hcurq : cur ∈ x.q := by rw [hq]; exact List.mem_cons_self _ _
      have hsub : ∀ fn, fn ∈ rest → fn ∈ x.q := fun fn hfn => by
        rw [hq]; exact List.mem_cons_of_mem _ hfn
      have hpop : CountInv g g.var_dict.size [] { x with q := rest } := by
        refine ⟨⟨h.same.var_dict, h.same.factor_dict, h.same.var_list, h.same.factor_list,
          h.same.ready_dict, h.same.varEdges, h.same.factorEdges⟩, h.cnt, ?_, ?_, hnd.2, ?_⟩
        · intro fn j n hj hn hc p hp
          refine h.fresh fn j n hj hn ?_ p hp
          rcases hc with h1 | h1
          · exact Or.inl (hsub fn h1)
          · exact Or.inr h1
        · intro fn hfn; exact h.spent fn (hsub fn hfn)
        · intro fn hfn; exact h.ops fn (hsub fn hfn)
      obtain ⟨jc, nc, hjc, hnc, hle⟩ := h.spent cur hcurq
      have hspent : Spent g { x with q := rest } cur := ⟨hnd.1, jc, nc, hjc, hnc, hle⟩
      have hnr : ∀ p ∈ g.outputs cur, ¬ Ready { x with q := rest } p.name :=
        fun p hp => h.fresh cur jc nc hjc hnc (Or.inl hcurq) p hp
      rcases run_cases (forwardOne { x with q := rest } cur) with ⟨e, h1⟩ | ⟨x1, h1⟩
      · rw [h1] at he; cases he
      · rw [h1] at he
        obtain ⟨hI1, hq1⟩ := forwardOne_count hidx hfac hcons hsp _ x1 cur hpop hspent hnr h1
        obtain ⟨hI2, hq2⟩ := ih x1 x' hI1 he
        exact ⟨hI2, hq2.trans hq1⟩

theorem acyclic_of_ranked {g : FactorGraph} (h : Ranked g) : Acyclic g := by
  have hstep : ∀ u v, DependsOn g u v → rank g v < rank g u := by
    rintro u v ⟨fe, hfe, ⟨p, hp, rfl⟩, ⟨p', hp', rfl⟩⟩
    exact h fe hfe p hp p' hp'
  have htrans : ∀ u v, Relation.TransGen (DependsOn g) u v → rank g v < rank g u := by
    intro u v huv
    induction huv with
    | single h1 => exact hstep _ _ h1
    | tail _ h2 ih => exact Nat.lt_trans (hstep _ _ h2) ih
  intro v hv
  exact Nat.lt_irrefl _ (htrans v v hv)

theorem CountInv.reindex {g : FactorGraph} {i i' : Nat} {l : FactorList} {x : FactorGraph}
    (h : CountInv g i l x) (hA : ∀ m, Accounted x i' m ↔ Accounted x i m) :
    CountInv g i' l x := by
  refine ⟨h.same, ?_, h.fresh, h.spent, h.nodup, h.ops⟩
  intro fn j hj
  obtain ⟨n, hn, hle⟩ := h.cnt fn j hj
  refine ⟨n, hn, ?_⟩
  rw [pendingOperands_congr g hA fn]
  exact hle

theorem varIdx_of_var_list {g : FactorGraph} (hvl : VarListIndexed g) {n : Nat} {v : Variable}
    (h : g.var_list[n]? = some v) : VarIdx g v.name = .ok n := by
  have hm : (n, v) ∈ g.var_list.enum := List.mk_mem_enum_iff_getElem?.mpr h
  have := hvl.2 (n, v) hm
  unfold VarIdx
  cases hl : g.var_dict.lookup v.name with
  | none => rw [hl] at this; cases this
  | some e =>
    rw [hl] at this
    simp only [Option.map_some', Option.some.injEq] at this
    subst this
    rfl

theorem seedReady_count {g : FactorGraph} (hidx : VarsIndexed g) (hfac : FactorsIndexed g)
    (hcons : ConsistentAdjacency g) (hvl : VarListIndexed g) (x x' : FactorGraph) (n : Nat)
    (h : CountInv g n [] x) (he : seedReady x n = .ok x') :
    CountInv g (n + 1) [] x' ∧ x'.isReady = x.isReady ∧ x'.isRequired = x.isRequired := by
  unfold seedReady at he
  by_cases hr : x.isReady[n]? = some true
  · rw [if_pos hr] at he
    cases hv : x.var_list[n]? with
    | none => rw [hv] at he; cases he
    | some v =>
      rw [hv] at he
      dsimp only at he
      have hvg : VarIdx g v.name = .ok n :=
        varIdx_of_var_list hvl (by rw [← h.same.var_list]; exact hv)
      have hvx : VarIdx x v.name = .ok n := by rw [h.same.varIdx_eq]; exact hvg
      have hs1 : SameRegistry g (x.touchVar v.name) :=
        h.same.trans (SameRegistry.of_touchVar x v.name)
      have hacc : ∀ i m, Accounted (x.touchVar v.name) i m ↔ Accounted x i m :=
        fun i m => accounted_congr rfl rfl i m
      have hrd : ∀ m, Ready (x.touchVar v.name) m ↔ Ready x m := ready_congr rfl rfl
      have hev : CountInv g (n + 1) (g.consumers v.name) (x.touchVar v.name) := by
        refine CountInv.event hcons h hs1 rfl rfl ?_ ?_ ?_ (fun m hm => (hrd m).mpr hm) ?_
        · intro m
          rw [hacc]
          constructor
          · rintro ⟨j, hj, hlt, hf⟩
            by_cases hjn : j < n
            · exact Or.inl ⟨j, hj, hjn, hf⟩
            · have : j = n := by omega
              subst this
              right
              rw [h.same.varIdx_eq] at hj
              exact varIdx_inj hidx hj hvg
          · rintro (⟨j, hj, hlt, hf⟩ | rfl)
            · exact ⟨j, hj, by omega, hf⟩
            · exact ⟨n, hvx, by omega, hr⟩
        · rintro ⟨j, hj, hlt, _⟩
          rw [hvx] at hj
          injection hj with hj
          omega
        · obtain ⟨e, he, _⟩ := varIdx_mem hvg
          exact ⟨e, he⟩
        · intro fn j k hj hk hc p hp hrp
          exact h.fresh fn j k hj hk hc p hp ((hrd _).mp hrp)
      have hcq : (x.touchVar v.name).consumers v.name = g.consumers v.name :=
        hs1.consumers_eq _
      rw [hcq] at he
      obtain ⟨hI, h1, _, h3⟩ := decrPendings_count hfac _ _ _ hev he
      exact ⟨hI, h1, h3⟩
  · rw [if_neg hr] at he
    injection he with he
    subst he
    refine ⟨h.reindex ?_, rfl, rfl⟩
    intro m
    constructor
    · rintro ⟨j, hj, hlt, hf⟩
      by_cases hjn : j < n
      · exact ⟨j, hj, hjn, hf⟩
      · have : j = n := by omega
        subst this
        exact absurd hf hr
    · rintro ⟨j, hj, hlt, hf⟩
      exact ⟨j, hj, by omega, hf⟩

theorem seedReadys_count {g : FactorGraph} (hidx : VarsIndexed g) (hfac : FactorsIndexed g)
    (hcons : ConsistentAdjacency g) (hvl : VarListIndexed g) (x0 : FactorGraph) :
    ∀ (n : Nat) (x : FactorGraph), CountInv g 0 [] x0 →
      (List.range n).foldlM seedReady x0 = .ok x →
      CountInv g n [] x ∧ x.isReady = x0.isReady ∧ x.isRequired = x0.isRequired := by
  intro n
  induction n with
  | zero =>
    intro x h he
    injection he with he
    subst he
    exact ⟨h, rfl, rfl⟩
  | succ n ih =>
    intro x h he
    rw [List.range_succ, List.foldlM_append] at he
    rcases run_cases ((List.range n).foldlM seedReady x0) with ⟨e, h1⟩ | ⟨x1, h1⟩
    · rw [h1] at he; cases he
    · rw [h1] at he
      obtain ⟨hI1, hr1, hq1⟩ := ih x1 h h1
      have he' : seedReady x1 n = .ok x := by
        rcases run_cases (seedReady x1 n) with ⟨e, h2⟩ | ⟨x2, h2⟩
        · have : (Except.ok x1 >>= fun b => List.foldlM seedReady b [n]) = .error e := by
            show List.foldlM seedReady x1 [n] = .error e
            rw [List.foldlM_cons, h2]; rfl
          rw [this] at he; cases he
        · have : (Except.ok x1 >>= fun b => List.foldlM seedReady b [n]) = .ok x2 := by
            show List.foldlM seedReady x1 [n] = .ok x2
            rw [List.foldlM_cons, h2]; rfl
          rw [this] at he
          rw [h2]; exact he
      obtain ⟨hI2, hr2, hq2⟩ := seedReady_count hidx hfac hcons hvl x1 x n hI1 he'
      exact ⟨hI2, hr2.trans hr1, hq2.trans hq1⟩

theorem initPending_count {g g1 : FactorGraph} (hs : SameRegistry g g1)
    (hfl : FactorListIndexed g)
    (hfresh : ∀ fn j, FacIdx g fn = .ok j → ∀ p ∈ g.outputs fn, ¬ Ready g1 p.name) :
    CountInv g 0 [] (initPendingForward { g1 with q := [] }) := by
  have hinit := initPendingForward_fwdInv g1
  have hs0 : SameRegistry g (initPendingForward { g1 with q := [] }) := hs.trans hinit.same
  have hq : (initPendingForward { g1 with q := [] }).q = [] := rfl
  refine ⟨hs0, ?_, ?_, ?_, by rw [hq]; exact List.nodup_nil, ?_⟩
  · intro fn j hj
    obtain ⟨e, hmem, hej⟩ := facIdx_mem hj
    have h1 := hfl (fn, e) hmem
    have h1' : (g.factor_list[j]?).map (fun f => f.name) = some fn := by rw [← hej]; exact h1
    cases hf : g.factor_list[j]? with
    | none => rw [hf] at h1'; cases h1'
    | some f =>
      rw [hf] at h1'
      simp only [Option.map_some', Option.some.injEq] at h1'
      have hnp : (initPendingForward { g1 with q := [] }).n_pending[j]? =
          some ((g.operands fn).length : Int) := by
        show (g1.factor_list.map
          (fun f => ((({ g1 with q := [] } : FactorGraph).operands f.name).length : Int)))[j]? = _
        have hf1 : g1.factor_list[j]? = some f := by rw [hs.factor_list]; exact hf
        rw [List.getElem?_map, hf1]
        simp only [Option.map_some', Option.some.injEq]
        rw [h1']
        have : ({ g1 with q := [] } : FactorGraph).operands fn = g.operands fn :=
          hs.operands_eq fn
        rw [this]
      refine ⟨_, hnp, ?_⟩
      have hle : pendingOperands g (initPendingForward { g1 with q := [] }) 0 fn ≤
          (g.operands fn).length := List.countP_le_length _
      simp only [List.countP_nil, Nat.cast_zero, add_zero]
      exact_mod_cast hle
  · intro fn j n hj _ _ p hp hr
    exact hfresh fn j hj p hp ((ready_congr rfl rfl _).mp hr)
  · intro fn hfn; rw [hq] at hfn; cases hfn
  · intro fn hfn; rw [hq] at hfn; cases hfn

/-- Dependency order when no ready node is produced. On a well-formed registry
with consistent adjacency in which every value node is an output of at most
one operation, and for a forward query with one thread, registered targets and
feed names, in which no pre-ready and no fed value node is an output of an
operation: in every state of the queue loop in which the dequeued names are
read back, every operand of every queued operation has its ready flag set; so
it has when the operation is dequeued and its forward contract is invoked.
`forward_invokes_with_unready_operand` shows that the order is lost when a fed
node has a producer. -/
theorem forward_operands_ready (g : FactorGraph) (targets : List VarPtr)
    (feed_dict : Dict RawData) (hw : WellFormed g) (hfl : FactorListIndexed g)
    (hcons : ConsistentAdjacency g) (hsp : SingleProducer g)
    (ht : ∀ p ∈ targets, VarRegistered g p.name) (hf : ∀ p ∈ feed_dict, VarRegistered g p.1)
    (hpre : ∀ st ∈ g.ready_dict, NotProduced g st.1)
    (hfed : ∀ p ∈ feed_dict, NotProduced g p.1)
    (g1 s0 s : FactorGraph) (k : Nat)
    (hp : prepareForward g targets feed_dict = .ok g1) (h0 : forwardSeed g1 = .ok s0)
    (hk : forwardIter k s0 = .ok s) :
    ∀ cur ∈ s.q, ∀ p ∈ s.operands cur, Ready s p.name := by
  obtain ⟨gD, g1', _, hp', hs1, _, _, hlrd, _, _, _, _, hready⟩ :=
    prepareForward_spec g targets feed_dict hw.vars hw.edgeVars hw.preReady ht hf
  rw [hp] at hp'
  injection hp' with hp'
  subst hp'
  have hfresh : ∀ fn j, FacIdx g fn = .ok j → ∀ p ∈ g.outputs fn, ¬ Ready g1 p.name := by
    rintro fn j hj p hpo ⟨i, hi, hfl⟩
    rw [hs1.varIdx_eq] at hi
    obtain ⟨e, hmem, _⟩ := facIdx_mem hj
    rcases (hready i).mp hfl with ⟨st, hst, hsti⟩ | ⟨q, hq, hqi⟩
    · exact hpre st hst (fn, e) hmem p hpo (varIdx_inj hw.vars hi hsti)
    · exact hfed q hq (fn, e) hmem p hpo (varIdx_inj hw.vars hi hqi)
  have hI0 := initPending_count hs1 hfl hfresh
  unfold forwardSeed at h0
  dsimp only at h0
  have hlen : (initPendingForward { g1 with q := [] }).isReady.length = g.var_dict.size := hlrd
  rw [hlen] at h0
  obtain ⟨hIs, _, _⟩ := seedReadys_count hw.vars hw.factors hcons hw.varList _ _ s0 hI0 h0
  obtain ⟨hI, _⟩ := forwardIter_count hw.vars hw.factors hcons hsp k s0 s hIs hk
  intro cur hcur p hpm
  rw [hI.same.operands_eq] at hpm
  exact hI.ops cur hcur p hpm

/-- The pruning scenario after one iteration of the queue loop: `double` is
queued and its operand `a` is ready. -/
theorem forward_operands_ready_witness :
    (∀ cur ∈ (Example.pruningAt 1).q, ∀ p ∈ (Example.pruningAt 1).operands cur,
      Ready (Example.pruningAt 1) p.name) ∧
    (Example.pruningAt 1).q = ["double"] :=
  ⟨forward_operands_ready Example.pruning [Example.d] [("a", 5)] (by decide) (by decide)
    (by decide) (by decide) (by decide) (by decide) (by decide) (by decide)
    (finalState (prepareForward Example.pruning [Example.d] [("a", 5)]))
    (finalState (forwardSeed (finalState (prepareForward Example.pruning [Example.d]
      [("a", 5)]))))
    (Example.pruningAt 1) 1 rfl rfl rfl, by decide⟩

/-- C4 on the registry `fedProduced`, `b = P(a)` and `d = G(b, c)`, acyclic
with consistent adjacency, for the query `Forward({d}, {a: 1, b: 2})` with one
thread: `a` and `b` are fed and `b` is also the output of `P`. The counter of
`G` is decremented for the fed `b` when the counters are seeded from the
readiness snapshot (lines 87-99) and again when `P` makes `b` ready (lines
121-133). The query returns; after one iteration of the queue loop `G` is at
the front of the queue, and the next iteration invokes its forward contract
while its operand `c` is not ready, and sets the ready flag of `d`. -/
theorem forward_invokes_with_unready_operand :
    WellFormed Example.fedProduced ∧ ConsistentAdjacency Example.fedProduced ∧
    Acyclic Example.fedProduced ∧
    failure (FeedForward Example.fedProduced [Example.d] [("a", 1), ("b", 2)] 1) = none ∧
    (Example.fedProducedAt 1).q = ["G"] ∧
    Event.forward Example.opG [Example.b, Example.c] [Example.d] ∉
      (Example.fedProducedAt 1).log ∧
    Event.forward Example.opG [Example.b, Example.c] [Example.d] ∈
      (Example.fedProducedAt 2).log ∧
    Example.c ∈ (Example.fedProducedAt 1).operands "G" ∧
    ¬ Ready (Example.fedProducedAt 1) "c" ∧
    (Example.fedProducedAt 2).isReady = (Example.fedProducedAt 1).isReady.set 3 true :=
  ⟨by decide, by decide, acyclic_of_ranked (by decide), by decide, by decide, by decide,
    by decide, by decide, by decide, by decide⟩

/-- C5 on the fan-out, an acyclic registry with consistent adjacency. After the
forward query with the targets `y1` and `y2` returned, the backward query
seeded with the same nodes returns and dequeues `F` before `G2`, although `G2`
consumes the output `x` of `F` and has the required output `w`: the backward
contract of `F` is invoked before `G2` has accumulated into the gradient of
`x`. -/
theorem backward_dequeues_producer_before_consumer :
    WellFormed Example.fanOut ∧ ConsistentAdjacency Example.fanOut ∧
    Acyclic Example.fanOut ∧
    failure (FeedForward Example.fanOut [Example.y1, Example.y2] [("a", 1)] 1) = none ∧
    failure (BackPropagate Example.fanOutForward [Example.y1, Example.y2] 1) = none ∧
    dequeued (newLog Example.fanOutForward
      (finalState (BackPropagate Example.fanOutForward [Example.y1, Example.y2] 1))) =
      ["G1", "G3", "F", "G2"] ∧
    Example.x ∈ Example.fanOutForward.outputs "F" ∧
    Example.x ∈ Example.fanOutForward.operands "G2" ∧
    Example.w ∈ Example.fanOutForward.outputs "G2" ∧
    Marked Example.fanOutForward "w" ∧
    newLog Example.fanOutForward
      (finalState (BackPropagate Example.fanOutForward [Example.y1, Example.y2] 1)) =
      [Event.zeroGrad Example.a, Event.zeroGrad Example.x, Event.zeroGrad Example.y1,
       Event.zeroGrad Example.w, Event.zeroGrad Example.y2,
       Event.onesGrad Example.y1, Event.onesGrad Example.y2,
       Event.print "G1", Event.backward Example.opG1 [Example.x] [Example.y1],
       Event.print "G3", Event.backward Example.opG3 [Example.w] [Example.y2],
       Event.print "F", Event.backward Example.opF [Example.a] [Example.x],
       Event.print "G2", Event.backward Example.opG2 [Example.x] [Example.w]] :=
  ⟨by decide, by decide, acyclic_of_ranked (by decide), by decide, by decide, by decide,
    by decide, by decide, by decide, by decide, by decide⟩

/-! ## The fuel of the queue loops is enough -/

theorem varIdx_err_not_model {g : FactorGraph} {n : String} {e : Err}
    (h : VarIdx g n = .error e) : ¬ e.modelOnly := by
  unfold VarIdx at h
  cases hl : g.var_dict.lookup n with
  | none => rw [hl] at h; injection h with h; rw [← h]; exact fun h' => h'
  | some x => rw [hl] at h; cases h

theorem decrPending_fuel {m : Nat} (x : FactorGraph) (f : Factor) (h : FuelInv m x) :
    Outcome (FuelInv m) (fun e => ¬ e.modelOnly) (decrPending x f) := by
  rcases run_cases (decrPending x f) with ⟨e, he⟩ | ⟨x', he⟩
  · rw [he]
    unfold decrPending at he
    cases hj : FacIdx x f.name with
    | error e' =>
      rw [hj] at he
      injection he with he
      rw [← he]
      refine ⟨h, ?_⟩
      unfold FacIdx at hj
      cases hl : x.factor_dict.lookup f.name with
      | none => rw [hl] at hj; injection hj with hj; rw [← hj]; exact fun h' => h'
      | some y => rw [hl] at hj; cases hj
    | ok j =>
      rw [hj] at he
      dsimp only at he
      cases hn : x.n_pending[j]? with
      | none =>
        rw [hn] at he
        injection he with he
        rw [← he]
        exact ⟨h, fun h' => h'⟩
      | some n =>
        rw [hn] at he
        dsimp only at he
        split at he <;> cases he
  · rw [he]
    obtain ⟨j, n, hj, hn, hx'⟩ := decrPending_shape he
    have hc := countP_pos_set x.n_pending j n hn
    have hm := h.measure
    have hreg : (x.factor_dict.lookup f.name).isSome = true := by
      unfold FacIdx at hj
      cases hl : x.factor_dict.lookup f.name with
      | none => rw [hl] at hj; cases hj
      | some y => rfl
    rcases hx' with ⟨h0, rfl⟩ | ⟨h0, rfl⟩
    · rw [if_pos h0] at hc
      refine ⟨?_, ?_⟩
      · intro k hk
        rcases List.mem_append.mp hk with hk | hk
        · exact h.queued k hk
        · rw [List.mem_singleton] at hk
          rw [hk]; exact hreg
      · show (x.q ++ [f.name]).length +
          (x.n_pending.set j (n - 1)).countP (fun k => decide (0 < k)) ≤ m
        rw [List.length_append, List.length_singleton]
        omega
    · rw [if_neg h0] at hc
      refine ⟨h.queued, ?_⟩
      show x.q.length + (x.n_pending.set j (n - 1)).countP (fun k => decide (0 < k)) ≤ m
      omega

theorem FuelInv.same_sched {m : Nat} {x y : FactorGraph} (h : FuelInv m x)
    (h1 : y.factor_dict = x.factor_dict) (h2 : y.n_pending = x.n_pending) (h3 : y.q = x.q) :
    FuelInv m y :=
  ⟨by rw [h3, h1]; exact h.queued, by rw [h3, h2]; exact h.measure⟩

theorem decrPendings_fuel {m : Nat} (l : FactorList) (x : FactorGraph) (h : FuelInv m x) :
    Outcome (FuelInv m) (fun e => ¬ e.modelOnly) (l.foldlM decrPending x) :=
  foldlM_outcome decrPending (FuelInv m) (fun e => ¬ e.modelOnly) (fun _ => True)
    (fun y f hy _ => decrPending_fuel y f hy) l x h (fun _ _ => trivial)

theorem seedReady_fuel {m : Nat} (x : FactorGraph) (i : Nat) (h : FuelInv m x) :
    Outcome (FuelInv m) (fun e => ¬ e.modelOnly) (seedReady x i) := by
  unfold seedReady
  split
  · cases x.var_list[i]? with
    | none => exact ⟨h, fun h' => h'⟩
    | some v => exact decrPendings_fuel _ _ (h.same_sched rfl rfl rfl)
  · exact h

theorem readyOutput_fuel {m : Nat} (x : FactorGraph) (p : VarPtr) (h : FuelInv m x) :
    Outcome (FuelInv m) (fun e => ¬ e.modelOnly) (readyOutput x p) := by
  unfold readyOutput
  cases hi : VarIdx x p.name with
  | error e => exact ⟨h, varIdx_err_not_model hi⟩
  | ok i =>
    dsimp only
    split
    · exact decrPendings_fuel _ _ (h.same_sched rfl rfl rfl)
    · exact ⟨h, fun h' => h'⟩

theorem anyRequired_err_not_model (g : FactorGraph) (outs : VarList) (e : Err)
    (h : anyRequired g outs = .error e) : ¬ e.modelOnly := by
  induction outs with
  | nil => cases h
  | cons p ps ih =>
    unfold anyRequired at h
    cases hi : VarIdx g p.name with
    | error e' =>
      rw [hi] at h
      injection h with h
      rw [← h]; exact varIdx_err_not_model hi
    | ok i =>
      rw [hi] at h
      dsimp only at h
      cases hr : g.isRequired[i]? with
      | none => rw [hr] at h; injection h with h; rw [← h]; exact fun h' => h'
      | some b =>
        rw [hr] at h
        cases b with
        | true => cases h
        | false => exact ih h

theorem forwardOne_fuel {m : Nat} (x : FactorGraph) (cur : String) (h : FuelInv m x)
    (hreg : (x.factor_dict.lookup cur).isSome = true) :
    Outcome (FuelInv m) (fun e => ¬ e.modelOnly) (forwardOne x cur) := by
  unfold forwardOne
  cases hl : x.factor_dict.lookup cur with
  | none => rw [hl] at hreg; cases hreg
  | some e =>
    dsimp only
    have h1 : FuelInv m (x.touchFac cur) := h.same_sched rfl rfl rfl
    cases hr : anyRequired (x.touchFac cur) ((x.touchFac cur).outputs cur) with
    | error err => exact ⟨h1, anyRequired_err_not_model _ _ _ hr⟩
    | ok b =>
      cases b with
      | false => exact h1
      | true =>
        exact foldlM_outcome readyOutput (FuelInv m) (fun e => ¬ e.modelOnly) (fun _ => True)
          (fun y p hy _ => readyOutput_fuel y p hy) _ _ (h1.same_sched rfl rfl rfl)
          (fun _ _ => trivial)

theorem forwardIter_fuel :
    ∀ (k m : Nat) (x : FactorGraph), FuelInv m x →
      (∀ e, failure (forwardIter k x) = some e → ¬ e.modelOnly) ∧
      (∀ x', forwardIter k x = .ok x' → x'.q = [] ∨ FuelInv (m - k) x') := by
  intro k
  induction k with
  | zero =>
    intro m x h
    refine ⟨fun e he => (by cases he), fun x' hx' => ?_⟩
    injection hx' with hx'
    subst hx'
    exact Or.inr h
  | succ k ih =>
    intro m x h
    unfold forwardIter
    cases hq : x.q with
    | nil =>
      refine ⟨fun e he => (by cases he), fun x' hx' => ?_⟩
      injection hx' with hx'
      subst hx'
      exact Or.inl hq
    | cons cur rest =>
      dsimp only
      have hm := h.measure
      rw [hq, List.length_cons] at hm
      have hpop : FuelInv (m - 1) { x with q := rest } :=
        ⟨fun n hn => h.queued n (by rw [hq]; exact List.mem_cons_of_mem _ hn), by
          show rest.length + x.n_pending.countP (fun n => decide (0 < n)) ≤ m - 1
          omega⟩
      have h1 := forwardOne_fuel _ cur hpop
        (h.queued cur (by rw [hq]; exact List.mem_cons_self _ _))
      rcases run_cases (forwardOne { x with q := rest } cur) with ⟨e, hf⟩ | ⟨x1, hf⟩
      · rw [hf] at h1 ⊢
        refine ⟨fun e' he' => ?_, fun x' hx' => by cases hx'⟩
        have : e.1 = e' := by injection he'
        rw [← this]; exact h1.2
      · rw [hf] at h1 ⊢
        have h2 := ih (m - 1) x1 h1
        have hmk : m - 1 - k = m - (k + 1) := by omega
        rw [hmk] at h2
        exact h2

theorem SequentialForward_seed_same (g x1 : FactorGraph) (hs : forwardSeed g = .ok x1) :
    x1.factor_list = g.factor_list := by
  have h1 : FwdInv g (finalState (forwardSeed g)) := by
    unfold forwardSeed
    exact foldlM_final seedReady (FwdInv g) (fun _ => True)
      (fun y i hy _ => seedReady_fwdInv g y i hy) _ _ (initPendingForward_fwdInv g)
      (fun _ _ => trivial)
  rw [hs] at h1
  exact h1.same.factor_list

/-- The sequential forward pass never ends with an exhausted fuel, nor on a
dequeued name that is not registered: `factor_list.size()` iterations empty the
queue, on every state. -/
theorem SequentialForward_fuel (g : FactorGraph) (e : Err)
    (h : failure (SequentialForward g) = some e) : ¬ e.modelOnly := by
  have h0 : FuelInv g.factor_list.length (initPendingForward { g with q := [] }) := by
    refine ⟨fun n hn => (by cases hn), ?_⟩
    have hl : (initPendingForward { g with q := [] }).n_pending.length =
        g.factor_list.length := by
      show (g.factor_list.map _).length = _
      rw [List.length_map]
    have := countP_le_length_int (initPendingForward { g with q := [] }).n_pending
    show 0 + _ ≤ _
    omega
  have h1 : Outcome (FuelInv g.factor_list.length) (fun e => ¬ e.modelOnly)
      (forwardSeed g) := by
    unfold forwardSeed
    exact foldlM_outcome seedReady _ _ (fun _ => True)
      (fun y i hy _ => seedReady_fuel y i hy) _ _ h0 (fun _ _ => trivial)
  unfold SequentialForward at h
  rcases run_cases (forwardSeed g) with ⟨e1, hs⟩ | ⟨x1, hs⟩
  · rw [hs] at h1 h
    have : e1.1 = e := by injection h
    rw [← this]; exact h1.2
  · rw [hs] at h1 h
    dsimp only at h
    have hfl : x1.factor_list = g.factor_list := (SequentialForward_seed_same g x1 hs)
    obtain ⟨h2, h3⟩ := forwardIter_fuel x1.factor_list.length g.factor_list.length x1 h1
    unfold forwardLoop at h
    rcases run_cases (forwardIter x1.factor_list.length x1) with ⟨e2, hi⟩ | ⟨x2, hi⟩
    · rw [hi] at h
      exact h2 e (by rw [hi]; exact h)
    · rw [hi] at h
      dsimp only at h
      have hq : x2.q = [] := by
        rcases h3 x2 hi with h4 | h4
        · exact h4
        · have := h4.measure
          rw [hfl] at this
          exact List.length_eq_zero.mp (by omega)
      rw [hq] at h
      cases h

theorem backOperand_fuel {m : Nat} (x : FactorGraph) (p : VarPtr) (h : FuelInv m x) :
    Outcome (FuelInv m) (fun e => ¬ e.modelOnly) (backOperand x p) := by
  unfold backOperand
  exact decrPendings_fuel _ _ (h.same_sched rfl rfl rfl)

theorem seedTarget_fuel {m : Nat} (x : FactorGraph) (p : VarPtr) (h : FuelInv m x) :
    Outcome (FuelInv m) (fun e => ¬ e.modelOnly) (seedTarget x p) := by
  unfold seedTarget
  exact decrPendings_fuel _ _ (h.same_sched rfl rfl rfl)

theorem backwardOne_fuel {m : Nat} (x : FactorGraph) (cur : String) (h : FuelInv m x)
    (hreg : (x.factor_dict.lookup cur).isSome = true) :
    Outcome (FuelInv m) (fun e => ¬ e.modelOnly) (backwardOne x cur) := by
  unfold backwardOne
  dsimp only
  cases hl : x.factor_dict.lookup cur with
  | none => rw [hl] at hreg; cases hreg
  | some e =>
    dsimp only
    split
    · exact foldlM_outcome backOperand (FuelInv m) (fun e => ¬ e.modelOnly) (fun _ => True)
        (fun y p hy _ => backOperand_fuel y p hy) _ _ (h.same_sched rfl rfl rfl)
        (fun _ _ => trivial)
    · exact foldlM_outcome backOperand (FuelInv m) (fun e => ¬ e.modelOnly) (fun _ => True)
        (fun y p hy _ => backOperand_fuel y p hy) _ _ (h.same_sched rfl rfl rfl)
        (fun _ _ => trivial)

theorem backwardIter_fuel :
    ∀ (k m : Nat) (x : FactorGraph), FuelInv m x →
      (∀ e, failure (backwardIter k x) = some e → ¬ e.modelOnly) ∧
      (∀ x', backwardIter k x = .ok x' → x'.q = [] ∨ FuelInv (m - k) x') := by
  intro k
  induction k with
  | zero =>
    intro m x h
    refine ⟨fun e he => (by cases he), fun x' hx' => ?_⟩
    injection hx' with hx'
    subst hx'
    exact Or.inr h
  | succ k ih =>
    intro m x h
    unfold backwardIter
    cases hq : x.q with
    | nil =>
      refine ⟨fun e he => (by cases he), fun x' hx' => ?_⟩
      injection hx' with hx'
      subst hx'
      exact Or.inl hq
    | cons cur rest =>
      dsimp only
      have hm := h.measure
      rw [hq, List.length_cons] at hm
      have hpop : FuelInv (m - 1) { x with q := rest } :=
        ⟨fun n hn => h.queued n (by rw [hq]; exact List.mem_cons_of_mem _ hn), by
          show rest.length + x.n_pending.countP (fun n => decide (0 < n)) ≤ m - 1
          omega⟩
      have h1 := backwardOne_fuel _ cur hpop
        (h.queued cur (by rw [hq]; exact List.mem_cons_self _ _))
      rcases run_cases (backwardOne { x with q := rest } cur) with ⟨e, hf⟩ | ⟨x1, hf⟩
      · rw [hf] at h1 ⊢
        refine ⟨fun e' he' => ?_, fun x' hx' => (by cases hx')⟩
        have : e.1 = e' := by injection he'
        rw [← this]; exact h1.2
      · rw [hf] at h1 ⊢
        have h2 := ih (m - 1) x1 h1
        have hmk : m - 1 - k = m - (k + 1) := by omega
        rw [hmk] at h2
        exact h2

theorem countOutput_len (L : Nat) (FL : List Factor) (i : Nat) (x : FactorGraph) (p : VarPtr)
    (h : x.n_pending.length = L ∧ x.factor_list = FL) :
    Outcome (fun y => y.n_pending.length = L ∧ y.factor_list = FL) (fun e => ¬ e.modelOnly)
      (countOutput i x p) := by
  unfold countOutput
  cases hk : VarIdx x p.name with
  | error e => exact ⟨h, varIdx_err_not_model hk⟩
  | ok k =>
    dsimp only
    cases x.isRequired[k]? with
    | none => exact ⟨h, fun h' => h'⟩
    | some b =>
      cases b with
      | false => exact h
      | true =>
        dsimp only
        cases x.n_pending[i]? with
        | none => exact ⟨h, fun h' => h'⟩
        | some n =>
          exact ⟨by show (x.n_pending.set i (n + 1)).length = L; rw [List.length_set]; exact h.1,
            h.2⟩

theorem initPendingBackward_len (L : Nat) (FL : List Factor) (x : FactorGraph) (i : Nat)
    (h : x.n_pending.length = L ∧ x.factor_list = FL) :
    Outcome (fun y => y.n_pending.length = L ∧ y.factor_list = FL) (fun e => ¬ e.modelOnly)
      (initPendingBackward x i) := by
  unfold initPendingBackward
  cases x.factor_list[i]? with
  | none => exact ⟨h, fun h' => h'⟩
  | some f =>
    dsimp only
    split
    · exact foldlM_outcome (countOutput i) _ _ (fun _ => True)
        (fun y p hy _ => countOutput_len L FL i y p hy) _ _
        ⟨by show (x.n_pending.set i 0).length = L; rw [List.length_set]; exact h.1, h.2⟩
        (fun _ _ => trivial)
    · exact ⟨h, fun h' => h'⟩

/-- The sequential backward pass, entered with as many counters as operations,
never ends with an exhausted fuel, nor on a dequeued name that is not
registered. -/
theorem SequentialBackward_fuel (g : FactorGraph) (targets : List VarPtr)
    (hlen : g.n_pending.length = g.factor_list.length) (e : Err)
    (h : failure (SequentialBackward g targets) = some e) : ¬ e.modelOnly := by
  have h0 := foldlM_outcome initPendingBackward
    (fun y => y.n_pending.length = g.factor_list.length ∧ y.factor_list = g.factor_list)
    (fun e => ¬ e.modelOnly) (fun _ => True)
    (fun y i hy _ => initPendingBackward_len _ _ y i hy)
    (List.range g.factor_list.length) g ⟨hlen, rfl⟩ (fun _ _ => trivial)
  unfold SequentialBackward backwardSeed at h
  rcases run_cases (List.foldlM initPendingBackward g (List.range g.factor_list.length))
    with ⟨e1, hi⟩ | ⟨x1, hi⟩
  · rw [hi] at h0 h
    have : e1.1 = e := by injection h
    rw [← this]; exact h0.2
  · rw [hi] at h0 h
    dsimp only at h
    have hf0 : FuelInv g.factor_list.length { x1 with q := [] } := by
      refine ⟨fun n hn => (by cases hn), ?_⟩
      have := countP_le_length_int x1.n_pending
      have hl : x1.n_pending.length = g.factor_list.length := h0.1
      show 0 + x1.n_pending.countP (fun n => decide (0 < n)) ≤ _
      omega
    have h1 := foldlM_outcome seedTarget (FuelInv g.factor_list.length)
      (fun e => ¬ e.modelOnly) (fun _ => True) (fun y p hy _ => seedTarget_fuel y p hy)
      targets _ hf0 (fun _ _ => trivial)
    have hb := (SequentialBackward_bwd g targets)
    rcases run_cases (List.foldlM seedTarget { x1 with q := [] } targets) with
      ⟨e2, hs⟩ | ⟨x2, hs⟩
    · rw [hs] at h1 h
      have : e2.1 = e := by injection h
      rw [← this]; exact h1.2
    · rw [hs] at h1 h
      dsimp only at h
      have hfl : x2.factor_list = g.factor_list := by
        have h3 := foldlM_final seedTarget (fun y => y.factor_list = g.factor_list)
          (fun _ => True)
          (fun y p hy _ => by
            have := (seedTarget_bwd y y p (BwdInv.bwd_refl y)).state.same.factor_list
            exact this.trans hy)
          targets { x1 with q := [] } h0.2 (fun _ _ => trivial)
        rw [hs] at h3
        exact h3
      obtain ⟨h2, h3⟩ := backwardIter_fuel x2.factor_list.length g.factor_list.length x2 h1
      unfold backwardLoop at h
      rcases run_cases (backwardIter x2.factor_list.length x2) with ⟨e3, hi3⟩ | ⟨x3, hi3⟩
      · rw [hi3] at h
        exact h2 e (by rw [hi3]; exact h)
      · rw [hi3] at h
        dsimp only at h
        have hq : x3.q = [] := by
          rcases h3 x3 hi3 with h4 | h4
          · exact h4
          · have := h4.measure
            rw [hfl] at this
            exact List.length_eq_zero.mp (by omega)
        rw [hq] at h
        cases h

/-- A backward query never ends with an exhausted fuel, nor on a dequeued name
that is not registered. -/
theorem BackPropagate_fuel (g : FactorGraph) (targets : List VarPtr) (n_thread : Nat)
    (e : Err) (h : failure (BackPropagate g targets n_thread) = some e) : ¬ e.modelOnly := by
  unfold BackPropagate at h
  by_cases hs : scratchConsistent g = true
  · rw [if_pos hs] at h
    by_cases hgood : ∀ p ∈ targets, (g.consumers p.name).length = 0 ∧ p.isConst = false
    · obtain ⟨x1, h1, hI1⟩ := seedGrads_ok targets (zeroGrads g)
        (SeedInv.seed_refl (zeroGrads g) targets) (fun p hp => hp) hgood
      rw [h1] at h
      dsimp only at h
      by_cases hn : n_thread = 1
      · rw [if_pos hn] at h
        refine SequentialBackward_fuel x1 targets ?_ e h
        rw [hI1.n_pending, hI1.same.factor_list]
        exact ((scratchConsistent_iff g).mp hs).2.1
      · rw [if_neg hn] at h
        injection h with h
        rw [← h]; exact fun h' => h'
    · have hbad : ∃ p ∈ targets, ¬ ((g.consumers p.name).length = 0 ∧ p.isConst = false) := by
        by_contra hc
        exact hgood (fun p hp => by
          by_contra hq
          exact hc ⟨p, hp, hq⟩)
      obtain ⟨e', he', ht, _⟩ := seedGrads_err targets (zeroGrads g)
        (SeedInv.seed_refl (zeroGrads g) targets) (fun p hp => hp) hbad
      rw [he'] at h
      have : e'.1 = e := by injection h
      rw [← this]
      intro hm
      cases he1 : e'.1 <;> rw [he1] at ht hm <;> first | exact ht | exact hm
  · rw [if_neg hs] at h
    injection h with h
    rw [← h]; exact fun h' => h'

theorem markOperand_fuel {m : Nat} (x : FactorGraph) (p : VarPtr) (h : ParseFuel m x) :
    Outcome (ParseFuel m) (fun e => ¬ e.modelOnly) (markOperand x p) := by
  unfold markOperand
  cases hi : VarIdx x p.name with
  | error e => exact ⟨h, varIdx_err_not_model hi⟩
  | ok i =>
    dsimp only
    cases hb : x.isRequired[i]? with
    | none => exact ⟨h, fun h' => h'⟩
    | some b =>
      cases b with
      | true => exact h
      | false =>
        have hc := count_false_set x.isRequired i hb
        show (x.q ++ [p.name]).length + (x.isRequired.set i true).count false ≤ m
        have hm : x.q.length + x.isRequired.count false ≤ m := h
        rw [List.length_append, List.length_singleton]
        omega

theorem parseFactor_fuel {m : Nat} (x : FactorGraph) (f : Factor) (h : ParseFuel m x) :
    Outcome (ParseFuel m) (fun e => ¬ e.modelOnly) (parseFactor x f) := by
  unfold parseFactor
  exact foldlM_outcome markOperand (ParseFuel m) (fun e => ¬ e.modelOnly) (fun _ => True)
    (fun y p hy _ => markOperand_fuel y p hy) _ _ h (fun _ _ => trivial)

theorem parseVar_fuel {m : Nat} (x : FactorGraph) (cur : String) (h : ParseFuel m x) :
    Outcome (ParseFuel m) (fun e => ¬ e.modelOnly) (parseVar x cur) := by
  unfold parseVar
  exact foldlM_outcome parseFactor (ParseFuel m) (fun e => ¬ e.modelOnly) (fun _ => True)
    (fun y f hy _ => parseFactor_fuel y f hy) _ _ h (fun _ _ => trivial)

theorem parseLoop_fuel :
    ∀ (fuel m : Nat) (x : FactorGraph), ParseFuel m x → m ≤ fuel →
      ∀ e, failure (parseLoop fuel x) = some e → ¬ e.modelOnly := by
  intro fuel
  induction fuel with
  | zero =>
    intro m x h hm e he
    have hq : x.q = [] := by
      have h' : x.q.length + x.isRequired.count false ≤ m := h
      exact List.length_eq_zero.mp (by omega)
    unfold parseLoop at he
    rw [hq] at he
    cases he
  | succ fuel ih =>
    intro m x h hm e he
    unfold parseLoop at he
    cases hq : x.q with
    | nil => rw [hq] at he; cases he
    | cons cur rest =>
      rw [hq] at he
      dsimp only at he
      have h' : x.q.length + x.isRequired.count false ≤ m := h
      rw [hq, List.length_cons] at h'
      have hpop : ParseFuel (m - 1) { x with q := rest } := by
        show rest.length + x.isRequired.count false ≤ m - 1
        omega
      have h1 := parseVar_fuel _ cur hpop
      rcases run_cases (parseVar { x with q := rest } cur) with ⟨e1, hf⟩ | ⟨x1, hf⟩
      · rw [hf] at h1 he
        have : e1.1 = e := by injection he
        rw [← this]; exact h1.2
      · rw [hf] at h1 he
        exact ih (m - 1) x1 h1 (by omega) e he

theorem markTargets_fuel :
    ∀ (ts : List VarPtr) (x : FactorGraph),
      (∀ e, failure (ts.foldlM markTarget x) = some e → ¬ e.modelOnly) ∧
      (∀ x', ts.foldlM markTarget x = .ok x' →
        x'.q.length = x.q.length + ts.length ∧ x'.isRequired.length = x.isRequired.length) := by
  intro ts
  induction ts with
  | nil =>
    intro x
    refine ⟨fun e he => (by cases he), fun x' hx' => ?_⟩
    injection hx' with hx'
    subst hx'
    exact ⟨rfl, rfl⟩
  | cons p ts ih =>
    intro x
    rw [List.foldlM_cons]
    unfold markTarget
    cases hi : VarIdx x p.name with
    | error e1 =>
      refine ⟨fun e he => ?_, fun x' hx' => (by cases hx')⟩
      have : e1 = e := by injection he
      rw [← this]; exact varIdx_err_not_model hi
    | ok i =>
      dsimp only
      by_cases hlt : i < x.isRequired.length
      · rw [if_pos hlt]
        obtain ⟨h1, h2⟩ := ih { x with isRequired := x.isRequired.set i true, q := x.q ++ [p.name] }
        refine ⟨h1, fun x' hx' => ?_⟩
        obtain ⟨h3, h4⟩ := h2 x' hx'
        refine ⟨?_, ?_⟩
        · rw [h3]
          show (x.q ++ [p.name]).length + ts.length = x.q.length + (p :: ts).length
          rw [List.length_append, List.length_singleton, List.length_cons]
          omega
        · rw [h4]
          show (x.isRequired.set i true).length = _
          rw [List.length_set]
      · rw [if_neg hlt]
        refine ⟨fun e he => ?_, fun x' hx' => (by cases hx')⟩
        have : Err.outOfRange = e := by injection he
        rw [← this]; exact fun h' => h'

/-- The dependency analysis never ends with an exhausted fuel: the iterations
named in its definition empty the queue, on every state. -/
theorem DependencyParse_fuel (g : FactorGraph) (targets : List VarPtr) (e : Err)
    (h : failure (DependencyParse g targets) = some e) : ¬ e.modelOnly := by
  unfold DependencyParse at h
  dsimp only at h
  obtain ⟨h1, h2⟩ := markTargets_fuel targets
    { g with isRequired := List.replicate g.var_dict.size false, q := [] }
  rcases run_cases (List.foldlM markTarget
    { g with isRequired := List.replicate g.var_dict.size false, q := [] } targets) with
    ⟨e1, ht⟩ | ⟨x1, ht⟩
  · rw [ht] at h
    exact h1 e (by rw [ht]; exact h)
  · rw [ht] at h
    dsimp only at h
    obtain ⟨h3, h4⟩ := h2 x1 ht
    have hlen : x1.isRequired.length = g.var_dict.size := by
      rw [h4]; simp
    have hq : x1.q.length = targets.length := by
      rw [h3]; simp
    have hf : ParseFuel (targets.length + g.var_dict.size) x1 := by
      have := List.count_le_length false x1.isRequired
      show x1.q.length + x1.isRequired.count false ≤ _
      omega
    exact parseLoop_fuel _ _ x1 hf (Nat.le_refl _) e h

theorem checkReady_err_not_model (g : FactorGraph) (ts : List VarPtr) (e : Err)
    (h : checkReady g ts = .error e) : ¬ e.modelOnly := by
  induction ts with
  | nil => cases h
  | cons p ps ih =>
    unfold checkReady at h
    cases hi : VarIdx g p.name with
    | error e' =>
      rw [hi] at h
      injection h with h
      rw [← h]; exact varIdx_err_not_model hi
    | ok i =>
      rw [hi] at h
      dsimp only at h
      cases hr : g.isReady[i]? with
      | none => rw [hr] at h; injection h with h; rw [← h]; exact fun h' => h'
      | some b =>
        rw [hr] at h
        cases b with
        | false => injection h with h; rw [← h]; exact fun h' => h'
        | true => exact ih h

theorem setPreReady_not_model (x : FactorGraph) (st : String × Variable) :
    Outcome (fun _ => True) (fun e => ¬ e.modelOnly) (setPreReady x st) := by
  unfold setPreReady
  cases hi : VarIdx x st.1 with
  | error e => exact ⟨trivial, varIdx_err_not_model hi⟩
  | ok i =>
    dsimp only
    split
    · exact trivial
    · exact ⟨trivial, fun h' => h'⟩

theorem setFed_not_model (x : FactorGraph) (p : String × RawData) :
    Outcome (fun _ => True) (fun e => ¬ e.modelOnly) (setFed x p) := by
  unfold setFed
  cases hi : VarIdx x p.1 with
  | error e => exact ⟨trivial, varIdx_err_not_model hi⟩
  | ok i =>
    dsimp only
    split
    · exact trivial
    · exact ⟨trivial, fun h' => h'⟩

/-- A forward query never ends with an exhausted fuel, nor on a dequeued name
that is not registered: the queue loops of the embedding run as long as those
of the source. -/
theorem FeedForward_fuel (g : FactorGraph) (targets : List VarPtr)
    (feed_dict : Dict RawData) (n_thread : Nat) (e : Err)
    (h : failure (FeedForward g targets feed_dict n_thread) = some e) : ¬ e.modelOnly := by
  unfold FeedForward at h
  have hprep : ∀ e1, failure (prepareForward g targets feed_dict) = some e1 →
      ¬ e1.modelOnly := by
    intro e1 he1
    unfold prepareForward at he1
    rcases run_cases (DependencyParse g targets) with ⟨e2, hD⟩ | ⟨gD, hD⟩
    · rw [hD] at he1
      exact DependencyParse_fuel g targets e1 (by rw [hD]; exact he1)
    · rw [hD] at he1
      dsimp only at he1
      have h1 := foldlM_outcome setPreReady (fun _ => True) (fun e => ¬ e.modelOnly)
        (fun _ => True) (fun y st _ _ => setPreReady_not_model y st) gD.ready_dict
        { gD with isReady := List.replicate gD.var_dict.size false } trivial
        (fun _ _ => trivial)
      rcases run_cases (List.foldlM setPreReady
        { gD with isReady := List.replicate gD.var_dict.size false } gD.ready_dict) with
        ⟨e3, hp⟩ | ⟨g3, hp⟩
      · rw [hp] at h1 he1
        have : e3.1 = e1 := by injection he1
        rw [← this]; exact h1.2
      · rw [hp] at he1
        exact (foldlM_outcome setFed (fun _ => True) (fun e => ¬ e.modelOnly)
          (fun _ => True) (fun y st _ _ => setFed_not_model y st) feed_dict g3 trivial
          (fun _ _ => trivial)).err e1 he1
  rcases run_cases (prepareForward g targets feed_dict) with ⟨e1, hp⟩ | ⟨g1, hp⟩
  · rw [hp] at h
    exact hprep e (by rw [hp]; exact h)
  · rw [hp] at h
    dsimp only at h
    by_cases hn : n_thread = 1
    · rw [if_pos hn] at h
      rcases run_cases (SequentialForward g1) with ⟨e2, hs⟩ | ⟨g2, hs⟩
      · rw [hs] at h
        exact SequentialForward_fuel g1 e (by rw [hs]; exact h)
      · rw [hs] at h
        dsimp only at h
        cases hc : checkReady g2 targets with
        | error e3 =>
          rw [hc] at h
          have : e3 = e := by injection h
          rw [← this]; exact checkReady_err_not_model g2 targets e3 hc
        | ok u => rw [hc] at h; cases h
    · rw [if_neg hn] at h
      injection h with h
      rw [← h]; exact fun h' => h'

/-! ## Registration of value nodes -/

theorem VarTables.of_empty : VarTables FactorGraph.empty :=
  ⟨rfl, List.nodup_nil, fun _ h => (by cases h), fun i h => absurd h (Nat.not_lt_zero i),
   fun n e h => (by cases h), fun _ => rfl, fun _ h => (by cases h)⟩

theorem lookup_snoc {α : Type} (d : Dict α) (k n : String) (v : α)
    (hk : (d.lookup k).isSome = false) :
    (d ++ [(k, v)]).lookup n = if n = k then some v else d.lookup n := by
  rw [List.lookup_append]
  by_cases hn : n = k
  · subst hn
    rw [if_pos rfl]
    cases hl : d.lookup n with
    | none => simp
    | some x => rw [hl] at hk; simp at hk
  · rw [if_neg hn]
    have : (n == k) = false := by simpa using hn
    cases hl : d.lookup n with
    | none => simp [List.lookup_cons, this]
    | some x => simp

theorem Dict.assign_fresh {α : Type} (d : Dict α) (k : String) (v : α)
    (hk : (d.lookup k).isSome = false) : d.assign k v = d ++ [(k, v)] := by
  unfold Dict.assign; rw [hk]; simp

theorem lookup_map_replace {α : Type} (d : Dict α) (k n : String) (v : α) :
    (d.map (fun e => if e.1 == k then (k, v) else e)).lookup n =
      if n = k then (d.lookup k).map (fun _ => v) else d.lookup n := by
  induction d with
  | nil => by_cases hn : n = k <;> simp [hn]
  | cons e d ih =>
    obtain ⟨k', v'⟩ := e
    rw [List.map_cons]
    by_cases hk : k' = k
    · subst hk
      by_cases hn : n = k'
      · subst hn; simp [List.lookup_cons]
      · have h1 : (n == k') = false := by simpa using hn
        simp only [beq_self_eq_true, if_true, List.lookup_cons, h1, if_neg hn]
        rw [ih, if_neg hn]
    · have h1 : (k' == k) = false := by simpa using hk
      have h2 : (k == k') = false := by simpa using (fun h => hk h.symm)
      simp only [h1, Bool.false_eq_true, if_false, List.lookup_cons]
      by_cases hn : n = k
      · subst hn
        simp only [h2, if_true]
        rw [ih, if_pos rfl]
      · rw [if_neg hn]
        cases hnk : n == k' with
        | true => rfl
        | false => simp only []; rw [ih, if_neg hn]

theorem Dict.lookup_assign {α : Type} (d : Dict α) (k n : String) (v : α) :
    (d.assign k v).lookup n = if n = k then some v else d.lookup n := by
  unfold Dict.assign
  cases hk : (d.lookup k).isSome with
  | false => simpa using lookup_snoc d k n v hk
  | true =>
    simp only [if_true]
    rw [lookup_map_replace]
    by_cases hn : n = k
    · rw [if_pos hn, if_pos hn]
      cases hl : d.lookup k with
      | none => rw [hl] at hk; simp at hk
      | some x => rfl
    · rw [if_neg hn, if_neg hn]

theorem AddVar_registered {g : FactorGraph} (v : VarPtr) (nf : Bool)
    (h : VarRegistered g v.name) : AddVar g v nf = .error (Err.alreadyInserted v.name, g) := by
  unfold AddVar
  rw [if_neg]
  rintro ⟨h1, _⟩
  have := (Dict.count_eq_zero _ _).mp h1
  unfold VarRegistered at h
  rw [h] at this
  cases this

theorem AddVar_fresh {g : FactorGraph} (hg : VarTables g) (v : VarPtr) (nf : Bool)
    (h : ¬ VarRegistered g v.name) :
    ∃ g', AddVar g v nf = .ok g' ∧
      g'.var_dict = g.var_dict ++ [(v.name, (g.var_dict.size, v))] ∧
      g'.var_list = g.var_list ++ [v] ∧
      g'.varEdges = g.varEdges ++ [(v.name, ([], []))] ∧
      g'.ready_dict = (if nf = true then g.ready_dict else g.ready_dict.assign v.name v) := by
  have hv : (g.var_dict.lookup v.name).isSome = false := by
    unfold VarRegistered at h
    cases hl : (g.var_dict.lookup v.name).isSome with
    | false => rfl
    | true => exact absurd hl h
  have he : (g.varEdges.lookup v.name).isSome = false := by rw [hg.keys]; exact hv
  have hc : g.var_dict.count v.name = 0 ∧ g.varEdges.count v.name = 0 :=
    ⟨(Dict.count_eq_zero _ _).mpr hv, (Dict.count_eq_zero _ _).mpr he⟩
  unfold AddVar
  rw [if_pos hc]
  dsimp only
  rw [Dict.assign_fresh _ _ _ hv, Dict.assign_fresh _ _ _ he, hg.size]
  cases nf with
  | true => exact ⟨_, rfl, rfl, rfl, rfl, rfl⟩
  | false => exact ⟨_, rfl, rfl, rfl, rfl, rfl⟩

theorem not_registered_iff {g : FactorGraph} {n : String} :
    ¬ VarRegistered g n ↔ (g.var_dict.lookup n).isSome = false := by
  unfold VarRegistered
  cases (g.var_dict.lookup n).isSome <;> simp

theorem VarTables.pre_fresh {g : FactorGraph} (hg : VarTables g) {n : String}
    (h : ¬ VarRegistered g n) : (g.ready_dict.lookup n).isSome = false := by
  cases hl : g.ready_dict.lookup n with
  | none => rfl
  | some x =>
    exact absurd (hg.pre _ (Dict.mem_of_lookup _ _ _ hl)) h

theorem VarTables.step {g g' : FactorGraph} (hg : VarTables g) (v : VarPtr) (nf : Bool)
    (h : ¬ VarRegistered g v.name)
    (hd : g'.var_dict = g.var_dict ++ [(v.name, (g.var_dict.size, v))])
    (hl : g'.var_list = g.var_list ++ [v])
    (he : g'.varEdges = g.varEdges ++ [(v.name, ([], []))])
    (hr : g'.ready_dict = (if nf = true then g.ready_dict else g.ready_dict.assign v.name v)) :
    VarTables g' := by
  have hv := not_registered_iff.mp h
  have hev : (g.varEdges.lookup v.name).isSome = false := by rw [hg.keys]; exact hv
  have hsz : g'.var_dict.size = g.var_dict.size + 1 := by
    unfold Dict.size; rw [hd, List.length_append]; rfl
  have hlk : ∀ n, g'.var_dict.lookup n =
      if n = v.name then some (g.var_dict.size, v) else g.var_dict.lookup n := by
    intro n; rw [hd]; exact lookup_snoc _ _ _ _ hv
  refine ⟨?_, ?_, ?_, ?_, ?_, ?_, ?_⟩
  · rw [hsz, hl, List.length_append, hg.size]; rfl
  · rw [hd, List.map_append, List.nodup_append]
    refine ⟨hg.distinct, List.nodup_singleton _, ?_⟩
    intro i hi hi'
    obtain ⟨e, hem, rfl⟩ := List.mem_map.mp hi
    have := hg.bound e hem
    simp at hi'
    omega
  · intro e hem
    rw [hd] at hem
    rw [hsz]
    rcases List.mem_append.mp hem with hem | hem
    · exact Nat.lt_succ_of_lt (hg.bound e hem)
    · simp at hem; subst hem; exact Nat.lt_succ_self _
  · intro i hi
    rw [hsz] at hi
    by_cases hlt : i < g.var_dict.size
    · obtain ⟨n, hn⟩ := hg.dense i hlt
      refine ⟨n, ?_⟩
      have hne : n ≠ v.name := by
        rintro rfl
        exact h (registered_of_varIdx hn)
      unfold VarIdx at hn ⊢
      rw [hlk, if_neg hne]; exact hn
    · have : i = g.var_dict.size := by omega
      subst this
      refine ⟨v.name, ?_⟩
      unfold VarIdx
      rw [hlk, if_pos rfl]
  · intro n e hn
    rw [hlk] at hn
    by_cases hne : n = v.name
    · rw [if_pos hne] at hn
      injection hn with hn
      subst hn
      refine ⟨?_, hne.symm⟩
      rw [hl, ← hg.size]
      simp
    · rw [if_neg hne] at hn
      obtain ⟨h1, h2⟩ := hg.node n e hn
      refine ⟨?_, h2⟩
      rw [hl, List.getElem?_append_left]
      · exact h1
      · rw [hg.size]; exact hg.bound _ (Dict.mem_of_lookup _ _ _ hn)
  · intro n
    rw [hlk, he, lookup_snoc _ _ _ _ hev]
    by_cases hne : n = v.name
    · rw [if_pos hne, if_pos hne]; rfl
    · rw [if_neg hne, if_neg hne]; exact hg.keys n
  · intro st hst
    have hmono : ∀ k, (g.var_dict.lookup k).isSome = true → (g'.var_dict.lookup k).isSome = true := by
      intro k hk
      rw [hlk]
      by_cases hne : k = v.name
      · rw [if_pos hne]; rfl
      · rw [if_neg hne]; exact hk
    rw [hr] at hst
    cases nf with
    | true => exact hmono _ (hg.pre st hst)
    | false =>
      simp only [Bool.false_eq_true, if_false] at hst
      rw [Dict.assign_fresh _ _ _ (hg.pre_fresh h)] at hst
      rcases List.mem_append.mp hst with hst | hst
      · exact hmono _ (hg.pre st hst)
      · simp at hst
        subst hst
        rw [hlk, if_pos rfl]; rfl

theorem VarTables.of_AddVar {g : FactorGraph} (hg : VarTables g) (v : VarPtr) (nf : Bool) :
    VarTables (finalState (AddVar g v nf)) := by
  by_cases h : VarRegistered g v.name
  · rw [AddVar_registered v nf h]; exact hg
  · obtain ⟨g', h1, hd, hl, he, hr⟩ := AddVar_fresh hg v nf h
    rw [h1]
    exact hg.step v nf h hd hl he hr

theorem VarTables.of_addVars {g : FactorGraph} (hg : VarTables g)
    (calls : List (VarPtr × Bool)) : VarTables (addVars g calls) := by
  induction calls generalizing g with
  | nil => exact hg
  | cons c cs ih => exact ih (hg.of_AddVar c.1 c.2)

theorem VarTables.indexed {g : FactorGraph} (hg : VarTables g) : VarsIndexed g :=
  ⟨hg.distinct, hg.bound⟩

/-- C11. Let `g` be the registry a sequence of `AddVar` calls builds from the
empty one. (1) `AddVar` of a registered name fails, in the state `g` itself.
(2) `AddVar` of any other name returns: the node gets the index
`var_dict.size()`, the number of value nodes registered before, its producer
and consumer lists are empty, it is a key of `ready_dict` exactly when
`need_feed` is false and no other key of `ready_dict` changes, and every name
registered before keeps its index. (3) Before and after the call the indices
are distinct, below the number of value nodes and cover it, and `var_list`
holds at the index of a name the node registered under it. -/
theorem AddVar_registry_invariant (calls : List (VarPtr × Bool)) (var : VarPtr)
    (need_feed : Bool) (g : FactorGraph) (hg : g = addVars FactorGraph.empty calls) :
    (VarRegistered g var.name →
      AddVar g var need_feed = .error (Err.alreadyInserted var.name, g)) ∧
    (¬ VarRegistered g var.name → ∃ g', AddVar g var need_feed = .ok g' ∧
      g'.var_dict.lookup var.name = some (g.var_dict.size, var) ∧
      VarIdx g' var.name = .ok g.var_dict.size ∧
      g'.var_dict.size = g.var_dict.size + 1 ∧
      g'.producers var.name = [] ∧ g'.consumers var.name = [] ∧
      ((g'.ready_dict.lookup var.name).isSome = true ↔ need_feed = false) ∧
      (∀ n, n ≠ var.name → g'.ready_dict.lookup n = g.ready_dict.lookup n) ∧
      (∀ n, VarRegistered g n → VarIdx g' n = VarIdx g n) ∧
      VarsIndexed g' ∧ g'.var_list.length = g'.var_dict.size ∧
      (∀ i, i < g'.var_dict.size → ∃ n, VarIdx g' n = .ok i) ∧
      (∀ n e, g'.var_dict.lookup n = some e → g'.var_list[e.1]? = some e.2 ∧ e.2.name = n)) ∧
    (VarsIndexed g ∧ g.var_list.length = g.var_dict.size ∧
      (∀ i, i < g.var_dict.size → ∃ n, VarIdx g n = .ok i) ∧
      (∀ n e, g.var_dict.lookup n = some e → g.var_list[e.1]? = some e.2 ∧ e.2.name = n)) := by
  have hT : VarTables g := by rw [hg]; exact VarTables.of_empty.of_addVars calls
  refine ⟨fun h => AddVar_registered var need_feed h, fun h => ?_,
    hT.indexed, hT.size, hT.dense, hT.node⟩
  obtain ⟨g', h1, hd, hl, he, hr⟩ := AddVar_fresh hT var need_feed h
  have hT' : VarTables g' := hT.step var need_feed h hd hl he hr
  have hv := not_registered_iff.mp h
  have hev : (g.varEdges.lookup var.name).isSome = false := by rw [hT.keys]; exact hv
  have hlk : ∀ n, g'.var_dict.lookup n =
      if n = var.name then some (g.var_dict.size, var) else g.var_dict.lookup n := by
    intro n; rw [hd]; exact lookup_snoc _ _ _ _ hv
  have hedge : g'.varEdges.get var.name = ([], []) := by
    unfold Dict.get
    rw [he, lookup_snoc _ _ _ _ hev, if_pos rfl]; rfl
  refine ⟨g', h1, ?_, ?_, ?_, ?_, ?_, ?_, ?_, ?_, hT'.indexed, hT'.size, hT'.dense, hT'.node⟩
  · rw [hlk, if_pos rfl]
  · unfold VarIdx; rw [hlk, if_pos rfl]
  · unfold Dict.size; rw [hd, List.length_append]; rfl
  · unfold FactorGraph.producers; rw [hedge]
  · unfold FactorGraph.consumers; rw [hedge]
  · rw [hr]
    cases need_feed with
    | true =>
      simp only [if_true]
      rw [hT.pre_fresh h]
      simp
    | false =>
      simp only [Bool.false_eq_true, if_false]
      rw [Dict.lookup_assign, if_pos rfl]
      simp
  · intro n hn
    rw [hr]
    cases need_feed with
    | true => rfl
    | false =>
      simp only [Bool.false_eq_true, if_false]
      rw [Dict.lookup_assign, if_neg hn]
  · intro n hn
    have hne : n ≠ var.name := by rintro rfl; exact h hn
    unfold VarIdx
    rw [hlk, if_neg hne]

theorem AddVar_registry_invariant_witness :
    AddVar (addVars FactorGraph.empty [(Example.a, true), (Example.b, false)]) Example.a false =
      .error (Err.alreadyInserted "a",
        addVars FactorGraph.empty [(Example.a, true), (Example.b, false)]) ∧
    ∃ g', AddVar (addVars FactorGraph.empty [(Example.a, true), (Example.b, false)])
        Example.c false = .ok g' ∧
      g'.var_dict.lookup "c" = some (2, Example.c) :=
  ⟨(AddVar_registry_invariant [(Example.a, true), (Example.b, false)] Example.a false _ rfl).1
      (by decide),
   by
    obtain ⟨g', h1, h2, _⟩ :=
      (AddVar_registry_invariant [(Example.a, true), (Example.b, false)] Example.c false _
        rfl).2.1 (by decide)
    exact ⟨g', h1, h2⟩⟩

/-! ## Constant value nodes in a backward query -/

theorem zeroGradCalls_append (l l' : List Event) :
    zeroGradCalls (l ++ l') = zeroGradCalls l ++ zeroGradCalls l' := by
  induction l with
  | nil => rfl
  | cons ev l ih => cases ev <;> simp [zeroGradCalls, ih]

theorem zeroGradCalls_map (vs : List Variable) :
    zeroGradCalls (vs.map Event.zeroGrad) = vs := by
  induction vs with
  | nil => rfl
  | cons v vs ih => simp [zeroGradCalls, ih]

theorem zeroGradCalls_none (l : List Event) (h : ∀ v, Event.zeroGrad v ∉ l) :
    zeroGradCalls l = [] := by
  induction l with
  | nil => rfl
  | cons ev l ih =>
    have ih' := ih (fun v hv => h v (List.mem_cons_of_mem _ hv))
    cases ev with
    | zeroGrad v => exact absurd (List.mem_cons_self _ _) (h v)
    | _ => simpa [zeroGradCalls] using ih'

/-- The log of a backward query that passed the check of the scratch sizes:
the `ZeroGrad` calls of the value nodes that are not constant, then `OnesGrad`
calls of seeds that are not constant, then the lines and the necessary
`Backward` calls of the sequential pass. -/
theorem BackPropagate_log (g : FactorGraph) (targets : List VarPtr) (n_thread : Nat)
    (hs : scratchConsistent g = true) :
    ∃ l1 l2, newLog g (finalState (BackPropagate g targets n_thread)) =
        (g.var_list.filter (fun v => !v.isConst)).map Event.zeroGrad ++ l1 ++ l2 ∧
      (∀ ev ∈ l1, ∃ p ∈ targets, ev = Event.onesGrad p ∧ p.isConst = false) ∧
      (∀ ev ∈ l2, (∃ n, ev = Event.print n) ∨
        ∃ f ops outs, ev = Event.backward f ops outs ∧ backNecessary f ops = true) := by
  have hgz : SeedInv (zeroGrads g) targets (zeroGrads g) := SeedInv.seed_refl _ _
  have hpre0 : g.log <+: (zeroGrads g).log := List.prefix_append _ _
  have hseed : ∀ x, SeedInv (zeroGrads g) targets x →
      ∀ ev ∈ newLog (zeroGrads g) x, ∃ p ∈ targets, ev = Event.onesGrad p ∧ p.isConst = false :=
    fun x hx ev hev => by
      obtain ⟨p, hp, h1, _, h2⟩ := hx.events ev hev
      exact ⟨p, hp, h1, h2⟩
  unfold BackPropagate
  rw [if_pos hs]
  rcases run_cases (List.foldlM seedGrad (zeroGrads g) targets) with ⟨e, he⟩ | ⟨x1, h1⟩
  · have hI : SeedInv (zeroGrads g) targets e.2 := by
      have := foldlM_final seedGrad (SeedInv (zeroGrads g) targets) (fun p => p ∈ targets)
        (fun x p hx hp => by
          by_cases hg : ((zeroGrads g).consumers p.name).length = 0 ∧ p.isConst = false
          · obtain ⟨x', h1, h2⟩ := seedGrad_good x p hp hx hg
            rw [h1]; exact h2
          · obtain ⟨e', h1, _, h2⟩ := seedGrad_bad x p hx hg
            rw [h1]; exact h2) targets (zeroGrads g) hgz (fun p hp => hp)
      rw [he] at this; exact this
    rw [he]
    refine ⟨newLog (zeroGrads g) e.2, [], ?_, hseed _ hI, fun _ h => (by cases h)⟩
    show newLog g e.2 = _
    rw [newLog_trans hpre0 hI.pre, newLog_zeroGrads, List.append_nil]
  · have hI : SeedInv (zeroGrads g) targets x1 := by
      have := foldlM_final seedGrad (SeedInv (zeroGrads g) targets) (fun p => p ∈ targets)
        (fun x p hx hp => by
          by_cases hg : ((zeroGrads g).consumers p.name).length = 0 ∧ p.isConst = false
          · obtain ⟨x', h1, h2⟩ := seedGrad_good x p hp hx hg
            rw [h1]; exact h2
          · obtain ⟨e', h1, _, h2⟩ := seedGrad_bad x p hx hg
            rw [h1]; exact h2) targets (zeroGrads g) hgz (fun p hp => hp)
      rw [h1] at this; exact this
    rw [h1]
    dsimp only
    have hpre1 : g.log <+: x1.log := hpre0.trans hI.pre
    by_cases hn : n_thread = 1
    · rw [if_pos hn]
      have hB := (SequentialBackward_bwd x1 targets).state
      refine ⟨newLog (zeroGrads g) x1,
        newLog x1 (finalState (SequentialBackward x1 targets)), ?_, hseed _ hI, ?_⟩
      · rw [newLog_trans hpre1 hB.pre, newLog_trans hpre0 hI.pre, newLog_zeroGrads]
      · intro ev hev
        rcases hB.events ev hev with h | ⟨cur, e, _, h2, h3⟩
        · exact Or.inl h
        · exact Or.inr ⟨e.2, x1.operands cur, x1.outputs cur, h2, h3⟩
    · rw [if_neg hn]
      refine ⟨newLog (zeroGrads g) x1, [], ?_, hseed _ hI, fun _ h => (by cases h)⟩
      show newLog g x1 = _
      rw [newLog_trans hpre0 hI.pre, newLog_zeroGrads, List.append_nil]

theorem backNecessary_operand {f : Factor} {ops : VarList} (h : backNecessary f ops = true) :
    f.properr = PropErr.T ∧ ∃ p ∈ ops, p.isConst = false := by
  unfold backNecessary at h
  rw [Bool.and_eq_true] at h
  obtain ⟨h1, h2⟩ := h
  refine ⟨by simpa using h1, ?_⟩
  obtain ⟨p, hp, hc⟩ := List.any_eq_true.mp h2
  exact ⟨p, hp, by simpa using hc⟩

/-- C12, as amended. A `BackPropagate` call that passes the check of the scratch
sizes applies `ZeroGrad` to the value nodes of `var_list` that are not
constant, each once and in order, whether it then returns or fails; a call
that fails the check makes no call at all. In every call `ZeroGrad` is
applied only to registered value nodes that are not constant, `OnesGrad` only
to seeds that are not constant, and every `Backward` call has an operand that
is not constant; so no call of the log may change the gradient state of a
constant value node. -/
theorem BackPropagate_constant_isolation (g : FactorGraph) (targets : List VarPtr)
    (n_thread : Nat) :
    (scratchConsistent g = true →
      zeroGradCalls (newLog g (finalState (BackPropagate g targets n_thread))) =
        g.var_list.filter (fun v => !v.isConst)) ∧
    (scratchConsistent g = false →
      newLog g (finalState (BackPropagate g targets n_thread)) = []) ∧
    (∀ v, Event.zeroGrad v ∈ newLog g (finalState (BackPropagate g targets n_thread)) →
      v ∈ g.var_list ∧ v.isConst = false) ∧
    (∀ v, Event.onesGrad v ∈ newLog g (finalState (BackPropagate g targets n_thread)) →
      v ∈ targets ∧ v.isConst = false) ∧
    (∀ f ops outs,
      Event.backward f ops outs ∈ newLog g (finalState (BackPropagate g targets n_thread)) →
      f.properr = PropErr.T ∧ ∃ p ∈ ops, p.isConst = false) ∧
    (∀ ev ∈ newLog g (finalState (BackPropagate g targets n_thread)),
      ∀ v ∈ ev.gradTargets, v.isConst = false) := by
  cases hs : scratchConsistent g with
  | false =>
    have hnil : newLog g (finalState (BackPropagate g targets n_thread)) = [] := by
      unfold BackPropagate
      rw [hs]
      exact newLog_self g
    rw [hnil]
    exact ⟨fun h => (by cases h), fun _ => rfl, fun _ h => (by cases h),
      fun _ h => (by cases h), fun _ _ _ h => (by cases h), fun _ h => (by cases h)⟩
  | true =>
    obtain ⟨l1, l2, hlog, h1, h2⟩ := BackPropagate_log g targets n_thread hs
    rw [hlog]
    have hz1 : ∀ v, Event.zeroGrad v ∉ l1 := by
      intro v hv
      obtain ⟨p, _, hp, _⟩ := h1 _ hv
      cases hp
    have hz2 : ∀ v, Event.zeroGrad v ∉ l2 := by
      intro v hv
      rcases h2 _ hv with ⟨n, hn⟩ | ⟨f, ops, outs, hf, _⟩
      · cases hn
      · cases hf
    have hz0 : ∀ ev ∈ (g.var_list.filter (fun v => !v.isConst)).map Event.zeroGrad,
        ∃ v ∈ g.var_list, ev = Event.zeroGrad v ∧ v.isConst = false := by
      intro ev hev
      obtain ⟨v, hv, rfl⟩ := List.mem_map.mp hev
      obtain ⟨hv1, hv2⟩ := List.mem_filter.mp hv
      exact ⟨v, hv1, rfl, by simpa using hv2⟩
    have hcases : ∀ ev ∈ (g.var_list.filter (fun v => !v.isConst)).map Event.zeroGrad ++ l1 ++ l2,
        (∃ v ∈ g.var_list, ev = Event.zeroGrad v ∧ v.isConst = false) ∨
        (∃ p ∈ targets, ev = Event.onesGrad p ∧ p.isConst = false) ∨
        (∃ n, ev = Event.print n) ∨
        ∃ f ops outs, ev = Event.backward f ops outs ∧ backNecessary f ops = true := by
      intro ev hev
      rcases List.mem_append.mp hev with hev | hev
      · rcases List.mem_append.mp hev with hev | hev
        · exact Or.inl (hz0 ev hev)
        · exact Or.inr (Or.inl (h1 ev hev))
      · exact Or.inr (Or.inr (h2 ev hev))
    refine ⟨fun _ => ?_, fun h => (by cases h), ?_, ?_, ?_, ?_⟩
    · rw [zeroGradCalls_append, zeroGradCalls_append, zeroGradCalls_map,
        zeroGradCalls_none l1 hz1, zeroGradCalls_none l2 hz2, List.append_nil, List.append_nil]
    · intro v hv
      rcases hcases _ hv with ⟨u, hu, h, hc⟩ | ⟨p, _, h, _⟩ | ⟨n, h⟩ | ⟨f, ops, outs, h, _⟩
      · injection h with h; subst h; exact ⟨hu, hc⟩
      · cases h
      · cases h
      · cases h
    · intro v hv
      rcases hcases _ hv with ⟨u, hu, h, hc⟩ | ⟨p, hp, h, hc⟩ | ⟨n, h⟩ | ⟨f, ops, outs, h, _⟩
      · cases h
      · injection h with h; subst h; exact ⟨hp, hc⟩
      · cases h
      · cases h
    · intro f ops outs hv
      rcases hcases _ hv with ⟨u, hu, h, hc⟩ | ⟨p, hp, h, hc⟩ | ⟨n, h⟩ | ⟨f', ops', outs', h, hn⟩
      · cases h
      · cases h
      · cases h
      · injection h with hf hops _
        subst hf; subst hops
        exact backNecessary_operand hn
    · intro ev hev v hv
      rcases hcases _ hev with ⟨u, hu, h, hc⟩ | ⟨p, hp, h, hc⟩ | ⟨n, h⟩ | ⟨f', ops', outs', h, hn⟩
      · subst h
        simp only [Event.gradTargets, List.mem_singleton] at hv
        rw [hv]; exact hc
      · subst h
        simp only [Event.gradTargets, List.mem_singleton] at hv
        rw [hv]; exact hc
      · subst h
        simp only [Event.gradTargets] at hv
        cases hv
      · subst h
        simp only [Event.gradTargets] at hv
        have := (List.mem_filter.mp hv).2
        simpa using this

/-- C12 fails as stated for a call that fails the check of the scratch sizes.
On the pruning scenario, before any forward query, the backward query fails
with the consistency error and applies `ZeroGrad` to no value node, while `a`
is registered and not constant. -/
theorem BackPropagate_failed_check_zeroes_nothing :
    failure (BackPropagate Example.pruning [Example.d] 1) = some Err.graphChanged ∧
    Example.a ∈ Example.pruning.var_list ∧ Example.a.isConst = false ∧
    Event.zeroGrad Example.a ∉
      newLog Example.pruning (finalState (BackPropagate Example.pruning [Example.d] 1)) ∧
    zeroGradCalls
      (newLog Example.pruning (finalState (BackPropagate Example.pruning [Example.d] 1))) ≠
      Example.pruning.var_list.filter (fun v => !v.isConst) := by
  decide

/-! ## A forward query does not read the scratch state it finds -/

theorem same_scratch (x : FactorGraph) (r rq : List Bool) (np : List Int) (q : List String)
    (lg : List Event) :
    SameRegistry x { x with isReady := r, isRequired := rq, n_pending := np, q := q, log := lg } :=
  ⟨rfl, rfl, rfl, rfl, rfl, fun _ => rfl, fun _ => rfl⟩

theorem SameRegistry.symm {a b : FactorGraph} (h : SameRegistry a b) : SameRegistry b a :=
  ⟨h.var_dict.symm, h.factor_dict.symm, h.var_list.symm, h.factor_list.symm,
   h.ready_dict.symm, fun n => (h.varEdges n).symm, fun n => (h.factorEdges n).symm⟩

theorem Sim.sim_step {rd np rd' np' : Prop} {l l' : List Event} {x x' y y' : FactorGraph}
    (h : Sim rd np l l' x x') (hy : SameRegistry x y) (hy' : SameRegistry x' y')
    (hreq : y'.isRequired = y.isRequired) (hq : y'.q = y.q)
    (hrd : rd' → y'.isReady = y.isReady) (hnp : np' → y'.n_pending = y.n_pending)
    (hlog : ∃ evs, y.log = x.log ++ evs ∧ y'.log = x'.log ++ evs) : Sim rd' np' l l' y y' := by
  refine ⟨(hy.symm.trans h.same).trans hy', hreq, hq, hrd, hnp, ?_⟩
  obtain ⟨evs, h1, h2⟩ := h.log
  obtain ⟨evs', h3, h4⟩ := hlog
  exact ⟨evs ++ evs', by rw [h3, h1, List.append_assoc], by rw [h4, h2, List.append_assoc]⟩

theorem SimRun.of_ok {R : FactorGraph → FactorGraph → Prop} {r r' : Run FactorGraph}
    (h : SimRun R r r') {x : FactorGraph} (hx : r = .ok x) : ∃ x', r' = .ok x' ∧ R x x' := by
  subst hx
  cases r' with
  | ok x' => exact ⟨x', rfl, h⟩
  | error e => exact absurd h (fun h' => h')

theorem SimRun.of_error {R : FactorGraph → FactorGraph → Prop} {r r' : Run FactorGraph}
    (h : SimRun R r r') {e : Err × FactorGraph} (he : r = .error e) :
    ∃ e', r' = .error e' ∧ e.1 = e'.1 ∧ R e.2 e'.2 := by
  subst he
  cases r' with
  | ok x' => exact absurd h (fun h' => h')
  | error e' => exact ⟨e', rfl, h⟩

theorem foldlM_sim {α : Type} (f : FactorGraph → α → Run FactorGraph)
    (R : FactorGraph → FactorGraph → Prop)
    (hf : ∀ x x' a, R x x' → SimRun R (f x a) (f x' a)) :
    ∀ (l : List α) (x x' : FactorGraph), R x x' → SimRun R (l.foldlM f x) (l.foldlM f x') := by
  intro l
  induction l with
  | nil => intro x x' h; exact h
  | cons a l ih =>
    intro x x' h
    have h1 := hf x x' a h
    rw [List.foldlM_cons, List.foldlM_cons]
    rcases run_cases (f x a) with ⟨e, hfa⟩ | ⟨x1, hfa⟩
    · obtain ⟨e', hfa', he⟩ := h1.of_error hfa
      rw [hfa, hfa']; exact he
    · obtain ⟨x1', hfa', hx⟩ := h1.of_ok hfa
      rw [hfa, hfa']; exact ih x1 x1' hx

theorem markTarget_sim {rd np : Prop} {l l' : List Event} (x x' : FactorGraph) (p : VarPtr)
    (h : Sim rd np l l' x x') :
    SimRun (Sim rd np l l') (markTarget x p) (markTarget x' p) := by
  unfold markTarget
  rw [h.same.varIdx_eq, h.isRequired, h.q]
  cases VarIdx x p.name with
  | error e => exact ⟨rfl, h⟩
  | ok i =>
    dsimp only
    by_cases hlt : i < x.isRequired.length
    · rw [if_pos hlt, if_pos hlt]
      exact h.sim_step (same_scratch x _ _ _ _ _) (same_scratch x' _ _ _ _ _) rfl rfl h.isReady
        h.n_pending ⟨[], by simp, by simp⟩
    · rw [if_neg hlt, if_neg hlt]
      exact ⟨rfl, h⟩

theorem markOperand_sim {rd np : Prop} {l l' : List Event} (x x' : FactorGraph) (p : VarPtr)
    (h : Sim rd np l l' x x') :
    SimRun (Sim rd np l l') (markOperand x p) (markOperand x' p) := by
  unfold markOperand
  rw [h.same.varIdx_eq, h.isRequired, h.q]
  cases VarIdx x p.name with
  | error e => exact ⟨rfl, h⟩
  | ok i =>
    dsimp only
    cases x.isRequired[i]? with
    | none => exact ⟨rfl, h⟩
    | some b =>
      cases b with
      | true => exact h
      | false =>
        exact h.sim_step (same_scratch x _ _ _ _ _) (same_scratch x' _ _ _ _ _) rfl rfl h.isReady
          h.n_pending ⟨[], by simp, by simp⟩

theorem Sim.touchFac {rd np : Prop} {l l' : List Event} {x x' : FactorGraph}
    (h : Sim rd np l l' x x') (n : String) : Sim rd np l l' (x.touchFac n) (x'.touchFac n) :=
  h.sim_step (SameRegistry.of_touchFac x n) (SameRegistry.of_touchFac x' n) h.isRequired h.q
    h.isReady h.n_pending ⟨[], by simp [FactorGraph.touchFac], by simp [FactorGraph.touchFac]⟩

theorem Sim.touchVar {rd np : Prop} {l l' : List Event} {x x' : FactorGraph}
    (h : Sim rd np l l' x x') (n : String) : Sim rd np l l' (x.touchVar n) (x'.touchVar n) :=
  h.sim_step (SameRegistry.of_touchVar x n) (SameRegistry.of_touchVar x' n) h.isRequired h.q
    h.isReady h.n_pending ⟨[], by simp [FactorGraph.touchVar], by simp [FactorGraph.touchVar]⟩

theorem parseFactor_sim {rd np : Prop} {l l' : List Event} (x x' : FactorGraph) (f : Factor)
    (h : Sim rd np l l' x x') :
    SimRun (Sim rd np l l') (parseFactor x f) (parseFactor x' f) := by
  unfold parseFactor
  dsimp only
  rw [(h.touchFac f.name).same.operands_eq]
  exact foldlM_sim markOperand _ markOperand_sim _ _ _ (h.touchFac f.name)

theorem parseVar_sim {rd np : Prop} {l l' : List Event} (x x' : FactorGraph) (cur : String)
    (h : Sim rd np l l' x x') :
    SimRun (Sim rd np l l') (parseVar x cur) (parseVar x' cur) := by
  unfold parseVar
  dsimp only
  rw [(h.touchVar cur).same.producers_eq]
  exact foldlM_sim parseFactor _ parseFactor_sim _ _ _ (h.touchVar cur)

theorem Sim.sim_pop {rd np : Prop} {l l' : List Event} {x x' : FactorGraph}
    (h : Sim rd np l l' x x') (rest : List String) :
    Sim rd np l l' { x with q := rest } { x' with q := rest } :=
  h.sim_step (same_scratch x _ _ _ _ _) (same_scratch x' _ _ _ _ _) h.isRequired rfl h.isReady
    h.n_pending ⟨[], by simp, by simp⟩

theorem parseLoop_sim {rd np : Prop} {l l' : List Event} :
    ∀ (fuel : Nat) (x x' : FactorGraph), Sim rd np l l' x x' →
      SimRun (Sim rd np l l') (parseLoop fuel x) (parseLoop fuel x') := by
  intro fuel
  induction fuel with
  | zero =>
    intro x x' h
    unfold parseLoop
    rw [h.q]
    cases x.q with
    | nil => exact h
    | cons _ _ => exact ⟨rfl, h⟩
  | succ fuel ih =>
    intro x x' h
    unfold parseLoop
    rw [h.q]
    cases hq : x.q with
    | nil => exact h
    | cons cur rest =>
      dsimp only
      have h1 := parseVar_sim _ _ cur (h.sim_pop rest)
      rcases run_cases (parseVar { x with q := rest } cur) with ⟨e, hf⟩ | ⟨x1, hf⟩
      · obtain ⟨e', hf', he⟩ := h1.of_error hf
        rw [hf, hf']; exact he
      · obtain ⟨x1', hf', hx⟩ := h1.of_ok hf
        rw [hf, hf']; exact ih x1 x1' hx

theorem Sim.weaken {rd np rd' np' : Prop} {l l' : List Event} {x x' : FactorGraph}
    (h : Sim rd np l l' x x') (hrd : rd' → rd) (hnp : np' → np) : Sim rd' np' l l' x x' :=
  ⟨h.same, h.isRequired, h.q, fun r => h.isReady (hrd r), fun r => h.n_pending (hnp r), h.log⟩

theorem SimRun.sim_mono {R R' : FactorGraph → FactorGraph → Prop} {r r' : Run FactorGraph}
    (h : SimRun R r r') (hR : ∀ x x', R x x' → R' x x') : SimRun R' r r' := by
  cases r with
  | ok x =>
    cases r' with
    | ok x' => exact hR _ _ h
    | error e' => exact absurd h (fun h' => h')
  | error e =>
    cases r' with
    | ok x' => exact absurd h (fun h' => h')
    | error e' => exact ⟨h.1, hR _ _ h.2⟩

theorem DependencyParse_sim {rd np : Prop} (g g' : FactorGraph) (targets : List VarPtr)
    (hs : SameRegistry g g') (hrd : rd → g'.isReady = g.isReady)
    (hnp : np → g'.n_pending = g.n_pending) :
    SimRun (Sim rd np g.log g'.log) (DependencyParse g targets) (DependencyParse g' targets) := by
  have h0 : Sim rd np g.log g'.log
      { g with isRequired := List.replicate g.var_dict.size false, q := [] }
      { g' with isRequired := List.replicate g'.var_dict.size false, q := [] } :=
    ⟨⟨hs.var_dict, hs.factor_dict, hs.var_list, hs.factor_list, hs.ready_dict, hs.varEdges,
      hs.factorEdges⟩, by show List.replicate _ _ = List.replicate _ _; rw [hs.var_dict], rfl,
      hrd, hnp, ⟨[], by simp, by simp⟩⟩
  have h1 := foldlM_sim markTarget _ markTarget_sim targets _ _ h0
  unfold DependencyParse
  dsimp only
  rw [hs.var_dict]
  rcases run_cases (List.foldlM markTarget
    { g with isRequired := List.replicate g.var_dict.size false, q := [] } targets) with
    ⟨e, hf⟩ | ⟨x1, hf⟩
  · obtain ⟨e', hf', he⟩ := h1.of_error hf
    rw [hs.var_dict] at hf'
    rw [hf, hf']; exact he
  · obtain ⟨x1', hf', hx⟩ := h1.of_ok hf
    rw [hs.var_dict] at hf'
    rw [hf, hf']; exact parseLoop_sim _ x1 x1' hx

theorem setPreReady_sim {np : Prop} {l l' : List Event} (x x' : FactorGraph)
    (st : String × Variable) (h : Sim True np l l' x x') :
    SimRun (Sim True np l l') (setPreReady x st) (setPreReady x' st) := by
  unfold setPreReady
  rw [h.same.varIdx_eq, h.isReady trivial]
  cases VarIdx x st.1 with
  | error e => exact ⟨rfl, h⟩
  | ok i =>
    dsimp only
    by_cases hlt : i < x.isReady.length
    · rw [if_pos hlt, if_pos hlt]
      exact h.sim_step (same_scratch x _ _ _ _ _) (same_scratch x' _ _ _ _ _) h.isRequired h.q
        (fun _ => rfl) h.n_pending ⟨[], by simp, by simp⟩
    · rw [if_neg hlt, if_neg hlt]
      exact ⟨rfl, h⟩

theorem setFed_sim {np : Prop} {l l' : List Event} (x x' : FactorGraph)
    (p : String × RawData) (h : Sim True np l l' x x') :
    SimRun (Sim True np l l') (setFed x p) (setFed x' p) := by
  unfold setFed
  rw [h.same.varIdx_eq, h.isReady trivial]
  cases VarIdx x p.1 with
  | error e => exact ⟨rfl, h⟩
  | ok i =>
    dsimp only
    by_cases hlt : i < x.isReady.length
    · rw [if_pos hlt, if_pos hlt]
      exact h.sim_step (same_scratch x _ _ _ _ _) (same_scratch x' _ _ _ _ _) h.isRequired h.q
        (fun _ => rfl) h.n_pending ⟨[Event.setRef p.1 p.2], rfl, rfl⟩
    · rw [if_neg hlt, if_neg hlt]
      exact ⟨rfl, h⟩

theorem decrPending_sim {l l' : List Event} (x x' : FactorGraph) (f : Factor)
    (h : Sim True True l l' x x') :
    SimRun (Sim True True l l') (decrPending x f) (decrPending x' f) := by
  unfold decrPending
  rw [h.same.facIdx_eq, h.n_pending trivial, h.q]
  cases FacIdx x f.name with
  | error e => exact ⟨rfl, h⟩
  | ok j =>
    dsimp only
    cases x.n_pending[j]? with
    | none => exact ⟨rfl, h⟩
    | some n =>
      dsimp only
      by_cases hz : n - 1 = 0
      · rw [if_pos hz, if_pos hz]
        exact h.sim_step (same_scratch x _ _ _ _ _) (same_scratch x' _ _ _ _ _) h.isRequired rfl
          h.isReady (fun _ => rfl) ⟨[], by simp, by simp⟩
      · rw [if_neg hz, if_neg hz]
        exact h.sim_step (same_scratch x _ _ _ _ _) (same_scratch x' _ _ _ _ _) h.isRequired rfl
          h.isReady (fun _ => rfl) ⟨[], by simp, by simp⟩

theorem seedReady_sim {l l' : List Event} (x x' : FactorGraph) (i : Nat)
    (h : Sim True True l l' x x') :
    SimRun (Sim True True l l') (seedReady x i) (seedReady x' i) := by
  unfold seedReady
  rw [h.isReady trivial, h.same.var_list]
  by_cases hr : x.isReady[i]? = some true
  · rw [if_pos hr, if_pos hr]
    cases x.var_list[i]? with
    | none => exact ⟨rfl, h⟩
    | some v =>
      dsimp only
      rw [(h.touchVar v.name).same.consumers_eq]
      exact foldlM_sim decrPending _ decrPending_sim _ _ _ (h.touchVar v.name)
  · rw [if_neg hr, if_neg hr]
    exact h

theorem anyRequired_sim {x x' : FactorGraph} (hv : x'.var_dict = x.var_dict)
    (hr : x'.isRequired = x.isRequired) (ps : VarList) :
    anyRequired x' ps = anyRequired x ps := by
  induction ps with
  | nil => rfl
  | cons p ps ih =>
    unfold anyRequired
    have : VarIdx x' p.name = VarIdx x p.name := by unfold VarIdx; rw [hv]
    rw [this, hr, ih]

theorem readyOutput_sim {l l' : List Event} (x x' : FactorGraph) (p : VarPtr)
    (h : Sim True True l l' x x') :
    SimRun (Sim True True l l') (readyOutput x p) (readyOutput x' p) := by
  unfold readyOutput
  rw [h.same.varIdx_eq, h.isReady trivial]
  cases VarIdx x p.name with
  | error e => exact ⟨rfl, h⟩
  | ok i =>
    dsimp only
    by_cases hlt : i < x.isReady.length
    · rw [if_pos hlt, if_pos hlt]
      have h1 : Sim True True l l' { x with isReady := x.isReady.set i true }
          { x' with isReady := x.isReady.set i true } :=
        h.sim_step (same_scratch x _ _ _ _ _) (same_scratch x' _ _ _ _ _) h.isRequired h.q
          (fun _ => rfl) h.n_pending ⟨[], by simp, by simp⟩
      rw [(h1.touchVar p.name).same.consumers_eq]
      exact foldlM_sim decrPending _ decrPending_sim _ _ _ (h1.touchVar p.name)
    · rw [if_neg hlt, if_neg hlt]
      exact ⟨rfl, h⟩

theorem forwardOne_sim {l l' : List Event} (x x' : FactorGraph) (cur : String)
    (h : Sim True True l l' x x') :
    SimRun (Sim True True l l') (forwardOne x cur) (forwardOne x' cur) := by
  unfold forwardOne
  rw [h.same.factor_dict]
  cases x.factor_dict.lookup cur with
  | none => exact ⟨rfl, h⟩
  | some e =>
    dsimp only
    have h1 := h.touchFac cur
    rw [h1.same.outputs_eq, h1.same.operands_eq,
      anyRequired_sim h1.same.var_dict h1.isRequired]
    cases anyRequired (x.touchFac cur) ((x.touchFac cur).outputs cur) with
    | error err => exact ⟨rfl, h1⟩
    | ok b =>
      cases b with
      | false => exact h1
      | true =>
        dsimp only
        have h2 : Sim True True l l'
            { x.touchFac cur with log := (x.touchFac cur).log ++
              [Event.forward e.2 ((x.touchFac cur).operands cur) ((x.touchFac cur).outputs cur)] }
            { x'.touchFac cur with log := (x'.touchFac cur).log ++
              [Event.forward e.2 ((x.touchFac cur).operands cur)
                ((x.touchFac cur).outputs cur)] } :=
          h1.sim_step (same_scratch _ _ _ _ _ _) (same_scratch _ _ _ _ _ _) h1.isRequired h1.q
            h1.isReady h1.n_pending ⟨_, rfl, rfl⟩
        have houts : ({ x'.touchFac cur with log := (x'.touchFac cur).log ++
              [Event.forward e.2 ((x.touchFac cur).operands cur)
                ((x.touchFac cur).outputs cur)] } : FactorGraph).outputs cur =
            ({ x.touchFac cur with log := (x.touchFac cur).log ++
              [Event.forward e.2 ((x.touchFac cur).operands cur)
                ((x.touchFac cur).outputs cur)] } : FactorGraph).outputs cur :=
          h2.same.outputs_eq cur
        rw [houts]
        exact foldlM_sim readyOutput _ readyOutput_sim _ _ _ h2

theorem forwardIter_sim {l l' : List Event} :
    ∀ (k : Nat) (x x' : FactorGraph), Sim True True l l' x x' →
      SimRun (Sim True True l l') (forwardIter k x) (forwardIter k x') := by
  intro k
  induction k with
  | zero => intro x x' h; exact h
  | succ k ih =>
    intro x x' h
    unfold forwardIter
    rw [h.q]
    cases hq : x.q with
    | nil => exact h
    | cons cur rest =>
      dsimp only
      have h1 := forwardOne_sim _ _ cur (h.sim_pop rest)
      rcases run_cases (forwardOne { x with q := rest } cur) with ⟨e, hf⟩ | ⟨x1, hf⟩
      · obtain ⟨e', hf', he⟩ := h1.of_error hf
        rw [hf, hf']; exact he
      · obtain ⟨x1', hf', hx⟩ := h1.of_ok hf
        rw [hf, hf']; exact ih x1 x1' hx

theorem forwardLoop_sim {l l' : List Event} (fuel : Nat) (x x' : FactorGraph)
    (h : Sim True True l l' x x') :
    SimRun (Sim True True l l') (forwardLoop fuel x) (forwardLoop fuel x') := by
  have h1 := forwardIter_sim fuel x x' h
  unfold forwardLoop
  rcases run_cases (forwardIter fuel x) with ⟨e, hf⟩ | ⟨x1, hf⟩
  · obtain ⟨e', hf', he⟩ := h1.of_error hf
    rw [hf, hf']; exact he
  · obtain ⟨x1', hf', hx⟩ := h1.of_ok hf
    rw [hf, hf']
    dsimp only
    rw [hx.q]
    cases x1.q with
    | nil => exact hx
    | cons _ _ => exact ⟨rfl, hx⟩

theorem SequentialForward_sim {np : Prop} {l l' : List Event} (x x' : FactorGraph)
    (h : Sim True np l l' x x') :
    SimRun (Sim True True l l') (SequentialForward x) (SequentialForward x') := by
  have hq : Sim True np l l' { x with q := [] } { x' with q := [] } := h.sim_pop []
  have h0 : Sim True True l l' (initPendingForward { x with q := [] })
      (initPendingForward { x' with q := [] }) := by
    refine h.sim_step (initPendingForward_fwdInv x).same (initPendingForward_fwdInv x').same
      h.isRequired rfl h.isReady (fun _ => ?_) ⟨[], by simp [initPendingForward],
        by simp [initPendingForward]⟩
    show List.map (fun f => (((x'.operands f.name).length : Nat) : Int)) x'.factor_list =
      List.map (fun f => (((x.operands f.name).length : Nat) : Int)) x.factor_list
    rw [h.same.factor_list]
    apply List.map_congr_left
    intro f _
    rw [h.same.operands_eq]
  have h1 : SimRun (Sim True True l l') (forwardSeed x) (forwardSeed x') := by
    unfold forwardSeed
    dsimp only
    have hlen : (initPendingForward { x' with q := [] }).isReady.length =
        (initPendingForward { x with q := [] }).isReady.length := by
      rw [h0.isReady trivial]
    rw [hlen]
    exact foldlM_sim seedReady _ seedReady_sim _ _ _ h0
  unfold SequentialForward
  rcases run_cases (forwardSeed x) with ⟨e, hf⟩ | ⟨x1, hf⟩
  · obtain ⟨e', hf', he⟩ := h1.of_error hf
    rw [hf, hf']; exact he
  · obtain ⟨x1', hf', hx⟩ := h1.of_ok hf
    rw [hf, hf']
    dsimp only
    rw [hx.same.factor_list]
    exact forwardLoop_sim _ x1 x1' hx

theorem checkReady_sim {x x' : FactorGraph} (hv : x'.var_dict = x.var_dict)
    (hr : x'.isReady = x.isReady) (ps : List VarPtr) : checkReady x' ps = checkReady x ps := by
  induction ps with
  | nil => rfl
  | cons p ps ih =>
    unfold checkReady
    have : VarIdx x' p.name = VarIdx x p.name := by unfold VarIdx; rw [hv]
    rw [this, hr, ih]

theorem prepareForward_sim {rd np : Prop} (g g' : FactorGraph) (targets : List VarPtr)
    (feed_dict : Dict RawData) (hs : SameRegistry g g')
    (hrd : rd → ∃ gD, DependencyParse g targets = .ok gD)
    (hnp : np → g'.n_pending = g.n_pending) :
    SimRun (Sim rd np g.log g'.log)
      (prepareForward g targets feed_dict) (prepareForward g' targets feed_dict) := by
  have hD : SimRun (Sim False np g.log g'.log) (DependencyParse g targets)
      (DependencyParse g' targets) :=
    DependencyParse_sim g g' targets hs (fun h => h.elim) hnp
  unfold prepareForward
  rcases run_cases (DependencyParse g targets) with ⟨e, hf⟩ | ⟨gD, hf⟩
  · obtain ⟨e', hf', he, hsim⟩ := hD.of_error hf
    rw [hf, hf']
    refine ⟨he, hsim.weaken ?_ (fun h => h)⟩
    intro r
    obtain ⟨gD, hgD⟩ := hrd r
    rw [hf] at hgD
    cases hgD
  · obtain ⟨gD', hf', hsim⟩ := hD.of_ok hf
    rw [hf, hf']
    dsimp only
    have h2 : Sim True np g.log g'.log
        { gD with isReady := List.replicate gD.var_dict.size false }
        { gD' with isReady := List.replicate gD'.var_dict.size false } :=
      hsim.sim_step (same_scratch _ _ _ _ _ _) (same_scratch _ _ _ _ _ _) hsim.isRequired hsim.q
        (fun _ => by
          show List.replicate _ _ = List.replicate _ _
          rw [hsim.same.var_dict])
        hsim.n_pending ⟨[], by simp, by simp⟩
    have h3 := foldlM_sim setPreReady _ setPreReady_sim gD.ready_dict _ _ h2
    have hrdy : List.foldlM setPreReady
        { gD' with isReady := List.replicate gD'.var_dict.size false } gD'.ready_dict =
        List.foldlM setPreReady
          { gD' with isReady := List.replicate gD'.var_dict.size false } gD.ready_dict :=
      congrArg (fun l => List.foldlM setPreReady
        { gD' with isReady := List.replicate gD'.var_dict.size false } l) hsim.same.ready_dict
    rw [hrdy]
    rcases run_cases (List.foldlM setPreReady
      { gD with isReady := List.replicate gD.var_dict.size false } gD.ready_dict) with
      ⟨e, hp⟩ | ⟨g3, hp⟩
    · obtain ⟨e', hp', he⟩ := h3.of_error hp
      rw [hp, hp']
      exact ⟨he.1, he.2.weaken (fun _ => trivial) (fun h => h)⟩
    · obtain ⟨g3', hp', hx⟩ := h3.of_ok hp
      rw [hp, hp']
      exact (foldlM_sim setFed _ setFed_sim feed_dict _ _ hx).sim_mono
        (fun _ _ h => h.weaken (fun _ => trivial) (fun h => h))

theorem prepareForward_ok_parse {g g1 : FactorGraph} {targets : List VarPtr}
    {feed_dict : Dict RawData} (hf : prepareForward g targets feed_dict = .ok g1) :
    ∃ gD, DependencyParse g targets = .ok gD := by
  rcases run_cases (DependencyParse g targets) with ⟨e, hD⟩ | ⟨gD, hD⟩
  · unfold prepareForward at hf
    rw [hD] at hf
    cases hf
  · exact ⟨gD, hD⟩

theorem FeedForward_sim_aux {rd np : Prop} (g g' : FactorGraph) (targets : List VarPtr)
    (feed_dict : Dict RawData) (n_thread : Nat) (hs : SameRegistry g g')
    (hrd : rd → ∃ gD, DependencyParse g targets = .ok gD)
    (hnp : np → n_thread = 1 ∧ ∃ g1, prepareForward g targets feed_dict = .ok g1) :
    failure (FeedForward g' targets feed_dict n_thread) =
      failure (FeedForward g targets feed_dict n_thread) ∧
    returned (FeedForward g' targets feed_dict n_thread) =
      returned (FeedForward g targets feed_dict n_thread) ∧
    Sim rd np g.log g'.log
      (finalState2 (FeedForward g targets feed_dict n_thread))
      (finalState2 (FeedForward g' targets feed_dict n_thread)) := by
  have hP : SimRun (Sim rd False g.log g'.log)
      (prepareForward g targets feed_dict) (prepareForward g' targets feed_dict) :=
    prepareForward_sim g g' targets feed_dict hs hrd (fun h => h.elim)
  unfold FeedForward
  rcases run_cases (prepareForward g targets feed_dict) with ⟨e, hf⟩ | ⟨g1, hf⟩
  · obtain ⟨e', hf', he, hsim⟩ := hP.of_error hf
    rw [hf, hf']
    refine ⟨congrArg some he.symm, rfl, hsim.weaken (fun h => h) ?_⟩
    intro r
    obtain ⟨_, g1, hg1⟩ := hnp r
    rw [hf] at hg1
    cases hg1
  · obtain ⟨g1', hf', hsim⟩ := hP.of_ok hf
    have hP1 : SimRun (Sim True False g.log g'.log)
        (prepareForward g targets feed_dict) (prepareForward g' targets feed_dict) :=
      prepareForward_sim g g' targets feed_dict hs (fun _ => prepareForward_ok_parse hf)
        (fun h => h.elim)
    obtain ⟨g1'', hf'', hsim1⟩ := hP1.of_ok hf
    have : g1'' = g1' := by
      rw [hf'] at hf''
      injection hf'' with h
      exact h.symm
    subst this
    rw [hf, hf']
    dsimp only
    by_cases hn : n_thread = 1
    · rw [if_pos hn, if_pos hn]
      have hS := SequentialForward_sim g1 g1'' hsim1
      rcases run_cases (SequentialForward g1) with ⟨e, hq⟩ | ⟨g2, hq⟩
      · obtain ⟨e', hq', he, hsim2⟩ := hS.of_error hq
        rw [hq, hq']
        exact ⟨congrArg some he.symm, rfl, hsim2.weaken (fun _ => trivial) (fun _ => trivial)⟩
      · obtain ⟨g2', hq', hsim2⟩ := hS.of_ok hq
        rw [hq, hq']
        dsimp only
        rw [checkReady_sim hsim2.same.var_dict (hsim2.isReady trivial) targets]
        cases checkReady g2 targets with
        | error e =>
          exact ⟨rfl, rfl, hsim2.weaken (fun _ => trivial) (fun _ => trivial)⟩
        | ok u =>
          exact ⟨rfl, rfl, hsim2.weaken (fun _ => trivial) (fun _ => trivial)⟩
    · rw [if_neg hn, if_neg hn]
      exact ⟨rfl, rfl, hsim1.weaken (fun _ => trivial) (fun h => absurd (hnp h).1 hn)⟩

theorem FeedForward_sim (g g' : FactorGraph) (targets : List VarPtr)
    (feed_dict : Dict RawData) (n_thread : Nat) (hs : SameRegistry g g') :
    failure (FeedForward g' targets feed_dict n_thread) =
      failure (FeedForward g targets feed_dict n_thread) ∧
    returned (FeedForward g' targets feed_dict n_thread) =
      returned (FeedForward g targets feed_dict n_thread) ∧
    Sim (∃ gD, DependencyParse g targets = .ok gD)
      (n_thread = 1 ∧ ∃ g1, prepareForward g targets feed_dict = .ok g1) g.log g'.log
      (finalState2 (FeedForward g targets feed_dict n_thread))
      (finalState2 (FeedForward g' targets feed_dict n_thread)) :=
  FeedForward_sim_aux g g' targets feed_dict n_thread hs (fun h => h) (fun h => h)

theorem Sim.newLog_eq {rd np : Prop} {g g' x x' : FactorGraph}
    (h : Sim rd np g.log g'.log x x') : newLog g' x' = newLog g x := by
  obtain ⟨evs, h1, h2⟩ := h.log
  unfold newLog
  rw [h1, h2, List.drop_left, List.drop_left]

theorem FeedForward_parse_failed {g : FactorGraph} {targets : List VarPtr}
    (feed_dict : Dict RawData) (n_thread : Nat)
    (h : ¬ ∃ gD, DependencyParse g targets = .ok gD) :
    (finalState2 (FeedForward g targets feed_dict n_thread)).isReady = g.isReady := by
  have hfr := DependencyParse_frame g targets
  rcases run_cases (DependencyParse g targets) with ⟨e, hD⟩ | ⟨gD, hD⟩
  · have hff : FeedForward g targets feed_dict n_thread = .error e := by
      unfold FeedForward
      rw [(prepareForward_final g targets feed_dict).1 e hD]
    rw [hff]
    rw [hD] at hfr
    exact hfr.isReady
  · exact absurd ⟨gD, hD⟩ h

/-- C13, as amended. Two `FeedForward` calls with the same targets, feeds and thread count,
made on the same registry in any two scratch states (ready, required and
pending arrays, queue, log), end alike: with the same error or the same
returned list, the same required array, the same sequence of calls to the
collaborators, the same ready array whenever the dependency analysis returned
(a lookup error of a target leaves the ready array it found), and the same
counters whenever the sequential pass was entered. In particular a second
call made right after the first ends like the first and leaves the required
and ready arrays of the first. -/
theorem FeedForward_idempotent (g g' : FactorGraph) (targets : List VarPtr)
    (feed_dict : Dict RawData) (n_thread : Nat) (hs : SameRegistry g g') :
    (failure (FeedForward g' targets feed_dict n_thread) =
        failure (FeedForward g targets feed_dict n_thread) ∧
      returned (FeedForward g' targets feed_dict n_thread) =
        returned (FeedForward g targets feed_dict n_thread) ∧
      (finalState2 (FeedForward g' targets feed_dict n_thread)).isRequired =
        (finalState2 (FeedForward g targets feed_dict n_thread)).isRequired ∧
      newLog g' (finalState2 (FeedForward g' targets feed_dict n_thread)) =
        newLog g (finalState2 (FeedForward g targets feed_dict n_thread)) ∧
      ((∃ gD, DependencyParse g targets = .ok gD) →
        (finalState2 (FeedForward g' targets feed_dict n_thread)).isReady =
          (finalState2 (FeedForward g targets feed_dict n_thread)).isReady) ∧
      (n_thread = 1 → (∃ g1, prepareForward g targets feed_dict = .ok g1) →
        (finalState2 (FeedForward g' targets feed_dict n_thread)).n_pending =
          (finalState2 (FeedForward g targets feed_dict n_thread)).n_pending)) ∧
    (failure (FeedForward (finalState2 (FeedForward g targets feed_dict n_thread))
          targets feed_dict n_thread) =
        failure (FeedForward g targets feed_dict n_thread) ∧
      returned (FeedForward (finalState2 (FeedForward g targets feed_dict n_thread))
          targets feed_dict n_thread) =
        returned (FeedForward g targets feed_dict n_thread) ∧
      (finalState2 (FeedForward (finalState2 (FeedForward g targets feed_dict n_thread))
          targets feed_dict n_thread)).isRequired =
        (finalState2 (FeedForward g targets feed_dict n_thread)).isRequired ∧
      (finalState2 (FeedForward (finalState2 (FeedForward g targets feed_dict n_thread))
          targets feed_dict n_thread)).isReady =
        (finalState2 (FeedForward g targets feed_dict n_thread)).isReady ∧
      newLog (finalState2 (FeedForward g targets feed_dict n_thread))
          (finalState2 (FeedForward (finalState2 (FeedForward g targets feed_dict n_thread))
            targets feed_dict n_thread)) =
        newLog g (finalState2 (FeedForward g targets feed_dict n_thread))) := by
  constructor
  · obtain ⟨h1, h2, h3⟩ := FeedForward_sim g g' targets feed_dict n_thread hs
    exact ⟨h1, h2, h3.isRequired, h3.newLog_eq, h3.isReady,
      fun hn hp => h3.n_pending ⟨hn, hp⟩⟩
  · have hs1 := (FeedForward_events g targets feed_dict n_thread).1
    obtain ⟨h1, h2, h3⟩ := FeedForward_sim g
      (finalState2 (FeedForward g targets feed_dict n_thread)) targets feed_dict n_thread hs1
    refine ⟨h1, h2, h3.isRequired, ?_, h3.newLog_eq⟩
    by_cases hD : ∃ gD, DependencyParse g targets = .ok gD
    · exact h3.isReady hD
    · have hD' : ¬ ∃ gD, DependencyParse
          (finalState2 (FeedForward g targets feed_dict n_thread)) targets = .ok gD := by
        rintro ⟨gD', hgD'⟩
        have hsim : SimRun (Sim False False g.log
            (finalState2 (FeedForward g targets feed_dict n_thread)).log)
            (DependencyParse g targets)
            (DependencyParse (finalState2 (FeedForward g targets feed_dict n_thread)) targets) :=
          DependencyParse_sim g _ targets hs1 (fun h => h.elim) (fun h => h.elim)
        rcases run_cases (DependencyParse g targets) with ⟨e, he⟩ | ⟨gD, hgD⟩
        · obtain ⟨e', he', _⟩ := hsim.of_error he
          rw [hgD'] at he'
          cases he'
        · exact hD ⟨gD, hgD⟩
      exact FeedForward_parse_failed feed_dict n_thread hD'

/-- The pruning scenario queried twice: the state the first query left has the
registry of the scenario, and the second query ends like the first. -/
theorem FeedForward_idempotent_witness :
    SameRegistry Example.pruning Example.afterForward ∧
    returned (FeedForward Example.afterForward [Example.d] [("a", 5)] 1) =
      returned (FeedForward Example.pruning [Example.d] [("a", 5)] 1) ∧
    (finalState2 (FeedForward Example.afterForward [Example.d] [("a", 5)] 1)).isReady =
      [true, true, false] :=
  ⟨(FeedForward_events Example.pruning [Example.d] [("a", 5)] 1).1,
   (FeedForward_idempotent Example.pruning Example.afterForward [Example.d] [("a", 5)] 1
      (FeedForward_events Example.pruning [Example.d] [("a", 5)] 1).1).1.2.1,
   by decide⟩

/-- C13 fails as stated for a query that fails with a lookup error of a target.
The pruning scenario is left by `Forward({d}, {a: 5})` in one scratch state and
by `Forward({d, e}, {a: 5})` in another. In both the query with the target `z`,
which is not registered, fails with the lookup error before the ready array
is reset: each call leaves the ready array it found, and the two differ. -/
theorem FeedForward_failed_lookup_keeps_ready :
    SameRegistry Example.pruning Example.afterForward ∧
    SameRegistry Example.pruning Example.afterForwardBoth ∧
    failure (FeedForward Example.afterForward [Example.stranger] [("a", 5)] 1) =
      some (Err.varNotRegistered "z") ∧
    failure (FeedForward Example.afterForwardBoth [Example.stranger] [("a", 5)] 1) =
      some (Err.varNotRegistered "z") ∧
    (finalState2 (FeedForward Example.afterForward [Example.stranger] [("a", 5)] 1)).isReady =
      [true, true, false] ∧
    (finalState2 (FeedForward Example.afterForwardBoth [Example.stranger] [("a", 5)] 1)).isReady =
      [true, true, true] :=
  ⟨(FeedForward_events Example.pruning [Example.d] [("a", 5)] 1).1,
   (FeedForward_events Example.pruning [Example.d, Example.e] [("a", 5)] 1).1,
   by decide, by decide, by decide, by decide⟩

/-! ## The multiplication scenario -/

/-- C14. In the multiplication scenario `Forward({c}, {a: 2, b: 3}, 1)` binds
the two feeds, invokes the forward contract of `mul` once and returns `[c]`;
the following `Backward({c}, 1)` applies `ZeroGrad` to `a`, `b` and `c`,
`OnesGrad` to `c` and invokes the backward contract of `mul` once. Replayed
on any store, the calls of the forward query give `c = 6`, and those of both
queries give `grad(c) = 1`, `grad(a) = 3` and `grad(b) = 2`. -/
theorem multiplication_scenario (s : Store) :
    returned (FeedForward Example.product [Example.c] [("a", 2), ("b", 3)] 1) =
      some [Example.c] ∧
    newLog Example.product Example.productForward =
      [Event.setRef "a" 2, Event.setRef "b" 3,
       Event.forward Example.mul [Example.a, Example.b] [Example.c]] ∧
    (s.replay (newLog Example.product Example.productForward)).value "c" = 6 ∧
    failure (BackPropagate Example.productForward [Example.c] 1) = none ∧
    newLog Example.productForward
        (finalState (BackPropagate Example.productForward [Example.c] 1)) =
      [Event.zeroGrad Example.a, Event.zeroGrad Example.b, Event.zeroGrad Example.c,
       Event.onesGrad Example.c, Event.print "mul",
       Event.backward Example.mul [Example.a, Example.b] [Example.c]] ∧
    ((s.replay (newLog Example.product Example.productForward)).replay
      (newLog Example.productForward
        (finalState (BackPropagate Example.productForward [Example.c] 1)))).grad "c" = 1 ∧
    ((s.replay (newLog Example.product Example.productForward)).replay
      (newLog Example.productForward
        (finalState (BackPropagate Example.productForward [Example.c] 1)))).grad "a" = 3 ∧
    ((s.replay (newLog Example.product Example.productForward)).replay
      (newLog Example.productForward
        (finalState (BackPropagate Example.productForward [Example.c] 1)))).grad "b" = 2 := by
  have h1 : newLog Example.product Example.productForward =
      [Event.setRef "a" 2, Event.setRef "b" 3,
       Event.forward Example.mul [Example.a, Example.b] [Example.c]] := by decide
  have h2 : newLog Example.productForward
        (finalState (BackPropagate Example.productForward [Example.c] 1)) =
      [Event.zeroGrad Example.a, Event.zeroGrad Example.b, Event.zeroGrad Example.c,
       Event.onesGrad Example.c, Event.print "mul",
       Event.backward Example.mul [Example.a, Example.b] [Example.c]] := by decide
  rw [h1, h2]
  refine ⟨by decide, rfl, ?_, by decide, rfl, ?_, ?_, ?_⟩ <;>
    simp [Store.replay, Store.call, Store.setValue, Store.setGrad, Example.a, Example.b,
      Example.c]

/-! ## The calls of the backward pass -/

theorem dequeued_append (l l' : List Event) :
    dequeued (l ++ l') = dequeued l ++ dequeued l' := by
  induction l with
  | nil => rfl
  | cons ev l ih => cases ev <;> simp [dequeued, ih]

theorem Quiet.scratch {g : FactorGraph} {lg : List Event} {x : FactorGraph}
    (h : Quiet g lg x) (r rq : List Bool) (np : List Int) (q : List String) :
    Quiet g lg { x with isReady := r, isRequired := rq, n_pending := np, q := q } :=
  ⟨h.1.trans (same_scratch x _ _ _ _ _), h.2⟩

theorem Quiet.quiet_touchVar {g : FactorGraph} {lg : List Event} {x : FactorGraph}
    (h : Quiet g lg x) (n : String) : Quiet g lg (x.touchVar n) :=
  ⟨h.1.trans (SameRegistry.of_touchVar x n), h.2⟩

theorem Quiet.quiet_touchFac {g : FactorGraph} {lg : List Event} {x : FactorGraph}
    (h : Quiet g lg x) (n : String) : Quiet g lg (x.touchFac n) :=
  ⟨h.1.trans (SameRegistry.of_touchFac x n), h.2⟩

theorem decrPending_quiet (g : FactorGraph) (lg : List Event) (x : FactorGraph) (f : Factor)
    (h : Quiet g lg x) : Outcome (Quiet g lg) (fun _ => True) (decrPending x f) := by
  unfold decrPending
  cases FacIdx x f.name with
  | error e => exact ⟨h, trivial⟩
  | ok j =>
    dsimp only
    cases x.n_pending[j]? with
    | none => exact ⟨h, trivial⟩
    | some n =>
      dsimp only
      split
      · exact h.scratch _ _ _ _
      · exact h.scratch _ _ _ _

theorem decrPendings_quiet (g : FactorGraph) (lg : List Event) (x : FactorGraph)
    (fs : FactorList) (h : Quiet g lg x) :
    Outcome (Quiet g lg) (fun _ => True) (fs.foldlM decrPending x) :=
  foldlM_outcome decrPending (Quiet g lg) (fun _ => True) (fun _ => True)
    (fun y f hy _ => decrPending_quiet g lg y f hy) fs x h (fun _ _ => trivial)

theorem countOutput_quiet (g : FactorGraph) (lg : List Event) (x : FactorGraph) (i : Nat)
    (p : VarPtr) (h : Quiet g lg x) :
    Outcome (Quiet g lg) (fun _ => True) (countOutput i x p) := by
  unfold countOutput
  cases VarIdx x p.name with
  | error e => exact ⟨h, trivial⟩
  | ok k =>
    dsimp only
    cases x.isRequired[k]? with
    | none => exact ⟨h, trivial⟩
    | some b =>
      cases b with
      | false => exact h
      | true =>
        dsimp only
        cases x.n_pending[i]? with
        | none => exact ⟨h, trivial⟩
        | some n => exact h.scratch _ _ _ _

theorem initPendingBackward_quiet (g : FactorGraph) (lg : List Event) (x : FactorGraph)
    (i : Nat) (h : Quiet g lg x) :
    Outcome (Quiet g lg) (fun _ => True) (initPendingBackward x i) := by
  unfold initPendingBackward
  cases x.factor_list[i]? with
  | none => exact ⟨h, trivial⟩
  | some f =>
    dsimp only
    split
    · exact foldlM_outcome (countOutput i) (Quiet g lg) (fun _ => True) (fun _ => True)
        (fun y p hy _ => countOutput_quiet g lg y i p hy) _ _
        ((h.quiet_touchFac f.name).scratch _ _ _ _) (fun _ _ => trivial)
    · exact ⟨h.quiet_touchFac f.name, trivial⟩

theorem backwardSeed_quiet (g : FactorGraph) (targets : List VarPtr) :
    Outcome (Quiet g g.log) (fun _ => True) (backwardSeed g targets) := by
  unfold backwardSeed
  have h0 := foldlM_outcome initPendingBackward (Quiet g g.log) (fun _ => True)
    (fun _ => True) (fun y i hy _ => initPendingBackward_quiet g g.log y i hy)
    (List.range g.factor_list.length) g ⟨SameRegistry.refl g, rfl⟩ (fun _ _ => trivial)
  rcases run_cases (List.foldlM initPendingBackward g (List.range g.factor_list.length))
    with ⟨e, hf⟩ | ⟨g1, hf⟩
  · rw [hf] at h0 ⊢; exact h0
  · rw [hf] at h0 ⊢
    exact foldlM_outcome seedTarget (Quiet g g.log) (fun _ => True) (fun _ => True)
      (fun y p hy _ => by
        unfold seedTarget
        exact decrPendings_quiet g g.log _ _ (hy.quiet_touchVar p.name)) _ _
      (h0.scratch _ _ _ _) (fun _ _ => trivial)

theorem backNecessary_iff (f : Factor) (ops : VarList) :
    backNecessary f ops = true ↔ f.properr = PropErr.T ∧ ∃ p ∈ ops, p.isConst = false := by
  constructor
  · exact backNecessary_operand
  · rintro ⟨h1, p, hp, hc⟩
    unfold backNecessary
    rw [Bool.and_eq_true]
    exact ⟨by simpa using h1, List.any_eq_true.mpr ⟨p, hp, by simpa using hc⟩⟩

theorem BackLog.of_quiet {g x y : FactorGraph} (h : BackLog g x) (hy : Quiet x x.log y) :
    BackLog g y := by
  obtain ⟨h1, h2, h3⟩ := h
  refine ⟨h1.trans hy.1, by rw [hy.2]; exact h2, ?_⟩
  have : newLog g y = newLog g x := by unfold newLog; rw [hy.2]
  rw [this]; exact h3

theorem BackLog.append_line {g x : FactorGraph} (h : BackLog g x) (cur : String) (evs : List Event)
    (hevs : Event.print cur :: evs = expectedBackward g cur)
    (hd : dequeued evs = []) :
    BackLog g { x with log := x.log ++ Event.print cur :: evs } := by
  obtain ⟨h1, h2, h3⟩ := h
  refine ⟨h1.trans (same_scratch x _ _ _ _ _), h2.trans (List.prefix_append _ _), ?_⟩
  have hnew : newLog g { x with log := x.log ++ Event.print cur :: evs } =
      newLog g x ++ Event.print cur :: evs := (newLog_append g x h2 _).symm
  rw [hnew, dequeued_append]
  have hdq : dequeued (Event.print cur :: evs) = [cur] := by
    show cur :: dequeued evs = [cur]
    rw [hd]
  rw [hdq, List.flatMap_append, ← h3]
  simp [List.flatMap, hevs]

theorem backOperands_quiet (g : FactorGraph) (ps : VarList) :
    Outcome (Quiet g g.log) (fun _ => True) (ps.foldlM backOperand g) :=
  foldlM_outcome backOperand (Quiet g g.log) (fun _ => True) (fun _ => True)
    (fun y p hy _ => by
      unfold backOperand
      exact decrPendings_quiet g g.log _ _ (hy.quiet_touchVar p.name)) ps g
    ⟨SameRegistry.refl g, rfl⟩ (fun _ _ => trivial)

theorem backwardOne_backlog (g x : FactorGraph) (cur : String) (h : BackLog g x) :
    Outcome (BackLog g) (fun _ => True) (backwardOne x cur) := by
  have hlk : x.factor_dict.lookup cur = g.factor_dict.lookup cur := by rw [h.1.factor_dict]
  unfold backwardOne
  dsimp only
  cases he : x.factor_dict.lookup cur with
  | none =>
    refine ⟨?_, trivial⟩
    have hexp : Event.print cur :: [] = expectedBackward g cur := by
      unfold expectedBackward
      rw [← hlk, he]
    exact h.append_line cur [] hexp rfl
  | some e =>
    dsimp only
    have hops : ({ x with log := x.log ++ [Event.print cur] }.touchFac cur).operands cur =
        g.operands cur :=
      ((h.1.trans (same_scratch x _ _ _ _ _)).trans (SameRegistry.of_touchFac _ cur)).operands_eq
        cur
    have houts : ({ x with log := x.log ++ [Event.print cur] }.touchFac cur).outputs cur =
        g.outputs cur :=
      ((h.1.trans (same_scratch x _ _ _ _ _)).trans (SameRegistry.of_touchFac _ cur)).outputs_eq
        cur
    rw [hops, houts]
    by_cases hn : backNecessary e.2 (g.operands cur) = true
    · rw [if_pos hn]
      have hexp : Event.print cur :: [Event.backward e.2 (g.operands cur) (g.outputs cur)] =
          expectedBackward g cur := by
        unfold expectedBackward
        rw [← hlk, he]
        dsimp only
        rw [if_pos ((backNecessary_iff _ _).mp hn)]
      have hY := h.append_line cur [Event.backward e.2 (g.operands cur) (g.outputs cur)] hexp rfl
      generalize Event.backward e.2 (g.operands cur) (g.outputs cur) = ev at hY ⊢
      have hq : Quiet { x with log := x.log ++ Event.print cur :: [ev] } (x.log ++ Event.print cur :: [ev]) { { x with log := x.log ++ [Event.print cur] }.touchFac cur with log := ({ x with log := x.log ++ [Event.print cur] }.touchFac cur).log ++ [ev] } :=
        ⟨⟨rfl, rfl, rfl, rfl, rfl, fun _ => rfl, fun k => Dict.get_touch x.factorEdges cur k⟩,
          by simp [FactorGraph.touchFac]⟩
      have hB := hY.of_quiet hq
      exact (backOperands_quiet _ _).mono (fun y hy => hB.of_quiet hy)
        (fun _ h' => h')
    · rw [if_neg hn]
      have hexp : Event.print cur :: [] = expectedBackward g cur := by
        unfold expectedBackward
        rw [← hlk, he]
        dsimp only
        rw [if_neg (fun hc => hn ((backNecessary_iff _ _).mpr hc))]
      have hY := h.append_line cur [] hexp rfl
      have hq : Quiet { x with log := x.log ++ Event.print cur :: [] } (x.log ++ Event.print cur :: []) ({ x with log := x.log ++ [Event.print cur] }.touchFac cur) :=
        ⟨⟨rfl, rfl, rfl, rfl, rfl, fun _ => rfl, fun k => Dict.get_touch x.factorEdges cur k⟩,
          rfl⟩
      have hB := hY.of_quiet hq
      exact (backOperands_quiet _ _).mono (fun y hy => hB.of_quiet hy)
        (fun _ h' => h')

/-- The calls of the backward pass when the dequeued names are read back
(`backwardOne`). The log of the sequential backward pass, returned or failed,
is the concatenation, over the names it dequeued, in order, of the line
printed for the name and of one `Backward` call of the operation registered
under it, with its registered operand and output lists, made if and only if
the policy of the operation is `PropErr::T` and one of its operands is not
constant. `backward_call_missing_after_pop` shows a dequeued name without its
call when the name is not read back. -/
theorem backward_necessity (g : FactorGraph) (targets : List VarPtr) :
    newLog g (finalState (SequentialBackward g targets)) =
      (dequeued (newLog g (finalState (SequentialBackward g targets)))).flatMap
        (expectedBackward g) := by
  have h0 : BackLog g g :=
    ⟨SameRegistry.refl g, List.prefix_refl _, by rw [newLog_self]; rfl⟩
  have hpop : ∀ (x : FactorGraph) (rest : List String), BackLog g x →
      BackLog g { x with q := rest } :=
    fun x rest hx => hx.of_quiet ⟨same_scratch x _ _ _ _ _, rfl⟩
  have h1 : Outcome (BackLog g) (fun _ => True) (backwardSeed g targets) :=
    (backwardSeed_quiet g targets).mono (fun y hy => h0.of_quiet hy) (fun _ h' => h')
  have h2 : Outcome (BackLog g) (fun _ => True) (SequentialBackward g targets) := by
    unfold SequentialBackward
    rcases run_cases (backwardSeed g targets) with ⟨e, hf⟩ | ⟨g1, hf⟩
    · rw [hf] at h1 ⊢; exact h1
    · rw [hf] at h1 ⊢
      exact backwardLoop_outcome (BackLog g) (fun _ => True) trivial hpop
        (fun x cur hx => backwardOne_backlog g x cur hx) _ g1 h1
  exact h2.state.2.2

/-! ## The backward traversal does not read policies or constancy -/

theorem Shape.keep {l l' : List Event} {x x' y y' : FactorGraph} (h : Shape l l' x x')
    (hy : SameRegistry x y) (hy' : SameRegistry x' y')
    (hreq : y'.isRequired = y.isRequired) (hnp : y'.n_pending = y.n_pending)
    (hq : y'.q = y.q)
    (hlog : ∃ e e', y.log = x.log ++ e ∧ y'.log = x'.log ++ e' ∧ dequeued e = dequeued e') :
    Shape l l' y y' := by
  obtain ⟨hs, evs, evs', h1, h2, h3⟩ := h
  obtain ⟨e, e', h4, h5, h6⟩ := hlog
  refine ⟨⟨?_, ?_, ?_, ?_, ?_, ?_, hreq, hnp, hq⟩, evs ++ e, evs' ++ e', ?_, ?_, ?_⟩
  · intro n; rw [hy'.varIdx_eq, hy.varIdx_eq]; exact hs.varIdx n
  · intro n; rw [hy'.facIdx_eq, hy.facIdx_eq]; exact hs.facIdx n
  · rw [hy'.factor_list, hy.factor_list]; exact hs.factor_list
  · intro n; rw [hy'.producers_eq, hy.producers_eq]; exact hs.producers n
  · intro n; rw [hy'.operands_eq, hy.operands_eq]; exact hs.operands n
  · intro n; rw [hy'.outputs_eq, hy.outputs_eq]; exact hs.outputs n
  · rw [h4, h1, List.append_assoc]
  · rw [h5, h2, List.append_assoc]
  · rw [dequeued_append, dequeued_append, h3, h6]

theorem foldlM_names {α : Type} (key : α → String) (f : FactorGraph → α → Run FactorGraph)
    (R : FactorGraph → FactorGraph → Prop)
    (hf : ∀ x x' a a', R x x' → key a' = key a → SimRun R (f x a) (f x' a')) :
    ∀ (l l' : List α) (x x' : FactorGraph), l'.map key = l.map key → R x x' →
      SimRun R (l.foldlM f x) (l'.foldlM f x') := by
  intro l
  induction l with
  | nil =>
    intro l' x x' hl h
    cases l' with
    | nil => exact h
    | cons a' l' => cases hl
  | cons a l ih =>
    intro l' x x' hl h
    cases l' with
    | nil => cases hl
    | cons a' l' =>
      rw [List.map_cons, List.map_cons] at hl
      injection hl with hk hl
      have h1 := hf x x' a a' h hk
      rw [List.foldlM_cons, List.foldlM_cons]
      rcases run_cases (f x a) with ⟨e, hfa⟩ | ⟨x1, hfa⟩
      · obtain ⟨e', hfa', he⟩ := h1.of_error hfa
        rw [hfa, hfa']; exact he
      · obtain ⟨x1', hfa', hx⟩ := h1.of_ok hfa
        rw [hfa, hfa']; exact ih l' x1 x1' hl hx

theorem decrPending_names {l l' : List Event} (x x' : FactorGraph) (f f' : Factor)
    (h : Shape l l' x x') (hn : f'.name = f.name) :
    SimRun (Shape l l') (decrPending x f) (decrPending x' f') := by
  unfold decrPending
  rw [hn, h.1.facIdx, h.1.n_pending, h.1.q]
  cases FacIdx x f.name with
  | error e => exact ⟨rfl, h⟩
  | ok j =>
    dsimp only
    cases x.n_pending[j]? with
    | none => exact ⟨rfl, h⟩
    | some n =>
      dsimp only
      by_cases hz : n - 1 = 0
      · rw [if_pos hz, if_pos hz]
        exact h.keep (same_scratch x _ _ _ _ _) (same_scratch x' _ _ _ _ _) h.1.isRequired rfl
          rfl ⟨[], [], by simp, by simp, rfl⟩
      · rw [if_neg hz, if_neg hz]
        exact h.keep (same_scratch x _ _ _ _ _) (same_scratch x' _ _ _ _ _) h.1.isRequired rfl
          rfl ⟨[], [], by simp, by simp, rfl⟩

theorem Shape.shape_touchVar {l l' : List Event} {x x' : FactorGraph} (h : Shape l l' x x')
    (n n' : String) : Shape l l' (x.touchVar n) (x'.touchVar n') :=
  h.keep (SameRegistry.of_touchVar x n) (SameRegistry.of_touchVar x' n') h.1.isRequired
    h.1.n_pending h.1.q ⟨[], [], by simp [FactorGraph.touchVar], by simp [FactorGraph.touchVar],
      rfl⟩

theorem Shape.shape_touchFac {l l' : List Event} {x x' : FactorGraph} (h : Shape l l' x x')
    (n n' : String) : Shape l l' (x.touchFac n) (x'.touchFac n') :=
  h.keep (SameRegistry.of_touchFac x n) (SameRegistry.of_touchFac x' n') h.1.isRequired
    h.1.n_pending h.1.q ⟨[], [], by simp [FactorGraph.touchFac], by simp [FactorGraph.touchFac],
      rfl⟩

theorem producers_names {l l' : List Event} (x x' : FactorGraph) (p p' : VarPtr)
    (h : Shape l l' x x') (hn : p'.name = p.name) :
    SimRun (Shape l l')
      (((x.touchVar p.name).producers p.name).foldlM decrPending (x.touchVar p.name))
      (((x'.touchVar p'.name).producers p'.name).foldlM decrPending (x'.touchVar p'.name)) := by
  have h1 := h.shape_touchVar p.name p'.name
  refine foldlM_names (fun f => f.name) decrPending _
    (fun y y' a a' hy ha => decrPending_names y y' a a' hy ha) _ _ _ _ ?_ h1
  exact (congrArg (fun n => List.map (fun f : Factor => f.name)
    ((x'.touchVar p'.name).producers n)) hn).trans (h1.1.producers p.name)

theorem seedTarget_names {l l' : List Event} (x x' : FactorGraph) (p p' : VarPtr)
    (h : Shape l l' x x') (hn : p'.name = p.name) :
    SimRun (Shape l l') (seedTarget x p) (seedTarget x' p') := by
  unfold seedTarget
  exact producers_names x x' p p' h hn

theorem backOperand_names {l l' : List Event} (x x' : FactorGraph) (p p' : VarPtr)
    (h : Shape l l' x x') (hn : p'.name = p.name) :
    SimRun (Shape l l') (backOperand x p) (backOperand x' p') := by
  unfold backOperand
  exact producers_names x x' p p' h hn

theorem countOutput_names {l l' : List Event} (i : Nat) (x x' : FactorGraph) (p p' : VarPtr)
    (h : Shape l l' x x') (hn : p'.name = p.name) :
    SimRun (Shape l l') (countOutput i x p) (countOutput i x' p') := by
  unfold countOutput
  rw [hn, h.1.varIdx, h.1.isRequired, h.1.n_pending]
  cases VarIdx x p.name with
  | error e => exact ⟨rfl, h⟩
  | ok k =>
    dsimp only
    cases x.isRequired[k]? with
    | none => exact ⟨rfl, h⟩
    | some b =>
      cases b with
      | false => exact h
      | true =>
        dsimp only
        cases x.n_pending[i]? with
        | none => exact ⟨rfl, h⟩
        | some n =>
          exact h.keep (same_scratch x _ _ _ _ _) (same_scratch x' _ _ _ _ _) rfl
            rfl h.1.q ⟨[], [], by simp, by simp, rfl⟩

theorem getElem?_names {α : Type} (key : α → String) {l l' : List α}
    (h : l'.map key = l.map key) (i : Nat) : (l'[i]?).map key = (l[i]?).map key := by
  rw [← List.getElem?_map, ← List.getElem?_map, h]

theorem initPendingBackward_names {l l' : List Event} (x x' : FactorGraph) (i : Nat)
    (h : Shape l l' x x') :
    SimRun (Shape l l') (initPendingBackward x i) (initPendingBackward x' i) := by
  have hi := getElem?_names (fun f : Factor => f.name) h.1.factor_list i
  unfold initPendingBackward
  cases hf : x.factor_list[i]? with
  | none =>
    rw [hf] at hi
    cases hf' : x'.factor_list[i]? with
    | none => exact ⟨rfl, h⟩
    | some f' => rw [hf'] at hi; cases hi
  | some f =>
    rw [hf] at hi
    cases hf' : x'.factor_list[i]? with
    | none => rw [hf'] at hi; cases hi
    | some f' =>
      rw [hf'] at hi
      have hn : f'.name = f.name := by injection hi
      dsimp only
      have h1 := h.shape_touchFac f.name f'.name
      have hlen : (x'.touchFac f'.name).n_pending.length = (x.touchFac f.name).n_pending.length :=
        congrArg List.length h.1.n_pending
      rw [hlen]
      by_cases hlt : i < (x.touchFac f.name).n_pending.length
      · rw [if_pos hlt, if_pos hlt]
        have h2 : Shape l l' { x.touchFac f.name with n_pending := (x.touchFac f.name).n_pending.set i 0 } { x'.touchFac f'.name with n_pending := (x'.touchFac f'.name).n_pending.set i 0 } :=
          h1.keep (same_scratch _ _ _ _ _ _) (same_scratch _ _ _ _ _ _) h1.1.isRequired
            (congrArg (fun np => List.set np i (0 : Int)) h.1.n_pending) h1.1.q
            ⟨[], [], by simp, by simp, rfl⟩
        refine foldlM_names (fun p : Variable => p.name) (countOutput i) _
          (fun y y' a a' hy ha => countOutput_names i y y' a a' hy ha) _ _ _ _ ?_ h2
        exact (congrArg (fun n => List.map (fun p : Variable => p.name)
          ((x'.touchFac f'.name).outputs n)) hn).trans (h1.1.outputs f.name)
      · rw [if_neg hlt, if_neg hlt]
        exact ⟨rfl, h1⟩

theorem lookup_isSome_of_facIdx {x x' : FactorGraph} (h : ∀ n, FacIdx x' n = FacIdx x n)
    (cur : String) : (x'.factor_dict.lookup cur).isSome = (x.factor_dict.lookup cur).isSome := by
  have := h cur
  unfold FacIdx at this
  cases h1 : x.factor_dict.lookup cur with
  | none =>
    cases h2 : x'.factor_dict.lookup cur with
    | none => rfl
    | some e' => rw [h1, h2] at this; cases this
  | some e =>
    cases h2 : x'.factor_dict.lookup cur with
    | none => rw [h1, h2] at this; cases this
    | some e' => rfl

theorem backOperands_names {l l' : List Event} (y y' : FactorGraph) (cur : String)
    (h : Shape l l' y y') :
    SimRun (Shape l l') ((y.operands cur).foldlM backOperand y)
      ((y'.operands cur).foldlM backOperand y') :=
  foldlM_names (fun p : Variable => p.name) backOperand _
    (fun z z' a a' hz ha => backOperand_names z z' a a' hz ha) _ _ _ _ (h.1.operands cur) h

theorem backwardOne_names {l l' : List Event} (x x' : FactorGraph) (cur : String)
    (h : Shape l l' x x') :
    SimRun (Shape l l') (backwardOne x cur) (backwardOne x' cur) := by
  have hk := lookup_isSome_of_facIdx h.1.facIdx cur
  have h0 : Shape l l' { x with log := x.log ++ [Event.print cur] } { x' with log := x'.log ++ [Event.print cur] } :=
    h.keep (same_scratch _ _ _ _ _ _) (same_scratch _ _ _ _ _ _) h.1.isRequired h.1.n_pending
      h.1.q ⟨[Event.print cur], [Event.print cur], rfl, rfl, rfl⟩
  unfold backwardOne
  dsimp only
  cases h1 : x.factor_dict.lookup cur with
  | none =>
    rw [h1] at hk
    cases h2 : x'.factor_dict.lookup cur with
    | none => exact ⟨rfl, h0⟩
    | some e' => rw [h2] at hk; cases hk
  | some e =>
    rw [h1] at hk
    cases h2 : x'.factor_dict.lookup cur with
    | none => rw [h2] at hk; cases hk
    | some e' =>
      dsimp only
      have hreg : ∀ (z : FactorGraph) (lg : List Event),
          SameRegistry z { z.touchFac cur with log := lg } :=
        fun z lg => ⟨rfl, rfl, rfl, rfl, rfl, fun _ => rfl,
          fun k => Dict.get_touch z.factorEdges cur k⟩
      have hreg0 : ∀ (z : FactorGraph) (lg : List Event),
          SameRegistry z ({ z with log := lg }.touchFac cur) :=
        fun z lg => ⟨rfl, rfl, rfl, rfl, rfl, fun _ => rfl,
          fun k => Dict.get_touch z.factorEdges cur k⟩
      split
      · split
        · exact backOperands_names _ _ cur
            (h.keep (hreg x _) (hreg x' _) h.1.isRequired h.1.n_pending h.1.q
              ⟨[Event.print cur, _], [Event.print cur, _], List.append_assoc _ _ _,
                List.append_assoc _ _ _, rfl⟩)
        · exact backOperands_names _ _ cur
            (h.keep (hreg x _) (hreg0 x' _) h.1.isRequired h.1.n_pending h.1.q
              ⟨[Event.print cur, _], [Event.print cur], List.append_assoc _ _ _, rfl, rfl⟩)
      · split
        · exact backOperands_names _ _ cur
            (h.keep (hreg0 x _) (hreg x' _) h.1.isRequired h.1.n_pending h.1.q
              ⟨[Event.print cur], [Event.print cur, _], rfl, List.append_assoc _ _ _, rfl⟩)
        · exact backOperands_names _ _ cur
            (h.keep (hreg0 x _) (hreg0 x' _) h.1.isRequired h.1.n_pending h.1.q
              ⟨[Event.print cur], [Event.print cur], rfl, rfl, rfl⟩)

theorem Shape.shape_pop {l l' : List Event} {x x' : FactorGraph} (h : Shape l l' x x')
    (rest : List String) : Shape l l' { x with q := rest } { x' with q := rest } :=
  h.keep (same_scratch _ _ _ _ _ _) (same_scratch _ _ _ _ _ _) h.1.isRequired h.1.n_pending rfl
    ⟨[], [], by simp, by simp, rfl⟩

theorem backwardIter_names {l l' : List Event} :
    ∀ (k : Nat) (x x' : FactorGraph), Shape l l' x x' →
      SimRun (Shape l l') (backwardIter k x) (backwardIter k x') := by
  intro k
  induction k with
  | zero => intro x x' h; exact h
  | succ k ih =>
    intro x x' h
    unfold backwardIter
    rw [h.1.q]
    cases hq : x.q with
    | nil => exact h
    | cons cur rest =>
      dsimp only
      have h1 := backwardOne_names _ _ cur (h.shape_pop rest)
      rcases run_cases (backwardOne { x with q := rest } cur) with ⟨e, hf⟩ | ⟨x1, hf⟩
      · obtain ⟨e', hf', he⟩ := h1.of_error hf
        rw [hf, hf']; exact he
      · obtain ⟨x1', hf', hx⟩ := h1.of_ok hf
        rw [hf, hf']; exact ih x1 x1' hx

theorem SequentialBackward_names {l l' : List Event} (x x' : FactorGraph)
    (targets : List VarPtr) (h : Shape l l' x x') :
    SimRun (Shape l l') (SequentialBackward x targets) (SequentialBackward x' targets) := by
  have hlen : x'.factor_list.length = x.factor_list.length := by
    have := congrArg List.length h.1.factor_list
    simpa using this
  have h1 : SimRun (Shape l l') (backwardSeed x targets) (backwardSeed x' targets) := by
    unfold backwardSeed
    rw [hlen]
    have h0 := foldlM_sim initPendingBackward _
      (fun y y' i hy => initPendingBackward_names y y' i hy)
      (List.range x.factor_list.length) x x' h
    rcases run_cases (List.foldlM initPendingBackward x (List.range x.factor_list.length))
      with ⟨e, hf⟩ | ⟨g1, hf⟩
    · obtain ⟨e', hf', he⟩ := h0.of_error hf
      rw [hf, hf']; exact he
    · obtain ⟨g1', hf', hx⟩ := h0.of_ok hf
      rw [hf, hf']
      exact foldlM_sim seedTarget _ (fun y y' p hy => seedTarget_names y y' p p hy rfl)
        targets _ _ (hx.shape_pop [])
  unfold SequentialBackward
  rcases run_cases (backwardSeed x targets) with ⟨e, hf⟩ | ⟨g1, hf⟩
  · obtain ⟨e', hf', he⟩ := h1.of_error hf
    rw [hf, hf']; exact he
  · obtain ⟨g1', hf', hx⟩ := h1.of_ok hf
    rw [hf, hf']
    dsimp only
    have hlen1 : g1'.factor_list.length = g1.factor_list.length := by
      have := congrArg List.length hx.1.factor_list
      simpa using this
    rw [hlen1]
    have h2 := backwardIter_names g1.factor_list.length g1 g1' hx
    unfold backwardLoop
    rcases run_cases (backwardIter g1.factor_list.length g1) with ⟨e, hq⟩ | ⟨g2, hq⟩
    · obtain ⟨e', hq', he⟩ := h2.of_error hq
      rw [hq, hq']; exact he
    · obtain ⟨g2', hq', hy⟩ := h2.of_ok hq
      rw [hq, hq']
      dsimp only
      rw [hy.1.q]
      cases g2.q with
      | nil => exact hy
      | cons _ _ => exact ⟨rfl, hy⟩

theorem SimRun.final {R : FactorGraph → FactorGraph → Prop} {r r' : Run FactorGraph}
    (h : SimRun R r r') : failure r' = failure r ∧ R (finalState r) (finalState r') := by
  cases r with
  | ok x =>
    cases r' with
    | ok x' => exact ⟨rfl, h⟩
    | error e' => exact absurd h (fun h' => h')
  | error e =>
    cases r' with
    | ok x' => exact absurd h (fun h' => h')
    | error e' => exact ⟨congrArg some h.1.symm, h.2⟩

/-- C16. Two states of the same shape (the same indices, the same names in the
dense list of operations and in the producer, operand and output lists, the
same required flags, counters and queue) may differ in the policies of the
operations and in the constancy of the value nodes. Seeded with the same
nodes, the sequential backward pass ends alike in both: with the same error,
if any, the same sequence of dequeued operations, the same counters and the
same queue. -/
theorem backward_traversal_independent (g g' : FactorGraph) (targets : List VarPtr)
    (h : SameShape g g') :
    failure (SequentialBackward g' targets) = failure (SequentialBackward g targets) ∧
    dequeued (newLog g' (finalState (SequentialBackward g' targets))) =
      dequeued (newLog g (finalState (SequentialBackward g targets))) ∧
    (finalState (SequentialBackward g' targets)).n_pending =
      (finalState (SequentialBackward g targets)).n_pending ∧
    (finalState (SequentialBackward g' targets)).q =
      (finalState (SequentialBackward g targets)).q := by
  have h0 : Shape g.log g'.log g g' := ⟨h, [], [], by simp, by simp, rfl⟩
  obtain ⟨h1, h2, evs, evs', h3, h4, h5⟩ := (SequentialBackward_names g g' targets h0).final
  refine ⟨h1, ?_, h2.n_pending, h2.q⟩
  unfold newLog
  rw [h3, h4, List.drop_left, List.drop_left, h5]

theorem lookup_map_val {α β : Type} (F : α → β) (d : Dict α) (k : String) :
    (d.map (fun e => (e.1, F e.2))).lookup k = (d.lookup k).map F := by
  induction d with
  | nil => rfl
  | cons e d ih =>
    obtain ⟨k', v⟩ := e
    rw [List.map_cons, List.lookup_cons, List.lookup_cons]
    cases k == k' with
    | true => rfl
    | false => exact ih

theorem Dict.get_map_val {α β : Type} [Inhabited α] [Inhabited β] (F : α → β)
    (hF : F default = default) (d : Dict α) (k : String) :
    (Dict.get (d.map (fun e => (e.1, F e.2))) k : β) = F (d.get k) := by
  unfold Dict.get
  rw [lookup_map_val]
  cases d.lookup k with
  | none => exact hF.symm
  | some v => rfl

theorem map_name_map {α : Type} (key : α → String) (F : α → α) (hF : ∀ a, key (F a) = key a)
    (l : List α) : (l.map F).map key = l.map key := by
  rw [List.map_map]
  apply List.map_congr_left
  intro a _
  exact hF a

/-- Replacing the records of operations and of value nodes by records of the
same names gives a state of the same shape. -/
theorem SameShape.of_relabel (φ : Factor → Factor) (ψ : Variable → Variable)
    (hφ : ∀ f, (φ f).name = f.name) (hψ : ∀ v, (ψ v).name = v.name) (g : FactorGraph) :
    SameShape g (relabel φ ψ g) := by
  have hv : ∀ n, (relabel φ ψ g).varEdges.get n =
      ((g.varEdges.get n).1.map φ, (g.varEdges.get n).2.map φ) := fun n =>
    Dict.get_map_val (fun e : FactorList × FactorList => (e.1.map φ, e.2.map φ)) rfl
      g.varEdges n
  have hf : ∀ n, (relabel φ ψ g).factorEdges.get n =
      ((g.factorEdges.get n).1.map ψ, (g.factorEdges.get n).2.map ψ) := fun n =>
    Dict.get_map_val (fun e : VarList × VarList => (e.1.map ψ, e.2.map ψ)) rfl
      g.factorEdges n
  refine ⟨?_, ?_, ?_, ?_, ?_, ?_, rfl, rfl, rfl⟩
  · intro n
    unfold VarIdx
    show (match (g.var_dict.map (fun e => (e.1, (e.2.1, ψ e.2.2)))).lookup n with
      | some e => Except.ok e.1
      | none => Except.error (Err.varNotRegistered n)) = _
    rw [lookup_map_val (fun e : Nat × Variable => (e.1, ψ e.2))]
    cases g.var_dict.lookup n <;> rfl
  · intro n
    unfold FacIdx
    show (match (g.factor_dict.map (fun e => (e.1, (e.2.1, φ e.2.2)))).lookup n with
      | some e => Except.ok e.1
      | none => Except.error (Err.factorNotRegistered n)) = _
    rw [lookup_map_val (fun e : Nat × Factor => (e.1, φ e.2))]
    cases g.factor_dict.lookup n <;> rfl
  · exact map_name_map (fun f : Factor => f.name) φ hφ g.factor_list
  · intro n
    unfold FactorGraph.producers
    rw [hv]
    exact map_name_map (fun f : Factor => f.name) φ hφ _
  · intro n
    unfold FactorGraph.operands
    rw [hf]
    exact map_name_map (fun p : Variable => p.name) ψ hψ _
  · intro n
    unfold FactorGraph.outputs
    rw [hf]
    exact map_name_map (fun p : Variable => p.name) ψ hψ _

/-- The fan-out after its forward query, and the same state with every policy
set to `PropErr::N` and `a` made constant: the backward pass seeded with `y1`
and `y2` dequeues the same operations in both, and makes the four `Backward`
calls in the first and none in the second. -/
theorem backward_traversal_independent_witness :
    SameShape Example.fanOutForward Example.fanOutSilent ∧
    dequeued (newLog Example.fanOutSilent
        (finalState (SequentialBackward Example.fanOutSilent [Example.y1, Example.y2]))) =
      dequeued (newLog Example.fanOutForward
        (finalState (SequentialBackward Example.fanOutForward [Example.y1, Example.y2]))) ∧
    newLog Example.fanOutSilent
        (finalState (SequentialBackward Example.fanOutSilent [Example.y1, Example.y2])) =
      [Event.print "G1", Event.print "G3", Event.print "F", Event.print "G2"] :=
  ⟨SameShape.of_relabel Example.silent Example.frozen (fun _ => rfl)
      (fun v => by unfold Example.frozen; split <;> rfl) Example.fanOutForward,
   (backward_traversal_independent Example.fanOutForward Example.fanOutSilent
      [Example.y1, Example.y2]
      (SameShape.of_relabel Example.silent Example.frozen (fun _ => rfl)
        (fun v => by unfold Example.frozen; split <;> rfl) Example.fanOutForward)).2.1,
   by decide⟩

/-! ## The forward pass is complete -/

theorem Invoked.persist {g gD b x y : FactorGraph} {fn : String} (h : Invoked g gD b x fn)
    (hr : ∀ m, Ready x m → Ready y m) (hl : ∀ ev, ev ∈ newLog b x → ev ∈ newLog b y) :
    Invoked g gD b y fn := by
  intro hm
  obtain ⟨h1, h2⟩ := h hm
  exact ⟨fun p hp => hr _ (h1 p hp), fun e he => hl _ (h2 e he)⟩

theorem decrPending_live {g gD b : FactorGraph} (hfac : FactorsIndexed g) {i : Nat}
    {cur : Option String} (f : Factor) (l : FactorList) (x x' : FactorGraph)
    (h : LiveInv g gD b i (f :: l) cur x) (he : decrPending x f = .ok x') :
    LiveInv g gD b i l cur x' := by
  obtain ⟨j, n, hj, hn, hx'⟩ := decrPending_shape he
  have hjg : FacIdx g f.name = .ok j := by rw [← h.same.facIdx_eq]; exact hj
  have hnp : ∀ k, x'.n_pending[k]? = if k = j then some (n - 1) else x.n_pending[k]? := by
    intro k
    rcases hx' with ⟨_, rfl⟩ | ⟨_, rfl⟩ <;> exact getElem?_set_int _ _ _ _ _ hn
  have hrd : x'.isReady = x.isReady := by
    rcases hx' with ⟨_, rfl⟩ | ⟨_, rfl⟩ <;> rfl
  have hvd : x'.var_dict = x.var_dict := by
    rcases hx' with ⟨_, rfl⟩ | ⟨_, rfl⟩ <;> rfl
  have hlog : x'.log = x.log := by
    rcases hx' with ⟨_, rfl⟩ | ⟨_, rfl⟩ <;> rfl
  have hreq : x'.isRequired = x.isRequired := by
    rcases hx' with ⟨_, rfl⟩ | ⟨_, rfl⟩ <;> rfl
  have hsame : SameRegistry g x' := by
    rcases hx' with ⟨_, rfl⟩ | ⟨_, rfl⟩ <;>
      exact ⟨h.same.var_dict, h.same.factor_dict, h.same.var_list, h.same.factor_list,
        h.same.ready_dict, h.same.varEdges, h.same.factorEdges⟩
  have hq : x'.q = x.q ++ [f.name] ∧ n - 1 = 0 ∨ x'.q = x.q ∧ n - 1 ≠ 0 := by
    rcases hx' with ⟨h0, rfl⟩ | ⟨h0, rfl⟩
    · exact Or.inl ⟨rfl, h0⟩
    · exact Or.inr ⟨rfl, h0⟩
  have hqsub : ∀ fn, fn ∈ x.q → fn ∈ x'.q := by
    intro fn hfn
    rcases hq with ⟨hq, _⟩ | ⟨hq, _⟩
    · rw [hq]; exact List.mem_append_left _ hfn
    · rw [hq]; exact hfn
  have hready : ∀ m, Ready x' m ↔ Ready x m := ready_congr hvd hrd
  have hpo : ∀ fn, pendingOperands g x' i fn = pendingOperands g x i fn :=
    fun fn => pendingOperands_congr g (accounted_congr hvd hrd i) fn
  have hnl : newLog b x' = newLog b x := by unfold newLog; rw [hlog]
  have hself : (List.countP (fun f' : Factor => f'.name == f.name) (f :: l) : Int) =
      (List.countP (fun f' : Factor => f'.name == f.name) l : Int) + 1 := by
    rw [List.countP_cons]; simp
  refine ⟨hsame, hreq.trans h.req, by rw [hlog]; exact h.pre,
    fun m hm => (hready m).mpr (h.mono m hm), ?_, ?_, ?_⟩
  · intro fn k hk
    obtain ⟨nk, hnk, hlek⟩ := h.upper fn k hk
    rw [hpo fn]
    by_cases hkj : k = j
    · subst hkj
      have hfn : fn = f.name := facIdx_inj hfac hk hjg
      subst hfn
      rw [hn] at hnk
      injection hnk with hnk
      subst hnk
      refine ⟨n - 1, by rw [hnp]; simp, ?_⟩
      rw [hself] at hlek
      omega
    · have hne : f.name ≠ fn := by
        intro hc
        rw [← hc] at hk
        rw [hjg] at hk
        injection hk with hk
        exact hkj hk.symm
      refine ⟨nk, by rw [hnp, if_neg hkj]; exact hnk, ?_⟩
      have : (List.countP (fun f' : Factor => f'.name == fn) (f :: l) : Int) =
          (List.countP (fun f' : Factor => f'.name == fn) l : Int) := by
        rw [List.countP_cons]; simp [hne]
      rw [this] at hlek
      exact hlek
  · intro fn k nk hk hnk hle
    rw [hnp] at hnk
    have hold : ∀ m, x.n_pending[k]? = some m → m ≤ 0 →
        fn ∈ x'.q ∨ some fn = cur ∨ Invoked g gD b x' fn := by
      intro m hm hm0
      rcases h.done fn k m hk hm hm0 with h1 | h1 | h1
      · exact Or.inl (hqsub fn h1)
      · exact Or.inr (Or.inl h1)
      · exact Or.inr (Or.inr (h1.persist (fun m hm => (hready m).mpr hm)
          (fun ev hev => by rw [hnl]; exact hev)))
    by_cases hkj : k = j
    · subst hkj
      rw [if_pos rfl] at hnk
      injection hnk with hnk
      subst hnk
      have hfn : fn = f.name := facIdx_inj hfac hk hjg
      rcases hq with ⟨hq, h0⟩ | ⟨hq, h0⟩
      · left
        rw [hq, hfn]
        exact List.mem_append_right _ (List.mem_singleton.mpr rfl)
      · exact hold n hn (by omega)
    · rw [if_neg hkj] at hnk
      exact hold nk hnk hle
  · intro fn e hl hm
    obtain ⟨h1, h2⟩ := h.once fn e hl hm
    rw [hnl]
    exact ⟨h1, fun hev => decrPending_spent h.same.factor_dict (h2 hev) he⟩

theorem decrPendings_live {g gD b : FactorGraph} (hfac : FactorsIndexed g) {i : Nat}
    {cur : Option String} :
    ∀ (l : FactorList) (x x' : FactorGraph), LiveInv g gD b i l cur x →
      l.foldlM decrPending x = .ok x' →
      LiveInv g gD b i [] cur x' ∧ x'.isReady = x.isReady ∧ x'.log = x.log := by
  intro l
  induction l with
  | nil =>
    intro x x' h he
    injection he with he
    subst he
    exact ⟨h, rfl, rfl⟩
  | cons f l ih =>
    intro x x' h he
    rw [List.foldlM_cons] at he
    rcases run_cases (decrPending x f) with ⟨e, h1⟩ | ⟨x1, h1⟩
    · rw [h1] at he; cases he
    · rw [h1] at he
      have hI1 := decrPending_live hfac f l x x1 h h1
      obtain ⟨j, n, _, _, hx'⟩ := decrPending_shape h1
      have hr1 : x1.isReady = x.isReady := by
        rcases hx' with ⟨_, rfl⟩ | ⟨_, rfl⟩ <;> rfl
      have hl1 : x1.log = x.log := by
        rcases hx' with ⟨_, rfl⟩ | ⟨_, rfl⟩ <;> rfl
      obtain ⟨hI2, hr2, hl2⟩ := ih x1 x' hI1 he
      exact ⟨hI2, hr2.trans hr1, hl2.trans hl1⟩

theorem countP_unaccounted_le (L : VarList) (A A' : String → Prop) [DecidablePred A]
    [DecidablePred A'] (vn : String) (hA : ∀ m, A' m → A m ∨ m = vn) :
    L.countP (fun p => decide (¬ A p.name)) ≤
      L.countP (fun p => decide (¬ A' p.name)) + L.countP (fun p => p.name == vn) := by
  induction L with
  | nil => simp
  | cons p L ih =>
    rw [List.countP_cons, List.countP_cons, List.countP_cons]
    by_cases hp : p.name = vn
    · have e3 : (p.name == vn) = true := by rw [hp]; exact beq_self_eq_true vn
      rw [e3]
      simp only [if_true]
      split <;> split <;> omega
    · by_cases ha : A p.name
      · have e1 : decide (¬ A p.name) = false := decide_eq_false (fun h => h ha)
        rw [e1]
        simp only [Bool.false_eq_true, if_false]
        split <;> split <;> omega
      · have e2 : decide (¬ A' p.name) = true :=
          decide_eq_true (fun h => (hA _ h).elim ha hp)
        rw [e2]
        simp only [if_true]
        split <;> split <;> omega


theorem Spent.of_scratch {g x y : FactorGraph} {fn : String} (h : Spent g x fn)
    (hp : y.n_pending = x.n_pending) (hq : ∀ n, n ∈ y.q → n ∈ x.q) : Spent g y fn := by
  obtain ⟨h1, j, n, hj, hn, hle⟩ := h
  exact ⟨fun hm => h1 (hq _ hm), j, n, hj, by rw [hp]; exact hn, hle⟩

theorem LiveInv.ready_event {g gD b : FactorGraph} (hcons : ConsistentAdjacency g) {i i' : Nat}
    {cur : Option String} {x x1 : FactorGraph} {vn : String}
    (h : LiveInv g gD b i [] cur x) (hs : SameRegistry g x1)
    (hp : x1.n_pending = x.n_pending) (hq : x1.q = x.q) (hl : x1.log = x.log)
    (hreq : x1.isRequired = x.isRequired)
    (hA : ∀ m, Accounted x1 i' m → Accounted x i m ∨ m = vn)
    (hvn : ∃ e, (vn, e) ∈ g.var_dict) (hR : ∀ m, Ready x m → Ready x1 m) :
    LiveInv g gD b i' (g.consumers vn) cur x1 := by
  have hnl : newLog b x1 = newLog b x := by unfold newLog; rw [hl]
  refine ⟨hs, hreq.trans h.req, by rw [hl]; exact h.pre, fun m hm => hR m (h.mono m hm),
    ?_, ?_, ?_⟩
  · intro fn j hj
    obtain ⟨n, hn, hle⟩ := h.upper fn j hj
    refine ⟨n, by rw [hp]; exact hn, ?_⟩
    obtain ⟨e, hmem, _⟩ := facIdx_mem hj
    obtain ⟨ev, hvmem⟩ := hvn
    have hc := hcons.1 (vn, ev) hvmem (fn, e) hmem
    have hsplit : pendingOperands g x i fn ≤
        pendingOperands g x1 i' fn + (g.operands fn).countP (fun p => p.name == vn) := by
      unfold pendingOperands
      exact countP_unaccounted_le (g.operands fn) (fun m => Accounted x i m)
        (fun m => Accounted x1 i' m) vn hA
    simp only [List.countP_nil, Nat.cast_zero, add_zero] at hle
    have hc' : ((g.consumers vn).countP (fun f => f.name == fn) : Int) =
        ((g.operands fn).countP (fun p => p.name == vn) : Int) := by
      exact_mod_cast hc
    rw [hc']
    have hsplit' : (pendingOperands g x i fn : Int) ≤
        (pendingOperands g x1 i' fn : Int) +
          ((g.operands fn).countP (fun p => p.name == vn) : Int) := by
      exact_mod_cast hsplit
    omega
  · intro fn j n hj hn hle
    rw [hp] at hn
    rcases h.done fn j n hj hn hle with h1 | h1 | h1
    · exact Or.inl (by rw [hq]; exact h1)
    · exact Or.inr (Or.inl h1)
    · exact Or.inr (Or.inr (h1.persist hR (fun ev hev => by rw [hnl]; exact hev)))
  · intro fn e hlk hm
    obtain ⟨h1, h2⟩ := h.once fn e hlk hm
    rw [hnl]
    exact ⟨h1, fun hev => (h2 hev).of_scratch hp (fun n hn => by rw [← hq]; exact hn)⟩

theorem LiveInv.transfer {g gD b : FactorGraph} {i i' : Nat} {l : FactorList}
    {cur : Option String} {x y : FactorGraph} (h : LiveInv g gD b i l cur x)
    (hs : SameRegistry g y) (h2 : ∀ m, Accounted y i' m ↔ Accounted x i m)
    (hR : ∀ m, Ready x m → Ready y m)
    (h3 : y.n_pending = x.n_pending) (h4 : y.q = x.q) (h5 : y.log = x.log)
    (h6 : y.isRequired = x.isRequired) : LiveInv g gD b i' l cur y := by
  have hnl : newLog b y = newLog b x := by unfold newLog; rw [h5]
  refine ⟨hs, h6.trans h.req, by rw [h5]; exact h.pre, fun m hm => hR m (h.mono m hm),
    ?_, ?_, ?_⟩
  · intro fn j hj
    obtain ⟨n, hn, hle⟩ := h.upper fn j hj
    refine ⟨n, by rw [h3]; exact hn, ?_⟩
    rw [pendingOperands_congr g h2 fn]
    exact hle
  · intro fn j n hj hn hle
    rw [h3] at hn
    rcases h.done fn j n hj hn hle with h1 | h1 | h1
    · exact Or.inl (by rw [h4]; exact h1)
    · exact Or.inr (Or.inl h1)
    · exact Or.inr (Or.inr (h1.persist hR (fun ev hev => by rw [hnl]; exact hev)))
  · intro fn e hlk hm
    obtain ⟨h1, h2'⟩ := h.once fn e hlk hm
    rw [hnl]
    exact ⟨h1, fun hev => (h2' hev).of_scratch h3 (fun n hn => by rw [← h4]; exact hn)⟩

theorem readyOutput_live {g gD b : FactorGraph} (hidx : VarsIndexed g)
    (hfac : FactorsIndexed g) (hcons : ConsistentAdjacency g) {cur : Option String}
    (y y' : FactorGraph) (p : VarPtr) (h : LiveInv g gD b g.var_dict.size [] cur y)
    (he : readyOutput y p = .ok y') :
    LiveInv g gD b g.var_dict.size [] cur y' ∧ Ready y' p.name ∧
      (∀ m, Ready y m → Ready y' m) ∧ y'.log = y.log := by
  unfold readyOutput at he
  cases hi : VarIdx y p.name with
  | error e => rw [hi] at he; cases he
  | ok i =>
    rw [hi] at he
    dsimp only at he
    by_cases hlt : i < y.isReady.length
    · rw [if_pos hlt] at he
      have hig : VarIdx g p.name = .ok i := by rw [← h.same.varIdx_eq]; exact hi
      have hs1 : SameRegistry g ({ y with isReady := y.isReady.set i true }.touchVar p.name) :=
        ⟨h.same.var_dict, h.same.factor_dict, h.same.var_list, h.same.factor_list,
          h.same.ready_dict,
          fun n => (Dict.get_touch y.varEdges p.name n).trans (h.same.varEdges n),
          h.same.factorEdges⟩
      have hR : ∀ m, Ready ({ y with isReady := y.isReady.set i true }.touchVar p.name) m ↔
          (Ready y m ∨ m = p.name) :=
        fun m => ready_set hidx h.same.var_dict hs1.var_dict hig hlt rfl m
      have hA : ∀ m, Accounted ({ y with isReady := y.isReady.set i true }.touchVar p.name)
          g.var_dict.size m → Accounted y g.var_dict.size m ∨ m = p.name := by
        intro m hm
        rw [accounted_full hidx hs1.var_dict] at hm
        rw [accounted_full hidx h.same.var_dict]
        exact (hR m).mp hm
      have hev : LiveInv g gD b g.var_dict.size (g.consumers p.name) cur
          ({ y with isReady := y.isReady.set i true }.touchVar p.name) := by
        refine LiveInv.ready_event hcons h hs1 rfl rfl rfl rfl hA ?_
          (fun m hm => (hR m).mpr (Or.inl hm))
        obtain ⟨e, he, _⟩ := varIdx_mem hig
        exact ⟨e, he⟩
      have hcq : ({ y with isReady := y.isReady.set i true }.touchVar p.name).consumers p.name =
          g.consumers p.name := hs1.consumers_eq _
      rw [hcq] at he
      obtain ⟨hI, hrd, hlg⟩ := decrPendings_live hfac _ _ _ hev he
      have hcongr : ∀ m, Ready y' m ↔
          Ready ({ y with isReady := y.isReady.set i true }.touchVar p.name) m :=
        ready_congr (hI.same.var_dict.trans hs1.var_dict.symm) hrd
      refine ⟨hI, ?_, ?_, hlg⟩
      · rw [hcongr, hR]; exact Or.inr rfl
      · intro m hm
        rw [hcongr, hR]; exact Or.inl hm
    · rw [if_neg hlt] at he; cases he

theorem readyOutputs_live {g gD b : FactorGraph} (hidx : VarsIndexed g)
    (hfac : FactorsIndexed g) (hcons : ConsistentAdjacency g) {cur : Option String} :
    ∀ (outs : VarList) (y y' : FactorGraph), LiveInv g gD b g.var_dict.size [] cur y →
      outs.foldlM readyOutput y = .ok y' →
      LiveInv g gD b g.var_dict.size [] cur y' ∧ (∀ p ∈ outs, Ready y' p.name) ∧
        (∀ m, Ready y m → Ready y' m) ∧ y'.log = y.log := by
  intro outs
  induction outs with
  | nil =>
    intro y y' h he
    injection he with he
    subst he
    exact ⟨h, fun _ hp => (by cases hp), fun _ hm => hm, rfl⟩
  | cons p outs ih =>
    intro y y' h he
    rw [List.foldlM_cons] at he
    rcases run_cases (readyOutput y p) with ⟨e, h1⟩ | ⟨y1, h1⟩
    · rw [h1] at he; cases he
    · rw [h1] at he
      obtain ⟨hI1, hp1, hm1, hl1⟩ := readyOutput_live hidx hfac hcons y y1 p h h1
      obtain ⟨hI2, hp2, hm2, hl2⟩ := ih y1 y' hI1 he
      refine ⟨hI2, ?_, fun m hm => hm2 m (hm1 m hm), hl2.trans hl1⟩
      intro q hq
      rcases List.mem_cons.mp hq with rfl | hq
      · exact hm2 _ hp1
      · exact hp2 q hq


theorem anyRequired_false (g : FactorGraph) (outs : VarList)
    (h : anyRequired g outs = .ok false) : ∀ p ∈ outs, ¬ Marked g p.name := by
  induction outs with
  | nil => intro p hp; cases hp
  | cons q outs ih =>
    unfold anyRequired at h
    cases hi : VarIdx g q.name with
    | error e => rw [hi] at h; cases h
    | ok i =>
      rw [hi] at h
      dsimp only at h
      cases hr : g.isRequired[i]? with
      | none => rw [hr] at h; cases h
      | some b =>
        rw [hr] at h
        cases b with
        | true => cases h
        | false =>
          intro p hp
          rcases List.mem_cons.mp hp with rfl | hp
          · rintro ⟨j, hj, hf⟩
            rw [hi] at hj
            injection hj with hj
            subst hj
            rw [hr] at hf
            cases hf
          · exact ih h p hp

theorem forwardCall_inj {g : FactorGraph} (hsp : SingleProducer g) {fn cur : String}
    {e e' : Nat × Factor} (hfn : g.factor_dict.lookup fn = some e')
    (hcur : g.factor_dict.lookup cur = some e) (hne : g.outputs fn ≠ [])
    (h : forwardCall g fn e' = forwardCall g cur e) : fn = cur := by
  by_contra hc
  unfold forwardCall at h
  injection h with _ _ houts
  obtain ⟨p, hp⟩ := List.exists_mem_of_ne_nil _ hne
  have hp' : p ∈ g.outputs cur := by rw [← houts]; exact hp
  exact hsp.2 (fn, e') (Dict.mem_of_lookup _ _ _ hfn) (cur, e) (Dict.mem_of_lookup _ _ _ hcur)
    hc p hp p hp' rfl

theorem LiveInv.finish {g gD b : FactorGraph} {i : Nat} {l : FactorList} {cur : String}
    {x : FactorGraph} (h : LiveInv g gD b i l (some cur) x) (hc : Invoked g gD b x cur) :
    LiveInv g gD b i l none x := by
  refine ⟨h.same, h.req, h.pre, h.mono, h.upper, ?_, h.once⟩
  intro fn j n hj hn hle
  rcases h.done fn j n hj hn hle with h1 | h1 | h1
  · exact Or.inl h1
  · injection h1 with h1
    subst h1
    exact Or.inr (Or.inr hc)
  · exact Or.inr (Or.inr h1)

theorem LiveInv.call_logged {g gD b : FactorGraph} (hsp : SingleProducer g) {i : Nat}
    {cur : String} {x y : FactorGraph} {e : Nat × Factor}
    (h : LiveInv g gD b i [] (some cur) x) (hs : SameRegistry g y)
    (hlk : g.factor_dict.lookup cur = some e)
    (hm : ∃ p ∈ g.outputs cur, Marked gD p.name)
    (hnew : forwardCall g cur e ∉ newLog b x) (hspent : Spent g x cur)
    (h1 : ∀ m, Accounted y i m ↔ Accounted x i m) (hR : ∀ m, Ready x m → Ready y m)
    (h3 : y.n_pending = x.n_pending) (h4 : y.q = x.q)
    (h5 : y.log = x.log ++ [forwardCall g cur e]) (h6 : y.isRequired = x.isRequired) :
    LiveInv g gD b i [] (some cur) y := by
  have hnl : newLog b y = newLog b x ++ [forwardCall g cur e] := by
    unfold newLog
    rw [h5]
    exact (newLog_append b x h.pre _).symm
  have hsub : ∀ ev, ev ∈ newLog b x → ev ∈ newLog b y := fun ev hev => by
    rw [hnl]; exact List.mem_append_left _ hev
  refine ⟨hs, h6.trans h.req, by rw [h5]; exact h.pre.trans (List.prefix_append _ _),
    fun m hm => hR m (h.mono m hm), ?_, ?_, ?_⟩
  · intro fn j hj
    obtain ⟨n, hn, hle⟩ := h.upper fn j hj
    refine ⟨n, by rw [h3]; exact hn, ?_⟩
    rw [pendingOperands_congr g h1 fn]
    exact hle
  · intro fn j n hj hn hle
    rw [h3] at hn
    rcases h.done fn j n hj hn hle with h2 | h2 | h2
    · exact Or.inl (by rw [h4]; exact h2)
    · exact Or.inr (Or.inl h2)
    · exact Or.inr (Or.inr (h2.persist hR hsub))
  · intro fn e1 hlk1 hm1
    obtain ⟨hc1, hs1⟩ := h.once fn e1 hlk1 hm1
    rw [hnl]
    by_cases heq : forwardCall g fn e1 = forwardCall g cur e
    · have hne : g.outputs fn ≠ [] := by
        obtain ⟨p, hp, _⟩ := hm1
        exact List.ne_nil_of_mem hp
      have hfn : fn = cur := forwardCall_inj hsp hlk1 hlk hne heq
      subst hfn
      rw [heq]
      constructor
      · rw [List.count_append, List.count_eq_zero_of_not_mem hnew]
        simp
      · intro _
        exact hspent.of_scratch h3 (fun n hn => by rw [← h4]; exact hn)
    · constructor
      · rw [List.count_append]
        have : List.count (forwardCall g fn e1) [forwardCall g cur e] = 0 := by
          rw [List.count_eq_zero_of_not_mem]
          intro hmem
          rw [List.mem_singleton] at hmem
          exact heq hmem
        rw [this]
        exact hc1
      · intro hev
        rcases List.mem_append.mp hev with h7 | h7
        · exact (hs1 h7).of_scratch h3 (fun n hn => by rw [← h4]; exact hn)
        · rw [List.mem_singleton] at h7
          exact absurd h7 heq

theorem forwardOne_live {g gD b : FactorGraph} (hidx : VarsIndexed g)
    (hfac : FactorsIndexed g) (hcons : ConsistentAdjacency g) (hsp : SingleProducer g)
    (hsD : SameRegistry g gD) (x x' : FactorGraph) (cur : String)
    (h : LiveInv g gD b g.var_dict.size [] (some cur) x) (hspent : Spent g x cur)
    (hnew : (∃ p ∈ g.outputs cur, Marked gD p.name) →
      ∀ e, g.factor_dict.lookup cur = some e → forwardCall g cur e ∉ newLog b x)
    (he : forwardOne x cur = .ok x') :
    LiveInv g gD b g.var_dict.size [] none x' := by
  unfold forwardOne at he
  cases hl : x.factor_dict.lookup cur with
  | none => rw [hl] at he; cases he
  | some e =>
    rw [hl] at he
    dsimp only at he
    have hlg : g.factor_dict.lookup cur = some e := by rw [← h.same.factor_dict]; exact hl
    have hs1 : SameRegistry g (x.touchFac cur) :=
      h.same.trans (SameRegistry.of_touchFac x cur)
    have h1 : LiveInv g gD b g.var_dict.size [] (some cur) (x.touchFac cur) :=
      h.transfer hs1 (fun m => accounted_congr rfl rfl _ m) (fun m hm => hm) rfl rfl rfl rfl
    have houts : (x.touchFac cur).outputs cur = g.outputs cur := hs1.outputs_eq cur
    have hops : (x.touchFac cur).operands cur = g.operands cur := hs1.operands_eq cur
    have hmk : ∀ n, Marked (x.touchFac cur) n ↔ Marked gD n := fun n =>
      marked_congr (hs1.var_dict.trans hsD.var_dict.symm) h.req n
    cases hr : anyRequired (x.touchFac cur) ((x.touchFac cur).outputs cur) with
    | error err => rw [hr] at he; cases he
    | ok bb =>
      rw [hr] at he
      cases bb with
      | false =>
        injection he with he
        subst he
        refine h1.finish ?_
        rintro ⟨p, hp, hm⟩
        rw [houts] at hr
        exact absurd ((hmk _).mpr hm) (anyRequired_false _ _ hr p hp)
      | true =>
        dsimp only at he
        rw [houts, hops] at he
        have hm : ∃ p ∈ g.outputs cur, Marked gD p.name := by
          rw [houts] at hr
          obtain ⟨p, hp, hpm⟩ := anyRequired_true _ _ hr
          exact ⟨p, hp, (hmk _).mp hpm⟩
        generalize hy : ({ x.touchFac cur with log := (x.touchFac cur).log ++
          [Event.forward e.2 (g.operands cur) (g.outputs cur)] } : FactorGraph) = y at he
        have hsy : SameRegistry g y := by
          rw [← hy]
          exact ⟨hs1.var_dict, hs1.factor_dict, hs1.var_list, hs1.factor_list,
            hs1.ready_dict, hs1.varEdges, hs1.factorEdges⟩
        have h2 : LiveInv g gD b g.var_dict.size [] (some cur) y := by
          refine LiveInv.call_logged hsp h1 hsy hlg hm (hnew hm e hlg) hspent ?_ ?_ ?_ ?_ ?_ ?_
          · intro m; rw [← hy]; exact accounted_congr rfl rfl _ m
          · intro m hm'; rw [← hy]; exact hm'
          · rw [← hy]
          · rw [← hy]
          · rw [← hy]; rfl
          · rw [← hy]
        have houts' : y.outputs cur = g.outputs cur := hsy.outputs_eq cur
        rw [houts'] at he
        obtain ⟨hI, hall, _, hlog⟩ :=
          readyOutputs_live hidx hfac hcons (g.outputs cur) y x' h2 he
        refine hI.finish ?_
        intro _
        refine ⟨hall, ?_⟩
        intro e1 he1
        rw [hlg] at he1
        injection he1 with he1
        subst he1
        have hnl : newLog b x' = newLog b y := by unfold newLog; rw [hlog]
        rw [hnl]
        have hyl : newLog b y = newLog b (x.touchFac cur) ++ [forwardCall g cur e] := by
          rw [← hy]
          exact (newLog_append b (x.touchFac cur) h1.pre _).symm
        rw [hyl]
        exact List.mem_append_right _ (List.mem_singleton.mpr rfl)


theorem forwardIter_live {g gD b : FactorGraph} (hidx : VarsIndexed g)
    (hfac : FactorsIndexed g) (hcons : ConsistentAdjacency g) (hsp : SingleProducer g)
    (hsD : SameRegistry g gD) :
    ∀ (k : Nat) (x x' : FactorGraph), CountInv g g.var_dict.size [] x →
      LiveInv g gD b g.var_dict.size [] none x → forwardIter k x = .ok x' →
      CountInv g g.var_dict.size [] x' ∧ LiveInv g gD b g.var_dict.size [] none x' := by
  intro k
  induction k with
  | zero =>
    intro x x' h hL he
    injection he with he
    subst he
    exact ⟨h, hL⟩
  | succ k ih =>
    intro x x' h hL he
    unfold forwardIter at he
    cases hq : x.q with
    | nil =>
      rw [hq] at he
      injection he with he
      subst he
      exact ⟨h, hL⟩
    | cons cur rest =>
      rw [hq] at he
      dsimp only at he
      have hnd := h.nodup
      rw [hq, List.nodup_cons] at hnd
      have hcurq : cur ∈ x.q := by rw [hq]; exact List.mem_cons_self _ _
      have hsub : ∀ fn, fn ∈ rest → fn ∈ x.q := fun fn hfn => by
        rw [hq]; exact List.mem_cons_of_mem _ hfn
      have hpop : CountInv g g.var_dict.size [] { x with q := rest } := by
        refine ⟨⟨h.same.var_dict, h.same.factor_dict, h.same.var_list, h.same.factor_list,
          h.same.ready_dict, h.same.varEdges, h.same.factorEdges⟩, h.cnt, ?_, ?_, hnd.2, ?_⟩
        · intro fn j n hj hn hc p hp
          refine h.fresh fn j n hj hn ?_ p hp
          rcases hc with h1 | h1
          · exact Or.inl (hsub fn h1)
          · exact Or.inr h1
        · intro fn hfn; exact h.spent fn (hsub fn hfn)
        · intro fn hfn; exact h.ops fn (hsub fn hfn)
      obtain ⟨jc, nc, hjc, hnc, hle⟩ := h.spent cur hcurq
      have hspent : Spent g { x with q := rest } cur := ⟨hnd.1, jc, nc, hjc, hnc, hle⟩
      have hnr : ∀ p ∈ g.outputs cur, ¬ Ready { x with q := rest } p.name :=
        fun p hp => h.fresh cur jc nc hjc hnc (Or.inl hcurq) p hp
      have hLpop : LiveInv g gD b g.var_dict.size [] (some cur) { x with q := rest } := by
        refine ⟨⟨hL.same.var_dict, hL.same.factor_dict, hL.same.var_list, hL.same.factor_list,
          hL.same.ready_dict, hL.same.varEdges, hL.same.factorEdges⟩, hL.req, hL.pre, hL.mono,
          hL.upper, ?_, ?_⟩
        · intro fn j n hj hn hle'
          rcases hL.done fn j n hj hn hle' with h1 | h1 | h1
          · rw [hq] at h1
            rcases List.mem_cons.mp h1 with h2 | h2
            · exact Or.inr (Or.inl (by rw [h2]))
            · exact Or.inl h2
          · cases h1
          · exact Or.inr (Or.inr h1)
        · intro fn e hlk hm
          obtain ⟨h1, h2⟩ := hL.once fn e hlk hm
          exact ⟨h1, fun hev => (h2 hev).of_scratch rfl (fun n hn => hsub n hn)⟩
      have hnew : (∃ p ∈ g.outputs cur, Marked gD p.name) →
          ∀ e, g.factor_dict.lookup cur = some e →
            forwardCall g cur e ∉ newLog b { x with q := rest } := by
        intro hm e hlk hev
        exact ((hL.once cur e hlk hm).2 hev).1 hcurq
      rcases run_cases (forwardOne { x with q := rest } cur) with ⟨e, h1⟩ | ⟨x1, h1⟩
      · rw [h1] at he; cases he
      · rw [h1] at he
        obtain ⟨hI1, _⟩ := forwardOne_count hidx hfac hcons hsp _ x1 cur hpop hspent hnr h1
        have hL1 := forwardOne_live hidx hfac hcons hsp hsD _ x1 cur hLpop hspent hnew h1
        exact ih x1 x' hI1 hL1 he

theorem seedReady_live {g gD b : FactorGraph} (hidx : VarsIndexed g) (hfac : FactorsIndexed g)
    (hcons : ConsistentAdjacency g) (hvl : VarListIndexed g) (x x' : FactorGraph) (n : Nat)
    (h : LiveInv g gD b n [] none x) (he : seedReady x n = .ok x') :
    LiveInv g gD b (n + 1) [] none x' := by
  unfold seedReady at he
  by_cases hr : x.isReady[n]? = some true
  · rw [if_pos hr] at he
    cases hv : x.var_list[n]? with
    | none => rw [hv] at he; cases he
    | some v =>
      rw [hv] at he
      dsimp only at he
      have hvg : VarIdx g v.name = .ok n :=
        varIdx_of_var_list hvl (by rw [← h.same.var_list]; exact hv)
      have hs1 : SameRegistry g (x.touchVar v.name) :=
        h.same.trans (SameRegistry.of_touchVar x v.name)
      have hacc : ∀ i m, Accounted (x.touchVar v.name) i m ↔ Accounted x i m :=
        fun i m => accounted_congr rfl rfl i m
      have hrd : ∀ m, Ready (x.touchVar v.name) m ↔ Ready x m := ready_congr rfl rfl
      have hev : LiveInv g gD b (n + 1) (g.consumers v.name) none (x.touchVar v.name) := by
        refine LiveInv.ready_event hcons h hs1 rfl rfl rfl rfl ?_ ?_ (fun m hm => (hrd m).mpr hm)
        · intro m hm
          rw [hacc] at hm
          obtain ⟨j, hj, hlt, hf⟩ := hm
          by_cases hjn : j < n
          · exact Or.inl ⟨j, hj, hjn, hf⟩
          · have : j = n := by omega
            subst this
            right
            rw [h.same.varIdx_eq] at hj
            exact varIdx_inj hidx hj hvg
        · obtain ⟨e, he, _⟩ := varIdx_mem hvg
          exact ⟨e, he⟩
      have hcq : (x.touchVar v.name).consumers v.name = g.consumers v.name :=
        hs1.consumers_eq _
      rw [hcq] at he
      exact (decrPendings_live hfac _ _ _ hev he).1
  · rw [if_neg hr] at he
    injection he with he
    subst he
    refine h.transfer h.same ?_ (fun m hm => hm) rfl rfl rfl rfl
    intro m
    constructor
    · rintro ⟨j, hj, hlt, hf⟩
      by_cases hjn : j < n
      · exact ⟨j, hj, hjn, hf⟩
      · have : j = n := by omega
        subst this
        exact absurd hf hr
    · rintro ⟨j, hj, hlt, hf⟩
      exact ⟨j, hj, by omega, hf⟩

theorem seedReadys_live {g gD b : FactorGraph} (hidx : VarsIndexed g)
    (hfac : FactorsIndexed g) (hcons : ConsistentAdjacency g) (hvl : VarListIndexed g)
    (x0 : FactorGraph) :
    ∀ (n : Nat) (x : FactorGraph), LiveInv g gD b 0 [] none x0 →
      (List.range n).foldlM seedReady x0 = .ok x → LiveInv g gD b n [] none x := by
  intro n
  induction n with
  | zero =>
    intro x h he
    injection he with he
    subst he
    exact h
  | succ n ih =>
    intro x h he
    rw [List.range_succ, List.foldlM_append] at he
    rcases run_cases ((List.range n).foldlM seedReady x0) with ⟨e, h1⟩ | ⟨x1, h1⟩
    · rw [h1] at he; cases he
    · rw [h1] at he
      have hI1 := ih x1 h h1
      have he' : seedReady x1 n = .ok x := by
        rcases run_cases (seedReady x1 n) with ⟨e, h2⟩ | ⟨x2, h2⟩
        · have : (Except.ok x1 >>= fun b => List.foldlM seedReady b [n]) = .error e := by
            show List.foldlM seedReady x1 [n] = .error e
            rw [List.foldlM_cons, h2]; rfl
          rw [this] at he; cases he
        · have : (Except.ok x1 >>= fun b => List.foldlM seedReady b [n]) = .ok x2 := by
            show List.foldlM seedReady x1 [n] = .ok x2
            rw [List.foldlM_cons, h2]; rfl
          rw [this] at he
          rw [h2]; exact he
      exact seedReady_live hidx hfac hcons hvl x1 x n hI1 he'

theorem initPending_live {g gD g1 : FactorGraph} (hs : SameRegistry g g1)
    (hfl : FactorListIndexed g) (hne : OperandsNonempty g)
    (hreq : g1.isRequired = gD.isRequired) :
    LiveInv g gD g1 0 [] none (initPendingForward { g1 with q := [] }) := by
  have hinit := initPendingForward_fwdInv g1
  have hs0 : SameRegistry g (initPendingForward { g1 with q := [] }) := hs.trans hinit.same
  have hlog : (initPendingForward { g1 with q := [] }).log = g1.log := rfl
  have hnl : newLog g1 (initPendingForward { g1 with q := [] }) = [] := by
    unfold newLog; rw [hlog]; simp
  have hcnt : ∀ fn j, FacIdx g fn = .ok j →
      (initPendingForward { g1 with q := [] }).n_pending[j]? =
        some ((g.operands fn).length : Int) ∧ g.operands fn ≠ [] := by
    intro fn j hj
    obtain ⟨e, hmem, hej⟩ := facIdx_mem hj
    have h1 := hfl (fn, e) hmem
    have h1' : (g.factor_list[j]?).map (fun f => f.name) = some fn := by rw [← hej]; exact h1
    cases hf : g.factor_list[j]? with
    | none => rw [hf] at h1'; cases h1'
    | some f =>
      rw [hf] at h1'
      simp only [Option.map_some', Option.some.injEq] at h1'
      refine ⟨?_, hne (fn, e) hmem⟩
      show (g1.factor_list.map
        (fun f => ((({ g1 with q := [] } : FactorGraph).operands f.name).length : Int)))[j]? = _
      have hf1 : g1.factor_list[j]? = some f := by rw [hs.factor_list]; exact hf
      rw [List.getElem?_map, hf1]
      simp only [Option.map_some', Option.some.injEq]
      rw [h1']
      have : ({ g1 with q := [] } : FactorGraph).operands fn = g.operands fn :=
        hs.operands_eq fn
      rw [this]
  refine ⟨hs0, hreq, List.prefix_refl _, fun m hm => (ready_congr rfl rfl m).mpr hm,
    ?_, ?_, ?_⟩
  · intro fn j hj
    obtain ⟨hnp, _⟩ := hcnt fn j hj
    refine ⟨_, hnp, ?_⟩
    have hall : pendingOperands g (initPendingForward { g1 with q := [] }) 0 fn =
        (g.operands fn).length := by
      unfold pendingOperands
      rw [List.countP_eq_length]
      intro p _
      simp only [decide_not, Bool.not_eq_true', decide_eq_false_iff_not]
      rintro ⟨k, _, hk, _⟩
      exact Nat.not_lt_zero k hk
    rw [hall]
    simp
  · intro fn j n hj hn hle
    obtain ⟨hnp, hnonempty⟩ := hcnt fn j hj
    rw [hnp] at hn
    injection hn with hn
    have hpos : 0 < (g.operands fn).length := List.length_pos.mpr hnonempty
    omega
  · intro fn e _ _
    rw [hnl]
    exact ⟨by simp, fun h => (by cases h)⟩


theorem registered_mem_keys {g : FactorGraph} {v : String} (h : VarRegistered g v) :
    v ∈ g.var_dict.map Prod.fst := by
  unfold VarRegistered at h
  cases hl : g.var_dict.lookup v with
  | none => rw [hl] at h; cases h
  | some e => exact List.mem_map.mpr ⟨(v, e), Dict.mem_of_lookup _ _ _ hl, rfl⟩

/-- In an acyclic registry no set of registered value nodes is closed under
stepping from a node to an operand of one of its producers, unless it is
empty. -/
theorem no_descent {g : FactorGraph} (hac : Acyclic g) (S : String → Prop)
    (hreg : ∀ v, S v → VarRegistered g v)
    (hstep : ∀ v, S v → ∃ u, S u ∧ DependsOn g v u) : ∀ v, ¬ S v := by
  intro v hv
  let r : { n : String // n ∈ g.var_dict.map Prod.fst } →
      { n : String // n ∈ g.var_dict.map Prod.fst } → Prop :=
    fun u w => Relation.TransGen (DependsOn g) w.1 u.1
  haveI : IsTrans _ r := ⟨fun a b c hab hbc => Relation.TransGen.trans hbc hab⟩
  haveI : IsIrrefl _ r := ⟨fun a ha => hac a.1 ha⟩
  have wf : WellFounded r := Finite.wellFounded_of_trans_of_irrefl r
  have hne : (setOf (fun a : { n : String // n ∈ g.var_dict.map Prod.fst } => S a.1)).Nonempty :=
    ⟨⟨v, registered_mem_keys (hreg v hv)⟩, hv⟩
  obtain ⟨m, hm, hmin⟩ := wf.has_min _ hne
  obtain ⟨u, hu, hdep⟩ := hstep m.1 hm
  exact hmin ⟨u, registered_mem_keys (hreg u hu)⟩ hu (Relation.TransGen.single hdep)


theorem SequentialForward_ok {g1 g2 : FactorGraph} (h : SequentialForward g1 = .ok g2) :
    ∃ s0, forwardSeed g1 = .ok s0 ∧ forwardIter s0.factor_list.length s0 = .ok g2 ∧
      g2.q = [] := by
  unfold SequentialForward at h
  rcases run_cases (forwardSeed g1) with ⟨e, h1⟩ | ⟨s0, h1⟩
  · rw [h1] at h; cases h
  · rw [h1] at h
    dsimp only at h
    unfold forwardLoop at h
    rcases run_cases (forwardIter s0.factor_list.length s0) with ⟨e, h2⟩ | ⟨x, h2⟩
    · rw [h2] at h; cases h
    · rw [h2] at h
      dsimp only at h
      cases hq : x.q with
      | nil =>
        rw [hq] at h
        injection h with h
        subst h
        exact ⟨s0, h1, h2, hq⟩
      | cons a l => rw [hq] at h; cases h

/-- The invariants of the forward pass at its end, on a well-formed registry
with consistent adjacency where every value node has at most one producer,
every operation has an operand and no pre-ready or fed node is produced. -/
theorem forward_final (g : FactorGraph) (targets : List VarPtr)
    (feed_dict : Dict RawData) (hw : WellFormed g) (hfl : FactorListIndexed g)
    (hcons : ConsistentAdjacency g) (hsp : SingleProducer g) (hne : OperandsNonempty g)
    (ht : ∀ p ∈ targets, VarRegistered g p.name) (hf : ∀ p ∈ feed_dict, VarRegistered g p.1)
    (hpre : ∀ st ∈ g.ready_dict, NotProduced g st.1)
    (hfed : ∀ p ∈ feed_dict, NotProduced g p.1) :
    ∃ gD g1 g2, DependencyParse g targets = .ok gD ∧
      prepareForward g targets feed_dict = .ok g1 ∧ SequentialForward g1 = .ok g2 ∧
      SameRegistry g gD ∧ SameRegistry g g1 ∧ g2.q = [] ∧
      g1.log = g.log ++ feed_dict.map (fun p => Event.setRef p.1 p.2) ∧
      (∀ n, Marked gD n ↔ Reach g targets n) ∧
      (∀ i, g1.isReady[i]? = some true ↔ InitiallyReady g feed_dict i) ∧
      g2.isReady.length = g.var_dict.size ∧
      LiveInv g gD g1 g.var_dict.size [] none g2 := by
  obtain ⟨gD, g1, hD, hp, hs1, hreq, hlrq, hlrd, _, _, hlog, hmark, hready⟩ :=
    prepareForward_spec g targets feed_dict hw.vars hw.edgeVars hw.preReady ht hf
  obtain ⟨g2, m, hS, hsched, hq⟩ := SequentialForward_returns hw g1 hs1 hlrd hlrq
  obtain ⟨s0, h0, hk, _⟩ := SequentialForward_ok hS
  have hsD : SameRegistry g gD := by
    have := DependencyParse_frame g targets
    rw [hD] at this
    exact this.same
  have hmD : ∀ n, Marked gD n ↔ Reach g targets n := fun n =>
    (marked_congr (hs1.var_dict.trans hsD.var_dict.symm) hreq n).symm.trans (hmark n)
  have hfresh : ∀ fn j, FacIdx g fn = .ok j → ∀ p ∈ g.outputs fn, ¬ Ready g1 p.name := by
    rintro fn j hj p hpo ⟨i, hi, hfl'⟩
    rw [hs1.varIdx_eq] at hi
    obtain ⟨e, hmem, _⟩ := facIdx_mem hj
    rcases (hready i).mp hfl' with ⟨st, hst, hsti⟩ | ⟨q, hq', hqi⟩
    · exact hpre st hst (fn, e) hmem p hpo (varIdx_inj hw.vars hi hsti)
    · exact hfed q hq' (fn, e) hmem p hpo (varIdx_inj hw.vars hi hqi)
  have hI0 := initPending_count hs1 hfl hfresh
  have hL0 : LiveInv g gD g1 0 [] none (initPendingForward { g1 with q := [] }) :=
    initPending_live hs1 hfl hne hreq
  unfold forwardSeed at h0
  dsimp only at h0
  have hlen : (initPendingForward { g1 with q := [] }).isReady.length = g.var_dict.size := hlrd
  rw [hlen] at h0
  obtain ⟨hIs, _, _⟩ := seedReadys_count hw.vars hw.factors hcons hw.varList _ _ s0 hI0 h0
  have hLs := seedReadys_live hw.vars hw.factors hcons hw.varList _ _ s0 hL0 h0
  obtain ⟨_, hL⟩ := forwardIter_live hw.vars hw.factors hcons hsp hsD _ s0 g2 hIs hLs hk
  exact ⟨gD, g1, g2, hD, hp, hS, hsD, hs1, hq, hlog, hmD, hready, hsched.lenReady, hL⟩

theorem producer_of_output {g : FactorGraph} (hw : WellFormed g)
    (hcons : ConsistentAdjacency g) {fn v : String} {e : Nat × Factor} {p : Variable}
    (hfe : (fn, e) ∈ g.factor_dict) (hp : p ∈ g.outputs fn) (hv : p.name = v) :
    ∃ f ∈ g.producers v, f.name = fn := by
  have hreg : VarRegistered g v := by rw [← hv]; exact outputs_registered hw.edgeVars hp
  obtain ⟨i, hi⟩ := varIdx_of_registered hreg
  obtain ⟨ev, hev, _⟩ := varIdx_mem hi
  have hc := hcons.2 (v, ev) hev (fn, e) hfe
  have hpos : 0 < (g.outputs fn).countP (fun q => q.name == v) :=
    List.countP_pos_iff.mpr ⟨p, hp, by simpa using hv⟩
  rw [← hc] at hpos
  obtain ⟨f, hf, hfn⟩ := List.countP_pos_iff.mp hpos
  exact ⟨f, hf, by simpa using hfn⟩


theorem lookup_isSome_of_mem {α : Type} (d : Dict α) (k : String) (v : α) (h : (k, v) ∈ d) :
    (d.lookup k).isSome = true := by
  induction d with
  | nil => cases h
  | cons e d ih =>
    obtain ⟨k', v'⟩ := e
    rw [List.lookup_cons]
    by_cases hk : k = k'
    · subst hk; simp
    · have : (k == k') = false := by simpa using hk
      rw [this]
      rcases List.mem_cons.mp h with h1 | h1
      · injection h1 with h1 _
        exact absurd h1 hk
      · exact ih h1

/-- Completeness of the forward pass: at its end every required value node is
ready, when the registry is acyclic and every required value node that no
operation produces is pre-ready or fed. -/
theorem forward_all_ready {g gD g1 g2 : FactorGraph} {targets : List VarPtr}
    {feed_dict : Dict RawData} (hw : WellFormed g) (hcons : ConsistentAdjacency g)
    (hac : Acyclic g) (hsD : SameRegistry g gD) (hs1 : SameRegistry g g1)
    (hq : g2.q = []) (hmD : ∀ n, Marked gD n ↔ Reach g targets n)
    (hready : ∀ i, g1.isReady[i]? = some true ↔ InitiallyReady g feed_dict i)
    (hL : LiveInv g gD g1 g.var_dict.size [] none g2)
    (hsrc : ∀ n, Reach g targets n → NotProduced g n →
      ∃ i, VarIdx g n = .ok i ∧ InitiallyReady g feed_dict i) :
    ∀ v, Marked gD v → Ready g2 v := by
  intro v hv
  by_contra hnr
  refine no_descent hac (fun v => Marked gD v ∧ ¬ Ready g2 v) ?_ ?_ v ⟨hv, hnr⟩
  · rintro u ⟨⟨i, hi, _⟩, _⟩
    rw [hsD.varIdx_eq] at hi
    exact registered_of_varIdx hi
  · rintro u ⟨hm, hnru⟩
    by_cases hnp : NotProduced g u
    · obtain ⟨i, hi, hinit⟩ := hsrc u ((hmD u).mp hm) hnp
      exact absurd (hL.mono u ⟨i, by rw [hs1.varIdx_eq]; exact hi, (hready i).mpr hinit⟩) hnru
    · unfold NotProduced at hnp
      push_neg at hnp
      obtain ⟨fe, hfe, p, hp, hpu⟩ := hnp
      obtain ⟨j, _, _, hj, _⟩ := facIdx_of_registered
        (show FacRegistered g fe.1 from lookup_isSome_of_mem _ _ _ hfe)
      obtain ⟨n, hn, hle⟩ := hL.upper fe.1 j hj
      have hpm : Marked gD p.name := by rw [hpu]; exact hm
      by_cases hn0 : n ≤ 0
      · rcases hL.done fe.1 j n hj hn hn0 with h1 | h1 | h1
        · rw [hq] at h1; cases h1
        · cases h1
        · have := (h1 ⟨p, hp, hpm⟩).1 p hp
          rw [hpu] at this
          exact absurd this hnru
      · have hpos : 0 < pendingOperands g g2 g.var_dict.size fe.1 := by
          simp only [List.countP_nil, Nat.cast_zero, add_zero] at hle
          omega
        unfold pendingOperands at hpos
        obtain ⟨w, hw1, hw2⟩ := List.countP_pos_iff.mp hpos
        have hw3 : ¬ Accounted g2 g.var_dict.size w.name := by simpa using hw2
        rw [accounted_full hw.vars hL.same.var_dict] at hw3
        obtain ⟨f, hf, hfn⟩ := producer_of_output hw hcons hfe hp hpu
        refine ⟨w.name, ⟨?_, hw3⟩, fe, hfe, ⟨p, hp, hpu⟩, ⟨w, hw1, rfl⟩⟩
        exact (hmD _).mpr (Reach.step u f w ((hmD u).mp hm) hf (by rw [hfn]; exact hw1))


/-- Forward completeness when the dequeued names are read back (`forwardOne`);
`forward_incomplete_after_pop` shows the failure of a query that meets the
same hypotheses when a name is not read back. On a well-formed, acyclic
registry with consistent adjacency in which
every operation has an operand and every value node is an output of at most
one operation, a forward query with one thread and registered names, in which
no pre-ready and no fed node is an output of an operation and every required
value node that no operation produces is pre-ready or fed, returns its
targets; every required value node is ready in the state it leaves; every call
it logs is the binding of a feed or the `Forward` call of a registered
operation with a required output; and the `Forward` call of every registered
operation with a required output is logged exactly once. -/
theorem forward_complete (g : FactorGraph) (targets : List VarPtr)
    (feed_dict : Dict RawData) (hw : WellFormed g) (hfl : FactorListIndexed g)
    (hcons : ConsistentAdjacency g) (hsp : SingleProducer g) (hne : OperandsNonempty g)
    (hac : Acyclic g)
    (ht : ∀ p ∈ targets, VarRegistered g p.name) (hf : ∀ p ∈ feed_dict, VarRegistered g p.1)
    (hpre : ∀ st ∈ g.ready_dict, NotProduced g st.1)
    (hfed : ∀ p ∈ feed_dict, NotProduced g p.1)
    (hsrc : ∀ n, Reach g targets n → NotProduced g n →
      ∃ i, VarIdx g n = .ok i ∧ InitiallyReady g feed_dict i) :
    ∃ g2, FeedForward g targets feed_dict 1 = .ok (targets, g2) ∧
      (∀ n, Reach g targets n → Ready g2 n) ∧
      (∀ ev ∈ newLog g g2, (∃ n d, ev = Event.setRef n d) ∨
        ∃ cur e, g.factor_dict.lookup cur = some e ∧ ev = forwardCall g cur e ∧
          ∃ p ∈ g.outputs cur, Reach g targets p.name) ∧
      (∀ cur e, g.factor_dict.lookup cur = some e →
        (∃ p ∈ g.outputs cur, Reach g targets p.name) →
        (newLog g g2).count (forwardCall g cur e) = 1) := by
  obtain ⟨gD, g1, g2, hD, hp, hS, hsD, hs1, hq, hlog, hmD, hready, hlen, hL⟩ :=
    forward_final g targets feed_dict hw hfl hcons hsp hne ht hf hpre hfed
  have hall : ∀ v, Marked gD v → Ready g2 v :=
    forward_all_ready hw hcons hac hsD hs1 hq hmD hready hL hsrc
  have hFF : FeedForward g targets feed_dict 1 = .ok (targets, g2) := by
    unfold FeedForward
    rw [hp]
    dsimp only
    rw [if_pos rfl, hS]
    dsimp only
    rcases checkReady_spec hw.vars g2 hL.same.var_dict hlen targets ht with
      ⟨_, hc⟩ | ⟨p, hpt, hnr, _⟩
    · rw [hc]
    · exact absurd (hall _ ((hmD _).mpr (Reach.target p hpt))) hnr
  refine ⟨g2, hFF, fun n hn => hall n ((hmD n).mpr hn), ?_, ?_⟩
  · intro ev hev
    have h3 := (FeedForward_events g targets feed_dict 1).2.2
    rw [hFF] at h3
    rcases h3 ev hev with h4 | ⟨_, gD', cur, e, hD', hlk, hev', p, hp', hm⟩
    · exact Or.inl h4
    · rw [hD] at hD'
      injection hD' with hD'
      subst hD'
      exact Or.inr ⟨cur, e, hlk, hev', p, hp', (hmD _).mp hm⟩
  · rintro cur e hlk ⟨p, hp', hreach⟩
    have hm : ∃ p ∈ g.outputs cur, Marked gD p.name := ⟨p, hp', (hmD _).mpr hreach⟩
    have hpre0 : g.log <+: g1.log := by rw [hlog]; exact List.prefix_append _ _
    have hsplit : newLog g g2 = newLog g g1 ++ newLog g1 g2 := newLog_trans hpre0 hL.pre
    have hfeeds : newLog g g1 = feed_dict.map (fun q => Event.setRef q.1 q.2) := by
      unfold newLog
      rw [hlog, List.drop_left]
    have hzero : (newLog g g1).count (forwardCall g cur e) = 0 := by
      rw [hfeeds, List.count_eq_zero_of_not_mem]
      intro hmem
      obtain ⟨q, _, hq'⟩ := List.mem_map.mp hmem
      cases hq'
    rw [hsplit, List.count_append, hzero, Nat.zero_add]
    have hle := (hL.once cur e hlk hm).1
    have hj : FacIdx g cur = .ok e.1 := by unfold FacIdx; rw [hlk]
    obtain ⟨n, hn, hup⟩ := hL.upper cur e.1 hj
    obtain ⟨f, hfp, hfn⟩ := producer_of_output hw hcons (Dict.mem_of_lookup _ _ _ hlk) hp' rfl
    have hops : ∀ u ∈ g.operands cur, Ready g2 u.name := by
      intro u hu
      exact hall _ ((hmD _).mpr (Reach.step p.name f u hreach hfp (by rw [hfn]; exact hu)))
    have hpz : pendingOperands g g2 g.var_dict.size cur = 0 := by
      unfold pendingOperands
      rw [List.countP_eq_zero]
      intro u hu
      have := (accounted_full hw.vars hL.same.var_dict u.name).mpr (hops u hu)
      simpa using this
    rw [hpz] at hup
    simp only [List.countP_nil, Nat.cast_zero, add_zero] at hup
    rcases hL.done cur e.1 n hj hn hup with h1 | h1 | h1
    · rw [hq] at h1; cases h1
    · cases h1
    · have hmem := (h1 hm).2 e hlk
      have hpos : 0 < (newLog g1 g2).count (forwardCall g cur e) :=
        List.count_pos_iff.mpr hmem
      omega

/-- The pruning scenario with the target `d` and `a` fed: the query returns,
`d` is ready, and `square` is invoked exactly once. -/
theorem forward_complete_witness :
    ∃ g2, FeedForward Example.pruning [Example.d] [("a", 5)] 1 = .ok ([Example.d], g2) ∧
      Ready g2 "d" ∧
      (newLog Example.pruning g2).count
        (forwardCall Example.pruning "square" (0, Example.square)) = 1 := by
  obtain ⟨g2, h1, h2, _, h4⟩ := forward_complete Example.pruning [Example.d] [("a", 5)]
    (by decide) (by decide) (by decide) (by decide) (by decide)
    (acyclic_of_ranked (by decide)) (by decide) (by decide) (by decide) (by decide)
    (by
      intro n hn
      have hcases : n = "d" ∨ n = "a" := by
        induction hn with
        | target p hp =>
          rw [List.mem_singleton] at hp
          subst hp
          exact Or.inl rfl
        | step u f p _ hf hp ih =>
          rcases ih with rfl | rfl
          · have hf' : f ∈ [Example.square] := hf
            rw [List.mem_singleton] at hf'
            subst hf'
            have hp' : p ∈ [Example.a] := hp
            rw [List.mem_singleton] at hp'
            subst hp'
            exact Or.inr rfl
          · cases hf
      intro hnp
      rcases hcases with rfl | rfl
      · exact absurd hnp (by decide)
      · exact ⟨0, rfl, Or.inr ⟨("a", 5), List.mem_singleton.mpr rfl, rfl⟩⟩)
  exact ⟨g2, h1, h2 "d" (Reach.target Example.d (List.mem_singleton.mpr rfl)),
    h4 "square" (0, Example.square) rfl
      ⟨Example.d, List.mem_singleton.mpr rfl, Reach.target Example.d
        (List.mem_singleton.mpr rfl)⟩⟩

/-! ## An operation is enqueued at most once -/

theorem OnceInv.of_sched {g : FactorGraph} {hist : List String} {x y : FactorGraph}
    (h : OnceInv g hist x) (h1 : y.factor_dict = x.factor_dict)
    (h2 : y.n_pending = x.n_pending) (h3 : y.q = x.q) : OnceInv g hist y :=
  ⟨h1.trans h.dict, by rw [h3]; exact h.nodup, by rw [h3, h2]; exact h.spent⟩

theorem OnceInv.take {g : FactorGraph} {hist : List String} {x : FactorGraph}
    (h : OnceInv g hist x) {cur : String} {rest : List String} (hq : x.q = cur :: rest) :
    OnceInv g (hist ++ [cur]) { x with q := rest } := by
  have e : (hist ++ [cur]) ++ rest = hist ++ x.q := by rw [hq]; simp
  refine ⟨h.dict, ?_, ?_⟩
  · show ((hist ++ [cur]) ++ rest).Nodup
    rw [e]; exact h.nodup
  · show ∀ n ∈ (hist ++ [cur]) ++ rest, _
    rw [e]; exact h.spent

theorem decrPending_once (g : FactorGraph) (hist : List String) (P : FactorGraph → Prop)
    (hP : ∀ (x : FactorGraph) (np : List Int) (q : List String), P x →
      P { x with n_pending := np, q := q })
    (x : FactorGraph) (f : Factor) (h : OnceInv g hist x ∧ P x) :
    (fun y => OnceInv g hist y ∧ P y) (finalState (decrPending x f)) := by
  obtain ⟨h, hp⟩ := h
  unfold decrPending
  have hidx : FacIdx x f.name = FacIdx g f.name := by unfold FacIdx; rw [h.dict]
  rw [hidx]
  cases hj : FacIdx g f.name with
  | error e => exact ⟨h, hp⟩
  | ok j =>
    dsimp only
    cases hn : x.n_pending[j]? with
    | none => exact ⟨h, hp⟩
    | some n =>
      dsimp only
      have hsp : ∀ m ∈ hist ++ x.q, ∃ j' c, FacIdx g m = .ok j' ∧
          (x.n_pending.set j (n - 1))[j']? = some c ∧ c ≤ 0 := by
        intro m hm
        obtain ⟨j', c, h1, h2, h3⟩ := h.spent m hm
        by_cases hjj : j' = j
        · subst hjj
          rw [hn] at h2
          injection h2 with h2
          refine ⟨j', n - 1, h1, ?_, by omega⟩
          rw [getElem?_set_int _ _ _ _ _ hn, if_pos rfl]
        · refine ⟨j', c, h1, ?_, h3⟩
          rw [getElem?_set_int _ _ _ _ _ hn, if_neg hjj]
          exact h2
      split
      · rename_i h0
        have hnot : f.name ∉ hist ++ x.q := by
          intro hm
          obtain ⟨j', c, h1, h2, h3⟩ := h.spent _ hm
          rw [hj] at h1
          injection h1 with h1
          subst h1
          rw [hn] at h2
          injection h2 with h2
          omega
        have e : hist ++ (x.q ++ [f.name]) = (hist ++ x.q) ++ [f.name] := by simp
        refine ⟨⟨h.dict, ?_, ?_⟩, hP _ _ _ hp⟩
        · show (hist ++ (x.q ++ [f.name])).Nodup
          rw [e]
          exact List.Nodup.append h.nodup (List.nodup_singleton _)
            (by
              intro a ha hb
              rw [List.mem_singleton] at hb
              subst hb
              exact hnot ha)
        · show ∀ m ∈ hist ++ (x.q ++ [f.name]), ∃ j' c, FacIdx g m = .ok j' ∧
            (x.n_pending.set j (n - 1))[j']? = some c ∧ c ≤ 0
          rw [e]
          intro m hm
          rcases List.mem_append.mp hm with hm | hm
          · exact hsp m hm
          · rw [List.mem_singleton] at hm
            subst hm
            refine ⟨j, n - 1, hj, ?_, by omega⟩
            rw [getElem?_set_int _ _ _ _ _ hn, if_pos rfl]
      · exact ⟨⟨h.dict, h.nodup, hsp⟩, hP x _ x.q hp⟩

theorem decrPending_keeps {I : List String → FactorGraph → Prop} (hI : Scheduled I)
    (hist : List String) (P : FactorGraph → Prop)
    (hP : ∀ (x : FactorGraph) (np : List Int) (q : List String), P x →
      P { x with n_pending := np, q := q })
    (x : FactorGraph) (f : Factor) (h : I hist x ∧ P x) :
    (fun y => I hist y ∧ P y) (finalState (decrPending x f)) := by
  refine ⟨hI.decr hist x f h.1, ?_⟩
  unfold decrPending
  cases FacIdx x f.name with
  | error e => exact h.2
  | ok j =>
    dsimp only
    cases x.n_pending[j]? with
    | none => exact h.2
    | some n =>
      dsimp only
      split
      · exact hP _ _ _ h.2
      · exact hP x _ x.q h.2

theorem decrPendings_keeps {I : List String → FactorGraph → Prop} (hI : Scheduled I)
    (hist : List String) (P : FactorGraph → Prop)
    (hP : ∀ (x : FactorGraph) (np : List Int) (q : List String), P x →
      P { x with n_pending := np, q := q })
    (l : FactorList) (x : FactorGraph) (h : I hist x ∧ P x) :
    (fun y => I hist y ∧ P y) (finalState (l.foldlM decrPending x)) :=
  foldlM_final decrPending (fun y => I hist y ∧ P y) (fun _ => True)
    (fun y f hy _ => decrPending_keeps hI hist P hP y f hy) l x h (fun _ _ => trivial)

theorem seedReady_keeps {I : List String → FactorGraph → Prop} (hI : Scheduled I)
    (g : FactorGraph) (hist : List String) (lg : List Event)
    (x : FactorGraph) (i : Nat)
    (h : I hist x ∧ SameRegistry g x ∧ x.isRequired = g.isRequired ∧ x.log = lg) :
    (fun y => I hist y ∧ SameRegistry g y ∧ y.isRequired = g.isRequired ∧ y.log = lg)
      (finalState (seedReady x i)) := by
  unfold seedReady
  split
  · cases x.var_list[i]? with
    | none => exact h
    | some v =>
      dsimp only
      exact decrPendings_keeps hI hist
        (fun y => SameRegistry g y ∧ y.isRequired = g.isRequired ∧ y.log = lg)
        (fun y np q hy => ⟨hy.1.trans (same_scratch y _ _ _ _ _), hy.2.1, hy.2.2⟩) _ _
        ⟨hI.of_sched _ _ _ h.1 rfl rfl rfl,
          h.2.1.trans (SameRegistry.of_touchVar x v.name), h.2.2.1, h.2.2.2⟩
  · exact h

theorem readyOutput_keeps {I : List String → FactorGraph → Prop} (hI : Scheduled I)
    (g : FactorGraph) (hist : List String) (lg : List Event)
    (x : FactorGraph) (p : VarPtr)
    (h : I hist x ∧ SameRegistry g x ∧ x.isRequired = g.isRequired ∧ x.log = lg) :
    (fun y => I hist y ∧ SameRegistry g y ∧ y.isRequired = g.isRequired ∧ y.log = lg)
      (finalState (readyOutput x p)) := by
  unfold readyOutput
  cases VarIdx x p.name with
  | error e => exact h
  | ok i =>
    dsimp only
    split
    · exact decrPendings_keeps hI hist
        (fun y => SameRegistry g y ∧ y.isRequired = g.isRequired ∧ y.log = lg)
        (fun y np q hy => ⟨hy.1.trans (same_scratch y _ _ _ _ _), hy.2.1, hy.2.2⟩) _ _
        ⟨hI.of_sched _ _ _ h.1 rfl rfl rfl,
          (h.2.1.trans (same_scratch x _ _ _ _ _)).trans (SameRegistry.of_touchVar _ p.name),
          h.2.2.1, h.2.2.2⟩
    · exact h

theorem readyOutputs_logged {I : List String → FactorGraph → Prop} (hI : Scheduled I)
    (g : FactorGraph) (hist : List String) (x : FactorGraph)
    (cur : String) (e : Nat × Factor) (hl : ForwardLog g hist x)
    (hexp : expectedForward g cur = [forwardCall g cur e]) (ps : VarList) (y : FactorGraph)
    (hy : I (hist ++ [cur]) y ∧ SameRegistry g y ∧ y.isRequired = g.isRequired ∧
      y.log = x.log ++ [forwardCall g cur e]) :
    I (hist ++ [cur]) (finalState (ps.foldlM readyOutput y)) ∧
      ForwardLog g (hist ++ [cur]) (finalState (ps.foldlM readyOutput y)) := by
  have hfold := foldlM_final readyOutput
    (fun y => I (hist ++ [cur]) y ∧ SameRegistry g y ∧
      y.isRequired = g.isRequired ∧ y.log = x.log ++ [forwardCall g cur e])
    (fun _ => True)
    (fun y p hy _ => readyOutput_keeps hI g (hist ++ [cur]) _ y p hy) ps y hy
    (fun _ _ => trivial)
  refine ⟨hfold.1, hfold.2.1, hfold.2.2.1, ?_, ?_⟩
  · rw [hfold.2.2.2]; exact hl.pre.trans (List.prefix_append _ _)
  · have : newLog g (finalState (ps.foldlM readyOutput y)) =
        newLog g x ++ [forwardCall g cur e] := by
      unfold newLog
      rw [hfold.2.2.2]
      exact (newLog_append g x hl.pre _).symm
    rw [this, hl.log, List.flatMap_append]
    simp [List.flatMap, hexp]

theorem forwardOne_keeps {I : List String → FactorGraph → Prop} (hI : Scheduled I)
    (g : FactorGraph) (hist : List String) (x : FactorGraph)
    (cur : String) (rest : List String) (h : I hist x ∧ ForwardLog g hist x)
    (hq : x.q = cur :: rest) :
    (fun y => I (hist ++ [cur]) y ∧ ForwardLog g (hist ++ [cur]) y)
      (finalState (forwardOne { x with q := rest } cur)) := by
  obtain ⟨ho, hl⟩ := h
  have ho1 := hI.take hist x cur rest ho hq
  have hlk : x.factor_dict.lookup cur = g.factor_dict.lookup cur := by rw [hl.same.factor_dict]
  have hnil : expectedForward g cur = [] →
      ∀ y : FactorGraph, SameRegistry g y → y.isRequired = g.isRequired → y.log = x.log →
        ForwardLog g (hist ++ [cur]) y := by
    intro he y hs hr hlog
    refine ⟨hs, hr, by rw [hlog]; exact hl.pre, ?_⟩
    have : newLog g y = newLog g x := by unfold newLog; rw [hlog]
    rw [this, hl.log, List.flatMap_append]
    simp [List.flatMap, he]
  unfold forwardOne
  show (fun y => I (hist ++ [cur]) y ∧ ForwardLog g (hist ++ [cur]) y)
    (finalState (match x.factor_dict.lookup cur with
      | none => .error (Err.nullFactor cur, { x with q := rest })
      | some e => _))
  cases he : x.factor_dict.lookup cur with
  | none =>
    refine ⟨ho1, hnil ?_ _ (hl.same.trans (same_scratch x _ _ _ _ _)) hl.req rfl⟩
    unfold expectedForward
    rw [← hlk, he]
  | some e =>
    dsimp only
    have hs1 : SameRegistry g ({ x with q := rest }.touchFac cur) :=
      (hl.same.trans (same_scratch x _ _ _ _ _)).trans (SameRegistry.of_touchFac _ cur)
    have houts : ({ x with q := rest }.touchFac cur).outputs cur = g.outputs cur :=
      hs1.outputs_eq cur
    have hops : ({ x with q := rest }.touchFac cur).operands cur = g.operands cur :=
      hs1.operands_eq cur
    have hany : anyRequired ({ x with q := rest }.touchFac cur) (g.outputs cur) =
        anyRequired g (g.outputs cur) :=
      anyRequired_sim hs1.var_dict hl.req (g.outputs cur)
    rw [houts, hops, hany]
    cases ha : anyRequired g (g.outputs cur) with
    | error err =>
      refine ⟨hI.of_sched _ _ _ ho1 rfl rfl rfl, hnil ?_ _ hs1 hl.req rfl⟩
      unfold expectedForward
      rw [← hlk, he, ha]
    | ok b =>
      cases b with
      | false =>
        refine ⟨hI.of_sched _ _ _ ho1 rfl rfl rfl, hnil ?_ _ hs1 hl.req rfl⟩
        unfold expectedForward
        rw [← hlk, he, ha]
      | true =>
        dsimp only
        have hexp : expectedForward g cur = [forwardCall g cur e] := by
          unfold expectedForward
          rw [← hlk, he, ha]
        exact readyOutputs_logged hI g hist x cur e hl hexp _ _
          ⟨hI.of_sched _ _ _ ho1 rfl rfl rfl, hs1.trans (same_scratch _ _ _ _ _ _), hl.req,
            rfl⟩


theorem forwardIter_keeps {I : List String → FactorGraph → Prop} (hI : Scheduled I)
    (g : FactorGraph) :
    ∀ (k : Nat) (hist : List String) (x : FactorGraph),
      I hist x ∧ ForwardLog g hist x →
      I (hist ++ forwardTaken k x) (finalState (forwardIter k x)) ∧
        ForwardLog g (hist ++ forwardTaken k x) (finalState (forwardIter k x)) := by
  intro k
  induction k with
  | zero =>
    intro hist x h
    unfold forwardTaken forwardIter
    rw [List.append_nil]
    exact h
  | succ k ih =>
    intro hist x h
    unfold forwardTaken forwardIter
    cases hq : x.q with
    | nil =>
      dsimp only
      rw [List.append_nil]
      exact h
    | cons cur rest =>
      dsimp only
      have h1 := forwardOne_keeps hI g hist x cur rest h hq
      rcases run_cases (forwardOne { x with q := rest } cur) with ⟨e, hf⟩ | ⟨g1, hf⟩
      · rw [hf] at h1 ⊢
        exact h1
      · rw [hf] at h1 ⊢
        have h2 := ih (hist ++ [cur]) g1 h1
        rw [List.append_assoc] at h2
        exact h2

theorem finalState_forwardLoop (fuel : Nat) (x : FactorGraph) :
    finalState (forwardLoop fuel x) = finalState (forwardIter fuel x) := by
  unfold forwardLoop
  rcases run_cases (forwardIter fuel x) with ⟨e, hf⟩ | ⟨g1, hf⟩
  · rw [hf]
  · rw [hf]
    dsimp only
    cases g1.q <;> rfl

theorem SequentialForward_keeps {I : List String → FactorGraph → Prop} (hI : Scheduled I)
    (g : FactorGraph) (hI0 : I [] (initPendingForward { g with q := [] })) :
    I (forwardOrder g) (finalState (SequentialForward g)) ∧
      ForwardLog g (forwardOrder g) (finalState (SequentialForward g)) := by
  have h0 : I [] (initPendingForward { g with q := [] }) ∧
      SameRegistry g (initPendingForward { g with q := [] }) ∧
      (initPendingForward { g with q := [] }).isRequired = g.isRequired ∧
      (initPendingForward { g with q := [] }).log = g.log :=
    ⟨hI0, (initPendingForward_fwdInv g).same, rfl, rfl⟩
  have h1 : I [] (finalState (forwardSeed g)) ∧
      SameRegistry g (finalState (forwardSeed g)) ∧
      (finalState (forwardSeed g)).isRequired = g.isRequired ∧
      (finalState (forwardSeed g)).log = g.log := foldlM_final seedReady
    (fun y => I [] y ∧ SameRegistry g y ∧ y.isRequired = g.isRequired ∧ y.log = g.log)
    (fun _ => True) (fun y i hy _ => seedReady_keeps hI g [] g.log y i hy)
    (List.range (initPendingForward { g with q := [] }).isReady.length) _ h0
    (fun _ _ => trivial)
  have h2 : I [] (finalState (forwardSeed g)) ∧
      ForwardLog g [] (finalState (forwardSeed g)) :=
    ⟨h1.1, h1.2.1, h1.2.2.1, by rw [h1.2.2.2], by
      unfold newLog
      rw [h1.2.2.2]
      simp⟩
  unfold SequentialForward forwardOrder
  rcases run_cases (forwardSeed g) with ⟨e, hf⟩ | ⟨g1, hf⟩
  · rw [hf] at h2 ⊢
    exact h2
  · rw [hf] at h2 ⊢
    dsimp only
    rw [finalState_forwardLoop]
    have h3 := forwardIter_keeps hI g g1.factor_list.length [] g1 h2
    rw [List.nil_append] at h3
    exact h3

theorem countOutput_sized {g : FactorGraph} (hw : WellFormed g) (i : Nat) (x : FactorGraph)
    (p : VarPtr)
    (h : SameRegistry g x ∧ x.isReady.length = g.var_dict.size ∧
      x.isRequired.length = g.var_dict.size ∧ x.n_pending.length = g.factor_list.length)
    (hi : i < g.factor_list.length) (hreg : VarRegistered g p.name) :
    ∃ x', countOutput i x p = .ok x' ∧ SameRegistry g x' ∧
      x'.isReady.length = g.var_dict.size ∧ x'.isRequired.length = g.var_dict.size ∧
      x'.n_pending.length = g.factor_list.length := by
  obtain ⟨hs, h1, h2, h3⟩ := h
  obtain ⟨k, hk⟩ := varIdx_of_registered hreg
  have hlt : k < x.isRequired.length := by rw [h2]; exact varIdx_lt hw.vars hk
  have hil : i < x.n_pending.length := by rw [h3]; exact hi
  unfold countOutput
  rw [hs.varIdx_eq, hk]
  dsimp only
  rw [List.getElem?_eq_getElem hlt]
  cases x.isRequired[k] with
  | false => exact ⟨x, rfl, hs, h1, h2, h3⟩
  | true =>
    dsimp only
    rw [List.getElem?_eq_getElem hil]
    refine ⟨_, rfl, hs.trans (same_scratch x _ _ _ _ _), h1, h2, ?_⟩
    show (x.n_pending.set i _).length = _
    rw [List.length_set]; exact h3

theorem initPendingBackward_sized {g : FactorGraph} (hw : WellFormed g) (x : FactorGraph)
    (i : Nat)
    (h : SameRegistry g x ∧ x.isReady.length = g.var_dict.size ∧
      x.isRequired.length = g.var_dict.size ∧ x.n_pending.length = g.factor_list.length)
    (hi : i < g.factor_list.length) :
    ∃ x', initPendingBackward x i = .ok x' ∧ SameRegistry g x' ∧
      x'.isReady.length = g.var_dict.size ∧ x'.isRequired.length = g.var_dict.size ∧
      x'.n_pending.length = g.factor_list.length := by
  obtain ⟨hs, h1, h2, h3⟩ := h
  have hlt : i < x.factor_list.length := by rw [hs.factor_list]; exact hi
  have hil : i < (x.touchFac x.factor_list[i].name).n_pending.length := by
    show i < x.n_pending.length
    rw [h3]; exact hi
  unfold initPendingBackward
  rw [List.getElem?_eq_getElem hlt]
  dsimp only
  rw [if_pos hil]
  have hs1 : SameRegistry g { x.touchFac x.factor_list[i].name with n_pending := (x.touchFac x.factor_list[i].name).n_pending.set i 0 } :=
    (hs.trans (SameRegistry.of_touchFac x _)).trans (same_scratch _ _ _ _ _ _)
  exact foldlM_ok (countOutput i)
    (fun y => SameRegistry g y ∧ y.isReady.length = g.var_dict.size ∧
      y.isRequired.length = g.var_dict.size ∧ y.n_pending.length = g.factor_list.length)
    (fun p => VarRegistered g p.name)
    (fun y p hy hp => countOutput_sized hw i y p hy hi hp) _ _
    ⟨hs1, h1, h2, by
      show (x.n_pending.set i 0).length = _
      rw [List.length_set]; exact h3⟩
    (fun p hp => by
      rw [hs1.outputs_eq] at hp
      exact outputs_registered hw.edgeVars hp)

theorem backOperand_sched {g : FactorGraph} (hw : WellFormed g) {m : Nat}
    (x : FactorGraph) (p : VarPtr) (h : SchedInv g m x) :
    ∃ x', backOperand x p = .ok x' ∧ SchedInv g m x' := by
  unfold backOperand
  have h1 := h.sched_after_touchVar p.name
  have hc : (x.touchVar p.name).producers p.name = g.producers p.name :=
    h1.same.producers_eq _
  dsimp only
  rw [hc]
  obtain ⟨x', e1, e2, _⟩ := decrPendings_sched hw.factors _ _ h1
    (fun f hf => producers_registered hw.edgeFactors hf)
  exact ⟨x', e1, e2⟩

theorem backwardOne_sched {g : FactorGraph} (hw : WellFormed g) {m : Nat}
    (x : FactorGraph) (cur : String) (h : SchedInv g m x) (hreg : FacRegistered g cur) :
    ∃ x', backwardOne x cur = .ok x' ∧ SchedInv g m x' := by
  obtain ⟨j, e, he, _, _⟩ := facIdx_of_registered hreg
  have hkeep : ∀ (y : FactorGraph) (lg : List Event), SchedInv g m y →
      SchedInv g m { y with log := lg } :=
    fun y lg hy => ⟨hy.same.trans (same_scratch y _ _ _ _ _), hy.lenReady, hy.lenRequired,
      hy.lenPending, hy.queued, hy.measure⟩
  have he1 : x.factor_dict.lookup cur = some e := by rw [h.same.factor_dict]; exact he
  unfold backwardOne
  dsimp only
  rw [he1]
  dsimp only
  split
  · exact foldlM_ok backOperand (SchedInv g m) (fun _ => True)
      (fun y p hy _ => backOperand_sched hw y p hy) _ _
      (hkeep _ _ ((hkeep _ _ h).sched_after_touchFac cur)) (fun _ _ => trivial)
  · exact foldlM_ok backOperand (SchedInv g m) (fun _ => True)
      (fun y p hy _ => backOperand_sched hw y p hy) _ _
      ((hkeep _ _ h).sched_after_touchFac cur) (fun _ _ => trivial)

theorem backwardIter_sched {g : FactorGraph} (hw : WellFormed g) :
    ∀ (k m : Nat) (x : FactorGraph), SchedInv g m x →
      ∃ x' m', backwardIter k x = .ok x' ∧ SchedInv g m' x' ∧ (m ≤ k → x'.q = []) := by
  intro k
  induction k with
  | zero =>
    intro m x h
    refine ⟨x, m, rfl, h, ?_⟩
    intro hm
    have := h.measure
    exact List.length_eq_zero.mp (by omega)
  | succ k ih =>
    intro m x h
    unfold backwardIter
    cases hq : x.q with
    | nil => exact ⟨x, m, rfl, h, fun _ => hq⟩
    | cons cur rest =>
      dsimp only
      have hm := h.measure
      rw [hq, List.length_cons] at hm
      have hpop : SchedInv g (m - 1) { x with q := rest } :=
        ⟨⟨h.same.var_dict, h.same.factor_dict, h.same.var_list, h.same.factor_list,
          h.same.ready_dict, h.same.varEdges, h.same.factorEdges⟩, h.lenReady,
          h.lenRequired, h.lenPending,
          fun n hn => h.queued n (by rw [hq]; exact List.mem_cons_of_mem _ hn),
          by
            show rest.length + x.n_pending.countP (fun n => decide (0 < n)) = m - 1
            omega⟩
      obtain ⟨x1, e1, h1⟩ := backwardOne_sched hw _ cur hpop
        (h.queued cur (by rw [hq]; exact List.mem_cons_self _ _))
      rw [e1]
      obtain ⟨x2, m2, e2, h2, hq2⟩ := ih (m - 1) x1 h1
      exact ⟨x2, m2, e2, h2, fun hle => hq2 (by omega)⟩

theorem backwardSeed_sched {g : FactorGraph} (hw : WellFormed g) (x : FactorGraph)
    (targets : List VarPtr) (hs : SameRegistry g x) (h1 : x.isReady.length = g.var_dict.size)
    (h2 : x.isRequired.length = g.var_dict.size)
    (h3 : x.n_pending.length = g.factor_list.length) :
    ∃ x' m, backwardSeed x targets = .ok x' ∧ SchedInv g m x' ∧ m ≤ g.factor_list.length := by
  obtain ⟨x1, e1, hs1, a1, a2, a3⟩ := foldlM_ok initPendingBackward
    (fun y => SameRegistry g y ∧ y.isReady.length = g.var_dict.size ∧
      y.isRequired.length = g.var_dict.size ∧ y.n_pending.length = g.factor_list.length)
    (fun i => i < g.factor_list.length)
    (fun y i hy hi => initPendingBackward_sized hw y i hy hi)
    (List.range x.factor_list.length) x ⟨hs, h1, h2, h3⟩
    (fun i hi => by rw [hs.factor_list] at hi; exact List.mem_range.mp hi)
  have hz : ([] : List String).length + x1.n_pending.countP (fun n => decide (0 < n)) =
      x1.n_pending.countP (fun n => decide (0 < n)) := by simp
  have h0 : SchedInv g (x1.n_pending.countP (fun n => decide (0 < n))) { x1 with q := [] } :=
    ⟨hs1.trans (same_scratch x1 _ _ _ _ _), a1, a2, a3, (fun n hn => by cases hn), hz⟩
  have hm0 : x1.n_pending.countP (fun n => decide (0 < n)) ≤ g.factor_list.length := by
    have := countP_le_length_int x1.n_pending
    omega
  unfold backwardSeed
  rw [e1]
  dsimp only
  obtain ⟨x2, e2, hx2⟩ := foldlM_ok seedTarget (SchedInv g _) (fun _ => True)
    (fun y p hy _ => by
      have := backOperand_sched hw y p hy
      exact this) targets _ h0 (fun _ _ => trivial)
  exact ⟨x2, _, e2, hx2, hm0⟩

theorem SequentialBackward_returns {g : FactorGraph} (hw : WellFormed g) (x : FactorGraph)
    (targets : List VarPtr) (hs : SameRegistry g x) (h1 : x.isReady.length = g.var_dict.size)
    (h2 : x.isRequired.length = g.var_dict.size)
    (h3 : x.n_pending.length = g.factor_list.length) :
    ∃ x' m, SequentialBackward x targets = .ok x' ∧ SchedInv g m x' ∧ x'.q = [] := by
  obtain ⟨x1, m, e1, hI1, hm⟩ := backwardSeed_sched hw x targets hs h1 h2 h3
  obtain ⟨x2, m2, e2, hI2, hq2⟩ := backwardIter_sched hw x1.factor_list.length m x1 hI1
  have hq : x2.q = [] := hq2 (by rw [hI1.same.factor_list]; exact hm)
  refine ⟨x2, m2, ?_, hI2, hq⟩
  unfold SequentialBackward
  rw [e1]
  dsimp only
  unfold backwardLoop
  rw [e2]
  dsimp only
  rw [hq]


theorem nonemptyInv_scheduled (g : FactorGraph) : Scheduled (NonemptyInv g) := by
  refine ⟨?_, ?_, ?_⟩
  · intro hist x y h h1 h2 h3
    exact ⟨h1.trans h.dict, by rw [h3]; exact h.queued, by rw [h2]; exact h.idle⟩
  · intro hist x cur rest h hq
    have e : (hist ++ [cur]) ++ rest = hist ++ x.q := by rw [hq]; simp
    refine ⟨h.dict, ?_, h.idle⟩
    show ∀ fn ∈ (hist ++ [cur]) ++ rest, _
    rw [e]; exact h.queued
  · intro hist x f h
    unfold decrPending
    have hidx : FacIdx x f.name = FacIdx g f.name := by unfold FacIdx; rw [h.dict]
    rw [hidx]
    cases hj : FacIdx g f.name with
    | error e => exact h
    | ok j =>
      dsimp only
      cases hn : x.n_pending[j]? with
      | none => exact h
      | some n =>
        dsimp only
        have hidle : ∀ fn j', FacIdx g fn = .ok j' → g.operands fn = [] →
            ∃ c, (x.n_pending.set j (n - 1))[j']? = some c ∧ c ≤ 0 := by
          intro fn j' h1 h2
          obtain ⟨c, h3, h4⟩ := h.idle fn j' h1 h2
          by_cases hjj : j' = j
          · subst hjj
            rw [hn] at h3
            injection h3 with h3
            refine ⟨n - 1, ?_, by omega⟩
            rw [getElem?_set_int _ _ _ _ _ hn, if_pos rfl]
          · refine ⟨c, ?_, h4⟩
            rw [getElem?_set_int _ _ _ _ _ hn, if_neg hjj]
            exact h3
        split
        · rename_i h0
          refine ⟨h.dict, ?_, hidle⟩
          show ∀ fn ∈ hist ++ (x.q ++ [f.name]), _
          intro fn hfn
          rw [← List.append_assoc] at hfn
          rcases List.mem_append.mp hfn with hfn | hfn
          · exact h.queued fn hfn
          · rw [List.mem_singleton] at hfn
            subst hfn
            refine ⟨registered_of_facIdx hj, ?_⟩
            intro hops
            obtain ⟨c, h3, h4⟩ := h.idle _ j hj hops
            rw [hn] at h3
            injection h3 with h3
            omega
        · exact ⟨h.dict, h.queued, hidle⟩

theorem initPendingForward_nonempty (g : FactorGraph) (hfl : FactorListIndexed g) :
    NonemptyInv g [] (initPendingForward { g with q := [] }) := by
  refine ⟨rfl, (fun fn hfn => by cases hfn), ?_⟩
  intro fn j hj hops
  obtain ⟨e, he, hej⟩ : ∃ e, g.factor_dict.lookup fn = some e ∧ e.1 = j := by
    unfold FacIdx at hj
    cases hl : g.factor_dict.lookup fn with
    | none => rw [hl] at hj; cases hj
    | some e =>
      rw [hl] at hj
      injection hj with hj
      exact ⟨e, rfl, hj⟩
  have hmem := Dict.mem_of_lookup _ _ _ he
  have hfi := hfl _ hmem
  rw [hej] at hfi
  show ∃ n, (g.factor_list.map (fun f => ((g.operands f.name).length : Int)))[j]? = some n ∧
    n ≤ 0
  rw [List.getElem?_map]
  cases hf : g.factor_list[j]? with
  | none => rw [hf] at hfi; cases hfi
  | some f =>
    rw [hf] at hfi
    have hname : f.name = fn := by
      simpa using hfi
    refine ⟨_, rfl, ?_⟩
    show ((g.operands f.name).length : Int) ≤ 0
    rw [hname, hops]
    simp

theorem SequentialForward_nonempty (g : FactorGraph) (hfl : FactorListIndexed g) :
    NonemptyInv g (forwardOrder g) (finalState (SequentialForward g)) ∧
      ForwardLog g (forwardOrder g) (finalState (SequentialForward g)) :=
  SequentialForward_keeps (nonemptyInv_scheduled g) g (initPendingForward_nonempty g hfl)

theorem FeedForward_split (g : FactorGraph) (targets : List VarPtr) (feed_dict : Dict RawData)
    (g1 : FactorGraph) (hp : prepareForward g targets feed_dict = .ok g1) :
    finalState2 (FeedForward g targets feed_dict 1) = finalState (SequentialForward g1) := by
  unfold FeedForward
  rw [hp]
  dsimp only
  rw [if_pos rfl]
  rcases run_cases (SequentialForward g1) with ⟨e, hf⟩ | ⟨g2, hf⟩
  · rw [hf]; rfl
  · rw [hf]
    dsimp only
    cases checkReady g2 targets <;> rfl


theorem prepareForward_log (g : FactorGraph) (targets : List VarPtr)
    (feed_dict : Dict RawData) :
    SameRegistry g (finalState (prepareForward g targets feed_dict)) ∧
    g.log <+: (finalState (prepareForward g targets feed_dict)).log ∧
    ∀ ev ∈ newLog g (finalState (prepareForward g targets feed_dict)),
      ∃ n d, ev = Event.setRef n d := by
  have hfr := DependencyParse_frame g targets
  obtain ⟨hperr, hpok⟩ := prepareForward_final g targets feed_dict
  rcases run_cases (DependencyParse g targets) with ⟨e, hD⟩ | ⟨gD, hD⟩
  · rw [hD] at hfr
    have hfr : ParseFrame g e.2 := hfr
    rw [hperr e hD]
    refine ⟨hfr.same, ?_, ?_⟩
    · show g.log <+: e.2.log
      rw [hfr.log]
    · intro ev hev
      have : newLog g e.2 = [] := by unfold newLog; rw [hfr.log]; simp
      have hev : ev ∈ newLog g e.2 := hev
      rw [this] at hev
      cases hev
  · rw [hD] at hfr
    have hfr : ParseFrame g gD := hfr
    have hI := hpok gD hD
    refine ⟨hfr.same.trans hI.same, ?_, ?_⟩
    · rw [← hfr.log]; exact hI.pre
    · intro ev hev
      rw [← newLog_congr hfr.log] at hev
      exact hI.events ev hev

theorem FeedForward_calls_nonempty (g : FactorGraph) (targets : List VarPtr)
    (feed_dict : Dict RawData) (hfl : FactorListIndexed g) :
    ∀ ev ∈ newLog g (finalState2 (FeedForward g targets feed_dict 1)),
      (∃ n d, ev = Event.setRef n d) ∨
      ∃ cur e, g.factor_dict.lookup cur = some e ∧ ev = forwardCall g cur e ∧
        g.operands cur ≠ [] := by
  obtain ⟨hs, hpre, hev⟩ := prepareForward_log g targets feed_dict
  rcases run_cases (prepareForward g targets feed_dict) with ⟨e, hp⟩ | ⟨g1, hp⟩
  · have hff : FeedForward g targets feed_dict 1 = .error e := by
      unfold FeedForward; rw [hp]
    rw [hp] at hev
    rw [hff]
    intro ev h
    exact Or.inl (hev ev h)
  · rw [hp] at hs hpre hev
    have hs : SameRegistry g g1 := hs
    have hpre : g.log <+: g1.log := hpre
    have hfl1 : FactorListIndexed g1 := by
      unfold FactorListIndexed
      rw [hs.factor_dict, hs.factor_list]
      exact hfl
    obtain ⟨hN, hL⟩ := SequentialForward_nonempty g1 hfl1
    rw [FeedForward_split g targets feed_dict g1 hp, newLog_trans hpre hL.pre]
    intro ev h
    rcases List.mem_append.mp h with h | h
    · exact Or.inl (hev ev h)
    · right
      rw [hL.log] at h
      obtain ⟨cur, hcur, hin⟩ := List.mem_flatMap.mp h
      have hne := (hN.queued cur (List.mem_append_left _ hcur)).2
      unfold expectedForward at hin
      cases hl : g1.factor_dict.lookup cur with
      | none => rw [hl] at hin; cases hin
      | some e =>
        rw [hl] at hin
        dsimp only at hin
        cases ha : anyRequired g1 (g1.outputs cur) with
        | error err => rw [ha] at hin; cases hin
        | ok b =>
          rw [ha] at hin
          cases b with
          | false => cases hin
          | true =>
            rw [List.mem_singleton] at hin
            refine ⟨cur, e, by rw [← hs.factor_dict]; exact hl, ?_, ?_⟩
            · rw [hin]
              unfold forwardCall
              rw [hs.operands_eq, hs.outputs_eq]
            · rw [← hs.operands_eq]; exact hne

theorem FeedForward_taken_nonempty (g : FactorGraph) (targets : List VarPtr)
    (feed_dict : Dict RawData) (hfl : FactorListIndexed g) (g1 : FactorGraph)
    (hp : prepareForward g targets feed_dict = .ok g1) :
    ∀ fn ∈ forwardOrder g1 ++ (finalState2 (FeedForward g targets feed_dict 1)).q,
      FacRegistered g fn ∧ g.operands fn ≠ [] := by
  obtain ⟨hs, _, _⟩ := prepareForward_log g targets feed_dict
  rw [hp] at hs
  have hs : SameRegistry g g1 := hs
  have hfl1 : FactorListIndexed g1 := by
    unfold FactorListIndexed
    rw [hs.factor_dict, hs.factor_list]
    exact hfl
  obtain ⟨hN, _⟩ := SequentialForward_nonempty g1 hfl1
  rw [FeedForward_split g targets feed_dict g1 hp]
  intro fn hfn
  obtain ⟨h1, h2⟩ := hN.queued fn hfn
  refine ⟨?_, by rw [← hs.operands_eq]; exact h2⟩
  unfold FacRegistered at h1 ⊢
  rw [← hs.factor_dict]; exact h1


theorem FeedForward_no_empty_call (g : FactorGraph) (targets : List VarPtr)
    (feed_dict : Dict RawData) (hfl : FactorListIndexed g) (cur : String) (e : Nat × Factor)
    (hops : g.operands cur = []) :
    forwardCall g cur e ∉ newLog g (finalState2 (FeedForward g targets feed_dict 1)) := by
  intro hin
  rcases FeedForward_calls_nonempty g targets feed_dict hfl _ hin with
    ⟨n, d, h⟩ | ⟨cur', e', _, h, hne⟩
  · unfold forwardCall at h; cases h
  · unfold forwardCall at h
    injection h with _ h2 _
    rw [hops] at h2
    exact hne h2.symm

theorem unproduced_target_not_ready (g : FactorGraph) (targets : List VarPtr)
    (feed_dict : Dict RawData) (hfl : FactorListIndexed g) (hw : WellFormed g)
    (ht : ∀ p ∈ targets, VarRegistered g p.name) (hf : ∀ p ∈ feed_dict, VarRegistered g p.1)
    (t : String) (hfed : ∀ p ∈ feed_dict, p.1 ≠ t) (hpre : ∀ st ∈ g.ready_dict, st.1 ≠ t)
    (hprod : ∀ fe ∈ g.factor_dict, (∃ p ∈ g.outputs fe.1, p.name = t) → g.operands fe.1 = []) :
    ¬ Ready (finalState2 (FeedForward g targets feed_dict 1)) t := by
  obtain ⟨gD, g1, _, hp, hs1, _, _, _, _, _, _, _, hinit⟩ :=
    prepareForward_spec g targets feed_dict hw.vars hw.edgeVars hw.preReady ht hf
  have hsame := (FeedForward_events g targets feed_dict 1).1
  rintro ⟨i, hi, hr⟩
  rw [hsame.varIdx_eq] at hi
  rcases FeedForward_ready g targets feed_dict 1 g1 hp i hr with h | ⟨cur, e, he, hin, p, hp1, hp2⟩
  · rcases (hinit i).mp h with ⟨st, hst, hidx⟩ | ⟨p, hp1, hidx⟩
    · exact hpre st hst (varIdx_inj hw.vars hidx hi)
    · exact hfed p hp1 (varIdx_inj hw.vars hidx hi)
  · have hname : p.name = t := varIdx_inj hw.vars hp2 hi
    have hops := hprod (cur, e) (Dict.mem_of_lookup _ _ _ he) ⟨p, hp1, hname⟩
    exact FeedForward_no_empty_call g targets feed_dict hfl cur e hops hin

/-- C20. Operations without operands are not scheduled. Over a registry whose
dense operation list holds every registered operation at its index, for every
`Forward` query with one thread: every name the queue loop takes from the
queue, and every name left in the queue when the query ends, is a registered
operation with an operand; every call logged is a `SetRef` or the `Forward`
call of a registered operation with an operand, and the `Forward` call of an
operation without operands is not logged. Consequently, on a well-formed
registry, with registered targets and fed names, a target that is not fed and
not pre-ready and such that every operation with the target among its outputs
has an empty operand list is not ready when the query ends, and the query
fails with the error `not ready` of a target. -/
theorem empty_operands_never_scheduled (g : FactorGraph) (targets : List VarPtr)
    (feed_dict : Dict RawData) (hfl : FactorListIndexed g) :
    (∀ g1, prepareForward g targets feed_dict = .ok g1 →
      ∀ fn ∈ forwardOrder g1 ++ (finalState2 (FeedForward g targets feed_dict 1)).q,
        FacRegistered g fn ∧ g.operands fn ≠ []) ∧
    (∀ ev ∈ newLog g (finalState2 (FeedForward g targets feed_dict 1)),
      (∃ n d, ev = Event.setRef n d) ∨
      ∃ cur e, g.factor_dict.lookup cur = some e ∧ ev = forwardCall g cur e ∧
        g.operands cur ≠ []) ∧
    (∀ cur e, g.factor_dict.lookup cur = some e → g.operands cur = [] →
      forwardCall g cur e ∉ newLog g (finalState2 (FeedForward g targets feed_dict 1))) ∧
    (WellFormed g → (∀ p ∈ targets, VarRegistered g p.name) →
      (∀ p ∈ feed_dict, VarRegistered g p.1) →
      ∀ t ∈ targets, (∀ p ∈ feed_dict, p.1 ≠ t.name) → (∀ st ∈ g.ready_dict, st.1 ≠ t.name) →
        (∀ fe ∈ g.factor_dict, (∃ p ∈ g.outputs fe.1, p.name = t.name) →
          g.operands fe.1 = []) →
        ¬ Ready (finalState2 (FeedForward g targets feed_dict 1)) t.name ∧
        ∃ p ∈ targets,
          failure (FeedForward g targets feed_dict 1) = some (Err.notReady p.name)) := by
  refine ⟨fun g1 hp => FeedForward_taken_nonempty g targets feed_dict hfl g1 hp,
    FeedForward_calls_nonempty g targets feed_dict hfl,
    fun cur e _ hops => FeedForward_no_empty_call g targets feed_dict hfl cur e hops, ?_⟩
  intro hw ht hf t htm hfed hpre hprod
  have hnr := unproduced_target_not_ready g targets feed_dict hfl hw ht hf t.name hfed hpre
    hprod
  refine ⟨hnr, ?_⟩
  obtain ⟨gD, g1, _, hp, hs1, _, hl1, hl2, _, _, _, _, _⟩ :=
    prepareForward_spec g targets feed_dict hw.vars hw.edgeVars hw.preReady ht hf
  obtain ⟨g2, m, e2, hI2, _⟩ := SequentialForward_returns hw g1 hs1 hl2 hl1
  have hfin : finalState2 (FeedForward g targets feed_dict 1) = g2 := by
    rw [FeedForward_split g targets feed_dict g1 hp, e2]; rfl
  rw [hfin] at hnr
  rcases checkReady_spec hw.vars g2 hI2.same.var_dict hI2.lenReady targets ht with
    ⟨hall, _⟩ | ⟨p, hpm, _, hc⟩
  · exact absurd (hall t htm) hnr
  · refine ⟨p, hpm, ?_⟩
    unfold FeedForward
    rw [hp]
    dsimp only
    rw [if_pos rfl, e2]
    dsimp only
    rw [hc]
    rfl


/-- The registry `c = init()`: the query `Forward({c}, {})` takes no name from
the queue and fails with `not ready` for `c`. -/
theorem empty_operands_never_scheduled_witness :
    FactorListIndexed Example.source ∧
    failure (FeedForward Example.source [Example.c] [] 1) = some (Err.notReady "c") ∧
    forwardCall Example.source "init" (0, Example.opInit) ∉
      newLog Example.source (finalState2 (FeedForward Example.source [Example.c] [] 1)) := by
  have h := empty_operands_never_scheduled Example.source [Example.c] [] (by decide)
  refine ⟨by decide, ?_, h.2.2.1 "init" (0, Example.opInit) rfl rfl⟩
  obtain ⟨_, p, hp, he⟩ := h.2.2.2 (by decide) (by decide) (by decide) Example.c
    (List.mem_singleton.mpr rfl) (by decide) (by decide) (by decide)
  rw [List.mem_singleton] at hp
  subst hp
  exact he

/-! ## The backward pass on a registry without fan-out -/

theorem settled_append (g : FactorGraph) (St : List String) (v fn : String) :
    settled g (St ++ [v]) fn =
      settled g St fn + (g.producers v).countP (fun f => f.name == fn) := by
  unfold settled
  simp

theorem countP_cons_key {α : Type} (key : α → String) (v : String) (St : List String)
    (hv : v ∉ St) (L : List α) :
    L.countP (fun p => key p == v) + L.countP (fun p => decide (key p ∈ St)) =
      L.countP (fun p => decide (key p ∈ v :: St)) := by
  induction L with
  | nil => rfl
  | cons p L ih =>
    simp only [List.countP_cons]
    by_cases h1 : key p = v
    · have ha : (key p == v) = true := by simpa using h1
      have hb : decide (key p ∈ St) = false := by
        have : key p ∉ St := by rw [h1]; exact hv
        simpa using this
      have hc : decide (key p ∈ v :: St) = true := by
        have : key p ∈ v :: St := by rw [h1]; exact List.mem_cons_self _ _
        simpa using this
      rw [ha, hb, hc]
      simp only [if_true, Bool.false_eq_true, if_false]
      omega
    · have ha : (key p == v) = false := by simpa using h1
      by_cases h2 : key p ∈ St
      · have hb : decide (key p ∈ St) = true := by simpa using h2
        have hc : decide (key p ∈ v :: St) = true := by
          have : key p ∈ v :: St := List.mem_cons_of_mem _ h2
          simpa using this
        rw [ha, hb, hc]
        simp only [if_true, Bool.false_eq_true, if_false]
        omega
      · have hb : decide (key p ∈ St) = false := by simpa using h2
        have hc : decide (key p ∈ v :: St) = false := by
          have : key p ∉ v :: St := by
            intro h
            rcases List.mem_cons.mp h with h | h
            · exact h1 h
            · exact h2 h
          simpa using this
        rw [ha, hb, hc]
        simp only [Bool.false_eq_true, if_false]
        omega

theorem sum_countP_nodup {α : Type} (key : α → String) (L : List α) :
    ∀ St : List String, St.Nodup →
      (St.map (fun v => L.countP (fun p => key p == v))).sum =
        L.countP (fun p => decide (key p ∈ St)) := by
  intro St
  induction St with
  | nil => intro _; simp
  | cons v St ih =>
    intro hnd
    rw [List.nodup_cons] at hnd
    rw [List.map_cons, List.sum_cons, ih hnd.2]
    exact countP_cons_key key v St hnd.1 L

theorem countP_imp_eq {α : Type} (P Q : α → Bool) (L : List α)
    (himp : ∀ a ∈ L, P a = true → Q a = true) (heq : L.countP P = L.countP Q) :
    ∀ a ∈ L, Q a = true → P a = true := by
  induction L with
  | nil => intro a ha; cases ha
  | cons b L ih =>
    have hle : L.countP P ≤ L.countP Q :=
      List.countP_mono_left (fun a ha => himp a (List.mem_cons_of_mem _ ha))
    simp only [List.countP_cons] at heq
    intro a ha hq
    cases hP : P b with
    | true =>
      have hQ := himp b (List.mem_cons_self _ _) hP
      rw [hP, hQ] at heq
      rcases List.mem_cons.mp ha with rfl | ha
      · exact hP
      · exact ih (fun a ha => himp a (List.mem_cons_of_mem _ ha)) (by simpa using heq) a ha hq
    | false =>
      rw [hP] at heq
      cases hQ : Q b with
      | true =>
        rw [hQ] at heq
        simp at heq
        omega
      | false =>
        rw [hQ] at heq
        rcases List.mem_cons.mp ha with rfl | ha
        · rw [hQ] at hq; cases hq
        · exact ih (fun a ha => himp a (List.mem_cons_of_mem _ ha)) (by simpa using heq)
            a ha hq

theorem countP_imp_lt {α : Type} (P Q : α → Bool) (L : List α)
    (hlt : L.countP P < L.countP Q) : ∃ a ∈ L, Q a = true ∧ P a = false := by
  induction L with
  | nil => simp at hlt
  | cons b L ih =>
    simp only [List.countP_cons] at hlt
    cases hP : P b with
    | true =>
      rw [hP] at hlt
      have : L.countP P < L.countP Q := by
        cases hQ : Q b with
        | true => rw [hQ] at hlt; simpa using hlt
        | false => rw [hQ] at hlt; simp at hlt; omega
      obtain ⟨a, ha, h⟩ := ih this
      exact ⟨a, List.mem_cons_of_mem _ ha, h⟩
    | false =>
      rw [hP] at hlt
      cases hQ : Q b with
      | true => exact ⟨b, List.mem_cons_self _ _, hQ, hP⟩
      | false =>
        rw [hQ] at hlt
        obtain ⟨a, ha, h⟩ := ih (by simpa using hlt)
        exact ⟨a, List.mem_cons_of_mem _ ha, h⟩

theorem settled_eq {g : FactorGraph} (hcons : ConsistentAdjacency g) (St : List String)
    (hnd : St.Nodup) (hreg : ∀ v ∈ St, VarRegistered g v) (fn : String)
    (hfn : FacRegistered g fn) :
    settled g St fn = (g.outputs fn).countP (fun p => decide (p.name ∈ St)) := by
  obtain ⟨j, e, he, _, _⟩ := facIdx_of_registered hfn
  have hfe := Dict.mem_of_lookup _ _ _ he
  rw [← sum_countP_nodup (fun p : Variable => p.name) (g.outputs fn) St hnd]
  unfold settled
  congr 1
  apply List.map_congr_left
  intro v hv
  obtain ⟨i, hi⟩ := varIdx_of_registered (hreg v hv)
  obtain ⟨ev, hev, _⟩ := varIdx_mem hi
  exact hcons.2 (v, ev) hev (fn, e) hfe

theorem settled_le {g gD : FactorGraph} (hcons : ConsistentAdjacency g) (St : List String)
    (hnd : St.Nodup) (hreg : ∀ v ∈ St, VarRegistered g v) (hreq : ∀ v ∈ St, Marked gD v)
    (fn : String) (hfn : FacRegistered g fn) :
    settled g St fn ≤ requiredOutputs g gD fn := by
  rw [settled_eq hcons St hnd hreg fn hfn]
  unfold requiredOutputs
  apply List.countP_mono_left
  intro p _ hp
  have hp : p.name ∈ St := by simpa using hp
  simpa using hreq _ hp

theorem settled_full {g gD : FactorGraph} (hcons : ConsistentAdjacency g) (St : List String)
    (hnd : St.Nodup) (hreg : ∀ v ∈ St, VarRegistered g v) (hreq : ∀ v ∈ St, Marked gD v)
    (fn : String) (hfn : FacRegistered g fn)
    (h : settled g St fn = requiredOutputs g gD fn) :
    ∀ p ∈ g.outputs fn, Marked gD p.name → p.name ∈ St := by
  rw [settled_eq hcons St hnd hreg fn hfn] at h
  unfold requiredOutputs at h
  intro p hp hm
  have := countP_imp_eq _ _ (g.outputs fn)
    (fun a _ ha => by
      have ha : a.name ∈ St := by simpa using ha
      simpa using hreq _ ha) h p hp (by simpa using hm)
  simpa using this

theorem settled_lt {g gD : FactorGraph} (hcons : ConsistentAdjacency g) (St : List String)
    (hnd : St.Nodup) (hreg : ∀ v ∈ St, VarRegistered g v)
    (fn : String) (hfn : FacRegistered g fn)
    (h : settled g St fn < requiredOutputs g gD fn) :
    ∃ p ∈ g.outputs fn, Marked gD p.name ∧ p.name ∉ St := by
  rw [settled_eq hcons St hnd hreg fn hfn] at h
  unfold requiredOutputs at h
  obtain ⟨p, hp, h1, h2⟩ := countP_imp_lt _ _ (g.outputs fn) h
  exact ⟨p, hp, by simpa using h1, by simpa using h2⟩


theorem BackCore.of_state {g gD : FactorGraph} {hist St : List String} {l : FactorList}
    {x y : FactorGraph} (h : BackCore g gD hist St l x) (hs : SameRegistry g y)
    (h2 : y.n_pending = x.n_pending) (h3 : y.q = x.q) : BackCore g gD hist St l y :=
  ⟨hs, by rw [h2]; exact h.eq, h.pend, by rw [h3]; exact h.nec, by rw [h2, h3]; exact h.enq,
    by rw [h2, h3]; exact h.spent, by rw [h3]; exact h.nodup⟩

theorem BackCore.taking {g gD : FactorGraph} {hist St : List String} {l : FactorList}
    {x : FactorGraph} (h : BackCore g gD hist St l x) {cur : String} {rest : List String}
    (hq : x.q = cur :: rest) : BackCore g gD (hist ++ [cur]) St l { x with q := rest } := by
  have e : (hist ++ [cur]) ++ rest = hist ++ x.q := by rw [hq]; simp
  refine ⟨h.same.trans (same_scratch x _ _ _ _ _), h.eq, h.pend, ?_, ?_, ?_, ?_⟩
  · show ∀ fn ∈ (hist ++ [cur]) ++ rest, _
    rw [e]; exact h.nec
  · show ∀ fn j n, _ → _ → _ → _ → fn ∈ (hist ++ [cur]) ++ rest
    rw [e]; exact h.enq
  · show ∀ fn ∈ (hist ++ [cur]) ++ rest, _
    rw [e]; exact h.spent
  · show ((hist ++ [cur]) ++ rest).Nodup
    rw [e]; exact h.nodup

theorem settled_pos (g : FactorGraph) (St : List String) (v : String) (hv : v ∈ St)
    (f : Factor) (hf : f ∈ g.producers v) : 1 ≤ settled g St f.name := by
  unfold settled
  have h1 : 0 < (g.producers v).countP (fun f' => f'.name == f.name) :=
    List.countP_pos_iff.mpr ⟨f, hf, by simp⟩
  have h2 : (g.producers v).countP (fun f' => f'.name == f.name) ∈
      St.map (fun v => (g.producers v).countP (fun f' => f'.name == f.name)) :=
    List.mem_map.mpr ⟨v, hv, rfl⟩
  have h3 := List.single_le_sum (fun _ _ => Nat.zero_le _) _ h2
  omega

theorem decrPending_core {g gD : FactorGraph} (hfac : FactorsIndexed g)
    (hcons : ConsistentAdjacency g) (hist St : List String) (hnd : St.Nodup)
    (hreg : ∀ v ∈ St, VarRegistered g v) (hreq : ∀ v ∈ St, Marked gD v)
    (f : Factor) (l : FactorList) (x x' : FactorGraph)
    (h : BackCore g gD hist St (f :: l) x) (he : decrPending x f = .ok x') :
    BackCore g gD hist St l x' := by
  obtain ⟨j, n, hj, hn, hcase⟩ := decrPending_shape he
  rw [h.same.facIdx_eq] at hj
  have hfreg : FacRegistered g f.name := registered_of_facIdx hj
  have honce := decrPending_once g hist (fun _ => True) (fun _ _ _ _ => trivial) x f
    ⟨⟨h.same.factor_dict, h.nodup, h.spent⟩, trivial⟩
  rw [he] at honce
  have honce : OnceInv g hist x' := honce.1
  have hget : ∀ j', (x.n_pending.set j (n - 1))[j']? =
      if j' = j then some (n - 1) else x.n_pending[j']? :=
    fun j' => getElem?_set_int _ _ _ _ _ hn
  have heq : ∀ fn j', FacIdx g fn = .ok j' → ∃ n', (x.n_pending.set j (n - 1))[j']? = some n' ∧
      n' + (settled g St fn : Int) =
        (requiredOutputs g gD fn : Int) + (l.countP (fun f => f.name == fn) : Int) := by
    intro fn j' hj'
    obtain ⟨n0, hn0, h0⟩ := h.eq fn j' hj'
    rw [hget]
    by_cases hfn : fn = f.name
    · subst hfn
      rw [hj] at hj'
      injection hj' with hj'
      subst hj'
      rw [if_pos rfl]
      rw [hn] at hn0
      injection hn0 with hn0
      subst hn0
      refine ⟨n - 1, rfl, ?_⟩
      rw [List.countP_cons, if_pos (by simp)] at h0
      push_cast at h0
      omega
    · have hjj : j' ≠ j := fun hjj => hfn (facIdx_inj hfac hj' (by rw [hjj]; exact hj))
      rw [if_neg hjj]
      refine ⟨n0, hn0, ?_⟩
      have hne : ¬ ((f.name == fn) = true) := by
        intro hc
        have hc' : f.name = fn := by simpa using hc
        exact hfn hc'.symm
      rw [List.countP_cons, if_neg hne, Nat.add_zero] at h0
      exact h0
  have hpend : ∀ f' ∈ l, ∃ v ∈ St, f' ∈ g.producers v :=
    fun f' hf' => h.pend f' (List.mem_cons_of_mem _ hf')
  have henq : ∀ (q' : List String), (∀ fn ∈ hist ++ x.q, fn ∈ hist ++ q') →
      (n - 1 = 0 → f.name ∈ hist ++ q') →
      ∀ fn j' n', FacIdx g fn = .ok j' → (x.n_pending.set j (n - 1))[j']? = some n' →
        1 ≤ requiredOutputs g gD fn → n' ≤ 0 → fn ∈ hist ++ q' := by
    intro q' hsub hnew fn j' n' hj' hn' hc hle
    rw [hget] at hn'
    by_cases hjj : j' = j
    · subst hjj
      rw [if_pos rfl] at hn'
      injection hn' with hn'
      have hfn : fn = f.name := facIdx_inj hfac hj' hj
      subst hfn
      by_cases h0 : n - 1 = 0
      · exact hnew h0
      · exact hsub _ (h.enq _ j' n hj' hn hc (by omega))
    · rw [if_neg hjj] at hn'
      exact hsub _ (h.enq fn j' n' hj' hn' hc hle)
  rcases hcase with ⟨h0, rfl⟩ | ⟨h0, rfl⟩
  · have e : hist ++ (x.q ++ [f.name]) = (hist ++ x.q) ++ [f.name] := by simp
    refine ⟨h.same.trans (same_scratch x _ _ _ _ _), heq, hpend, ?_, ?_, honce.spent,
      honce.nodup⟩
    · show ∀ fn ∈ hist ++ (x.q ++ [f.name]), _
      rw [e]
      intro fn hfn
      rcases List.mem_append.mp hfn with hfn | hfn
      · exact h.nec fn hfn
      · rw [List.mem_singleton] at hfn
        subst hfn
        obtain ⟨n0, hn0, h1⟩ := h.eq f.name j hj
        rw [hn] at hn0
        injection hn0 with hn0
        subst hn0
        rw [List.countP_cons, if_pos (by simp)] at h1
        push_cast at h1
        have hle : settled g St f.name ≤ requiredOutputs g gD f.name :=
          settled_le hcons St hnd hreg hreq f.name hfreg
        obtain ⟨v, hv, hfv⟩ := h.pend f (List.mem_cons_self _ _)
        have hpos := settled_pos g St v hv f hfv
        have hfull : settled g St f.name = requiredOutputs g gD f.name := by omega
        exact ⟨by omega, settled_full hcons St hnd hreg hreq f.name hfreg hfull⟩
    · exact henq (x.q ++ [f.name])
        (fun fn hfn => by rw [e]; exact List.mem_append_left _ hfn)
        (fun _ => by rw [e]; exact List.mem_append_right _ (List.mem_singleton.mpr rfl))
  · exact ⟨h.same.trans (same_scratch x _ _ _ _ _), heq, hpend, h.nec,
      henq x.q (fun _ hfn => hfn) (fun hc => absurd hc h0), honce.spent, honce.nodup⟩

theorem decrPendings_core {g gD : FactorGraph} (hfac : FactorsIndexed g)
    (hcons : ConsistentAdjacency g) (hist St : List String) (hnd : St.Nodup)
    (hreg : ∀ v ∈ St, VarRegistered g v) (hreq : ∀ v ∈ St, Marked gD v) :
    ∀ (l : FactorList) (x x' : FactorGraph), BackCore g gD hist St l x →
      l.foldlM decrPending x = .ok x' → BackCore g gD hist St [] x' := by
  intro l
  induction l with
  | nil =>
    intro x x' h he
    have : x = x' := by
      have he : (Except.ok x : Run FactorGraph) = .ok x' := he
      injection he
    rw [← this]; exact h
  | cons f l ih =>
    intro x x' h he
    rw [List.foldlM_cons] at he
    rcases run_cases (decrPending x f) with ⟨e, hf⟩ | ⟨x1, hf⟩
    · rw [hf] at he; cases he
    · rw [hf] at he
      exact ih x1 x' (decrPending_core hfac hcons hist St hnd hreg hreq f l x x1 h hf) he


theorem settled_mono (g : FactorGraph) (St : List String) (v fn : String) :
    settled g St fn ≤ settled g (St ++ [v]) fn := by
  rw [settled_append]; omega

theorem backOperand_core {g gD : FactorGraph} (hfac : FactorsIndexed g)
    (hcons : ConsistentAdjacency g) (hmreg : ∀ v, Marked gD v → VarRegistered g v)
    (hist St : List String) (hnd : St.Nodup) (hreq : ∀ v ∈ St, Marked gD v)
    (p : VarPtr) (hnew : p.name ∉ St) (hm : Marked gD p.name) (x x' : FactorGraph)
    (h : BackCore g gD hist St [] x) (he : backOperand x p = .ok x') :
    BackCore g gD hist (St ++ [p.name]) [] x' := by
  have hs1 : SameRegistry g (x.touchVar p.name) := h.same.trans (SameRegistry.of_touchVar x _)
  have hpr : (x.touchVar p.name).producers p.name = g.producers p.name := hs1.producers_eq _
  unfold backOperand at he
  dsimp only at he
  rw [hpr] at he
  have hnd' : (St ++ [p.name]).Nodup :=
    List.Nodup.append hnd (List.nodup_singleton _) (by
      intro a ha hb
      rw [List.mem_singleton] at hb
      subst hb
      exact hnew ha)
  have hreq' : ∀ v ∈ St ++ [p.name], Marked gD v := by
    intro v hv
    rcases List.mem_append.mp hv with hv | hv
    · exact hreq v hv
    · rw [List.mem_singleton] at hv
      subst hv
      exact hm
  have h1 : BackCore g gD hist (St ++ [p.name]) (g.producers p.name) (x.touchVar p.name) := by
    refine ⟨hs1, ?_, ?_, ?_, h.enq, h.spent, h.nodup⟩
    · intro fn j hj
      obtain ⟨n, hn, h0⟩ := h.eq fn j hj
      refine ⟨n, hn, ?_⟩
      rw [settled_append]
      simp only [List.countP_nil] at h0
      push_cast at h0 ⊢
      omega
    · intro f hf
      exact ⟨p.name, List.mem_append_right _ (List.mem_singleton.mpr rfl), hf⟩
    · intro fn hfn
      obtain ⟨h1, h2⟩ := h.nec fn hfn
      exact ⟨h1, fun q hq hmq => List.mem_append_left _ (h2 q hq hmq)⟩
  exact decrPendings_core hfac hcons hist (St ++ [p.name]) hnd'
    (fun v hv => hmreg v (hreq' v hv)) hreq' _ _ _ h1 he

theorem backOperands_core {g gD : FactorGraph} (hfac : FactorsIndexed g)
    (hcons : ConsistentAdjacency g) (hmreg : ∀ v, Marked gD v → VarRegistered g v)
    (hist : List String) :
    ∀ (ps : VarList) (St : List String) (x x' : FactorGraph),
      BackCore g gD hist St [] x → (St ++ ps.map (fun p => p.name)).Nodup →
      (∀ v ∈ St, Marked gD v) → (∀ p ∈ ps, Marked gD p.name) →
      ps.foldlM backOperand x = .ok x' →
      BackCore g gD hist (St ++ ps.map (fun p => p.name)) [] x' := by
  intro ps
  induction ps with
  | nil =>
    intro St x x' h _ _ _ he
    have : x = x' := by
      have he : (Except.ok x : Run FactorGraph) = .ok x' := he
      injection he
    rw [← this, List.map_nil, List.append_nil]; exact h
  | cons p ps ih =>
    intro St x x' h hnd hreq hm he
    rw [List.foldlM_cons] at he
    rcases run_cases (backOperand x p) with ⟨e, hf⟩ | ⟨x1, hf⟩
    · rw [hf] at he; cases he
    · rw [hf] at he
      have e1 : St ++ (p :: ps).map (fun p => p.name) =
          (St ++ [p.name]) ++ ps.map (fun p => p.name) := by simp
      rw [e1] at hnd ⊢
      have hndS : St.Nodup := (List.Nodup.of_append_left hnd).of_append_left
      have hnew : p.name ∉ St := by
        intro hc
        have h1 := List.Nodup.of_append_left hnd
        rw [List.nodup_append] at h1
        exact h1.2.2 hc (List.mem_singleton.mpr rfl)
      have hmp := hm p (List.mem_cons_self _ _)
      have h1 := backOperand_core hfac hcons hmreg hist St hndS hreq p hnew hmp x x1 h hf
      exact ih (St ++ [p.name]) x1 x' h1 hnd
        (fun v hv => by
          rcases List.mem_append.mp hv with hv | hv
          · exact hreq v hv
          · rw [List.mem_singleton] at hv
            subst hv
            exact hmp)
        (fun q hq => hm q (List.mem_cons_of_mem _ hq)) he

theorem backOperands_log : ∀ (ps : VarList) (x x' : FactorGraph),
    ps.foldlM backOperand x = .ok x' → x'.log = x.log := by
  intro ps x x' he
  have h := backOperands_quiet x ps
  rw [he] at h
  exact h.2


theorem requiredOutputs_pos (g gD : FactorGraph) (fn : String) :
    1 ≤ requiredOutputs g gD fn ↔ ∃ p ∈ g.outputs fn, Marked gD p.name := by
  unfold requiredOutputs
  constructor
  · intro h
    obtain ⟨p, hp, hm⟩ := List.countP_pos_iff.mp h
    exact ⟨p, hp, by simpa using hm⟩
  · rintro ⟨p, hp, hm⟩
    exact List.countP_pos_iff.mpr ⟨p, hp, by simpa using hm⟩

theorem consumer_of_operand {g : FactorGraph} (hw : WellFormed g)
    (hcons : ConsistentAdjacency g) {fn v : String} (hfn : FacRegistered g fn) {p : Variable}
    (hp : p ∈ g.operands fn) (hv : p.name = v) : ∃ f ∈ g.consumers v, f.name = fn := by
  obtain ⟨j, e, he, _, _⟩ := facIdx_of_registered hfn
  have hfe := Dict.mem_of_lookup _ _ _ he
  have hreg : VarRegistered g v := by rw [← hv]; exact operands_registered hw.edgeVars hp
  obtain ⟨i, hi⟩ := varIdx_of_registered hreg
  obtain ⟨ev, hev, _⟩ := varIdx_mem hi
  have hc := hcons.1 (v, ev) hev (fn, e) hfe
  have hpos : 0 < (g.operands fn).countP (fun q => q.name == v) :=
    List.countP_pos_iff.mpr ⟨p, hp, by simpa using hv⟩
  rw [← hc] at hpos
  obtain ⟨f, hf, hfn⟩ := List.countP_pos_iff.mp hpos
  exact ⟨f, hf, by simpa using hfn⟩

theorem backwardOne_ok_shape {y x' : FactorGraph} {cur : String}
    (he : backwardOne y cur = .ok x') :
    ∃ y2 evs, SameRegistry y y2 ∧ y2.n_pending = y.n_pending ∧ y2.q = y.q ∧
      y2.log = y.log ++ Event.print cur :: evs ∧ dequeued evs = [] ∧
      (y2.operands cur).foldlM backOperand y2 = .ok x' := by
  unfold backwardOne at he
  dsimp only at he
  cases hl : y.factor_dict.lookup cur with
  | none => rw [hl] at he; cases he
  | some e =>
    rw [hl] at he
    dsimp only at he
    split at he
    · exact ⟨_, [Event.backward e.2 _ _],
        ((same_scratch y _ _ _ _ _).trans (SameRegistry.of_touchFac _ cur)).trans
          (same_scratch _ _ _ _ _ _), rfl, rfl, List.append_assoc _ _ _, rfl, he⟩
    · exact ⟨_, [], (same_scratch y _ _ _ _ _).trans (SameRegistry.of_touchFac _ cur),
        rfl, rfl, rfl, rfl, he⟩

theorem BackSetting.seed_not_operand {g gD : FactorGraph} {targets : List VarPtr}
    (hS : BackSetting g gD targets) {t : VarPtr} (ht : t ∈ targets) {fn : String}
    (hfn : FacRegistered g fn) {p : Variable} (hp : p ∈ g.operands fn) :
    p.name ≠ t.name := by
  intro hc
  obtain ⟨f, hf, _⟩ := consumer_of_operand hS.wf hS.cons hfn hp hc
  have := hS.top t ht
  rw [List.length_eq_zero] at this
  rw [this] at hf
  cases hf


theorem backwardOne_loop {g gD b : FactorGraph} {targets : List VarPtr}
    (hS : BackSetting g gD targets) (hist St : List String) (x x' : FactorGraph)
    (cur : String) (rest : List String) (h : BackLoop g gD b targets hist St x)
    (hq : x.q = cur :: rest) (he : backwardOne { x with q := rest } cur = .ok x') :
    BackLoop g gD b targets (hist ++ [cur])
      (St ++ (g.operands cur).map (fun p => p.name)) x' := by
  have hcurq : cur ∈ hist ++ x.q := by
    rw [hq]; exact List.mem_append_right _ (List.mem_cons_self _ _)
  have hreg_of : ∀ fn ∈ hist ++ x.q, FacRegistered g fn := by
    intro fn hfn
    obtain ⟨j, n, hj, _, _⟩ := h.core.spent fn hfn
    exact registered_of_facIdx hj
  have hnec_of : ∀ fn ∈ hist ++ x.q, ∃ p ∈ g.outputs fn, Marked gD p.name :=
    fun fn hfn => (requiredOutputs_pos g gD fn).mp (h.core.nec fn hfn).1
  have hcreg := hreg_of cur hcurq
  have hcnec := hnec_of cur hcurq
  have hcops := hS.closed cur hcreg hcnec
  have hnotin : cur ∉ hist := by
    intro hc
    have hnd := h.core.nodup
    rw [hq, List.nodup_append] at hnd
    exact hnd.2.2 hc (List.mem_cons_self _ _)
  have hdisj : ∀ v ∈ St, v ∉ (g.operands cur).map (fun p => p.name) := by
    intro v hv hc
    obtain ⟨p, hp, hpv⟩ := List.mem_map.mp hc
    rcases h.src v hv with ⟨t, ht, htv⟩ | ⟨G, hG, p', hp', hpv'⟩
    · exact hS.seed_not_operand ht hcreg hp (hpv.trans htv.symm)
    · have hGq : G ∈ hist ++ x.q := List.mem_append_left _ hG
      have hne : G ≠ cur := fun hc => hnotin (hc ▸ hG)
      exact hS.apart G cur (hreg_of G hGq) hcreg hne (hnec_of G hGq) hcnec p' hp' p hp
        (hpv'.trans hpv.symm)
  have hnd' : (St ++ (g.operands cur).map (fun p => p.name)).Nodup :=
    List.Nodup.append h.stNodup (hS.once cur hcreg hcnec) (fun a ha hb => hdisj a ha hb)
  obtain ⟨y2, evs, hs2, hnp2, hq2, hlog2, hdq2, hfold⟩ := backwardOne_ok_shape he
  have hsy : SameRegistry g y2 := (h.core.same.trans (same_scratch x _ _ _ _ _)).trans hs2
  have hc2 : BackCore g gD (hist ++ [cur]) St [] y2 :=
    (h.core.taking hq).of_state hsy hnp2 hq2
  rw [hsy.operands_eq] at hfold
  have hc3 := backOperands_core hS.wf.factors hS.cons hS.mreg (hist ++ [cur])
    (g.operands cur) St y2 x' hc2 hnd' h.stReq hcops hfold
  have hlog : x'.log = x.log ++ Event.print cur :: evs := by
    rw [backOperands_log _ _ _ hfold, hlog2]
  refine ⟨hc3, hnd', ?_, ?_, ⟨?_, ?_⟩, ?_, ?_, ?_⟩
  · intro v hv
    rcases List.mem_append.mp hv with hv | hv
    · exact h.stReq v hv
    · obtain ⟨p, hp, rfl⟩ := List.mem_map.mp hv
      exact hcops p hp
  · intro v hv
    rcases List.mem_append.mp hv with hv | hv
    · rcases h.src v hv with h1 | ⟨G, hG, h2⟩
      · exact Or.inl h1
      · exact Or.inr ⟨G, List.mem_append_left _ hG, h2⟩
    · obtain ⟨p, hp, hpv⟩ := List.mem_map.mp hv
      exact Or.inr ⟨cur, List.mem_append_right _ (List.mem_singleton.mpr rfl), p, hp, hpv⟩
  · intro t ht
    exact List.mem_append_left _ (h.cover.1 t ht)
  · intro G hG p hp
    rcases List.mem_append.mp hG with hG | hG
    · exact List.mem_append_left _ (h.cover.2 G hG p hp)
    · rw [List.mem_singleton] at hG
      subst hG
      exact List.mem_append_right _ (List.mem_map.mpr ⟨p, hp, rfl⟩)
  · intro pre F post hdec G hGreg hGnec hcons
    rcases List.eq_nil_or_concat post with hpost | ⟨post', c', hpost⟩
    · subst hpost
      have hlen : [cur].length = [F].length := rfl
      obtain ⟨h1, h2⟩ := List.append_inj' hdec hlen
      have hF : cur = F := by injection h2
      subst hF
      subst h1
      obtain ⟨p, hp, p', hp', hpp⟩ := hcons
      have hm' : Marked gD p'.name := hS.closed G hGreg hGnec p' hp'
      have hm : Marked gD p.name := by rw [← hpp]; exact hm'
      have hin : p.name ∈ St := (h.core.nec cur hcurq).2 p hp hm
      rcases h.src _ hin with ⟨t, ht, htv⟩ | ⟨G', hG', p'', hp'', hpv⟩
      · exact absurd (hpp.trans htv.symm) (hS.seed_not_operand ht hGreg hp')
      · by_cases hGG : G' = G
        · rw [← hGG]; exact hG'
        · have hGq : G' ∈ hist ++ x.q := List.mem_append_left _ hG'
          exact absurd (hpv.trans hpp.symm)
            (hS.apart G' G (hreg_of G' hGq) hGreg hGG (hnec_of G' hGq) hGnec p'' hp'' p' hp')
    · subst hpost
      have hdec' : hist ++ [cur] = (pre ++ F :: post') ++ [c'] := by rw [hdec]; simp
      have hlen : [cur].length = [c'].length := rfl
      obtain ⟨h1, _⟩ := List.append_inj' hdec' hlen
      exact h.ord pre F post' h1 G hGreg hGnec hcons
  · rw [hlog]; exact h.pre.trans (List.prefix_append _ _)
  · have : newLog b x' = newLog b x ++ Event.print cur :: evs := by
      unfold newLog
      rw [hlog]
      exact (newLog_append b x h.pre _).symm
    rw [this, dequeued_append, h.taken]
    show hist ++ cur :: dequeued evs = hist ++ [cur]
    rw [hdq2]

theorem backwardIter_loop {g gD b : FactorGraph} {targets : List VarPtr}
    (hS : BackSetting g gD targets) :
    ∀ (k : Nat) (hist St : List String) (x x' : FactorGraph),
      BackLoop g gD b targets hist St x → backwardIter k x = .ok x' →
      ∃ hist' St', BackLoop g gD b targets hist' St' x' := by
  intro k
  induction k with
  | zero =>
    intro hist St x x' h he
    have : x = x' := by
      have he : (Except.ok x : Run FactorGraph) = .ok x' := he
      injection he
    exact ⟨hist, St, this ▸ h⟩
  | succ k ih =>
    intro hist St x x' h he
    unfold backwardIter at he
    cases hq : x.q with
    | nil =>
      rw [hq] at he
      have : x = x' := by
        have he : (Except.ok x : Run FactorGraph) = .ok x' := he
        injection he
      exact ⟨hist, St, this ▸ h⟩
    | cons cur rest =>
      rw [hq] at he
      dsimp only at he
      rcases run_cases (backwardOne { x with q := rest } cur) with ⟨e, hf⟩ | ⟨x1, hf⟩
      · rw [hf] at he; cases he
      · rw [hf] at he
        exact ih _ _ x1 x' (backwardOne_loop hS hist St x x1 cur rest h hq hf) he


theorem countOutput_value {g gD : FactorGraph} (hw : WellFormed g)
    (hgd : gD.var_dict = g.var_dict) (i : Nat) (x : FactorGraph) (p : VarPtr)
    (hs : SameRegistry g x) (hr : x.isRequired = gD.isRequired)
    (hlr : x.isRequired.length = g.var_dict.size) (hreg : VarRegistered g p.name)
    (n : Int) (hn : x.n_pending[i]? = some n) :
    ∃ x', countOutput i x p = .ok x' ∧ SameRegistry g x' ∧ x'.isRequired = gD.isRequired ∧
      x'.n_pending.length = x.n_pending.length ∧ x'.log = x.log ∧
      x'.n_pending[i]? = some (n + if Marked gD p.name then 1 else 0) ∧
      ∀ k, k ≠ i → x'.n_pending[k]? = x.n_pending[k]? := by
  obtain ⟨k, hk⟩ := varIdx_of_registered hreg
  have hlt : k < x.isRequired.length := by rw [hlr]; exact varIdx_lt hw.vars hk
  have hkD : VarIdx gD p.name = .ok k := by unfold VarIdx; rw [hgd]; exact hk
  unfold countOutput
  rw [hs.varIdx_eq, hk]
  dsimp only
  rw [List.getElem?_eq_getElem hlt]
  cases hb : x.isRequired[k] with
  | false =>
    have hnm : ¬ Marked gD p.name := by
      rintro ⟨k', hk', hm⟩
      rw [hkD] at hk'
      injection hk' with hk'
      subst hk'
      rw [← hr, List.getElem?_eq_getElem hlt, hb] at hm
      cases hm
    refine ⟨x, rfl, hs, hr, rfl, rfl, ?_, fun _ _ => rfl⟩
    rw [if_neg hnm, hn]
    simp
  | true =>
    have hm : Marked gD p.name := by
      refine ⟨k, hkD, ?_⟩
      rw [← hr, List.getElem?_eq_getElem hlt, hb]
    dsimp only
    rw [hn]
    dsimp only
    refine ⟨_, rfl, hs.trans (same_scratch x _ _ _ _ _), hr, ?_, rfl, ?_, ?_⟩
    · show (x.n_pending.set i (n + 1)).length = _
      rw [List.length_set]
    · show (x.n_pending.set i (n + 1))[i]? = _
      rw [getElem?_set_int _ _ _ _ _ hn, if_pos rfl, if_pos hm]
    · intro k' hk'
      show (x.n_pending.set i (n + 1))[k']? = _
      rw [getElem?_set_int _ _ _ _ _ hn, if_neg hk']

theorem countOutputs_value {g gD : FactorGraph} (hw : WellFormed g)
    (hgd : gD.var_dict = g.var_dict) (i : Nat) :
    ∀ (ps : VarList) (x : FactorGraph) (n : Int), SameRegistry g x →
      x.isRequired = gD.isRequired → x.isRequired.length = g.var_dict.size →
      (∀ p ∈ ps, VarRegistered g p.name) → x.n_pending[i]? = some n →
      ∃ x', ps.foldlM (countOutput i) x = .ok x' ∧ SameRegistry g x' ∧
        x'.isRequired = gD.isRequired ∧ x'.n_pending.length = x.n_pending.length ∧
        x'.log = x.log ∧
        x'.n_pending[i]? = some (n + (ps.countP (fun p => decide (Marked gD p.name)) : Int)) ∧
        ∀ k, k ≠ i → x'.n_pending[k]? = x.n_pending[k]? := by
  intro ps
  induction ps with
  | nil =>
    intro x n hs hr _ _ hn
    exact ⟨x, rfl, hs, hr, rfl, rfl, by rw [hn]; simp, fun _ _ => rfl⟩
  | cons p ps ih =>
    intro x n hs hr hlr hreg hn
    obtain ⟨x1, e1, hs1, hr1, hl1, hg1, hn1, ho1⟩ := countOutput_value hw hgd i x p hs hr hlr
      (hreg p (List.mem_cons_self _ _)) n hn
    obtain ⟨x2, e2, hs2, hr2, hl2, hg2, hn2, ho2⟩ := ih x1 _ hs1 hr1
      (by rw [hr1, ← hr]; exact hlr) (fun q hq => hreg q (List.mem_cons_of_mem _ hq)) hn1
    refine ⟨x2, ?_, hs2, hr2, hl2.trans hl1, hg2.trans hg1, ?_, fun k hk =>
      (ho2 k hk).trans (ho1 k hk)⟩
    · rw [List.foldlM_cons, e1]; exact e2
    · rw [hn2, List.countP_cons]
      by_cases hm : Marked gD p.name
      · rw [if_pos hm, if_pos (by simpa using hm)]
        push_cast
        congr 1
        omega
      · rw [if_neg hm, if_neg (by simpa using hm)]
        push_cast
        congr 1
        omega

theorem initPendingBackward_value {g gD : FactorGraph} (hw : WellFormed g)
    (hgd : gD.var_dict = g.var_dict) (lg : List Event) (x : FactorGraph) (i : Nat)
    (h : SameRegistry g x ∧ x.isRequired = gD.isRequired ∧
      x.isRequired.length = g.var_dict.size ∧ x.n_pending.length = g.factor_list.length ∧
      x.log = lg)
    (hi : i < g.factor_list.length) :
    ∃ x', initPendingBackward x i = .ok x' ∧
      (SameRegistry g x' ∧ x'.isRequired = gD.isRequired ∧
        x'.isRequired.length = g.var_dict.size ∧ x'.n_pending.length = g.factor_list.length ∧
        x'.log = lg) ∧
      (∀ f : Factor, g.factor_list[i]? = some f →
        x'.n_pending[i]? = some (requiredOutputs g gD f.name : Int)) ∧
      ∀ k : Nat, (∀ f : Factor, g.factor_list[k]? = some f →
        x.n_pending[k]? = some (requiredOutputs g gD f.name : Int)) →
        (∀ f : Factor, g.factor_list[k]? = some f →
          x'.n_pending[k]? = some (requiredOutputs g gD f.name : Int)) := by
  obtain ⟨hs, hr, hlr, hlp, hlog⟩ := h
  have hlt : i < x.factor_list.length := by rw [hs.factor_list]; exact hi
  have hil : i < x.n_pending.length := by rw [hlp]; exact hi
  have hil' : i < (x.touchFac x.factor_list[i].name).n_pending.length := hil
  have hfi : g.factor_list[i]? = some x.factor_list[i] := by
    rw [← hs.factor_list]; exact List.getElem?_eq_getElem hlt
  unfold initPendingBackward
  rw [List.getElem?_eq_getElem hlt]
  dsimp only
  rw [if_pos hil']
  have hs1 : SameRegistry g { x.touchFac x.factor_list[i].name with n_pending := (x.touchFac x.factor_list[i].name).n_pending.set i 0 } :=
    (hs.trans (SameRegistry.of_touchFac x _)).trans (same_scratch _ _ _ _ _ _)
  have hn0 : ({ x.touchFac x.factor_list[i].name with n_pending := (x.touchFac x.factor_list[i].name).n_pending.set i 0 }).n_pending[i]? = some 0 := by
    show (x.n_pending.set i 0)[i]? = some 0
    rw [List.getElem?_set_self hil]
  have houts := hs1.outputs_eq x.factor_list[i].name
  rw [houts]
  obtain ⟨x', e1, hs', hr', hl', hg', hn', ho'⟩ := countOutputs_value hw hgd i
    (g.outputs x.factor_list[i].name) _ 0 hs1 hr hlr
    (fun p hp => outputs_registered hw.edgeVars hp) hn0
  refine ⟨x', e1, ⟨hs', hr', by rw [hr', ← hr]; exact hlr, ?_, hg'.trans hlog⟩, ?_, ?_⟩
  · rw [hl']
    show (x.n_pending.set i 0).length = _
    rw [List.length_set]; exact hlp
  · intro f hf
    rw [hfi] at hf
    injection hf with hf
    subst hf
    rw [hn']
    unfold requiredOutputs
    simp
  · intro k hk f hf
    by_cases hki : k = i
    · subst hki
      rw [hfi] at hf
      injection hf with hf
      subst hf
      rw [hn']
      unfold requiredOutputs
      simp
    · rw [ho' k hki]
      show (x.n_pending.set i 0)[k]? = _
      rw [List.getElem?_set_ne (fun h => hki h.symm)]
      exact hk f hf


/-- In an acyclic registry no set of registered value nodes is closed under
stepping from a node to an output of one of its consumers, unless it is
empty. -/
theorem no_ascent {g : FactorGraph} (hac : Acyclic g) (S : String → Prop)
    (hreg : ∀ v, S v → VarRegistered g v)
    (hstep : ∀ v, S v → ∃ u, S u ∧ DependsOn g u v) : ∀ v, ¬ S v := by
  intro v hv
  let r : { n : String // n ∈ g.var_dict.map Prod.fst } →
      { n : String // n ∈ g.var_dict.map Prod.fst } → Prop :=
    fun u w => Relation.TransGen (DependsOn g) u.1 w.1
  haveI : IsTrans _ r := ⟨fun a b c hab hbc => Relation.TransGen.trans hab hbc⟩
  haveI : IsIrrefl _ r := ⟨fun a ha => hac a.1 ha⟩
  have wf : WellFounded r := Finite.wellFounded_of_trans_of_irrefl r
  have hne : (setOf (fun a : { n : String // n ∈ g.var_dict.map Prod.fst } => S a.1)).Nonempty :=
    ⟨⟨v, registered_mem_keys (hreg v hv)⟩, hv⟩
  obtain ⟨m, hm, hmin⟩ := wf.has_min _ hne
  obtain ⟨u, hu, hdep⟩ := hstep m.1 hm
  exact hmin ⟨u, registered_mem_keys (hreg u hu)⟩ hu (Relation.TransGen.single hdep)

theorem backwardCount_value {g gD : FactorGraph} (hw : WellFormed g)
    (hgd : gD.var_dict = g.var_dict) (x : FactorGraph)
    (h : SameRegistry g x ∧ x.isRequired = gD.isRequired ∧
      x.isRequired.length = g.var_dict.size ∧ x.n_pending.length = g.factor_list.length ∧
      x.log = x.log) :
    ∃ x0, (List.range g.factor_list.length).foldlM initPendingBackward x = .ok x0 ∧
      (SameRegistry g x0 ∧ x0.isRequired = gD.isRequired ∧
        x0.isRequired.length = g.var_dict.size ∧
        x0.n_pending.length = g.factor_list.length ∧ x0.log = x.log) ∧
      ∀ i ∈ List.range g.factor_list.length, ∀ f : Factor, g.factor_list[i]? = some f →
        x0.n_pending[i]? = some (requiredOutputs g gD f.name : Int) := by
  obtain ⟨x0, e0, hP, hpost, _⟩ := foldlM_ok_post initPendingBackward
    (fun y => SameRegistry g y ∧ y.isRequired = gD.isRequired ∧
      y.isRequired.length = g.var_dict.size ∧ y.n_pending.length = g.factor_list.length ∧
      y.log = x.log)
    (fun i => i < g.factor_list.length)
    (fun i y => ∀ f : Factor, g.factor_list[i]? = some f →
      y.n_pending[i]? = some (requiredOutputs g gD f.name : Int))
    (fun y i hy hi => by
      obtain ⟨y', e1, h1, h2, h3⟩ := initPendingBackward_value hw hgd x.log y i hy hi
      exact ⟨y', e1, h1, h2, h3⟩)
    (List.range g.factor_list.length) x h (fun i hi => List.mem_range.mp hi)
  exact ⟨x0, e0, hP, hpost⟩

theorem backwardSeed_loop {g gD : FactorGraph} {targets : List VarPtr}
    (hS : BackSetting g gD targets) (hfl : FactorListIndexed g)
    (hgd : gD.var_dict = g.var_dict) (b : FactorGraph) (hsb : SameRegistry g b)
    (hrb : b.isRequired = gD.isRequired) (hlr : b.isRequired.length = g.var_dict.size)
    (hlp : b.n_pending.length = g.factor_list.length)
    (hT : (targets.map (fun p => p.name)).Nodup) (htm : ∀ t ∈ targets, Marked gD t.name)
    (x1 : FactorGraph) (he : backwardSeed b targets = .ok x1) :
    BackLoop g gD b targets [] (targets.map (fun p => p.name)) x1 := by
  obtain ⟨x0, e0, ⟨hs0, hr0, hlr0, hlp0, hlog0⟩, hval⟩ :=
    backwardCount_value hS.wf hgd b ⟨hsb, hrb, hlr, hlp, rfl⟩
  unfold backwardSeed at he
  rw [hsb.factor_list, e0] at he
  have he' : targets.foldlM backOperand { x0 with q := [] } = .ok x1 := he
  have hc0 : BackCore g gD [] [] [] { x0 with q := [] } := by
    refine ⟨hs0.trans (same_scratch x0 _ _ _ _ _), ?_, (fun f hf => by cases hf),
      (fun fn hfn => by cases hfn), ?_, (fun fn hfn => by cases hfn), List.nodup_nil⟩
    · intro fn j hj
      obtain ⟨j', e, hle, hj', hej⟩ := facIdx_of_registered (registered_of_facIdx hj)
      rw [hj] at hj'
      injection hj' with hj'
      subst hj'
      have hlt := facIdx_lt hS.wf.factors hj
      have hfi := hfl _ (Dict.mem_of_lookup _ _ _ hle)
      rw [hej, List.getElem?_eq_getElem hlt] at hfi
      have hname : g.factor_list[j].name = fn := by simpa using hfi
      have hv := hval j (List.mem_range.mpr hlt) g.factor_list[j]
        (List.getElem?_eq_getElem hlt)
      rw [hname] at hv
      refine ⟨_, hv, ?_⟩
      simp [settled]
    · intro fn j n hj hn hc hle
      obtain ⟨j', e, hle', hj', hej⟩ := facIdx_of_registered (registered_of_facIdx hj)
      rw [hj] at hj'
      injection hj' with hj'
      subst hj'
      have hlt := facIdx_lt hS.wf.factors hj
      have hfi := hfl _ (Dict.mem_of_lookup _ _ _ hle')
      rw [hej, List.getElem?_eq_getElem hlt] at hfi
      have hname : g.factor_list[j].name = fn := by simpa using hfi
      have hv := hval j (List.mem_range.mpr hlt) g.factor_list[j]
        (List.getElem?_eq_getElem hlt)
      rw [hname] at hv
      have hn' : x0.n_pending[j]? = some n := hn
      rw [hv] at hn'
      injection hn' with hn'
      omega
  have hc1 := backOperands_core hS.wf.factors hS.cons hS.mreg [] targets [] _ x1 hc0
    (by rw [List.nil_append]; exact hT) (fun v hv => by cases hv) htm he'
  rw [List.nil_append] at hc1
  have hlog : x1.log = b.log := by
    rw [backOperands_log _ _ _ he']
    exact hlog0
  refine ⟨hc1, hT, ?_, ?_, ⟨?_, ?_⟩, ?_, by rw [hlog], ?_⟩
  · intro v hv
    obtain ⟨t, ht, rfl⟩ := List.mem_map.mp hv
    exact htm t ht
  · intro v hv
    obtain ⟨t, ht, htv⟩ := List.mem_map.mp hv
    exact Or.inl ⟨t, ht, htv⟩
  · intro t ht
    exact List.mem_map.mpr ⟨t, ht, rfl⟩
  · intro G hG
    cases hG
  · intro pre F post hdec
    cases pre <;> cases hdec
  · unfold newLog
    rw [hlog]
    simp [dequeued]


theorem SequentialBackward_ok {b xB : FactorGraph} {targets : List VarPtr}
    (h : SequentialBackward b targets = .ok xB) :
    ∃ x1, backwardSeed b targets = .ok x1 ∧ backwardIter x1.factor_list.length x1 = .ok xB ∧
      xB.q = [] := by
  unfold SequentialBackward at h
  rcases run_cases (backwardSeed b targets) with ⟨e, h1⟩ | ⟨x1, h1⟩
  · rw [h1] at h; cases h
  · rw [h1] at h
    dsimp only at h
    unfold backwardLoop at h
    rcases run_cases (backwardIter x1.factor_list.length x1) with ⟨e, h2⟩ | ⟨x, h2⟩
    · rw [h2] at h; cases h
    · rw [h2] at h
      dsimp only at h
      cases hq : x.q with
      | nil =>
        rw [hq] at h
        injection h with h
        subst h
        exact ⟨x1, h1, h2, hq⟩
      | cons a l => rw [hq] at h; cases h

theorem BackLoop.all_settled {g gD b : FactorGraph} {targets : List VarPtr}
    (hS : BackSetting g gD targets) (hac : Acyclic g)
    (hreach : ∀ v, Marked gD v → (∃ t ∈ targets, t.name = v) ∨
      ∃ G, FacRegistered g G ∧ (∃ p ∈ g.outputs G, Marked gD p.name) ∧
        ∃ p ∈ g.operands G, p.name = v)
    {hist St : List String} {x : FactorGraph} (h : BackLoop g gD b targets hist St x)
    (hq : x.q = []) : ∀ v, Marked gD v → v ∈ St := by
  intro v hv
  by_contra hnot
  refine no_ascent hac (fun v => Marked gD v ∧ v ∉ St) (fun v hv => hS.mreg v hv.1) ?_ v
    ⟨hv, hnot⟩
  rintro w ⟨hw, hwn⟩
  rcases hreach w hw with ⟨t, ht, htw⟩ | ⟨G, hGreg, hGnec, p, hp, hpw⟩
  · exact absurd (htw ▸ h.cover.1 t ht) hwn
  · have hGn : G ∉ hist := fun hc => hwn (hpw ▸ h.cover.2 G hc p hp)
    obtain ⟨j, e, hle, hj, _⟩ := facIdx_of_registered hGreg
    obtain ⟨n, hn, heq⟩ := h.core.eq G j hj
    have hpos : ¬ n ≤ 0 := by
      intro hle0
      have := h.core.enq G j n hj hn ((requiredOutputs_pos g gD G).mpr hGnec) hle0
      rw [hq, List.append_nil] at this
      exact hGn this
    simp only [List.countP_nil] at heq
    push_cast at heq
    have hlt : settled g St G < requiredOutputs g gD G := by omega
    obtain ⟨u, hu, hum, hun⟩ := settled_lt hS.cons St h.stNodup
      (fun v hv => hS.mreg v (h.stReq v hv)) G hGreg hlt
    exact ⟨u.name, ⟨hum, hun⟩, (G, e), Dict.mem_of_lookup _ _ _ hle, ⟨u, hu, rfl⟩,
      ⟨p, hp, hpw⟩⟩

theorem BackLoop.complete {g gD b : FactorGraph} {targets : List VarPtr}
    (hS : BackSetting g gD targets) (hac : Acyclic g)
    (hreach : ∀ v, Marked gD v → (∃ t ∈ targets, t.name = v) ∨
      ∃ G, FacRegistered g G ∧ (∃ p ∈ g.outputs G, Marked gD p.name) ∧
        ∃ p ∈ g.operands G, p.name = v)
    {hist St : List String} {x : FactorGraph} (h : BackLoop g gD b targets hist St x)
    (hq : x.q = []) (fn : String) :
    fn ∈ hist ↔ FacRegistered g fn ∧ ∃ p ∈ g.outputs fn, Marked gD p.name := by
  constructor
  · intro hfn
    have hfq : fn ∈ hist ++ x.q := List.mem_append_left _ hfn
    obtain ⟨j, n, hj, _, _⟩ := h.core.spent fn hfq
    exact ⟨registered_of_facIdx hj, (requiredOutputs_pos g gD fn).mp (h.core.nec fn hfq).1⟩
  · rintro ⟨hreg, hnec⟩
    have hall := h.all_settled hS hac hreach hq
    obtain ⟨j, e, _, hj, _⟩ := facIdx_of_registered hreg
    obtain ⟨n, hn, heq⟩ := h.core.eq fn j hj
    simp only [List.countP_nil] at heq
    push_cast at heq
    have hge : requiredOutputs g gD fn ≤ settled g St fn := by
      rw [settled_eq hS.cons St h.stNodup (fun v hv => hS.mreg v (h.stReq v hv)) fn hreg]
      unfold requiredOutputs
      apply List.countP_mono_left
      intro p _ hp
      have hp : Marked gD p.name := by simpa using hp
      simpa using hall _ hp
    have := h.core.enq fn j n hj hn ((requiredOutputs_pos g gD fn).mpr hnec) (by omega)
    rw [hq, List.append_nil] at this
    exact this

theorem SequentialBackward_exact {g gD : FactorGraph} {targets : List VarPtr}
    (hS : BackSetting g gD targets) (hfl : FactorListIndexed g)
    (hgd : gD.var_dict = g.var_dict) (hac : Acyclic g)
    (hreach : ∀ v, Marked gD v → (∃ t ∈ targets, t.name = v) ∨
      ∃ G, FacRegistered g G ∧ (∃ p ∈ g.outputs G, Marked gD p.name) ∧
        ∃ p ∈ g.operands G, p.name = v)
    (b : FactorGraph) (hsb : SameRegistry g b)
    (hrb : b.isRequired = gD.isRequired) (hlr : b.isRequired.length = g.var_dict.size)
    (hlp : b.n_pending.length = g.factor_list.length)
    (hT : (targets.map (fun p => p.name)).Nodup) (htm : ∀ t ∈ targets, Marked gD t.name)
    (xB : FactorGraph) (he : SequentialBackward b targets = .ok xB) :
    b.log <+: xB.log ∧
    (dequeued (newLog b xB)).Nodup ∧
    (∀ fn, fn ∈ dequeued (newLog b xB) ↔
      FacRegistered g fn ∧ ∃ p ∈ g.outputs fn, Marked gD p.name) ∧
    ∀ pre F post, dequeued (newLog b xB) = pre ++ F :: post → ∀ G, FacRegistered g G →
      (∃ p ∈ g.outputs G, Marked gD p.name) →
      (∃ p ∈ g.outputs F, ∃ p' ∈ g.operands G, p'.name = p.name) → G ∈ pre := by
  obtain ⟨x1, h1, h2, hq⟩ := SequentialBackward_ok he
  have hL1 := backwardSeed_loop hS hfl hgd b hsb hrb hlr hlp hT htm x1 h1
  obtain ⟨hist, St, hL⟩ := backwardIter_loop hS _ _ _ x1 xB hL1 h2
  rw [hL.taken]
  refine ⟨hL.pre, ?_, hL.complete hS hac hreach hq, hL.ord⟩
  have := hL.core.nodup
  rw [hq, List.append_nil] at this
  exact this


theorem checkReady_registered (x : FactorGraph) :
    ∀ ts : List VarPtr, checkReady x ts = .ok () → ∀ p ∈ ts, VarRegistered x p.name := by
  intro ts
  induction ts with
  | nil => intro _ p hp; cases hp
  | cons t ts ih =>
    intro h p hp
    unfold checkReady at h
    cases hi : VarIdx x t.name with
    | error e => rw [hi] at h; cases h
    | ok i =>
      rw [hi] at h
      dsimp only at h
      cases hr : x.isReady[i]? with
      | none => rw [hr] at h; cases h
      | some b =>
        rw [hr] at h
        cases b with
        | false => cases h
        | true =>
          rcases List.mem_cons.mp hp with rfl | hp
          · exact registered_of_varIdx hi
          · exact ih h p hp

theorem FeedForward_ok {g gF : FactorGraph} {targets res : List VarPtr}
    {feed_dict : Dict RawData} (h : FeedForward g targets feed_dict 1 = .ok (res, gF)) :
    ∃ g1, prepareForward g targets feed_dict = .ok g1 ∧ SequentialForward g1 = .ok gF ∧
      checkReady gF targets = .ok () := by
  unfold FeedForward at h
  rcases run_cases (prepareForward g targets feed_dict) with ⟨e, h1⟩ | ⟨g1, h1⟩
  · rw [h1] at h; cases h
  · rw [h1] at h
    dsimp only at h
    rw [if_pos rfl] at h
    rcases run_cases (SequentialForward g1) with ⟨e, h2⟩ | ⟨g2, h2⟩
    · rw [h2] at h; cases h
    · rw [h2] at h
      dsimp only at h
      cases h3 : checkReady g2 targets with
      | error e => rw [h3] at h; cases h
      | ok u =>
        rw [h3] at h
        injection h with h
        injection h with _ h
        subst h
        exact ⟨g1, h1, h2, h3⟩

theorem output_of_producer {g : FactorGraph} (hw : WellFormed g)
    (hcons : ConsistentAdjacency g) {u : String} (hu : VarRegistered g u) {f : Factor}
    (hf : f ∈ g.producers u) : ∃ p ∈ g.outputs f.name, p.name = u := by
  obtain ⟨j, e, he, _, _⟩ := facIdx_of_registered (producers_registered hw.edgeFactors hf)
  have hfe := Dict.mem_of_lookup _ _ _ he
  obtain ⟨i, hi⟩ := varIdx_of_registered hu
  obtain ⟨ev, hev, _⟩ := varIdx_mem hi
  have hc := hcons.2 (u, ev) hev (f.name, e) hfe
  have hpos : 0 < (g.producers u).countP (fun f' => f'.name == f.name) :=
    List.countP_pos_iff.mpr ⟨f, hf, by simp⟩
  rw [hc] at hpos
  obtain ⟨p, hp, hpu⟩ := List.countP_pos_iff.mp hpos
  exact ⟨p, hp, by simpa using hpu⟩

theorem dequeued_no_print (l : List Event) (h : ∀ ev ∈ l, ∀ n, ev ≠ Event.print n) :
    dequeued l = [] := by
  induction l with
  | nil => rfl
  | cons ev l ih =>
    have h1 := h ev (List.mem_cons_self _ _)
    have h2 := ih (fun ev' hev' => h ev' (List.mem_cons_of_mem _ hev'))
    cases ev <;> first | exact h2 | exact absurd rfl (h1 _)


/-- Backward exactness on a registry without fan-out when the dequeued names
are read back (`forwardOne`, `backwardOne`); `backward_stops_after_pop` shows
a query that does not return when a name is not read back. On a well-formed
acyclic registry with consistent adjacency, after the query
`Forward(targets, feed_dict)` with one thread has returned, leaving the state
`gF` whose required flags are the closure of the targets: when the seeds are
the targets, pairwise distinct, each without consumer and not constant, and
no required value node is twice among the operand lists of the operations
with a required output, `BackPropagate` with one thread returns, and the
names it takes from the queue (the lines it prints) are pairwise distinct,
are exactly the registered operations with a required output, and an
operation with a required output that consumes an output of an operation is
taken before it. -/
theorem backward_exact_without_fanout (g gF : FactorGraph) (targets res : List VarPtr)
    (feed_dict : Dict RawData) (hw : WellFormed g) (hfl : FactorListIndexed g)
    (hcons : ConsistentAdjacency g) (hac : Acyclic g)
    (hfwd : FeedForward g targets feed_dict 1 = .ok (res, gF))
    (hT : (targets.map (fun p => p.name)).Nodup)
    (htop : ∀ t ∈ targets, (g.consumers t.name).length = 0)
    (hnc : ∀ t ∈ targets, t.isConst = false)
    (hfan : NoFanOut gF) :
    (∀ n, Marked gF n ↔ Reach g targets n) ∧
    ∃ gB, BackPropagate gF targets 1 = .ok gB ∧
      (dequeued (newLog gF gB)).Nodup ∧
      (∀ fn, fn ∈ dequeued (newLog gF gB) ↔
        FacRegistered g fn ∧ ∃ p ∈ g.outputs fn, Marked gF p.name) ∧
      ∀ pre F post, dequeued (newLog gF gB) = pre ++ F :: post → ∀ G, FacRegistered g G →
        (∃ p ∈ g.outputs G, Marked gF p.name) →
        (∃ p ∈ g.outputs F, ∃ p' ∈ g.operands G, p'.name = p.name) → G ∈ pre := by
  obtain ⟨g1, hp, hsf, hcr⟩ := FeedForward_ok hfwd
  have hsF : SameRegistry g gF := by
    have := (FeedForward_events g targets feed_dict 1).1
    rw [hfwd] at this
    exact this
  have ht : ∀ p ∈ targets, VarRegistered g p.name := by
    intro p hp
    have := checkReady_registered gF targets hcr p hp
    unfold VarRegistered at this ⊢
    rw [← hsF.var_dict]; exact this
  obtain ⟨gD, hD, hsD, hlD, _, hmD⟩ := DependencyParse_spec g targets hw.vars hw.edgeVars ht
  have hprep := (prepareForward_final g targets feed_dict).2 gD hD
  rw [hp] at hprep
  have hprep : PrepInv gD g1 := hprep
  have hs1 : SameRegistry g g1 := hsD.trans hprep.same
  have hl1 : g1.isReady.length = g.var_dict.size := by rw [hprep.len, hsD.var_dict]
  have hl2 : g1.isRequired.length = g.var_dict.size := by rw [hprep.req]; exact hlD
  obtain ⟨x', m, e', hI, _⟩ := SequentialForward_returns hw g1 hs1 hl1 hl2
  rw [hsf] at e'
  injection e' with e'
  subst e'
  have hfw := SequentialForward_fwdInv g1
  rw [hsf] at hfw
  have hfw : FwdInv g1 gF := hfw
  have hreqF : gF.isRequired = gD.isRequired := hfw.req.trans hprep.req
  have hmark : ∀ n, Marked gF n ↔ Reach g targets n := fun n =>
    (marked_congr (hsF.var_dict.trans hsD.var_dict.symm) hreqF n).trans (hmD n)
  have hmreg : ∀ v, Marked gF v → VarRegistered g v := by
    rintro v ⟨i, hi, _⟩
    rw [hsF.varIdx_eq] at hi
    exact registered_of_varIdx hi
  have hnecF : ∀ fn, (∃ p ∈ g.outputs fn, Marked gF p.name) →
      ∃ p ∈ gF.outputs fn, Marked gF p.name := by
    rintro fn ⟨p, hp, hm⟩
    exact ⟨p, by rw [hsF.outputs_eq]; exact hp, hm⟩
  have hS : BackSetting g gF targets := by
    refine ⟨hw, hcons, hmreg, ?_, htop, ?_, ?_⟩
    · rintro fn hreg ⟨p, hp, hm⟩ p' hp'
      obtain ⟨j, e, he, _, _⟩ := facIdx_of_registered hreg
      obtain ⟨f, hf, hfn⟩ := producer_of_output hw hcons (Dict.mem_of_lookup _ _ _ he) hp rfl
      rw [hmark] at hm ⊢
      exact Reach.step p.name f p' hm hf (by rw [hfn]; exact hp')
    · intro fn hreg hnec
      obtain ⟨j, e, he, _, _⟩ := facIdx_of_registered hreg
      have hfe : (fn, e) ∈ gF.factor_dict := by
        rw [hsF.factor_dict]; exact Dict.mem_of_lookup _ _ _ he
      have := hfan.1 (fn, e) hfe (hnecF fn hnec)
      rw [hsF.operands_eq] at this
      exact this
    · intro fn fn' hreg hreg' hne hnec hnec' p hp p' hp'
      obtain ⟨j, e, he, _, _⟩ := facIdx_of_registered hreg
      obtain ⟨j', e1, he1, _, _⟩ := facIdx_of_registered hreg'
      have hfe : (fn, e) ∈ gF.factor_dict := by
        rw [hsF.factor_dict]; exact Dict.mem_of_lookup _ _ _ he
      have hfe' : (fn', e1) ∈ gF.factor_dict := by
        rw [hsF.factor_dict]; exact Dict.mem_of_lookup _ _ _ he1
      exact hfan.2 (fn, e) hfe (fn', e1) hfe' hne (hnecF fn hnec) (hnecF fn' hnec') p
        (by rw [hsF.operands_eq]; exact hp) p' (by rw [hsF.operands_eq]; exact hp')
  have hreach : ∀ v, Marked gF v → (∃ t ∈ targets, t.name = v) ∨
      ∃ G, FacRegistered g G ∧ (∃ p ∈ g.outputs G, Marked gF p.name) ∧
        ∃ p ∈ g.operands G, p.name = v := by
    intro v hv
    rw [hmark] at hv
    cases hv with
    | target p hp => exact Or.inl ⟨p, hp, rfl⟩
    | step u f p hu hf hp =>
      have hum : Marked gF u := (hmark u).mpr hu
      obtain ⟨p0, hp0, hpu⟩ := output_of_producer hw hcons (hmreg u hum) hf
      exact Or.inr ⟨f.name, producers_registered hw.edgeFactors hf,
        ⟨p0, hp0, by rw [hpu]; exact hum⟩, p, hp, rfl⟩
  have htm : ∀ t ∈ targets, Marked gF t.name :=
    fun t ht => (hmark t.name).mpr (Reach.target t ht)
  have hgood : ∀ p ∈ targets,
      ((zeroGrads gF).consumers p.name).length = 0 ∧ p.isConst = false := by
    intro p hp
    refine ⟨?_, hnc p hp⟩
    have : (zeroGrads gF).consumers p.name = g.consumers p.name :=
      (hsF.trans (zeroGrads_same gF)).consumers_eq _
    rw [this]; exact htop p hp
  obtain ⟨x1, h1, hI1⟩ := seedGrads_ok targets (zeroGrads gF)
    (SeedInv.seed_refl (zeroGrads gF) targets) (fun p hp => hp) hgood
  have hsx1 : SameRegistry g x1 := (hsF.trans (zeroGrads_same gF)).trans hI1.same
  have hr1 : x1.isRequired = gF.isRequired := hI1.isRequired
  have hlr1 : x1.isRequired.length = g.var_dict.size := by rw [hr1]; exact hI.lenRequired
  have hly1 : x1.isReady.length = g.var_dict.size := by
    have : x1.isReady = gF.isReady := hI1.isReady
    rw [this]; exact hI.lenReady
  have hlp1 : x1.n_pending.length = g.factor_list.length := by
    have : x1.n_pending = gF.n_pending := hI1.n_pending
    rw [this]; exact hI.lenPending
  obtain ⟨xB, mB, eB, _, _⟩ := SequentialBackward_returns hw x1 targets hsx1 hly1 hlr1 hlp1
  obtain ⟨hpre, hnd, hmem, hord⟩ := SequentialBackward_exact hS hfl hsF.var_dict hac hreach
    x1 hsx1 hr1 hlr1 hlp1 hT htm xB eB
  have hsc : scratchConsistent gF = true := by
    rw [scratchConsistent_iff]
    refine ⟨?_, ?_, ?_⟩
    · rw [hI.lenReady, hsF.var_dict]
    · rw [hI.lenPending, hsF.factor_list]
    · rw [hI.lenReady, hI.lenRequired]
  have hpre1 : gF.log <+: x1.log :=
    (List.prefix_append gF.log _).trans hI1.pre
  have hdq1 : dequeued (newLog gF x1) = [] := by
    have hz : gF.log <+: (zeroGrads gF).log := List.prefix_append gF.log _
    rw [newLog_trans hz hI1.pre, dequeued_append, newLog_zeroGrads]
    rw [dequeued_no_print _ (by
      intro ev hev n hc
      obtain ⟨v, _, hv⟩ := List.mem_map.mp hev
      rw [hc] at hv
      cases hv)]
    rw [dequeued_no_print _ (by
      intro ev hev n hc
      obtain ⟨p, _, hp, _⟩ := hI1.events ev hev
      rw [hc] at hp
      cases hp)]
    rfl
  have hdq : dequeued (newLog gF xB) = dequeued (newLog x1 xB) := by
    rw [newLog_trans hpre1 hpre, dequeued_append, hdq1, List.nil_append]
  refine ⟨hmark, xB, ?_, ?_⟩
  · unfold BackPropagate
    rw [if_pos hsc, h1]
    dsimp only
    rw [if_pos rfl]
    exact eB
  · rw [hdq]
    exact ⟨hnd, hmem, hord⟩


/-- The chain `b = P(a)`, `c = G(b)` after `Forward({c}, {a: 5})`: the backward
query from `c` returns and takes `G`, then `P`, from the queue. -/
theorem backward_exact_without_fanout_witness :
    ∃ gB, BackPropagate Example.chainForward [Example.c] 1 = .ok gB ∧
      (dequeued (newLog Example.chainForward gB)).Nodup ∧
      "G" ∈ dequeued (newLog Example.chainForward gB) ∧
      "P" ∈ dequeued (newLog Example.chainForward gB) ∧
      ∀ pre post, dequeued (newLog Example.chainForward gB) = pre ++ "P" :: post →
        "G" ∈ pre := by
  obtain ⟨_, gB, h1, h2, h3, h4⟩ := backward_exact_without_fanout Example.chain
    Example.chainForward [Example.c] [Example.c] [("a", 5)] (by decide) (by decide)
    (by decide) (acyclic_of_ranked (by decide)) rfl (by decide) (by decide) (by decide)
    (by decide)
  exact ⟨gB, h1, h2, (h3 "G").mpr (by decide), (h3 "P").mpr (by decide),
    fun pre post hd => h4 pre "P" post hd "G" (by decide) (by decide) (by decide)⟩

/-! ## The name read after the pop -/

theorem Dict.touch_of_lookup {α : Type} [Inhabited α] (d : Dict α) (k : String) (v : α)
    (h : d.lookup k = some v) : d.touch k = d := by
  unfold Dict.touch
  rw [h]
  rfl

theorem Dict.get_of_lookup {α : Type} [Inhabited α] (d : Dict α) (k : String) (v : α)
    (h : d.lookup k = some v) : d.get k = v := by
  unfold Dict.get
  rw [h]
  rfl

theorem touchOp_of_lookup (g : FactorGraph) (n : String) (e : Nat × Factor)
    (h : g.factor_dict.lookup n = some e) : g.touchOp n = g := by
  unfold FactorGraph.touchOp
  rw [Dict.touch_of_lookup _ _ _ h]

/-- When the name is read back unchanged and is registered with an operation
that is not null, the body of the loop is the one of `forwardOne`. -/
theorem forwardOneRead_id (g : FactorGraph) (cur : String) (e : Nat × Factor)
    (h : g.factor_dict.lookup cur = some e) (hn : e.2 ≠ default) :
    forwardOneRead id g cur = forwardOne g cur := by
  have hg : (g.touchOp cur).touchFac cur = g.touchFac cur := by rw [touchOp_of_lookup g cur e h]
  have hget : ((g.touchFac cur).factor_dict.get cur).2 = e.2 := by
    have : (g.touchFac cur).factor_dict = g.factor_dict := rfl
    rw [this, Dict.get_of_lookup _ _ _ h]
  unfold forwardOneRead forwardOne
  simp only [id]
  rw [hg, h]
  dsimp only
  cases anyRequired (g.touchFac cur) ((g.touchFac cur).outputs cur) with
  | error err => rfl
  | ok b =>
    cases b with
    | false => rfl
    | true =>
      dsimp only
      rw [hget, if_neg hn]

/-- When the name is read back unchanged and is registered with an operation
that is not null, the body of the loop is the one of `backwardOne`. -/
theorem backwardOneRead_id (g : FactorGraph) (cur : String) (e : Nat × Factor)
    (h : g.factor_dict.lookup cur = some e) (hn : e.2 ≠ default) :
    backwardOneRead id g cur = backwardOne g cur := by
  have h0 : ({ g with log := g.log ++ [Event.print cur] }).factor_dict.lookup cur = some e := h
  have hg : ({ g with log := g.log ++ [Event.print cur] }.touchOp cur).touchFac cur =
      { g with log := g.log ++ [Event.print cur] }.touchFac cur := by
    rw [touchOp_of_lookup _ cur e h0]
  have hget : (({ g with log := g.log ++ [Event.print cur] }.touchFac cur).factor_dict.get
      cur).2 = e.2 := by
    have : ({ g with log := g.log ++ [Event.print cur] }.touchFac cur).factor_dict =
        g.factor_dict := rfl
    rw [this, Dict.get_of_lookup _ _ _ h]
  unfold backwardOneRead backwardOne
  simp only [id]
  rw [hg, hget, if_neg hn, h0]

theorem forwardOneRead_same (read : String → String) (g : FactorGraph) (cur : String)
    (e : Nat × Factor) (hr : read cur = cur) (h : g.factor_dict.lookup cur = some e)
    (hn : e.2 ≠ default) : forwardOneRead read g cur = forwardOne g cur := by
  have h1 : forwardOneRead read g cur = forwardOneRead id g (read cur) := rfl
  rw [h1, hr]
  exact forwardOneRead_id g cur e h hn

theorem backwardOneRead_same (read : String → String) (g : FactorGraph) (cur : String)
    (e : Nat × Factor) (hr : read cur = cur) (h : g.factor_dict.lookup cur = some e)
    (hn : e.2 ≠ default) : backwardOneRead read g cur = backwardOne g cur := by
  have h1 : backwardOneRead read g cur = backwardOneRead (fun _ => read cur) g cur := rfl
  have h2 : backwardOneRead id g cur = backwardOneRead (fun _ => cur) g cur := rfl
  rw [h1, hr, ← h2]
  exact backwardOneRead_id g cur e h hn

theorem lookup_not_null {g : FactorGraph} (hn : NoNullFactor g) {n : String}
    (h : (g.factor_dict.lookup n).isSome = true) :
    ∃ e, g.factor_dict.lookup n = some e ∧ e.2 ≠ default := by
  cases hl : g.factor_dict.lookup n with
  | none => rw [hl] at h; cases h
  | some e => exact ⟨e, rfl, hn (n, e) (Dict.mem_of_lookup _ _ _ hl)⟩

theorem NoNullFactor.same_dict {x y : FactorGraph} (h : y.factor_dict = x.factor_dict)
    (hn : NoNullFactor x) : NoNullFactor y := by
  unfold NoNullFactor
  rw [h]
  exact hn

theorem ReadsBack.carried {read : String → String} {x y : FactorGraph}
    (h : y.factor_dict = x.factor_dict) (hb : ReadsBack read x) : ReadsBack read y := by
  unfold ReadsBack
  rw [h]
  exact hb

theorem forwardIterRead_back (read : String → String) :
    ∀ (k : Nat) (x : FactorGraph), (∀ n ∈ x.q, (x.factor_dict.lookup n).isSome = true) →
      ReadsBack read x → NoNullFactor x → forwardIterRead read k x = forwardIter k x := by
  intro k
  induction k with
  | zero => intro x _ _ _; rfl
  | succ k ih =>
    intro x hq hb hn
    unfold forwardIterRead forwardIter
    cases hx : x.q with
    | nil => rfl
    | cons cur rest =>
      dsimp only
      have hcur : (({ x with q := rest }).factor_dict.lookup cur).isSome = true :=
        hq cur (by rw [hx]; exact List.mem_cons_self _ _)
      have hn' : NoNullFactor { x with q := rest } := hn
      obtain ⟨e, he, hne⟩ := lookup_not_null hn' hcur
      rw [forwardOneRead_same read _ cur e (hb (cur, e) (Dict.mem_of_lookup _ _ _ he)) he hne]
      have hf : FuelInv (rest.length + x.n_pending.countP (fun n => decide (0 < n)))
          { x with q := rest } :=
        ⟨fun n hn => hq n (by rw [hx]; exact List.mem_cons_of_mem _ hn), Nat.le_refl _⟩
      have h1 := forwardOne_fuel _ cur hf hcur
      have h2 := forwardOne_fwdInv { x with q := rest } { x with q := rest } cur
        (FwdInv.fwd_refl _)
      rcases run_cases (forwardOne { x with q := rest } cur) with ⟨e1, hr⟩ | ⟨g1, hr⟩
      · rw [hr]
      · rw [hr] at h1 h2 ⊢
        have h2 : FwdInv { x with q := rest } g1 := h2
        have h1 : FuelInv _ g1 := h1
        dsimp only
        exact ih g1 h1.queued (hb.carried h2.same.factor_dict)
          (hn.same_dict h2.same.factor_dict)

/-- When every registered name is read back unchanged and no registered
operation is null, the sequential forward pass is the one of the embedding. -/
theorem SequentialForwardRead_back (read : String → String) (g : FactorGraph)
    (hb : ReadsBack read g) (hn : NoNullFactor g) :
    SequentialForwardRead read g = SequentialForward g := by
  have h0 : FuelInv g.factor_list.length (initPendingForward { g with q := [] }) := by
    refine ⟨fun n hn => (by cases hn), ?_⟩
    have hl : (initPendingForward { g with q := [] }).n_pending.length =
        g.factor_list.length := by
      show (g.factor_list.map _).length = _
      rw [List.length_map]
    have := countP_le_length_int (initPendingForward { g with q := [] }).n_pending
    show 0 + _ ≤ _
    omega
  have h1 : Outcome (FuelInv g.factor_list.length) (fun e => ¬ e.modelOnly)
      (forwardSeed g) := by
    unfold forwardSeed
    exact foldlM_outcome seedReady _ _ (fun _ => True)
      (fun y i hy _ => seedReady_fuel y i hy) _ _ h0 (fun _ _ => trivial)
  have h2 : FwdInv g (finalState (forwardSeed g)) := by
    unfold forwardSeed
    exact foldlM_final seedReady (FwdInv g) (fun _ => True)
      (fun y i hy _ => seedReady_fwdInv g y i hy) _ _ (initPendingForward_fwdInv g)
      (fun _ _ => trivial)
  unfold SequentialForwardRead SequentialForward
  rcases run_cases (forwardSeed g) with ⟨e1, hs⟩ | ⟨x1, hs⟩
  · rw [hs]
  · rw [hs] at h1 h2 ⊢
    have h1 : FuelInv _ x1 := h1
    have h2 : FwdInv g x1 := h2
    dsimp only
    unfold forwardLoopRead forwardLoop
    rw [forwardIterRead_back read _ x1 h1.queued (hb.carried h2.same.factor_dict)
      (hn.same_dict h2.same.factor_dict)]

/-- When every registered name is read back unchanged and no registered
operation is null, a forward query is the one of the embedding. -/
theorem FeedForwardRead_back (read : String → String) (g : FactorGraph)
    (targets : List VarPtr) (feed_dict : Dict RawData) (n_thread : Nat)
    (hb : ReadsBack read g) (hn : NoNullFactor g) :
    FeedForwardRead read g targets feed_dict n_thread =
      FeedForward g targets feed_dict n_thread := by
  obtain ⟨hs, _, _⟩ := prepareForward_log g targets feed_dict
  unfold FeedForwardRead FeedForward
  rcases run_cases (prepareForward g targets feed_dict) with ⟨e, hp⟩ | ⟨g1, hp⟩
  · rw [hp]
  · rw [hp] at hs ⊢
    have hs : SameRegistry g g1 := hs
    dsimp only
    rw [SequentialForwardRead_back read g1 (hb.carried hs.factor_dict)
      (hn.same_dict hs.factor_dict)]

theorem backwardIterRead_back (read : String → String) :
    ∀ (k : Nat) (x : FactorGraph), (∀ n ∈ x.q, (x.factor_dict.lookup n).isSome = true) →
      ReadsBack read x → NoNullFactor x → backwardIterRead read k x = backwardIter k x := by
  intro k
  induction k with
  | zero => intro x _ _ _; rfl
  | succ k ih =>
    intro x hq hb hn
    unfold backwardIterRead backwardIter
    cases hx : x.q with
    | nil => rfl
    | cons cur rest =>
      dsimp only
      have hcur : (({ x with q := rest }).factor_dict.lookup cur).isSome = true :=
        hq cur (by rw [hx]; exact List.mem_cons_self _ _)
      have hn' : NoNullFactor { x with q := rest } := hn
      obtain ⟨e, he, hne⟩ := lookup_not_null hn' hcur
      rw [backwardOneRead_same read _ cur e (hb (cur, e) (Dict.mem_of_lookup _ _ _ he)) he hne]
      have hf : FuelInv (rest.length + x.n_pending.countP (fun n => decide (0 < n)))
          { x with q := rest } :=
        ⟨fun n hn => hq n (by rw [hx]; exact List.mem_cons_of_mem _ hn), Nat.le_refl _⟩
      have h1 := backwardOne_fuel _ cur hf hcur
      have h2 := backwardOne_bwd { x with q := rest } { x with q := rest } cur
        (BwdInv.bwd_refl _)
      rcases run_cases (backwardOne { x with q := rest } cur) with ⟨e1, hr⟩ | ⟨g1, hr⟩
      · rw [hr]
      · rw [hr] at h1 h2 ⊢
        have h2 : BwdInv { x with q := rest } g1 := h2
        have h1 : FuelInv _ g1 := h1
        dsimp only
        exact ih g1 h1.queued (hb.carried h2.same.factor_dict)
          (hn.same_dict h2.same.factor_dict)

/-- When every registered name is read back unchanged and no registered
operation is null, the sequential backward pass is the one of the embedding. -/
theorem SequentialBackwardRead_back (read : String → String) (g : FactorGraph)
    (targets : List VarPtr) (hb : ReadsBack read g) (hn : NoNullFactor g) :
    SequentialBackwardRead read g targets = SequentialBackward g targets := by
  have hq := backwardSeed_quiet g targets
  unfold SequentialBackwardRead SequentialBackward
  rcases run_cases (backwardSeed g targets) with ⟨e1, hs⟩ | ⟨x2, hs⟩
  · rw [hs]
  · rw [hs] at hq ⊢
    have hq : Quiet g g.log x2 := hq
    dsimp only
    unfold backwardLoopRead backwardLoop
    have hkeys : ∀ n ∈ x2.q, (x2.factor_dict.lookup n).isSome = true := by
      unfold backwardSeed at hs
      rcases run_cases (List.foldlM initPendingBackward g (List.range g.factor_list.length))
        with ⟨e0, hi⟩ | ⟨x1, hi⟩
      · rw [hi] at hs; cases hs
      · rw [hi] at hs
        dsimp only at hs
        have hf0 : FuelInv (x1.n_pending.countP (fun n => decide (0 < n)))
            { x1 with q := [] } := by
          refine ⟨fun n hn => (by cases hn), ?_⟩
          show 0 + x1.n_pending.countP (fun n => decide (0 < n)) ≤ _
          omega
        have h1 := foldlM_outcome seedTarget (FuelInv _)
          (fun e => ¬ e.modelOnly) (fun _ => True) (fun y p hy _ => seedTarget_fuel y p hy)
          targets _ hf0 (fun _ _ => trivial)
        rw [hs] at h1
        exact h1.queued
    rw [backwardIterRead_back read _ x2 hkeys (hb.carried hq.1.factor_dict)
      (hn.same_dict hq.1.factor_dict)]

/-- When every registered name is read back unchanged and no registered
operation is null, a backward query is the one of the embedding. -/
theorem BackPropagateRead_back (read : String → String) (g : FactorGraph)
    (targets : List VarPtr) (n_thread : Nat) (hb : ReadsBack read g) (hn : NoNullFactor g) :
    BackPropagateRead read g targets n_thread = BackPropagate g targets n_thread := by
  unfold BackPropagateRead BackPropagate
  by_cases hs : scratchConsistent g = true
  · rw [if_pos hs, if_pos hs]
    rcases run_cases (targets.foldlM seedGrad (zeroGrads g)) with ⟨e, h1⟩ | ⟨x1, h1⟩
    · rw [h1]
    · rw [h1]
      dsimp only
      by_cases hn1 : n_thread = 1
      · rw [if_pos hn1, if_pos hn1]
        have hfd : x1.factor_dict = g.factor_dict := by
          have h2 := foldlM_final seedGrad (fun y => y.factor_dict = g.factor_dict)
            (fun _ => True)
            (fun y p hy _ => by
              unfold seedGrad
              dsimp only
              split
              · split
                · exact hy
                · exact hy
              · exact hy) targets (zeroGrads g) rfl (fun _ _ => trivial)
          rw [h1] at h2
          exact h2
        exact SequentialBackwardRead_back read x1 targets (hb.carried hfd) (hn.same_dict hfd)
      · rw [if_neg hn1, if_neg hn1]
  · rw [if_neg hs, if_neg hs]

/-- The forward query of the embedding is the one in which every name is read
back unchanged. -/
theorem FeedForwardRead_id (g : FactorGraph) (targets : List VarPtr)
    (feed_dict : Dict RawData) (n_thread : Nat) (hn : NoNullFactor g) :
    FeedForwardRead id g targets feed_dict n_thread =
      FeedForward g targets feed_dict n_thread :=
  FeedForwardRead_back id g targets feed_dict n_thread (fun _ _ => rfl) hn

/-- The backward query of the embedding is the one in which every name is read
back unchanged. -/
theorem BackPropagateRead_id (g : FactorGraph) (targets : List VarPtr) (n_thread : Nat)
    (hn : NoNullFactor g) :
    BackPropagateRead id g targets n_thread = BackPropagate g targets n_thread :=
  BackPropagateRead_back id g targets n_thread (fun _ _ => rfl) hn

theorem lookup_none_of_not_key {α : Type} (d : Dict α) (k : String)
    (h : k ∉ d.map Prod.fst) : d.lookup k = none := by
  induction d with
  | nil => rfl
  | cons e d ih =>
    obtain ⟨k', v⟩ := e
    have h1 : k ≠ k' := fun hc => h (by rw [hc]; exact List.mem_cons_self _ _)
    have h2 : k ∉ d.map Prod.fst := fun hc => h (List.mem_cons_of_mem _ hc)
    rw [List.lookup_cons]
    have hb : (k == k') = false := by simpa using h1
    rw [hb]
    exact ih h2

theorem lookup_append_none {α : Type} (d : Dict α) (k : String) (v : α)
    (h : d.lookup k = none) : (d ++ [(k, v)]).lookup k = some v := by
  induction d with
  | nil => simp [List.lookup]
  | cons e d ih =>
    obtain ⟨k', v'⟩ := e
    rw [List.lookup_cons] at h
    rw [List.cons_append, List.lookup_cons]
    cases hb : (k == k') with
    | true => rw [hb] at h; cases h
    | false =>
      rw [hb] at h
      exact ih h

theorem touch_withNull (g : FactorGraph) (n : String)
    (h1 : g.factor_dict.lookup n = none) (h2 : g.factorEdges.lookup n = none) :
    (g.touchOp n).touchFac n = g.withNull n := by
  unfold FactorGraph.touchOp FactorGraph.touchFac FactorGraph.withNull Dict.touch
  simp only [h1, h2, Option.isSome_none, Bool.false_eq_true, if_false]

/-- A dequeued name that is read as a string which is not a key of
`factorEdges`: the loop body inserts the key, finds no output, and goes on to
the next name without a call. -/
theorem forwardOneRead_skips (read : String → String) (g : FactorGraph) (cur : String)
    (h : g.factorEdges.lookup (read cur) = none) :
    forwardOneRead read g cur = .ok ((g.touchOp (read cur)).touchFac (read cur)) := by
  have hout : ((g.touchOp (read cur)).touchFac (read cur)).outputs (read cur) = [] := by
    unfold FactorGraph.outputs FactorGraph.touchFac
    show ((g.factorEdges.touch (read cur)).get (read cur)).2 = []
    rw [Dict.get_touch]
    unfold Dict.get
    rw [h]
    rfl
  unfold forwardOneRead
  dsimp only
  rw [hout]
  rfl

/-- A dequeued name that is read as a string under which `factor_dict` holds
no operation, or a null one: the loop body prints the name and dereferences
the null pointer. -/
theorem backwardOneRead_null (read : String → String) (g : FactorGraph) (cur : String)
    (h : ∀ e, g.factor_dict.lookup (read cur) = some e → e.2 = default) :
    backwardOneRead read g cur =
      .error (Err.nullFactor (read cur),
        ({ g with log := g.log ++ [Event.print cur] }.touchOp (read cur)).touchFac
          (read cur)) := by
  have hget : ((({ g with log := g.log ++ [Event.print cur] }.touchOp (read cur)).touchFac
      (read cur)).factor_dict.get (read cur)).2 = default := by
    show ((g.factor_dict.touch (read cur)).get (read cur)).2 = default
    rw [Dict.get_touch]
    unfold Dict.get
    cases hl : g.factor_dict.lookup (read cur) with
    | none => rfl
    | some e => exact h e hl
  unfold backwardOneRead
  dsimp only
  rw [if_pos hget]

/-! ## The long-named chain -/

theorem longChain_skip (read : String → String) (x : FactorGraph)
    (hread : read "matrix_multiply_op" ∉ ["P", "matrix_multiply_op", "G"])
    (hfd : x.factor_dict = Example.longChain.factor_dict)
    (hfe : x.factorEdges = Example.longChain.factorEdges) :
    forwardOneRead read x "matrix_multiply_op" =
      .ok (x.withNull (read "matrix_multiply_op")) := by
  have h1 : x.factor_dict.lookup (read "matrix_multiply_op") = none := by
    rw [hfd]; exact lookup_none_of_not_key _ _ hread
  have h2 : x.factorEdges.lookup (read "matrix_multiply_op") = none := by
    rw [hfe]; exact lookup_none_of_not_key _ _ hread
  rw [forwardOneRead_skips read x "matrix_multiply_op" h2, touch_withNull _ _ h1 h2]

/-- The forward query with `a` fed on the long-named chain, when the short
name is read back and the long one is not: `P` is invoked,
`matrix_multiply_op` is passed over, and the target is not ready. -/
theorem longChain_forward_read (read : String → String)
    (hread : read "matrix_multiply_op" ∉ ["P", "matrix_multiply_op", "G"])
    (hP : read "P" = "P") :
    FeedForwardRead read Example.longChain [Example.d] [("a", 5)] 1 =
      .error (Err.notReady "d", Example.longStuck (read "matrix_multiply_op")) := by
  have hprep : prepareForward Example.longChain [Example.d] [("a", 5)] =
      .ok (finalState (prepareForward Example.longChain [Example.d] [("a", 5)])) := rfl
  have hseed : forwardSeed (finalState (prepareForward Example.longChain [Example.d]
      [("a", 5)])) = .ok Example.longSeeded := rfl
  have hq : Example.longSeeded.q = ["P"] := rfl
  have hlen : Example.longSeeded.factor_list.length = 3 := rfl
  have hone : forwardOneRead read { Example.longSeeded with q := [] } "P" =
      .ok Example.longAfterP := by
    rw [forwardOneRead_same read _ "P" (0, Example.opP) hP (by rfl) (by decide)]
    rfl
  have hq1 : Example.longAfterP.q = ["matrix_multiply_op"] := rfl
  have htwo : forwardOneRead read { Example.longAfterP with q := [] } "matrix_multiply_op" =
      .ok (Example.longStuck (read "matrix_multiply_op")) :=
    longChain_skip read _ hread rfl rfl
  have hiter : forwardIterRead read 3 Example.longSeeded =
      .ok (Example.longStuck (read "matrix_multiply_op")) := by
    unfold forwardIterRead
    rw [hq]
    dsimp only
    rw [hone]
    dsimp only
    unfold forwardIterRead
    rw [hq1]
    dsimp only
    rw [htwo]
    rfl
  unfold FeedForwardRead
  rw [hprep]
  dsimp only
  rw [if_pos rfl]
  unfold SequentialForwardRead
  rw [hseed]
  dsimp only
  unfold forwardLoopRead
  rw [hlen, hiter]
  rfl

/-- The forward query with `a` and `c` fed on the long-named chain: `P` and
`G` are invoked, `matrix_multiply_op` is passed over, and the query returns. -/
theorem longChain_forward_both (read : String → String)
    (hread : read "matrix_multiply_op" ∉ ["P", "matrix_multiply_op", "G"])
    (hP : read "P" = "P") (hG : read "G" = "G") :
    FeedForwardRead read Example.longChain [Example.d] [("a", 5), ("c", 7)] 1 =
      .ok ([Example.d], Example.longForward (read "matrix_multiply_op")) := by
  have hprep : prepareForward Example.longChain [Example.d] [("a", 5), ("c", 7)] =
      .ok (finalState (prepareForward Example.longChain [Example.d] [("a", 5), ("c", 7)])) :=
    rfl
  have hseed : forwardSeed (finalState (prepareForward Example.longChain [Example.d]
      [("a", 5), ("c", 7)])) = .ok Example.longSeededBoth := rfl
  have hq : Example.longSeededBoth.q = ["P", "G"] := rfl
  have hlen : Example.longSeededBoth.factor_list.length = 3 := rfl
  have hone : forwardOneRead read { Example.longSeededBoth with q := ["G"] } "P" =
      .ok Example.longBothP := by
    rw [forwardOneRead_same read _ "P" (0, Example.opP) hP (by rfl) (by decide)]
    rfl
  have hq1 : Example.longBothP.q = ["G", "matrix_multiply_op"] := rfl
  have htwo : forwardOneRead read { Example.longBothP with q := ["matrix_multiply_op"] } "G" =
      .ok Example.longBothG := by
    rw [forwardOneRead_same read _ "G" (2, Example.opG) hG (by rfl) (by decide)]
    rfl
  have hq2 : Example.longBothG.q = ["matrix_multiply_op"] := rfl
  have hthree : forwardOneRead read { Example.longBothG with q := [] }
      "matrix_multiply_op" = .ok (Example.longForward (read "matrix_multiply_op")) :=
    longChain_skip read _ hread rfl rfl
  have hiter : forwardIterRead read 3 Example.longSeededBoth =
      .ok (Example.longForward (read "matrix_multiply_op")) := by
    unfold forwardIterRead
    rw [hq]
    dsimp only
    rw [hone]
    dsimp only
    unfold forwardIterRead
    rw [hq1]
    dsimp only
    rw [htwo]
    dsimp only
    unfold forwardIterRead
    rw [hq2]
    dsimp only
    rw [hthree]
    rfl
  unfold FeedForwardRead
  rw [hprep]
  dsimp only
  rw [if_pos rfl]
  unfold SequentialForwardRead
  rw [hseed]
  dsimp only
  unfold forwardLoopRead
  rw [hlen, hiter]
  rfl

/-- The backward query after `longChain_forward_both`: `G` is dequeued and its
`Backward` invoked, `matrix_multiply_op` is dequeued and printed, and the
null pointer of the entry read for it is dereferenced. -/
theorem longChain_backward_read (read : String → String)
    (hread : read "matrix_multiply_op" ∉ ["P", "matrix_multiply_op", "G"])
    (hG : read "G" = "G") :
    BackPropagateRead read (Example.longForward (read "matrix_multiply_op")) [Example.d] 1 =
      .error (Err.nullFactor (read "matrix_multiply_op"),
        Example.longBackEnd (read "matrix_multiply_op")) := by
  have hsc : scratchConsistent (Example.longForward (read "matrix_multiply_op")) = true :=
    rfl
  have hgrad : [Example.d].foldlM seedGrad
      (zeroGrads (Example.longForward (read "matrix_multiply_op"))) =
      .ok (Example.longGraded (read "matrix_multiply_op")) := rfl
  have hseed : backwardSeed (Example.longGraded (read "matrix_multiply_op")) [Example.d] =
      .ok (Example.longBackSeeded (read "matrix_multiply_op")) := rfl
  have hq : (Example.longBackSeeded (read "matrix_multiply_op")).q = ["G"] := rfl
  have hlen : (Example.longBackSeeded (read "matrix_multiply_op")).factor_list.length = 3 :=
    rfl
  have hone : backwardOneRead read
      { Example.longBackSeeded (read "matrix_multiply_op") with q := [] } "G" =
      .ok (Example.longBackG (read "matrix_multiply_op")) := by
    rw [backwardOneRead_same read _ "G" (2, Example.opG) hG (by rfl) (by decide)]
    rfl
  have hq1 : (Example.longBackG (read "matrix_multiply_op")).q = ["matrix_multiply_op"] :=
    rfl
  have hfd : ({ Example.longBackG (read "matrix_multiply_op") with q := [] }).factor_dict =
      Example.longChain.factor_dict ++ [(read "matrix_multiply_op", default)] := rfl
  have hfe : ({ Example.longBackG (read "matrix_multiply_op") with q := [] }).factorEdges =
      Example.longChain.factorEdges ++ [(read "matrix_multiply_op", default)] := rfl
  have hnull : ∀ e, ({ Example.longBackG (read "matrix_multiply_op") with
      q := [] }).factor_dict.lookup (read "matrix_multiply_op") = some e → e.2 = default := by
    intro e he
    rw [hfd, lookup_append_none _ _ _ (lookup_none_of_not_key _ _ hread)] at he
    cases he
    rfl
  have htwo := backwardOneRead_null read
    { Example.longBackG (read "matrix_multiply_op") with q := [] } "matrix_multiply_op" hnull
  have hend : ({ { Example.longBackG (read "matrix_multiply_op") with q := [] } with
      log := ({ Example.longBackG (read "matrix_multiply_op") with q := [] }).log ++
        [Event.print "matrix_multiply_op"] }.touchOp (read "matrix_multiply_op")).touchFac
      (read "matrix_multiply_op") = Example.longBackEnd (read "matrix_multiply_op") := by
    unfold FactorGraph.touchOp FactorGraph.touchFac Dict.touch
    dsimp only
    rw [hfd, hfe, lookup_append_none _ _ _ (lookup_none_of_not_key _ _ hread),
      lookup_append_none _ _ _ (lookup_none_of_not_key _ _ hread)]
    rfl
  rw [hend] at htwo
  have hiter : backwardIterRead read 3 (Example.longBackSeeded (read "matrix_multiply_op")) =
      .error (Err.nullFactor (read "matrix_multiply_op"),
        Example.longBackEnd (read "matrix_multiply_op")) := by
    unfold backwardIterRead
    rw [hq]
    dsimp only
    rw [hone]
    dsimp only
    unfold backwardIterRead
    rw [hq1]
    dsimp only
    rw [htwo]
  unfold BackPropagateRead
  rw [if_pos hsc, hgrad]
  dsimp only
  rw [if_pos rfl]
  unfold SequentialBackwardRead
  rw [hseed]
  dsimp only
  unfold backwardLoopRead
  rw [hlen, hiter]

/-- The value nodes the target `d` of the long-named chain requires. -/
theorem longChain_reach (n : String) (h : Reach Example.longChain [Example.d] n) :
    n = "d" ∨ n = "c" ∨ n = "b" ∨ n = "a" := by
  induction h with
  | target p hp =>
    rw [List.mem_singleton] at hp
    subst hp
    exact Or.inl rfl
  | step u f p _ hf hp ih =>
    rcases ih with rfl | rfl | rfl | rfl
    · have hf' : f ∈ [Example.opG] := hf
      rw [List.mem_singleton] at hf'
      subst hf'
      have hp' : p ∈ [Example.c] := hp
      rw [List.mem_singleton] at hp'
      subst hp'
      exact Or.inr (Or.inl rfl)
    · have hf' : f ∈ [Example.opLong] := hf
      rw [List.mem_singleton] at hf'
      subst hf'
      have hp' : p ∈ [Example.b] := hp
      rw [List.mem_singleton] at hp'
      subst hp'
      exact Or.inr (Or.inr (Or.inl rfl))
    · have hf' : f ∈ [Example.opP] := hf
      rw [List.mem_singleton] at hf'
      subst hf'
      have hp' : p ∈ [Example.a] := hp
      rw [List.mem_singleton] at hp'
      subst hp'
      exact Or.inr (Or.inr (Or.inr rfl))
    · cases hf

theorem longChain_reach_c : Reach Example.longChain [Example.d] "c" :=
  Reach.step "d" Example.opG Example.c (Reach.target Example.d (List.mem_singleton.mpr rfl))
    (List.mem_singleton.mpr rfl) (List.mem_singleton.mpr rfl)

theorem longChain_reach_b : Reach Example.longChain [Example.d] "b" :=
  Reach.step "c" Example.opLong Example.b longChain_reach_c
    (List.mem_singleton.mpr rfl) (List.mem_singleton.mpr rfl)

/-- C17 on the chain `b = P(a)`, `c = matrix_multiply_op(b)`, `d = G(c)` with
the query `Forward({d}, {a: 5})` and one thread. The registry is well formed
and acyclic with consistent adjacency, every operation has an operand, every
value node is an output of at most one operation, the names of the query are
registered, nothing is pre-ready, the fed node `a` has no producer, and `a` is
the one required value node without a producer: the claim promises that the
query succeeds after one call of each of the three operations. Lines 103-104
bind `cur_name` to `q.front()` and pop the queue, so lines 106-108 read a
destroyed string. Whenever `P` is read back and `matrix_multiply_op` is read
as a string that is no registered name, the query fails with `not ready` for
`d`: it invoked `P` alone, the operation `matrix_multiply_op`, whose output
`c` is required, was dequeued without a call, `c` and `d` are not ready, and
`factor_dict` has a new key with a null operation. When every name is read
back the query returns after the three calls. -/
theorem forward_incomplete_after_pop (read : String → String)
    (hread : read "matrix_multiply_op" ∉ ["P", "matrix_multiply_op", "G"])
    (hP : read "P" = "P") :
    (WellFormed Example.longChain ∧ FactorListIndexed Example.longChain ∧
      ConsistentAdjacency Example.longChain ∧ SingleProducer Example.longChain ∧
      OperandsNonempty Example.longChain ∧ Acyclic Example.longChain) ∧
    (VarRegistered Example.longChain "d" ∧ VarRegistered Example.longChain "a" ∧
      Example.longChain.ready_dict = [] ∧ NotProduced Example.longChain "a" ∧
      ∀ n, Reach Example.longChain [Example.d] n → NotProduced Example.longChain n →
        ∃ i, VarIdx Example.longChain n = .ok i ∧
          InitiallyReady Example.longChain [("a", 5)] i) ∧
    failure (FeedForwardRead read Example.longChain [Example.d] [("a", 5)] 1) =
      some (Err.notReady "d") ∧
    newLog Example.longChain
        (finalState2 (FeedForwardRead read Example.longChain [Example.d] [("a", 5)] 1)) =
      [Event.setRef "a" 5, Event.forward Example.opP [Example.a] [Example.b]] ∧
    (Example.longChain.factor_dict.lookup "matrix_multiply_op" = some (1, Example.opLong) ∧
      Example.longChain.outputs "matrix_multiply_op" = [Example.c] ∧
      Reach Example.longChain [Example.d] "c") ∧
    (finalState2 (FeedForwardRead read Example.longChain [Example.d] [("a", 5)] 1)).isReady =
      [true, true, false, false] ∧
    (finalState2 (FeedForwardRead read Example.longChain [Example.d]
        [("a", 5)] 1)).factor_dict =
      Example.longChain.factor_dict ++ [(read "matrix_multiply_op", default)] ∧
    ∃ g2, FeedForward Example.longChain [Example.d] [("a", 5)] 1 = .ok ([Example.d], g2) ∧
      newLog Example.longChain g2 =
        [Event.setRef "a" 5, Event.forward Example.opP [Example.a] [Example.b],
          Event.forward Example.opLong [Example.b] [Example.c],
          Event.forward Example.opG [Example.c] [Example.d]] := by
  have hrun := longChain_forward_read read hread hP
  refine ⟨⟨by decide, by decide, by decide, by decide, by decide,
    acyclic_of_ranked (by decide)⟩, ⟨by decide, by decide, rfl, by decide, ?_⟩, ?_, ?_,
    ⟨rfl, rfl, longChain_reach_c⟩, ?_, ?_, ⟨_, rfl, rfl⟩⟩
  · intro n hn hnp
    rcases longChain_reach n hn with rfl | rfl | rfl | rfl
    · exact absurd hnp (by decide)
    · exact absurd hnp (by decide)
    · exact absurd hnp (by decide)
    · exact ⟨0, rfl, Or.inr ⟨("a", 5), List.mem_singleton.mpr rfl, rfl⟩⟩
  · rw [hrun]; rfl
  · rw [hrun]; rfl
  · rw [hrun]; rfl
  · rw [hrun]; rfl

/-- The read that gives short names back and the empty string for a long one:
the forward query on the long-named chain fails after the call of `P`. -/
theorem forward_incomplete_after_pop_witness :
    Example.shortRead "matrix_multiply_op" = "" ∧ Example.shortRead "P" = "P" ∧
    failure (FeedForwardRead Example.shortRead Example.longChain [Example.d] [("a", 5)] 1) =
      some (Err.notReady "d") ∧
    newLog Example.longChain (finalState2 (FeedForwardRead Example.shortRead
        Example.longChain [Example.d] [("a", 5)] 1)) =
      [Event.setRef "a" 5, Event.forward Example.opP [Example.a] [Example.b]] :=
  ⟨by decide, by decide,
    (forward_incomplete_after_pop Example.shortRead (by decide) (by decide)).2.2.1,
    (forward_incomplete_after_pop Example.shortRead (by decide) (by decide)).2.2.2.1⟩

/-- C18 on the chain `b = P(a)`, `c = matrix_multiply_op(b)`, `d = G(c)`. The
registry is well formed and acyclic with consistent adjacency and
duplicate-free output lists. Whenever the short names are read back and
`matrix_multiply_op` is read as a string that is no registered name, the
query `Forward({d}, {a: 5, c: 7})` with one thread returns, with every value
node required; the seed `d` has no consumer and is not constant, and no value
node is twice among the operand lists: the claim promises that
`Backward({d})` dequeues `G`, `matrix_multiply_op` and `P`, in this order.
Lines 199-201 bind `cur_name` to `q.front()`, print it and pop the queue, so
lines 203-205 read a destroyed string: `G` and `matrix_multiply_op` are
dequeued, `factor_dict` is read at a key that holds a null operation, and
line 207 dereferences it. The query does not return, and the operation `P`,
whose output `b` is required, is never dequeued. -/
theorem backward_stops_after_pop (read : String → String)
    (hread : read "matrix_multiply_op" ∉ ["P", "matrix_multiply_op", "G"])
    (hP : read "P" = "P") (hG : read "G" = "G") :
    (WellFormed Example.longChain ∧ FactorListIndexed Example.longChain ∧
      ConsistentAdjacency Example.longChain ∧ SingleProducer Example.longChain ∧
      Acyclic Example.longChain) ∧
    FeedForwardRead read Example.longChain [Example.d] [("a", 5), ("c", 7)] 1 =
      .ok ([Example.d], Example.longForward (read "matrix_multiply_op")) ∧
    ((Example.longChain.consumers "d").length = 0 ∧ Example.d.isConst = false ∧
      (Example.longForward (read "matrix_multiply_op")).isRequired =
        [true, true, true, true] ∧
      NoFanOut { Example.longChain with isRequired := [true, true, true, true] }) ∧
    failure (BackPropagateRead read (Example.longForward (read "matrix_multiply_op"))
      [Example.d] 1) = some (Err.nullFactor (read "matrix_multiply_op")) ∧
    dequeued (newLog (Example.longForward (read "matrix_multiply_op"))
      (finalState (BackPropagateRead read (Example.longForward (read "matrix_multiply_op"))
        [Example.d] 1))) = ["G", "matrix_multiply_op"] ∧
    (Example.longChain.factor_dict.lookup "P" = some (0, Example.opP) ∧
      Example.longChain.outputs "P" = [Example.b] ∧
      Reach Example.longChain [Example.d] "b") := by
  have hrun := longChain_backward_read read hread hG
  refine ⟨⟨by decide, by decide, by decide, by decide, acyclic_of_ranked (by decide)⟩,
    longChain_forward_both read hread hP hG, ⟨rfl, rfl, rfl, by decide⟩, ?_, ?_,
    ⟨rfl, rfl, longChain_reach_b⟩⟩
  · rw [hrun]; rfl
  · rw [hrun]; rfl

/-- The read that gives short names back and the empty string for a long one:
the backward query on the long-named chain ends at the null operation after
`G` and `matrix_multiply_op` were dequeued. -/
theorem backward_stops_after_pop_witness :
    Example.shortRead "matrix_multiply_op" = "" ∧ Example.shortRead "P" = "P" ∧
    Example.shortRead "G" = "G" ∧
    FeedForwardRead Example.shortRead Example.longChain [Example.d] [("a", 5), ("c", 7)] 1 =
      .ok ([Example.d], Example.longForward "") ∧
    failure (BackPropagateRead Example.shortRead (Example.longForward "") [Example.d] 1) =
      some (Err.nullFactor "") ∧
    dequeued (newLog (Example.longForward "")
      (finalState (BackPropagateRead Example.shortRead (Example.longForward "")
        [Example.d] 1))) = ["G", "matrix_multiply_op"] :=
  ⟨by decide, by decide, by decide,
    (backward_stops_after_pop Example.shortRead (by decide) (by decide) (by decide)).2.1,
    (backward_stops_after_pop Example.shortRead (by decide) (by decide)
      (by decide)).2.2.2.1,
    (backward_stops_after_pop Example.shortRead (by decide) (by decide)
      (by decide)).2.2.2.2.1⟩

/-- C15 on the chain `b = P(a)`, `c = matrix_multiply_op(b)`, `d = G(c)`,
after the query `Forward({d}, {a: 5, c: 7})` has returned. Lines 199-201 bind
`cur_name` to `q.front()`, print it and pop the queue, so lines 203-205 read
a destroyed string. Whenever the short names are read back and
`matrix_multiply_op` is read as a string that is no registered name, the
events of `Backward({d})` with one thread are the four `ZeroGrad`, the
`OnesGrad` of `d`, the line of `G` with the `Backward` call of `G`, and the
line of `matrix_multiply_op`: this operation is dequeued, its policy is
`PropErr::T` and its operand `b` is not constant, and no `Backward` call of
it is made, where the claim promises one. -/
theorem backward_call_missing_after_pop (read : String → String)
    (hread : read "matrix_multiply_op" ∉ ["P", "matrix_multiply_op", "G"])
    (hP : read "P" = "P") (hG : read "G" = "G") :
    FeedForwardRead read Example.longChain [Example.d] [("a", 5), ("c", 7)] 1 =
      .ok ([Example.d], Example.longForward (read "matrix_multiply_op")) ∧
    newLog (Example.longForward (read "matrix_multiply_op"))
      (finalState (BackPropagateRead read (Example.longForward (read "matrix_multiply_op"))
        [Example.d] 1)) =
      [Event.zeroGrad Example.a, Event.zeroGrad Example.b, Event.zeroGrad Example.c,
        Event.zeroGrad Example.d, Event.onesGrad Example.d, Event.print "G",
        Event.backward Example.opG [Example.c] [Example.d],
        Event.print "matrix_multiply_op"] ∧
    (Example.longChain.factor_dict.lookup "matrix_multiply_op" = some (1, Example.opLong) ∧
      Example.opLong.properr = PropErr.T ∧
      Example.longChain.operands "matrix_multiply_op" = [Example.b] ∧
      Example.b.isConst = false ∧
      backNecessary Example.opLong (Example.longChain.operands "matrix_multiply_op") =
        true) ∧
    ∀ ops outs, Event.backward Example.opLong ops outs ∉
      newLog (Example.longForward (read "matrix_multiply_op"))
        (finalState (BackPropagateRead read
          (Example.longForward (read "matrix_multiply_op")) [Example.d] 1)) := by
  have hrun := longChain_backward_read read hread hG
  have hlog : newLog (Example.longForward (read "matrix_multiply_op"))
      (finalState (BackPropagateRead read (Example.longForward (read "matrix_multiply_op"))
        [Example.d] 1)) =
      [Event.zeroGrad Example.a, Event.zeroGrad Example.b, Event.zeroGrad Example.c,
        Event.zeroGrad Example.d, Event.onesGrad Example.d, Event.print "G",
        Event.backward Example.opG [Example.c] [Example.d],
        Event.print "matrix_multiply_op"] := by
    rw [hrun]; rfl
  refine ⟨longChain_forward_both read hread hP hG, hlog, ⟨rfl, rfl, rfl, rfl, rfl⟩, ?_⟩
  intro ops outs hmem
  rw [hlog] at hmem
  have hne : Example.opLong ≠ Example.opG := by decide
  simp only [List.mem_cons, List.mem_singleton, List.mem_nil_iff, Event.backward.injEq,
    reduceCtorEq, false_or, or_false] at hmem
  exact hne hmem.1

/-- The read that gives short names back and the empty string for a long one:
the backward query on the long-named chain prints `matrix_multiply_op` and
makes no `Backward` call for it. -/
theorem backward_call_missing_after_pop_witness :
    Example.shortRead "matrix_multiply_op" = "" ∧ Example.shortRead "P" = "P" ∧
    Example.shortRead "G" = "G" ∧
    newLog (Example.longForward "")
      (finalState (BackPropagateRead Example.shortRead (Example.longForward "")
        [Example.d] 1)) =
      [Event.zeroGrad Example.a, Event.zeroGrad Example.b, Event.zeroGrad Example.c,
        Event.zeroGrad Example.d, Event.onesGrad Example.d, Event.print "G",
        Event.backward Example.opG [Example.c] [Example.d],
        Event.print "matrix_multiply_op"] :=
  ⟨by decide, by decide, by decide,
    (backward_call_missing_after_pop Example.shortRead (by decide) (by decide)
      (by decide)).2.1⟩

end gnn
